import Mathlib

/-!
# Transactional red-black tree (`RBTree.hh`) over the STO engine

A shallow embedding of `RBTree<int, int>` and of the part of the transaction engine the
tree talks to.  Version words are natural numbers below `2 ^ 64`; node pointers are
addresses (natural numbers, `0` is the null pointer); the per-node fields live in maps
indexed by address.  A transaction is its ordered list of item keys together with the
items themselves.  Every operation takes the tree and the calling transaction and
returns its result (`none` when the transaction aborted) with the tree and the
transaction as it leaves them.
-/

set_option autoImplicit false

/-! ## Version words -/

namespace TransactionTid

/-- Modelled from the spec: `TransactionTid` is declared in `Transaction.hh`, which is not
among the sources.  Bit 0 of a version word is the lock. -/
def lock_bit : Nat := 1

/-- Modelled from the spec: bits 1-2 of a version word are user bits; `user_bit1` is the
first of them. -/
def user_bit1 : Nat := 2

/-- Modelled from the spec: the version counter sits above the lock and user bits, so one
increment adds `8`. -/
def increment_value : Nat := 8

/-- Number of values of a 64-bit word. -/
def word : Nat := 2 ^ 64

/-- Modelled from the spec: `is_locked` tests the lock bit. -/
def is_locked (v : Nat) : Bool := v &&& lock_bit != 0

/-- Modelled from the spec: `lock` acquires the lock bit (the spin is over when no other
thread holds it, which is the case between the steps of this model). -/
def lock (v : Nat) : Nat := v ||| lock_bit

/-- Modelled from the spec: `unlock` clears the lock bit. -/
def unlock (v : Nat) : Nat := v &&& (word - 1 - lock_bit)

/-- Modelled from the spec: `inc_invalid_version` bumps the version counter of a locked
word by one increment, keeping the low bits. -/
def inc_invalid_version (v : Nat) : Nat := (v + increment_value) % word

end TransactionTid

/-! ## Transaction items -/

/-- Modelled from the spec: the user bits of an item's flag set (`TransItem.hh` is not
among the sources). -/
inductive flags_type where
  | user0_bit
  | user1_bit
  deriving DecidableEq, Repr

/-- Modelled from the spec: a transaction item.  The key is the index under which the
transaction stores it; the read, write and lock-held flags are fields of their own, the
two user flags the tree uses are `user0` and `user1`. -/
structure TransItem where
  has_read : Bool := false
  read_value : Nat := 0
  has_write : Bool := false
  write_value : Int := 0
  user0 : Bool := false
  user1 : Bool := false
  has_lock : Bool := false
  deriving DecidableEq, Repr

namespace TransItem

/-- Modelled from the spec: `flags() & f` for a user flag `f`. -/
def flags (it : TransItem) : flags_type → Bool
  | .user0_bit => it.user0
  | .user1_bit => it.user1

/-- Modelled from the spec: `add_read` attaches a read version; an item that already
carries a read keeps the version it read first. -/
def add_read (it : TransItem) (v : Nat) : TransItem :=
  if it.has_read then it else { it with has_read := true, read_value := v }

/-- Modelled from the spec: `add_write` attaches (or replaces) the write payload. -/
def add_write (it : TransItem) (w : Int) : TransItem :=
  { it with has_write := true, write_value := w }

/-- Modelled from the spec: `add_flags` sets a user flag. -/
def add_flags (it : TransItem) : flags_type → TransItem
  | .user0_bit => { it with user0 := true }
  | .user1_bit => { it with user1 := true }

/-- Modelled from the spec: `clear_flags` clears a user flag. -/
def clear_flags (it : TransItem) : flags_type → TransItem
  | .user0_bit => { it with user0 := false }
  | .user1_bit => { it with user1 := false }

/-- Modelled from the spec: `update_read(old, new)` replaces the read version of an item
that read `old` by `new`. -/
def update_read (it : TransItem) (old new : Nat) : TransItem :=
  if it.has_read && it.read_value == old then { it with read_value := new } else it

end TransItem

/-- Modelled from the spec: the item set of a transaction, in insertion order, with at
most one item per key.  `items k` is the item stored under `k`; a key that was never
asked for holds the empty item. -/
structure Transaction where
  keys : List Nat
  items : Nat → TransItem

namespace Transaction

/-- A transaction that has just begun. -/
def start : Transaction := ⟨[], fun _ => {}⟩

/-- Modelled from the spec: `Sto::item(obj, key)` is find-or-append. -/
def item (tx : Transaction) (k : Nat) : Transaction :=
  if k ∈ tx.keys then tx else { tx with keys := tx.keys ++ [k] }

/-- Apply an item operation to the item stored under `k`. -/
def modify (tx : Transaction) (k : Nat) (f : TransItem → TransItem) : Transaction :=
  { tx with items := Function.update tx.items k (f (tx.items k)) }

end Transaction

/-! ## The internal tree -/

/-- Modelled from the spec: `RBTreeInternal.hh` is not among the sources.  The intrusive
tree is a binary search tree over node addresses; colours and rotations, which change the
shape but not the in-order sequence, are left out, and the theorems below are stated for
every search-tree shape. -/
inductive rbtree where
  | nil : rbtree
  | node (l : rbtree) (n : Nat) (r : rbtree) : rbtree
  deriving DecidableEq, Repr

/-- Result of `find_any`: `node` is the node found, or the parent of the empty slot when
the key is absent; `lo` and `hi` are the boundary nodes (only meaningful when absent). -/
structure find_result where
  node : Nat
  found : Bool
  lo : Nat
  hi : Nat
  deriving DecidableEq, Repr

namespace rbtree

/-- In-order sequence of the node addresses. -/
def toList : rbtree → List Nat
  | nil => []
  | node l n r => toList l ++ n :: toList r

/-- Modelled from the spec: `find_any` descends from the root comparing keys; it returns
the node with the key when there is one, and otherwise the last node visited (the parent
under which the key would be inserted) with the predecessor and the successor of the key. -/
def find_any (key : Nat → Int) (k : Int) : rbtree → Nat → Nat → Nat → find_result
  | nil, p, lo, hi => ⟨p, false, lo, hi⟩
  | node l x r, _, lo, hi =>
    if k < key x then find_any key k l x lo x
    else if key x < k then find_any key k r x x hi
    else ⟨x, true, lo, hi⟩

/-- Hang the new node `n` under the node `p`, right of it when `side` is set. -/
def link (n p : Nat) (side : Bool) : rbtree → rbtree
  | nil => nil
  | node l x r =>
    if x = p then
      (if side then node l x (node nil n nil) else node (node nil n nil) x r)
    else node (link n p side l) x (link n p side r)

/-- Modelled from the spec: `insert_commit(n, parent, side)` splices the fresh node into
the tree under `parent`; with a null parent the node becomes the root. -/
def insert_commit (t : rbtree) (n p : Nat) (side : Bool) : rbtree :=
  if p = 0 then node nil n nil else link n p side t

/-- Leftmost node of a tree (null for the empty tree). -/
def min : rbtree → Nat
  | nil => 0
  | node nil n _ => n
  | node l _ _ => min l

/-- The tree without its leftmost node. -/
def delete_min : rbtree → rbtree
  | nil => nil
  | node nil _ r => r
  | node l n r => node (delete_min l) n r

/-- Join the two subtrees of a removed node: the successor takes its place. -/
def join (l r : rbtree) : rbtree :=
  match l, r with
  | nil, r => r
  | l, nil => l
  | l, r => node l (min r) (delete_min r)

/-- Modelled from the spec: `erase(node)` splices the node out of the tree; every other
node keeps its address. -/
def erase (e : Nat) : rbtree → rbtree
  | nil => nil
  | node l x r => if x = e then join l r else node (erase e l) x (erase e r)

end rbtree

/-! ## The transactional tree -/

/-- State of an `RBTree<int, int>`: the internal tree, the fields of the nodes (by
address, also of nodes that were spliced out and handed to `rcu_free`, which a running
transaction may still dereference), the allocator's next address, and the members
`size_`, `sizeversion_`, `treelock_`, `treeversion_`. -/
structure RBTree where
  wrapper_tree_ : rbtree
  key : Nat → Int
  value : Nat → Int
  version : Nat → Nat
  nodeversion : Nat → Nat
  heap_top : Nat
  size_ : Nat
  sizeversion_ : Nat
  treelock_ : Nat
  treeversion_ : Nat

namespace RBTree

/-- Flag of an item whose node this transaction inserted. -/
def insert_tag : flags_type := .user0_bit

/-- Flag of an item whose node this transaction erases: `user0_bit << 1`. -/
def delete_tag : flags_type := .user1_bit

/-- Bit of a value version marking a node that is inserted but not yet committed. -/
def insert_bit : Nat := TransactionTid.user_bit1

/-- Key of the item that stands for the tree version. -/
def tree_key_ : Nat := 1

/-- Key of the item that stands for the size. -/
def size_key_ : Nat := 2

/-- Constructor `RBTree()`; the allocator starts at the first aligned address. -/
def empty : RBTree :=
  { wrapper_tree_ := .nil, key := fun _ => 0, value := fun _ => 0, version := fun _ => 0,
    nodeversion := fun _ => 0, heap_top := 8, size_ := 0, sizeversion_ := 0,
    treelock_ := 0, treeversion_ := 0 }

def has_insert (it : TransItem) : Bool := it.flags insert_tag

def has_delete (it : TransItem) : Bool := it.flags delete_tag

def is_locked (v : Nat) : Bool := TransactionTid.is_locked v

def is_inserted (v : Nat) : Bool := v &&& insert_bit != 0

def erase_inserted (v : Nat) : Nat := v &&& (TransactionTid.word - 1 - insert_bit)

def mark_inserted (v : Nat) : Nat := v ||| insert_bit

/-- Store to the value of the node at address `n`: `n->writeable_value() = v`. -/
def set_value (t : RBTree) (n : Nat) (v : Int) : RBTree :=
  { t with value := Function.update t.value n v }

/-- Store to the value version of the node at address `n`: `n->version() = v`. -/
def set_version (t : RBTree) (n : Nat) (v : Nat) : RBTree :=
  { t with version := Function.update t.version n v }

/-- The call `lock(&treelock_)`. -/
def lock_tree (t : RBTree) : RBTree := { t with treelock_ := TransactionTid.lock t.treelock_ }

/-- The call `unlock(&treelock_)`. -/
def unlock_tree (t : RBTree) : RBTree :=
  { t with treelock_ := TransactionTid.unlock t.treelock_ }

/-- The method `rbwrapper::inc_nodeversion`: fetch-and-add of one increment; returns the
versions before and after with the tree. -/
def inc_nodeversion (t : RBTree) (n : Nat) : (Nat × Nat) × RBTree :=
  let old_val := t.nodeversion n
  let new_val := (old_val + TransactionTid.increment_value) % TransactionTid.word
  ((old_val, new_val), { t with nodeversion := Function.update t.nodeversion n new_val })

/-- The call `wrapper_tree_.erase(*e)`. -/
def tree_erase (t : RBTree) (e : Nat) : RBTree :=
  { t with wrapper_tree_ := t.wrapper_tree_.erase e }

/-- The method `RBTree::lock(TransItem&)`. -/
def lock (t : RBTree) (k : Nat) : RBTree :=
  if k = size_key_ then { t with sizeversion_ := TransactionTid.lock t.sizeversion_ }
  else if k = tree_key_ then { t with treeversion_ := TransactionTid.lock t.treeversion_ }
  else t.set_version k (TransactionTid.lock (t.version k))

/-- The method `RBTree::unlock(TransItem&)`. -/
def unlock (t : RBTree) (k : Nat) : RBTree :=
  if k = size_key_ then { t with sizeversion_ := TransactionTid.unlock t.sizeversion_ }
  else if k = tree_key_ then { t with treeversion_ := TransactionTid.unlock t.treeversion_ }
  else t.set_version k (TransactionTid.unlock (t.version k))

/-- The method `RBTree::check`: `k` is the item's key, `it` the item; `it.has_lock` is
`item.has_lock(trans)`.  Addresses are unbounded here, so `e & ~uintptr_t(1)`, the key
with its low bit cleared, is `e - (e &&& 1)`. -/
def check (t : RBTree) (k : Nat) (it : TransItem) : Bool :=
  let e := k
  let is_treekey := e == tree_key_
  let is_sizekey := e == size_key_
  let is_structured := (e &&& 1 != 0) && !is_treekey
  let read_version := it.read_value
  let curr_version :=
    if is_sizekey then t.sizeversion_
    else if is_treekey then t.treeversion_
    else if is_structured then t.nodeversion (e - (e &&& 1))
    else t.version e
  let same_version :=
    if is_structured then read_version == curr_version
    else decide ((read_version ^^^ curr_version) ≤ TransactionTid.lock_bit)
  let not_locked := !is_locked curr_version || it.has_lock
  same_version && not_locked

/-- The method `RBTree::install`.  The size update is `size_ += offset` on a 64-bit
unsigned word. -/
def install (t : RBTree) (k : Nat) (it : TransItem) : RBTree :=
  let e := k
  if e = tree_key_ then
    { t with treeversion_ := TransactionTid.inc_invalid_version t.treeversion_ }
  else if e = size_key_ then
    { t with size_ := (((t.size_ : Int) + it.write_value) % (TransactionTid.word : Int)).toNat,
             sizeversion_ := TransactionTid.inc_invalid_version t.sizeversion_ }
  else
    let deleted := has_delete it
    let inserted := has_insert it
    if deleted then
      let t1 := unlock_tree (tree_erase (lock_tree t) e)
      let t2 := { t1 with
        version := Function.update t1.version e (TransactionTid.inc_invalid_version (t1.version e)) }
      (inc_nodeversion t2 e).2
    else if inserted then
      { t with version := Function.update t.version e (erase_inserted (t.version e)) }
    else
      let t1 := { t with value := Function.update t.value e it.write_value }
      { t1 with
        version := Function.update t1.version e (TransactionTid.inc_invalid_version (t1.version e)) }

/-- The method `RBTree::cleanup`. -/
def cleanup (t : RBTree) (k : Nat) (it : TransItem) (committed : Bool) : RBTree :=
  if !committed then
    if has_insert it || has_delete it then
      let e := k
      if !is_inserted (t.version e) then t
      else
        let t1 := unlock_tree (tree_erase (lock_tree t) e)
        let t2 := t1.set_version e (erase_inserted (t1.version e))
        (inc_nodeversion t2 e).2
    else t
  else t

end RBTree

/-! ## The engine: abort and commit -/

namespace Sto

/-- Keys of the items that carry a write or a user flag, in insertion order. -/
def cleanup_keys (tx : Transaction) : List Nat :=
  tx.keys.filter (fun k =>
    (tx.items k).has_write || (tx.items k).user0 || (tx.items k).user1)

/-- Modelled from the spec: `abort()` invokes `cleanup(item, false)` on every write or
flagged item in reverse insertion order and releases the locks the transaction holds. -/
def abort (t : RBTree) (tx : Transaction) : RBTree :=
  let t1 := (cleanup_keys tx).reverse.foldl (fun s k => s.cleanup k (tx.items k) false) t
  (tx.keys.filter (fun k => (tx.items k).has_lock)).foldl (fun s k => s.unlock k) t1

/-- Modelled from the spec: the write set in the global lock order (by key). -/
def write_set (tx : Transaction) : List Nat :=
  (tx.keys.filter (fun k => (tx.items k).has_write)).insertionSort (fun a b => a ≤ b)

/-- Modelled from the spec: locking one write item calls `lock(item)` and marks the item
lock-held. -/
def lock_item (s : RBTree × Transaction) (k : Nat) : RBTree × Transaction :=
  (s.1.lock k, s.2.modify k (fun it => { it with has_lock := true }))

/-- Modelled from the spec: the lock phase locks every write item in order. -/
def lock_phase (t : RBTree) (tx : Transaction) : RBTree × Transaction :=
  (write_set tx).foldl lock_item (t, tx)

/-- Modelled from the spec: validation calls `check(item, txn)` on every read item. -/
def validate (t : RBTree) (tx : Transaction) : Bool :=
  tx.keys.all (fun k => !(tx.items k).has_read || t.check k (tx.items k))

/-- Modelled from the spec: the install phase calls `install(item, txn)` on every write
item in order. -/
def install_phase (t : RBTree) (tx : Transaction) : RBTree :=
  (write_set tx).foldl (fun s k => s.install k (tx.items k)) t

/-- Modelled from the spec: release of the locks still held after the install phase. -/
def unlock_phase (t : RBTree) (tx : Transaction) : RBTree :=
  (tx.keys.filter (fun k => (tx.items k).has_lock)).foldl (fun s k => s.unlock k) t

/-- Modelled from the spec: `try_commit()`: lock the write set, validate the reads, then
either install and unlock (result `true`) or abort (result `false`).  The commit TID and
the log record do not reach the tree, whose `install` ignores the transaction. -/
def try_commit (t : RBTree) (tx : Transaction) : Bool × RBTree :=
  let s := lock_phase t tx
  if validate s.1 s.2 then
    let t2 := install_phase s.1 s.2
    let t3 := unlock_phase t2 s.2
    (true, (cleanup_keys s.2).foldl (fun u k => u.cleanup k (s.2.items k) true) t3)
  else (false, abort s.1 s.2)

end Sto

namespace RBTree

/-- Result of an operation that calls `Sto::abort()`: the transaction is unwound and
control leaves the operation. -/
def aborted {α : Type} (t : RBTree) (tx : Transaction) : Option α × RBTree × Transaction :=
  (none, Sto.abort t tx, Transaction.start)

/-- The method `RBTree::is_phantom_node`. -/
def is_phantom_node (t : RBTree) (tx : Transaction) (node : Nat) : Bool × Transaction :=
  let val_ver := t.version node
  let tx1 := tx.item node
  (is_inserted val_ver && !has_insert (tx1.items node) && !has_delete (tx1.items node), tx1)

/-- The method `RBTree::is_soft_phantom`. -/
def is_soft_phantom (t : RBTree) (tx : Transaction) (node : Nat) : Bool × Transaction :=
  let val_ver := t.version node
  let tx1 := tx.item node
  (is_inserted val_ver && (has_insert (tx1.items node) || has_delete (tx1.items node)), tx1)

/-- The method `RBTree::change_size_offset`. -/
def change_size_offset (tx : Transaction) (delta : Int) : Transaction :=
  let tx1 := tx.item size_key_
  let prev_offset := if (tx1.items size_key_).has_write then (tx1.items size_key_).write_value else 0
  tx1.modify size_key_ (fun it => it.add_write (prev_offset + delta))

/-- Reads of the two boundary nodes, the loop `for (i = 0; i < 2; ++i)` of
`find_or_abort`. -/
def track_boundary (t : RBTree) (tx : Transaction) (n : Nat) : Transaction :=
  if n ≠ 0 then
    let v := t.nodeversion n
    (tx.item (n ||| 1)).modify (n ||| 1) (fun it => it.add_read v)
  else tx

/-- The call `wrapper_tree_.find_any(rbkvp, compare)`: the search starts at the root with
no parent and no boundary. -/
def find_any (t : RBTree) (k : Int) : find_result :=
  t.wrapper_tree_.find_any t.key k 0 0 0

/-- The method `RBTree::find_or_abort`, called with `treelock_` held. -/
def find_or_abort (t : RBTree) (tx : Transaction) (k : Int) (insert : Bool) :
    Option find_result × RBTree × Transaction :=
  let results := t.find_any k
  let x := results.node
  let found := results.found
  if found then
    let tx1 := tx.item x
    if is_inserted (t.version x) then
      if has_insert (tx1.items x) || has_delete (tx1.items x) then (some results, t, tx1)
      else aborted (unlock_tree t) tx1
    else
      let tx2 := if !insert then tx1.modify x (fun it => it.add_read (t.version x)) else tx1
      (some results, t, tx2)
  else
    let tx1 :=
      if x = 0 && !insert then
        (tx.item tree_key_).modify tree_key_ (fun it => it.add_read t.treeversion_)
      else tx
    if insert then
      if x ≠ 0 then
        let ph := is_phantom_node t tx1 x
        if ph.1 then aborted (unlock_tree t) ph.2
        else (some results, t, ph.2)
      else (some results, t, tx1)
    else
      let tx2 := track_boundary t tx1 results.lo
      let tx3 := track_boundary t tx2 results.hi
      (some results, t, tx3)

/-- The method `RBTree::insert_absent`: returns the address of the inserted node. -/
def insert_absent (t : RBTree) (tx : Transaction) (found_p : Nat) (k : Int) :
    Nat × RBTree × Transaction :=
  let n := t.heap_top
  let t1 := { t with heap_top := t.heap_top + 8,
                     key := Function.update t.key n k,
                     value := Function.update t.value n 0,
                     version := Function.update t.version n (TransactionTid.increment_value + insert_bit),
                     nodeversion := Function.update t.nodeversion n 0 }
  let side := if found_p = 0 then false else decide (t1.key n > t1.key found_p)
  let t2 := { t1 with wrapper_tree_ := t1.wrapper_tree_.insert_commit n found_p side }
  let s :=
    if found_p = 0 then
      (t2, (tx.item tree_key_).modify tree_key_ (fun it => it.add_write 0))
    else
      let r := inc_nodeversion t2 found_p
      let versions := r.1
      let tx1 := tx.item (found_p ||| 1)
      let tx2 :=
        if (tx1.items (found_p ||| 1)).has_read then
          tx1.modify (found_p ||| 1) (fun it => it.update_read versions.1 versions.2)
        else tx1
      (r.2, tx2)
  let tx3 := (s.2.item n).modify n (fun it => (it.add_write 0).add_flags insert_tag)
  let t3 := unlock_tree s.1
  (n, t3, change_size_offset tx3 1)

/-- The method `RBTree::insert`: returns the address of the found or inserted node. -/
def insert (t : RBTree) (tx : Transaction) (k : Int) : Option Nat × RBTree × Transaction :=
  let t0 := lock_tree t
  match find_or_abort t0 tx k true with
  | (none, t1, tx1) => (none, t1, tx1)
  | (some results, t1, tx1) =>
    let x := results.node
    let found := results.found
    if !found then
      let r := insert_absent t1 tx1 x k
      (some r.1, r.2.1, r.2.2)
    else
      let tx2 := tx1.item x
      if has_delete (tx2.items x) then
        let tx3 := tx2.modify x (fun it => it.clear_flags delete_tag)
        let s :=
          if is_inserted (t1.version x) then
            (t1.set_value x 0, tx3.modify x (fun it => it.add_flags insert_tag))
          else (t1, tx3)
        let tx4 := s.2.modify x (fun it => it.add_write 0)
        let t2 := unlock_tree s.1
        (some x, t2, change_size_offset tx4 1)
      else
        let tx3 := tx2.modify x (fun it => it.add_read (t1.version x))
        (some x, unlock_tree t1, tx3)

/-- The method `RBTree::operator[]`: the proxy is the address of the node. -/
def operator_index (t : RBTree) (tx : Transaction) (k : Int) :
    Option Nat × RBTree × Transaction :=
  insert t tx k

/-- The conversion `RBProxy::operator T()`. -/
def proxy_read (t : RBTree) (tx : Transaction) (node_ : Nat) :
    Option Int × RBTree × Transaction :=
  let tx1 := tx.item node_
  if (tx1.items node_).has_write then (some (tx1.items node_).write_value, t, tx1)
  else
    let value := t.value node_
    let curr_version := t.version node_
    if (tx1.items node_).read_value ≠ curr_version || is_locked curr_version then
      aborted t tx1
    else (some value, t, tx1)

/-- The assignment `RBProxy::operator=(const T&)`. -/
def proxy_assign (t : RBTree) (tx : Transaction) (node_ : Nat) (v : Int) :
    RBTree × Transaction :=
  let tx1 := tx.item node_
  (t, tx1.modify node_ (fun it => it.add_write v))

/-- The expression `tree[k]` used as a value. -/
def read (t : RBTree) (tx : Transaction) (k : Int) : Option Int × RBTree × Transaction :=
  match operator_index t tx k with
  | (none, t1, tx1) => (none, t1, tx1)
  | (some n, t1, tx1) => proxy_read t1 tx1 n

/-- The statement `tree[k] = v`. -/
def assign (t : RBTree) (tx : Transaction) (k : Int) (v : Int) :
    Option Unit × RBTree × Transaction :=
  match operator_index t tx k with
  | (none, t1, tx1) => (none, t1, tx1)
  | (some n, t1, tx1) => (some (), proxy_assign t1 tx1 n v)

/-- The method `RBTree::size`, a 64-bit unsigned sum. -/
def size (t : RBTree) (tx : Transaction) : Nat × Transaction :=
  let tx1 := tx.item size_key_
  let tx2 :=
    if !(tx1.items size_key_).has_read then
      tx1.modify size_key_ (fun it => it.add_read t.sizeversion_)
    else tx1
  let offset := if (tx2.items size_key_).has_write then (tx2.items size_key_).write_value else 0
  ((((t.size_ : Int) + offset) % (TransactionTid.word : Int)).toNat, tx2)

/-- The method `RBTree::count`. -/
def count (t : RBTree) (tx : Transaction) (k : Int) : Option Nat × RBTree × Transaction :=
  let t0 := lock_tree t
  match find_or_abort t0 tx k false with
  | (none, t1, tx1) => (none, t1, tx1)
  | (some results, t1, tx1) =>
    let found := results.found
    if found then
      let n := results.node
      let tx2 := tx1.item n
      if is_inserted (t1.version n) && has_delete (tx2.items n) then
        (some 0, unlock_tree t1, tx2)
      else (some (if found then 1 else 0), unlock_tree t1, tx2)
    else (some (if found then 1 else 0), unlock_tree t1, tx1)

/-- The method `RBTree::erase`. -/
def erase (t : RBTree) (tx : Transaction) (k : Int) : Option Nat × RBTree × Transaction :=
  let t0 := lock_tree t
  match find_or_abort t0 tx k false with
  | (none, t1, tx1) => (none, t1, tx1)
  | (some results, t1, tx1) =>
    let x := results.node
    let found := results.found
    if found then
      let tx2 := tx1.item x
      if is_inserted (t1.version x) then
        if has_insert (tx2.items x) then
          let tx3 := tx2.modify x
            (fun it => ((it.add_write 0).clear_flags insert_tag).add_flags delete_tag)
          let tx4 := change_size_offset tx3 (-1)
          (some 1, unlock_tree t1, tx4)
        else if has_delete (tx2.items x) then
          (some 0, unlock_tree t1, tx2)
        else aborted (unlock_tree t1) tx2
      else if has_delete (tx2.items x) then
        (some 0, unlock_tree t1, tx2)
      else
        let tx3 := tx2.modify x (fun it => (it.add_write 0).add_flags delete_tag)
        let tx4 := change_size_offset tx3 (-1)
        (some 1, unlock_tree t1, tx4)
    else (some 0, unlock_tree t1, tx1)

end RBTree

/-! ## Scenarios and predicates used by the theorems -/

/-- The transaction of the helper `reset_tree` of `rbtree.cc` before its commit: on the
empty tree it has run `tree[1] = 1; tree[2] = 2; tree[3] = 3`. -/
def reset_tree_txn : RBTree × Transaction :=
  let a := RBTree.assign RBTree.empty Transaction.start 1 1
  let b := RBTree.assign a.2.1 a.2.2 2 2
  (RBTree.assign b.2.1 b.2.2 3 3).2

/-- The helper `reset_tree` of `rbtree.cc`: the tree after that transaction committed. -/
def reset_tree : RBTree :=
  (Sto.try_commit reset_tree_txn.1 reset_tree_txn.2).2

/-- The version word an item key designates, in the words of the specification:
`sizeversion_` for the size key, `treeversion_` for the tree key, the node's nodeversion
for a key with the low bit set, and the node's value version otherwise. -/
def designated_version (t : RBTree) (k : Nat) : Nat :=
  if k = RBTree.size_key_ then t.sizeversion_
  else if k = RBTree.tree_key_ then t.treeversion_
  else if k &&& 1 ≠ 0 then t.nodeversion (k - (k &&& 1))
  else t.version k

/-- Well-formed tree state: the in-order sequence is strictly increasing in the keys (the
search-tree order), every node of the tree is a non-null aligned address the allocator
has handed out, and the allocator's next address is non-null and aligned. -/
structure RBTree.wf (t : RBTree) : Prop where
  sorted : t.wrapper_tree_.toList.Pairwise (fun a b => t.key a < t.key b)
  alloc : ∀ n ∈ t.wrapper_tree_.toList, n ≠ 0 ∧ n % 8 = 0 ∧ n < t.heap_top
  top : 0 < t.heap_top ∧ t.heap_top % 8 = 0

/-- The state in which a first transaction has run `tree[5] = 5` on the tree of
`reset_tree` and has not committed: the tree with the uncommitted node, and the items of
that transaction. -/
def pending_insert : RBTree × Transaction :=
  (RBTree.assign reset_tree Transaction.start 5 5).2

/-- The first scenario of `update_conflict_tests` before the second transaction starts: on
the empty tree a first transaction has run `tree[55] = 56; tree[57] = 58` and has not
committed. -/
def update_conflict_state : RBTree × Transaction :=
  (RBTree.assign (RBTree.assign RBTree.empty Transaction.start 55 56).2.1
    (RBTree.assign RBTree.empty Transaction.start 55 56).2.2 57 58).2

/-- The second scenario of `update_conflict_tests` before the second transaction starts: on
the empty tree a first transaction has run `tree[10] = 10` and has not committed. -/
def update_conflict_state_single : RBTree × Transaction :=
  (RBTree.assign RBTree.empty Transaction.start 10 10).2

/-- No nodeversion word has its lowest bit set: the constructor of `rbwrapper` starts the
word at 0 and `inc_nodeversion`, its only writer, adds `increment_value`. -/
def RBTree.nodeversions_even (t : RBTree) : Prop := ∀ n, t.nodeversion n % 2 = 0

/-- The read versions a transaction holds under nodeversion keys (low bit set, not the tree
key) have their lowest bit clear, as copies of nodeversion words have. -/
def Transaction.nodeversion_reads_even (tx : Transaction) : Prop :=
  ∀ j, j &&& 1 ≠ 0 → j ≠ RBTree.tree_key_ → (tx.items j).read_value % 2 = 0

/-- One call of the tree's interface by a transaction: `count(k)`, `tree[k]` read as a
value, `tree[k] = v`, `erase(k)`. -/
inductive Op where
  | count (k : Int)
  | read (k : Int)
  | assign (k v : Int)
  | erase (k : Int)
  deriving DecidableEq, Repr

/-- The key a call is about. -/
def Op.key : Op → Int
  | .count k => k
  | .read k => k
  | .assign k _ => k
  | .erase k => k

/-- Run one call; the result is given as an integer (`0` for the assignment). -/
def RBTree.run (t : RBTree) (tx : Transaction) : Op → Option Int × RBTree × Transaction
  | .count k => ((t.count tx k).1.map Int.ofNat, (t.count tx k).2)
  | .read k => t.read tx k
  | .assign k v => ((t.assign tx k v).1.map (fun _ => 0), (t.assign tx k v).2)
  | .erase k => ((t.erase tx k).1.map Int.ofNat, (t.erase tx k).2)

/-- Run a sequence of calls in one transaction; `none` when one of them aborted. -/
def RBTree.run_ops (t : RBTree) (tx : Transaction) : List Op → Option (RBTree × Transaction)
  | [] => some (t, tx)
  | op :: ops =>
    match t.run tx op with
    | (none, _, _) => none
    | (some _, t1, tx1) => RBTree.run_ops t1 tx1 ops

/-- The read version `r` that an item with key `j` holds is the current value of the word
the key designates: the tree version for the tree key, the value version for a node of the
tree, the nodeversion of the node `j - 1` for the key of a tracked boundary. -/
def RBTree.read_current (t : RBTree) (j r : Nat) : Prop :=
  (j = RBTree.tree_key_ ∧ r = t.treeversion_) ∨
  (j ∈ t.wrapper_tree_.toList ∧ r = t.version j) ∨
  (j ≠ 0 ∧ (j - 1) ∈ t.wrapper_tree_.toList ∧ r = t.nodeversion (j - 1))

/-- The states a single transaction reaches when it runs alone on the committed tree
`t0`: `t` is the tree and `tx` the item set of the transaction.  No version word is
locked, every uncommitted node carries a write item of the transaction with one of the two
tags, every read of the transaction is current, and below the allocator mark of `t0` the
tree still has the nodes, keys, values and versions of `t0`. -/
structure RBTree.solo (t0 t : RBTree) (tx : Transaction) : Prop where
  wf : t.wf
  unlocked : ∀ n ∈ t.wrapper_tree_.toList,
    RBTree.is_locked (t.version n) = false ∧ RBTree.is_locked (t.nodeversion n) = false
  tree_unlocked : RBTree.is_locked t.treeversion_ = false
  own : ∀ n ∈ t.wrapper_tree_.toList, RBTree.is_inserted (t.version n) = true →
    n ∈ tx.keys ∧ (tx.items n).has_write = true ∧
      ((tx.items n).user0 = true ∨ (tx.items n).user1 = true)
  reads : ∀ j, (tx.items j).has_read = true → t.read_current j (tx.items j).read_value
  nolock : ∀ j, (tx.items j).has_lock = false
  fresh : ∀ j, t.heap_top ≤ j → tx.items j = {}
  base_top : t0.heap_top ≤ t.heap_top
  base_fields : ∀ n, n < t0.heap_top →
    t.key n = t0.key n ∧ t.value n = t0.value n ∧ t.version n = t0.version n
  base_size : t.size_ = t0.size_
  base_nodes : t.wrapper_tree_.toList.filter (fun n => decide (n < t0.heap_top))
    = t0.wrapper_tree_.toList
  added : ∀ n ∈ t.wrapper_tree_.toList, t0.heap_top ≤ n →
    RBTree.is_inserted (t.version n) = true
  base_committed : ∀ n ∈ t0.wrapper_tree_.toList, RBTree.is_inserted (t0.version n) = false

/-- The pending size offset of a transaction, the expression
`size_item.has_write() ? size_item.write_value<ssize_t>() : 0` of `size` and
`change_size_offset`. -/
def RBTree.size_offset (tx : Transaction) : Int :=
  if (tx.items RBTree.size_key_).has_write then (tx.items RBTree.size_key_).write_value else 0

/-- An item set in which no key occurs twice and every written item has its key in the
set. -/
def Transaction.tidy (tx : Transaction) : Prop :=
  tx.keys.Nodup ∧ ∀ j, (tx.items j).has_write = true → j ∈ tx.keys

/-- The change of the size offset that the specification assigns to one call, in its
words: `+1` for an `operator[]` call that inserts an absent key or re-inserts a key this
transaction had erased, `-1` for an `erase` call that returns `1`, and `0` otherwise. -/
def RBTree.offset_change (t : RBTree) (tx : Transaction) : Op → Int
  | .count _ => 0
  | .read k =>
    if (t.find_any k).found = false ∨ (tx.items (t.find_any k).node).user1 = true then 1 else 0
  | .assign k _ =>
    if (t.find_any k).found = false ∨ (tx.items (t.find_any k).node).user1 = true then 1 else 0
  | .erase k => if (t.erase tx k).1 = some 1 then -1 else 0

/-- The sum of the changes the specification assigns to the calls of a sequence, each call
taken in the state in which it runs. -/
def RBTree.offset_of_ops (t : RBTree) (tx : Transaction) : List Op → Int
  | [] => 0
  | op :: ops =>
    RBTree.offset_change t tx op +
      RBTree.offset_of_ops (t.run tx op).2.1 (t.run tx op).2.2 ops

/-! ## Predicates for sequences of transactions -/

/-- The contribution of the node `m` to the pending size offset of a transaction that
started on the tree `t0`: a node the transaction added counts `1` unless it carries the
transaction's delete tag, and a node of `t0` counts `-1` when it carries the delete
tag. -/
def RBTree.weight (t0 : RBTree) (tx : Transaction) (m : Nat) : Int :=
  if t0.heap_top ≤ m then (if (tx.items m).user1 then 0 else 1)
  else (if (tx.items m).user1 then -1 else 0)

/-- The bookkeeping of a transaction that runs alone on the committed tree `t0`: the two
tags exclude each other, `insert_tag` sits only on uncommitted nodes, a delete tag comes
with a write, and the pending size offset is the sum of the weights of the nodes. -/
structure RBTree.ledger (t0 t : RBTree) (tx : Transaction) : Prop where
  tidy : tx.tidy
  excl : ∀ j, (tx.items j).user0 = true →
    (tx.items j).user1 = false ∧ RBTree.is_inserted (t.version j) = true
  del_write : ∀ j, (tx.items j).user1 = true → (tx.items j).has_write = true
  balance : RBTree.size_offset tx = (t.wrapper_tree_.toList.map (RBTree.weight t0 tx)).sum

/-- The item set `tx2` carries the tags of `tx` and every write of `tx`. -/
def Transaction.tags_kept (tx tx2 : Transaction) : Prop :=
  ∀ j, (tx2.items j).user0 = (tx.items j).user0 ∧ (tx2.items j).user1 = (tx.items j).user1 ∧
    ((tx.items j).has_write = true → (tx2.items j).has_write = true)

/-- A tree between transactions: well formed, no node uncommitted, and no version word
of a node and no tree version locked. -/
structure RBTree.settled (t : RBTree) : Prop where
  wf : t.wf
  committed : ∀ n ∈ t.wrapper_tree_.toList, RBTree.is_inserted (t.version n) = false
  unlocked : ∀ n ∈ t.wrapper_tree_.toList,
    RBTree.is_locked (t.version n) = false ∧ RBTree.is_locked (t.nodeversion n) = false
  tree_unlocked : RBTree.is_locked t.treeversion_ = false

/-- One transaction executed alone on the tree: it runs the calls `txn.1` and then commits
(`txn.2 = true`) or aborts; the result is the tree it leaves, `none` when one of its calls
aborted it. -/
def RBTree.transact (t : RBTree) (txn : List Op × Bool) : Option RBTree :=
  match t.run_ops Transaction.start txn.1 with
  | none => none
  | some (u, ux) => some (if txn.2 then (Sto.try_commit u ux).2 else Sto.abort u ux)

/-- A sequence of transactions executed one after another. -/
def RBTree.serial : List (List Op × Bool) → RBTree → Option RBTree
  | [], t => some t
  | txn :: rest, t =>
    match t.transact txn with
    | none => none
    | some t1 => RBTree.serial rest t1

/-- The tags of the items of a transaction in the tree state `t`: an item with
`insert_tag` has no `delete_tag` and its node is uncommitted, and no item for an address
the allocator has not handed out carries a tag. -/
structure RBTree.exclusive (t : RBTree) (tx : Transaction) : Prop where
  excl : ∀ j, (tx.items j).user0 = true →
    (tx.items j).user1 = false ∧ RBTree.is_inserted (t.version j) = true
  unused : ∀ j, t.heap_top ≤ j → (tx.items j).user0 = false ∧ (tx.items j).user1 = false

/-! ## The logger -/

namespace Logger

/-- Modelled from the spec: `pbuffer` is declared in `Logger.hh`, which is not among the
sources.  A log buffer has a header `{nentries_, last_tid_}`, a cursor `cur_offset_`, an
`io_scheduled_` flag and the id of the owning thread. -/
structure pbuffer where
  nentries_ : Nat
  last_tid_ : Nat
  cur_offset_ : Nat
  io_scheduled_ : Bool
  thread_id_ : Nat
  deriving DecidableEq, Repr

/-- Modelled from the spec: `pbuffer::reset()` turns a written buffer into a scratch buffer:
no records, cursor at the start, not scheduled. -/
def pbuffer.reset (px : pbuffer) : pbuffer :=
  { px with nentries_ := 0, cur_offset_ := 0, io_scheduled_ := false }

/-- Modelled from the spec: the worker's spinlock as another thread meets it.  `locked` is
the answer of `is_locked()`; `fails` is the number of `try_lock()` attempts that lose
against the worker before one wins. -/
structure spinlock where
  locked : Bool
  fails : Nat
  deriving DecidableEq, Repr

/-- Modelled from the spec: `is_locked()`. -/
def spinlock.is_locked (l : spinlock) : Bool := l.locked

/-- Modelled from the spec: one `try_lock()` attempt. -/
def spinlock.try_lock (l : spinlock) : Bool × spinlock :=
  if l.fails = 0 then (true, { locked := true, fails := 0 })
  else (false, { l with fails := l.fails - 1 })

/-- Modelled from the spec: `unlock()`. -/
def spinlock.unlock (l : spinlock) : spinlock := { l with locked := false }

/-- Modelled from the spec: the per-thread log context with its two queues, each a FIFO
whose head is the front of the list (`peek` is `head?`, `deq` is `tail`, `enq` appends). -/
structure persist_ctx where
  init_ : Bool
  lock_ : spinlock
  all_buffers_ : List pbuffer
  persist_buffers_ : List pbuffer
  deriving DecidableEq, Repr

/-- Modelled from the spec: the constants and the configuration declared in `Logger.hh`,
outside the sources, taken as parameters: `g_nworkers`, `MAX_THREADS_`,
`g_max_lag_epochs`, `g_fake_writes`, `g_call_fsync`, the length of the writer's `iovs`
vector and the function `epochId` on TIDs. -/
structure Config where
  g_nworkers : Nat
  MAX_THREADS_ : Nat
  g_max_lag_epochs : Nat
  g_fake_writes : Bool
  g_call_fsync : Bool
  iovs_size : Nat
  epochId : Nat → Nat

/-- Modelled from the spec: the members declared in `Logger.hh` that the persister and
the writers share: the epoch table `per_thread_sync_epochs_[logger].epochs_[thread]`,
`system_sync_epoch_`, the persist contexts, `Transaction::global_epoch`, and the values
written to the on-disk marker `pepoch`, newest first. -/
structure State where
  per_thread_sync_epochs_ : Nat → Nat → Nat
  system_sync_epoch_ : Nat
  g_persist_ctxs : Nat → persist_ctx
  global_epoch : Nat
  pepoch : List Nat

/-- The largest `uint64_t`, `std::numeric_limits<uint64_t>::max()`. -/
def uint64_max : Nat := 2 ^ 64 - 1

/-- The thread ids of the loop `for (size_t k = j; k < MAX_THREADS_; k += g_nworkers)`, in
loop order.  For `g_nworkers = 0` the loop of the source does not end; the callers run
after `Init` has set `g_nworkers > 0`. -/
def thread_ids (cfg : Config) (j : Nat) : List Nat :=
  ((List.range cfg.MAX_THREADS_).map (fun m => j + m * cfg.g_nworkers)).filter
    (fun k => decide (k < cfg.MAX_THREADS_))

/-- The pairs `(i, k)` the three nested loops of `advance_system_sync_epoch` visit, in
loop order. -/
def visited (cfg : Config) (assignments : List (List Nat)) : List (Nat × Nat) :=
  assignments.enum.flatMap (fun ia => ia.2.flatMap (fun j => (thread_ids cfg j).map (fun k => (ia.1, k))))

/-- The expression `cur_epoch ? (cur_epoch - 1) : 0`. -/
def best_epoch (cur_epoch : Nat) : Nat := if cur_epoch ≠ 0 then cur_epoch - 1 else 0

/-- The loop `for (size_t c = 0; c < 3; c++) if (l.try_lock()) { did_lock = true; break; }`
with `n` attempts left. -/
def acquire (l : spinlock) : Nat → Bool × spinlock
  | 0 => (false, l)
  | n + 1 =>
    match l.try_lock with
    | (true, l1) => (true, l1)
    | (false, l1) => acquire l1 n

def State.set_ctx (s : State) (k : Nat) (ctx : persist_ctx) : State :=
  { s with g_persist_ctxs := Function.update s.g_persist_ctxs k ctx }

def State.set_epoch (s : State) (i k : Nat) (e : Nat) : State :=
  let row := Function.update (s.per_thread_sync_epochs_ i) k e
  { s with per_thread_sync_epochs_ := Function.update s.per_thread_sync_epochs_ i row }

/-- The body of the innermost loop of `advance_system_sync_epoch` for logger `i` and
thread `k`; `acc` is `min_so_far` with the state. -/
def visit (best : Nat) (i k : Nat) (acc : Nat × State) : Nat × State :=
  let min_so_far := acc.1
  let s := acc.2
  let ctx := s.g_persist_ctxs k
  if ctx.persist_buffers_.head?.isNone then
    let l := ctx.lock_
    if !l.is_locked then
      let r := acquire l 3
      let did_lock := r.1
      if did_lock then
        let ctx1 := { ctx with lock_ := r.2 }
        let last_px := ctx1.all_buffers_.head?
        let ctx2 :=
          match last_px with
          | some px =>
            if px.nentries_ > 0 then
              { ctx1 with
                all_buffers_ := ctx1.all_buffers_.tail
                persist_buffers_ := ctx1.persist_buffers_ ++ [px] }
            else ctx1
          | none => ctx1
        if ctx2.persist_buffers_.head?.isNone then
          let s1 := (s.set_epoch i k best).set_ctx k { ctx2 with lock_ := ctx2.lock_.unlock }
          (min min_so_far best, s1)
        else
          let s1 := s.set_ctx k { ctx2 with lock_ := ctx2.lock_.unlock }
          (min (s1.per_thread_sync_epochs_ i k) min_so_far, s1)
      else
        let s1 := s.set_ctx k { ctx with lock_ := r.2 }
        (min (s1.per_thread_sync_epochs_ i k) min_so_far, s1)
    else (min (s.per_thread_sync_epochs_ i k) min_so_far, s)
  else (min (s.per_thread_sync_epochs_ i k) min_so_far, s)

/-- The three nested loops of `Logger::advance_system_sync_epoch`: the result is
`min_so_far` with the state the loops leave. -/
def advance_loops (cfg : Config) (assignments : List (List Nat)) (s : State) : Nat × State :=
  let cur_epoch := s.global_epoch
  let best := best_epoch cur_epoch
  (visited cfg assignments).foldl (fun acc p => visit best p.1 p.2 acc) (uint64_max, s)

/-- The function `Logger::advance_system_sync_epoch`; `none` when one of its two
assertions fails.  The marker file is written exactly in the branch
`if (syssync < min_so_far)`. -/
def advance_system_sync_epoch (cfg : Config) (assignments : List (List Nat)) (s : State) :
    Option State :=
  let r := advance_loops cfg assignments s
  let min_so_far := r.1
  let syssync := r.2.system_sync_epoch_
  if ¬ (min_so_far < uint64_max) then none
  else if ¬ (syssync ≤ min_so_far) then none
  else
    let s1 := if syssync < min_so_far then { r.2 with pepoch := min_so_far :: r.2.pepoch } else r.2
    some { s1 with system_sync_epoch_ := min_so_far }

/-- Modelled from the spec: `MakeRange<unsigned>(a, b)`, a helper outside the sources: the
ids from `a` up to `b - 1`, both arguments converted to `unsigned` (32 bits). -/
def MakeRange (a b : Nat) : List Nat :=
  List.range' (a % 2 ^ 32) (b % 2 ^ 32 - a % 2 ^ 32)

/-- Modelled from the spec: the store `per_thread_sync_epochs_[i].epochs_[j].store(0, ...)`
on the epoch table.  The array `epochs_` of an `epoch_array` is declared in `Logger.hh`,
outside the sources; it is taken to have `MAX_THREADS_` entries, the bound of every other
loop over it.  A store outside the array is undefined behaviour, and the model stops there
with `none`. -/
def store_zero (MAX_THREADS_ i j : Nat) (epochs : Nat → Nat → Nat) :
    Option (Nat → Nat → Nat) :=
  if j < MAX_THREADS_ then some (fun i2 j2 => if i2 = i ∧ j2 = j then 0 else epochs i2 j2)
  else none

/-- The inner loop `for (size_t j = 0; j < g_nworkers; j++)` of `Init` for logger `i`, over
the indices `js`. -/
def init_row (MAX_THREADS_ i : Nat) :
    List Nat → (Nat → Nat → Nat) → Option (Nat → Nat → Nat)
  | [], epochs => some epochs
  | j :: js, epochs =>
    match store_zero MAX_THREADS_ i j epochs with
    | none => none
    | some epochs1 => init_row MAX_THREADS_ i js epochs1

/-- The outer loop `for (size_t i = 0; i < g_nmax_loggers; i++)` of `Init`, over the
indices of the loggers. -/
def init_rows (MAX_THREADS_ g_nworkers : Nat) :
    List Nat → (Nat → Nat → Nat) → Option (Nat → Nat → Nat)
  | [], epochs => some epochs
  | i :: rest, epochs =>
    match init_row MAX_THREADS_ i (List.range g_nworkers) epochs with
    | none => none
    | some epochs1 => init_rows MAX_THREADS_ g_nworkers rest epochs1

/-- The method `Logger::Init` up to the start of the threads: the epoch table it
initialises with the partition it computes, which is `assignments_given` or the blocks it
builds when none are given; `none` when one of the assertions at its head fails or a store
of the initialisation loops falls outside `epochs_`.  `g_persist` and `g_nworkers` are the
globals at the call, `per_thread_sync_epochs_` is the epoch table at the call, and
`nlogfiles` is `logfiles.size()`. -/
def Init (g_persist : Bool) (g_nworkers : Nat)
    (g_nmax_loggers MAX_THREADS_ g_perthread_buffers : Nat)
    (per_thread_sync_epochs_ : Nat → Nat → Nat)
    (nworkers nlogfiles : Nat) (assignments_given : List (List Nat)) (use_compression : Bool) :
    Option ((Nat → Nat → Nat) × List (List Nat)) :=
  if g_persist then none
  else if g_nworkers ≠ 0 then none
  else if ¬ (nworkers > 0) then none
  else if nlogfiles = 0 then none
  else if ¬ (nlogfiles ≤ g_nmax_loggers) then none
  else if ¬ (!use_compression || decide (g_perthread_buffers > 1)) then none
  else
    let g_nworkers := nworkers
    match init_rows MAX_THREADS_ g_nworkers (List.range g_nmax_loggers)
        per_thread_sync_epochs_ with
    | none => none
    | some epochs =>
      if assignments_given.isEmpty then
        if g_nworkers ≤ nlogfiles then
          some (epochs, (List.range g_nworkers).map (fun i => [i % 2 ^ 32]))
        else
          let threads_per_logger := g_nworkers / nlogfiles
          some (epochs, (List.range nlogfiles).map (fun i =>
            MakeRange (i * threads_per_logger)
              (if i + 1 = nlogfiles then g_nworkers else (i + 1) * threads_per_logger)))
      else some (epochs, assignments_given)

/-- The local variables of `Logger::writer` together with the files it writes.  `fd` is
true when `fd != -1`; `data_log` is the content of `<logfile>data.log` as the list of the
buffers written to it, `old_data` the files renamed to `<logfile>old_data<epoch>`, newest
first; `iovs` holds the buffers whose bytes the entries of the vector `iovs` point to.
The calls `rename`, `open`, `writev` and `fsync` are taken to succeed (on a failure the
source stops at `assert(false)`). -/
structure writer_state where
  fd : Bool
  data_log : List pbuffer
  old_data : List (Nat × List pbuffer)
  min_epoch_so_far : Nat
  max_epoch_so_far : Nat
  iovs : List pbuffer
  epoch_prefixes : Nat → Nat
  nbufswritten : Nat
  nbyteswritten : Nat
  totalbyteswritten : Nat
  totalbufswritten : Nat

/-- The locals of `Logger::writer` before its loop starts. -/
def writer_start : writer_state :=
  { fd := false, data_log := [], old_data := [], min_epoch_so_far := 0, max_epoch_so_far := 0,
    iovs := [], epoch_prefixes := fun _ => 0, nbufswritten := 0, nbyteswritten := 0,
    totalbyteswritten := 0, totalbufswritten := 0 }

/-- The head of the loop body of `Logger::writer`: the log file is opened, and rotated when
`max_epoch_so_far - min_epoch_so_far > 200` (a `uint64_t` difference). -/
def writer_rotate (w : writer_state) : writer_state :=
  if w.fd = false ∨ (w.max_epoch_so_far + 2 ^ 64 - w.min_epoch_so_far) % 2 ^ 64 > 200 then
    let w1 :=
      if (w.max_epoch_so_far + 2 ^ 64 - w.min_epoch_so_far) % 2 ^ 64 > 200 then
        { w with old_data := (w.max_epoch_so_far, w.data_log) :: w.old_data, fd := false }
      else w
    { w1 with fd := true, data_log := [], min_epoch_so_far := w1.max_epoch_so_far }
  else w

/-- The statements of the loop `for (auto px : pxs)` that schedule the buffer `px` of
thread `k`: an `iovs` entry is filled, the counters advance, `epoch_prefixes[k]` becomes
`px_epoch - 1` (in `uint64_t`) and `max_epoch_so_far` is raised. -/
def schedule_one (cfg : Config) (k : Nat) (px : pbuffer) (w : writer_state) : writer_state :=
  let pxlen := px.cur_offset_
  let px_epoch := cfg.epochId px.last_tid_
  { w with
    iovs := w.iovs.take w.nbufswritten ++ [px]
    nbufswritten := w.nbufswritten + 1
    nbyteswritten := (w.nbyteswritten + pxlen) % 2 ^ 64
    totalbyteswritten := (w.totalbyteswritten + pxlen) % 2 ^ 64
    totalbufswritten := w.totalbufswritten + 1
    epoch_prefixes := Function.update w.epoch_prefixes k ((px_epoch + (2 ^ 64 - 1)) % 2 ^ 64)
    max_epoch_so_far := if px_epoch > w.max_epoch_so_far then px_epoch else w.max_epoch_so_far }

/-- The loop `for (auto px : pxs)` of the writer for thread `k`, over the snapshot of
`persist_buffers_`; the result is the queue with the scheduled buffers flagged, the locals,
and whether `goto process` was taken.  `none` when an assertion fails.  The sum
`cur_sync_epoch_ex + g_max_lag_epochs` is taken in `uint64_t`. -/
def schedule_pxs (cfg : Config) (cur_sync_epoch_ex k : Nat) :
    List pbuffer → writer_state → Option (List pbuffer × writer_state × Bool)
  | [], w => some ([], w, false)
  | px :: rest, w =>
    if px.io_scheduled_ then none
    else if ¬ (w.nbufswritten < cfg.iovs_size) then none
    else if px.nentries_ = 0 then none
    else if px.thread_id_ ≠ k then none
    else if w.nbufswritten = cfg.iovs_size then some (px :: rest, w, true)
    else if cfg.epochId px.last_tid_ ≥ (cur_sync_epoch_ex + cfg.g_max_lag_epochs) % 2 ^ 64 then
      some (px :: rest, w, false)
    else
      match schedule_pxs cfg cur_sync_epoch_ex k rest (schedule_one cfg k px w) with
      | none => none
      | some (rest1, w2, g) => some ({ px with io_scheduled_ := true } :: rest1, w2, g)

/-- The loop `for (size_t k = idx; ...)` of the scheduling phase over the thread ids `ks`;
it stops early when `goto process` is taken. -/
def schedule_threads (cfg : Config) (cur_sync_epoch_ex : Nat) :
    List Nat → State → writer_state → Option (State × writer_state)
  | [], s, w => some (s, w)
  | k :: ks, s, w =>
    let ctx := s.g_persist_ctxs k
    match schedule_pxs cfg cur_sync_epoch_ex k ctx.persist_buffers_ w with
    | none => none
    | some (pxs, w1, goto_process) =>
      let s1 := s.set_ctx k { ctx with persist_buffers_ := pxs }
      if goto_process then some (s1, w1) else schedule_threads cfg cur_sync_epoch_ex ks s1 w1

/-- The loop `while ((px = ctx.persist_buffers_.peek()) && px->io_scheduled_)` for thread
`k`: the scheduled head buffers are reset and go back to `all_buffers_`.  The result is
`(persist_buffers_, all_buffers_)`. -/
def return_pxs ( init_ : Bool) (k : Nat) :
    List pbuffer → List pbuffer → Option (List pbuffer × List pbuffer)
  | [], all => some ([], all)
  | px :: rest, all =>
    if px.io_scheduled_ then
      if px.nentries_ = 0 then none
      else if init_ = false then none
      else if px.reset.thread_id_ ≠ k then none
      else return_pxs init_ k rest (all ++ [px.reset])
    else some (px :: rest, all)

/-- The loop over `k` that returns the written buffers of the threads `ks`. -/
def return_threads : List Nat → State → Option State
  | [], s => some s
  | k :: ks, s =>
    let ctx := s.g_persist_ctxs k
    match return_pxs ctx.init_ k ctx.persist_buffers_ ctx.all_buffers_ with
    | none => none
    | some (pb, ab) =>
      return_threads ks (s.set_ctx k { ctx with persist_buffers_ := pb, all_buffers_ := ab })

/-- The block at the label `process:` for worker id `idx`. -/
def process (cfg : Config) (idx : Nat) (s : State) (w : writer_state) :
    Option (State × writer_state) :=
  if !cfg.g_fake_writes && decide (w.nbufswritten > 0) then
    let w1 : writer_state :=
      { w with
        data_log := w.data_log ++ w.iovs.take w.nbufswritten
        nbufswritten := 0
        nbyteswritten := 0 }
    match return_threads (thread_ids cfg idx) s with
    | none => none
    | some s1 => some (s1, w1)
  else some (s, w)

/-- The loop `for (auto idx : assignment)` of the scheduling phase with its `process:`
block. -/
def writer_assignment (cfg : Config) (cur_sync_epoch_ex : Nat) :
    List Nat → State → writer_state → Option (State × writer_state)
  | [], s, w => some (s, w)
  | idx :: rest, s, w =>
    if ¬ (idx < cfg.g_nworkers) then none
    else
      match schedule_threads cfg cur_sync_epoch_ex (thread_ids cfg idx) s w with
      | none => none
      | some (s1, w1) =>
        match process cfg idx s1 w1 with
        | none => none
        | some (s2, w2) => writer_assignment cfg cur_sync_epoch_ex rest s2 w2

/-- The load `x0 = ea.epochs_[k].load(...)` of the publication loop. -/
def writer_load (id k : Nat) (s : State) : Nat := s.per_thread_sync_epochs_ id k

/-- The statement `if (x1 > x0) ea.epochs_[k].store(x1, ...)` of the publication loop. -/
def writer_store (id k : Nat) (x0 x1 : Nat) (s : State) : State :=
  if x1 > x0 then s.set_epoch id k x1 else s

/-- The publication loops at the end of the writer's loop body, with each load directly
followed by its store. -/
def publish (cfg : Config) (id : Nat) (assignment : List Nat) (w : writer_state) (s : State) :
    State :=
  (assignment.flatMap (thread_ids cfg)).foldl
    (fun s k => writer_store id k (writer_load id k s) (w.epoch_prefixes k) s) s

/-- The body of the loop `for(;;)` of `Logger::writer` up to the test
`if (!totalbufswritten)`: the file is opened or rotated, the counters are reset, and the
buffers of the assigned workers are scheduled, written and returned. -/
def writer_schedule (cfg : Config) (assignment : List Nat) (s : State) (w : writer_state) :
    Option (State × writer_state) :=
  let w0 := writer_rotate w
  let cur_sync_epoch_ex := (s.system_sync_epoch_ + 1) % 2 ^ 64
  let w1 : writer_state :=
    { w0 with nbufswritten := 0, nbyteswritten := 0, totalbyteswritten := 0, totalbufswritten := 0 }
  writer_assignment cfg cur_sync_epoch_ex assignment s w1

/-- One pass through the body of the loop `for(;;)` of `Logger::writer` for logger `id`;
`none` when an assertion fails. -/
def writer_iteration (cfg : Config) (id : Nat) (assignment : List Nat) (s : State)
    (w : writer_state) : Option (State × writer_state) :=
  match writer_schedule cfg assignment s w with
  | none => none
  | some (s1, w2) =>
    if w2.totalbufswritten = 0 then some (s1, w2)
    else some (publish cfg id assignment w2 s1, w2)

/-- The condition under which one visit of `advance_system_sync_epoch` stores `best_epoch`
for a worker: its `persist_buffers_` queue is empty, its spinlock is free and is acquired
within three `try_lock` attempts, and the head buffer of `all_buffers_` is missing or
holds no records. -/
def quiesced (ctx : persist_ctx) : Prop :=
  ctx.persist_buffers_ = [] ∧ ctx.lock_.is_locked = false ∧ (acquire ctx.lock_ 3).1 = true ∧
    ∀ px, ctx.all_buffers_.head? = some px → px.nentries_ = 0

instance (ctx : persist_ctx) : Decidable (quiesced ctx) := by
  unfold quiesced
  cases ctx.all_buffers_.head? with
  | none => exact decidable_of_iff (ctx.persist_buffers_ = [] ∧ ctx.lock_.is_locked = false ∧
      (acquire ctx.lock_ 3).1 = true) (by simp)
  | some px => exact decidable_of_iff (ctx.persist_buffers_ = [] ∧ ctx.lock_.is_locked = false ∧
      (acquire ctx.lock_ 3).1 = true ∧ px.nentries_ = 0) (by simp)

/-- The state `Init` leaves for the persister and the writers: every epoch entry and
`system_sync_epoch_` zero (the `memset` of `epoch_array` and the initial value of the
atomic), and every persist context idle with `nbuf` scratch buffers. -/
def start_state (nbuf : Nat) (global_epoch : Nat) : State :=
  { per_thread_sync_epochs_ := fun _ _ => 0
    system_sync_epoch_ := 0
    g_persist_ctxs := fun k =>
      { init_ := true, lock_ := { locked := false, fails := 0 },
        all_buffers_ := List.replicate nbuf
          { nentries_ := 0, last_tid_ := 0, cur_offset_ := 0, io_scheduled_ := false,
            thread_id_ := k },
        persist_buffers_ := [] }
    global_epoch := global_epoch
    pepoch := [] }

/-- A configuration for the examples: two workers, two thread slots, a lag horizon of
eight epochs, and TIDs with the epoch above the low 32 bits. -/
def cfg2 : Config :=
  { g_nworkers := 2, MAX_THREADS_ := 2, g_max_lag_epochs := 8, g_fake_writes := false,
    g_call_fsync := true, iovs_size := 16, epochId := fun tid => tid / 2 ^ 32 }

/-- The state after `Init` at epoch 10 in which worker 1 has logged three records of epoch
10 into its current buffer. -/
def filling_state : State :=
  { start_state 2 10 with
    g_persist_ctxs := fun k =>
      if k = 1 then
        { init_ := true, lock_ := { locked := false, fails := 0 },
          all_buffers_ :=
            [{ nentries_ := 3, last_tid_ := 10 * 2 ^ 32 + 7, cur_offset_ := 96,
               io_scheduled_ := false, thread_id_ := 1 },
             { nentries_ := 0, last_tid_ := 0, cur_offset_ := 0, io_scheduled_ := false,
               thread_id_ := 1 }],
          persist_buffers_ := [] }
      else (start_state 2 10).g_persist_ctxs k }

/-- The value `px_epoch - 1` (in `uint64_t`) that the writer records in `epoch_prefixes`
when it schedules the buffer `px`. -/
def recorded_epoch (cfg : Config) (px : pbuffer) : Nat :=
  (cfg.epochId px.last_tid_ + (2 ^ 64 - 1)) % 2 ^ 64

/-- The buffers handed to the log file so far: the content of `data.log` followed by the
scheduled entries of `iovs` that `writev` has not written yet. -/
def writer_state.trace (w : writer_state) : List pbuffer :=
  w.data_log ++ w.iovs.take w.nbufswritten

/-- The relation between the locals `w0` of the writer at some point of an iteration and
the locals `w` later in it, after the buffers `added` were scheduled in between. -/
structure scheduled_since (cfg : Config) (w0 : writer_state) (added : List pbuffer)
    (w : writer_state) : Prop where
  bound : w.nbufswritten ≤ w.iovs.length
  trace : w.trace = w0.trace ++ added
  prefixes : w.epoch_prefixes
    = added.foldl (fun p px => Function.update p px.thread_id_ (recorded_epoch cfg px))
        w0.epoch_prefixes
  total : w.totalbufswritten = w0.totalbufswritten + added.length

/-- The state at epoch 10 in which worker 0 has handed one buffer, whose last TID lies in
epoch `e`, to its `persist_buffers_` queue, with `system_sync_epoch_ = sys` and the entry
of logger 0 for worker 0 equal to `entry`. -/
def handed_state (sys entry e : Nat) : State :=
  { start_state 2 10 with
    per_thread_sync_epochs_ := fun i k => if i = 0 ∧ k = 0 then entry else 0
    system_sync_epoch_ := sys
    g_persist_ctxs := fun k =>
      if k = 0 then
        { init_ := true, lock_ := { locked := false, fails := 0 },
          all_buffers_ :=
            [{ nentries_ := 0, last_tid_ := 0, cur_offset_ := 0, io_scheduled_ := false,
               thread_id_ := 0 }],
          persist_buffers_ :=
            [{ nentries_ := 1, last_tid_ := e * 2 ^ 32 + 1, cur_offset_ := 32,
               io_scheduled_ := false, thread_id_ := 0 }] }
      else (start_state 2 10).g_persist_ctxs k }

/-- Modelled from the spec: a worker emits one log record, of `len` bytes and with the TID
`tid`, into its current buffer, the head of `all_buffers_`.  The worker code is outside
the sources. -/
def worker_log (k : Nat) (tid len : Nat) (s : State) : State :=
  let ctx := s.g_persist_ctxs k
  match ctx.all_buffers_ with
  | [] => s
  | px :: rest =>
    let px1 : pbuffer :=
      { px with nentries_ := px.nentries_ + 1, last_tid_ := tid, cur_offset_ := px.cur_offset_ + len }
    s.set_ctx k { ctx with all_buffers_ := px1 :: rest }

/-- Modelled from the spec: the events that change the state shared by the persister and
the writers, each taken as one atomic step: the global epoch is ticked to `g`; the workers
and the writers change the persist contexts to `f`; the persister runs one step; a writer
publishes the recorded value `x1` for the entry of logger `id` and thread `k`, its load
directly followed by its store. -/
inductive Event where
  | tick (g : Nat)
  | work (f : Nat → persist_ctx)
  | persist
  | publish (id k x1 : Nat)

/-- The effect of an event; `none` when the persister stops at an assertion. -/
def fire (cfg : Config) (A : List (List Nat)) : Event → State → Option State
  | .tick g, s => some { s with global_epoch := g }
  | .work f, s => some { s with g_persist_ctxs := f }
  | .persist, s => advance_system_sync_epoch cfg A s
  | .publish id k x1, s => some (writer_store id k (writer_load id k s) x1 s)

/-- Modelled from the spec: what the rest of the system guarantees about an event.  The
global epoch only grows and stays a `uint64_t`; a published value is `e - 1` for the epoch
`e >= 1` of a TID, and no TID is ahead of the global epoch. -/
def allowed : Event → State → Prop
  | .tick g, s => s.global_epoch ≤ g ∧ g ≤ uint64_max
  | .work _, _ => True
  | .persist, _ => True
  | .publish _ _ x1, s => x1 + 1 ≤ s.global_epoch

/-- Running a sequence of events. -/
def run (cfg : Config) (A : List (List Nat)) : List Event → State → Option State
  | [], s => some s
  | e :: es, s =>
    match fire cfg A e s with
    | none => none
    | some s1 => run cfg A es s1

/-- Every event of the sequence is allowed in the state it meets. -/
def admissible (cfg : Config) (A : List (List Nat)) : List Event → State → Prop
  | [], _ => True
  | e :: es, s => allowed e s ∧ ∀ s1, fire cfg A e s = some s1 → admissible cfg A es s1

/-- The invariant of the epoch table between atomic steps: no entry is ahead of
`best_epoch`, and `system_sync_epoch_` is at most every entry the persister reads. -/
structure consistent (cfg : Config) (A : List (List Nat)) (s : State) : Prop where
  epoch_bound : s.global_epoch ≤ uint64_max
  entries : ∀ i k, s.per_thread_sync_epochs_ i k ≤ best_epoch s.global_epoch
  sys_le : ∀ p ∈ visited cfg A, s.system_sync_epoch_ ≤ s.per_thread_sync_epochs_ p.1 p.2
  sys_best : s.system_sync_epoch_ ≤ best_epoch s.global_epoch

/-- The locals of a writer whose log file is open and holds one written buffer, with the
given values of `min_epoch_so_far` and `max_epoch_so_far`. -/
def aged_writer (min_epoch max_epoch : Nat) : writer_state :=
  { writer_start with
    fd := true
    data_log := [{ nentries_ := 1, last_tid_ := max_epoch * 2 ^ 32 + 1, cur_offset_ := 32,
                   io_scheduled_ := false, thread_id_ := 0 }]
    min_epoch_so_far := min_epoch
    max_epoch_so_far := max_epoch }

end Logger

/-! ## The MVCC registry (`MVCCRegistry.hh`) -/

namespace MvRegistry

/-- The constant `CYCLE_LENGTH`. -/
def CYCLE_LENGTH : Nat := 10

/-- The constant `GC_PER_FLATTEN`. -/
def GC_PER_FLATTEN : Nat := 1

/-- A call of one of the private methods, with its arguments `index` and `rtid_inf`; the
state keeps the calls made so far so that theorems can speak about them. -/
inductive Call where
  | collect_garbage_ (index : Nat)
  | flatten_ (index rtid_inf : Nat)
  | collect_ (index rtid_inf : Nat)
  deriving DecidableEq, Repr

/-- The members `enable_gc`, `is_running` and `is_stopping` of the registrar (a static
object, so they start zeroed), and the calls of the private methods so far, oldest
first. -/
structure State where
  enable_gc : Bool
  is_running : Nat
  is_stopping : Bool
  calls : List Call
  deriving DecidableEq, Repr

/-- The registrar after its constructor. -/
def registrar_ : State :=
  { enable_gc := false, is_running := 0, is_stopping := false, calls := [] }

/-- The method `toggle_gc`. -/
def toggle_gc (enabled : Bool) (s : State) : State := { s with enable_gc := enabled }

/-- The method `stop_`. -/
def stop_ (s : State) : State := { s with is_stopping := true }

/-- Modelled from the spec: `flatten_` is defined outside the sources; it works on the
version chains and leaves `enable_gc`, `is_running` and `is_stopping` alone.  The call is
recorded. -/
def flatten_ (index rtid_inf : Nat) (s : State) : State :=
  { s with calls := s.calls ++ [Call.flatten_ index rtid_inf] }

/-- Modelled from the spec: `collect_` is defined outside the sources; it works on the
version chains and leaves `enable_gc`, `is_running` and `is_stopping` alone.  The call is
recorded. -/
def collect_ (index rtid_inf : Nat) (s : State) : State :=
  { s with calls := s.calls ++ [Call.collect_ index rtid_inf] }

/-- The method `collect_garbage_`, run by a thread whose thread-local counter is `cycles`.
`rtid_inf` is the value `compute_rtid_inf()` returns (it is defined outside the sources),
and `stop_arrives` tells whether another thread runs `stop()` between the first test of
`is_stopping` and the second.  `is_running` is a `size_t`.  The entry is recorded. -/
def collect_garbage_ (cycles index rtid_inf : Nat) (stop_arrives : Bool) (s : State) : State :=
  let s0 : State := { s with calls := s.calls ++ [Call.collect_garbage_ index] }
  if s0.is_stopping then s0
  else
    let s1 : State := { s0 with is_running := (s0.is_running + 1) % 2 ^ 64 }
    let s2 := if stop_arrives then stop_ s1 else s1
    if s2.is_stopping then { s2 with is_running := (s2.is_running + (2 ^ 64 - 1)) % 2 ^ 64 }
    else
      let s3 :=
        if cycles % (CYCLE_LENGTH * GC_PER_FLATTEN) = 0 then flatten_ index rtid_inf s2 else s2
      let s4 := collect_ index rtid_inf s3
      { s4 with is_running := (s4.is_running + (2 ^ 64 - 1)) % 2 ^ 64 }

/-- The method `collect_garbage(const size_t index)`: the result is the thread-local
counter `cycles`, a `size_t`, with the registrar.  The increment `++cycles` is evaluated
only when `enable_gc` is set. -/
def collect_garbage (index rtid_inf : Nat) (stop_arrives : Bool) (cycles : Nat) (s : State) :
    Nat × State :=
  if s.enable_gc then
    let cycles1 := (cycles + 1) % 2 ^ 64
    if cycles1 % CYCLE_LENGTH = 0 then
      (cycles1, collect_garbage_ cycles1 index rtid_inf stop_arrives s)
    else (cycles1, s)
  else (cycles, s)

/-- The arguments of one call of `collect_garbage(index)` together with what its
environment does: `index`, the value of `compute_rtid_inf()`, and whether a `stop()`
arrives inside `collect_garbage_`. -/
structure Visit where
  index : Nat
  rtid_inf : Nat
  stop_arrives : Bool
  deriving DecidableEq, Repr

/-- The calls `collect_garbage(index)` of one thread, one after another. -/
def collect_garbage_calls : List Visit → Nat → State → Nat × State
  | [], cycles, s => (cycles, s)
  | v :: rest, cycles, s =>
    collect_garbage_calls rest
      (collect_garbage v.index v.rtid_inf v.stop_arrives cycles s).1
      (collect_garbage v.index v.rtid_inf v.stop_arrives cycles s).2

/-- The registrar with garbage collection switched on by `toggle_gc(true)`. -/
def collecting : State := toggle_gc true registrar_

/-- A call `collect_garbage(0)` during which `compute_rtid_inf()` returns 5 and no `stop()`
arrives. -/
def plain_visit : Visit := { index := 0, rtid_inf := 5, stop_arrives := false }

end MvRegistry

/-! ## The single-element box (`SingleElem.hh`) -/

/-- Modelled from the spec: the version functions of `VersionFunctions.hh`, which is not
among the sources, on a version word whose lock bit is bit 0. -/
def VersionFunctions.lock_bit : Nat := 1

/-- Modelled from the spec: `is_locked(v)` tests the lock bit. -/
def VersionFunctions.is_locked (v : Nat) : Bool := v &&& VersionFunctions.lock_bit != 0

/-- Modelled from the spec: `versionCheck(v1, v2)` holds when the two words agree apart
from the lock bit, `(v1 XOR v2) <= lock_bit`. -/
def VersionFunctions.versionCheck (v1 v2 : Nat) : Bool :=
  decide (v1 ^^^ v2 ≤ VersionFunctions.lock_bit)

/-- The member `s_` of a `SingleElem<int>`: the value with its version word. -/
structure SingleElem where
  value : Int
  version : Nat
  deriving DecidableEq, Repr

/-- The method `SingleElem::check`; the read version of the item is the version
`transRead` stored with `add_read`. -/
def SingleElem.check (e : SingleElem) (item : TransItem) : Bool :=
  VersionFunctions.versionCheck e.version item.read_value &&
    (!VersionFunctions.is_locked e.version || item.has_write)

/-! ## The predicate counter (`ex-counter.cc`) -/

namespace TCounter3

/-- The value of an `int` expression whose mathematical value is `z`, in two's
complement. -/
def to_int (z : Int) : Int := (z + 2 ^ 31) % 2 ^ 32 - 2 ^ 31

/-- The struct `precord`. -/
structure precord where
  value : Int
  gt : Bool
  deriving DecidableEq, Repr

/-- Modelled from the spec: the transaction item of the counter with its write payload and
its predicate payload (`TransItem.hh` is not among the sources). -/
structure Item where
  has_write : Bool := false
  write_value : Int := 0
  has_predicate : Bool := false
  predicate_value : precord := ⟨0, false⟩
  deriving DecidableEq, Repr

/-- Modelled from the spec: `set_predicate` attaches the predicate payload. -/
def Item.set_predicate (it : Item) (p : precord) : Item :=
  { it with has_predicate := true, predicate_value := p }

/-- The members `n_` and `v_` of a `TCounter3`. -/
structure Counter where
  n_ : Int
  v_ : Nat
  deriving DecidableEq, Repr

/-- The helper `wval`: `it.write_value<int>(0)`, the pending delta, zero without a
write. -/
def wval (it : Item) : Int := if it.has_write then it.write_value else 0

/-- Modelled from the spec: `n_.wait_snapshot(item, v_, committing)` returns the value of
the counter once the version word allows a consistent read (`TWrapped.hh` is not among
the sources). -/
def wait_snapshot (c : Counter) : Int := c.n_

/-- The method `TCounter3::test`; `none` when the assertion `!it.has_predicate()`
fails. -/
def test (c : Counter) (it : Item) : Option (Bool × Item) :=
  if it.has_predicate then none
  else
    let n := wait_snapshot c
    let gt := decide (to_int (n + wval it) > 0)
    some (gt, it.set_predicate ⟨to_int (-(wval it)), gt⟩)

/-- The method `TCounter3::check_predicate`. -/
def check_predicate (c : Counter) (item : Item) : Bool :=
  let pred := item.predicate_value
  let n := wait_snapshot c
  decide (n > pred.value) == pred.gt

end TCounter3

/-! ## Version-word arithmetic -/

theorem bit_split (v : Nat) : v = Nat.bit (decide (v % 2 = 1)) (v / 2) := by
  rw [Nat.bit_val]
  by_cases h : v % 2 = 1 <;> simp [h] <;> omega

theorem or_one_eq (v : Nat) : v ||| 1 = 2 * (v / 2) + 1 := by
  have h1 : (1 : Nat) = Nat.bit true 0 := by simp [Nat.bit_val]
  conv_lhs => rw [bit_split v, h1, Nat.lor_bit]
  simp [Nat.bit_val]

theorem and_two_eq (v : Nat) : v &&& 2 = 2 * (v / 2 % 2) := by
  have h1 : (2 : Nat) = Nat.bit false 1 := by simp [Nat.bit_val]
  conv_lhs => rw [bit_split v, h1, Nat.land_bit]
  simp [Nat.bit_val]

theorem and_mask_one_eq (v : Nat) : v &&& (2 ^ 64 - 1 - 1) = 2 * (v % 2 ^ 64 / 2) := by
  have h1 : (2 ^ 64 - 1 - 1 : Nat) = Nat.bit false (2 ^ 63 - 1) := by simp [Nat.bit_val]
  conv_lhs => rw [bit_split v, h1, Nat.land_bit]
  rw [Nat.and_pow_two_sub_one_eq_mod]
  simp [Nat.bit_val]
  omega

theorem and_mask_two_eq (v : Nat) : v &&& (2 ^ 64 - 1 - 2) = v % 2 ^ 64 - 2 * (v / 2 % 2) := by
  have h1 : (2 ^ 64 - 1 - 2 : Nat) = Nat.bit true (Nat.bit false (2 ^ 62 - 1)) := by
    simp [Nat.bit_val]
  conv_lhs => rw [bit_split v, bit_split (v / 2), h1, Nat.land_bit, Nat.land_bit]
  rw [Nat.and_pow_two_sub_one_eq_mod]
  simp only [Nat.bit_val, Bool.and_true, Bool.and_false, Bool.toNat_false]
  by_cases h : v % 2 = 1 <;> simp [h] <;> omega

theorem xor_le_one_iff (a b : Nat) : a ^^^ b ≤ 1 ↔ a / 2 = b / 2 := by
  conv_lhs => rw [bit_split a, bit_split b, Nat.xor_bit]
  rw [Nat.bit_val]
  constructor
  · intro h
    have : a / 2 ^^^ b / 2 = 0 := by omega
    exact Nat.xor_eq_zero.mp this
  · intro h
    rw [h, Nat.xor_self]
    cases (decide (a % 2 = 1) != decide (b % 2 = 1)) <;> simp

theorem lock_eq (v : Nat) : TransactionTid.lock v = 2 * (v / 2) + 1 := by
  simp [TransactionTid.lock, TransactionTid.lock_bit, or_one_eq]

theorem unlock_eq (v : Nat) : TransactionTid.unlock v = 2 * (v % 2 ^ 64 / 2) := by
  simp only [TransactionTid.unlock, TransactionTid.lock_bit, TransactionTid.word, and_mask_one_eq]

theorem is_locked_eq (v : Nat) : TransactionTid.is_locked v = decide (v % 2 = 1) := by
  rcases Nat.mod_two_eq_zero_or_one v with h | h <;>
    simp [TransactionTid.is_locked, TransactionTid.lock_bit, Nat.and_one_is_mod, h]

theorem is_inserted_eq (v : Nat) : RBTree.is_inserted v = decide (v / 2 % 2 = 1) := by
  simp only [RBTree.is_inserted, RBTree.insert_bit, TransactionTid.user_bit1, and_two_eq]
  by_cases h : v / 2 % 2 = 1 <;> simp [h]
  omega

theorem erase_inserted_eq (v : Nat) :
    RBTree.erase_inserted v = v % 2 ^ 64 - 2 * (v / 2 % 2) := by
  simp only [RBTree.erase_inserted, RBTree.insert_bit, TransactionTid.user_bit1,
    TransactionTid.word, and_mask_two_eq]

theorem inc_invalid_version_eq (v : Nat) :
    TransactionTid.inc_invalid_version v = (v + 8) % 2 ^ 64 := by
  simp [TransactionTid.inc_invalid_version, TransactionTid.increment_value, TransactionTid.word]

/-! ## Item lemmas -/

@[simp] theorem RBTree.has_insert_eq (it : TransItem) : RBTree.has_insert it = it.user0 := rfl

@[simp] theorem RBTree.has_delete_eq (it : TransItem) : RBTree.has_delete it = it.user1 := rfl

@[simp] theorem TransItem.add_read_user0 (it : TransItem) (v : Nat) :
    (it.add_read v).user0 = it.user0 := by unfold TransItem.add_read; split <;> rfl

@[simp] theorem TransItem.add_read_user1 (it : TransItem) (v : Nat) :
    (it.add_read v).user1 = it.user1 := by unfold TransItem.add_read; split <;> rfl

@[simp] theorem TransItem.add_read_has_write (it : TransItem) (v : Nat) :
    (it.add_read v).has_write = it.has_write := by unfold TransItem.add_read; split <;> rfl

@[simp] theorem TransItem.add_read_write_value (it : TransItem) (v : Nat) :
    (it.add_read v).write_value = it.write_value := by unfold TransItem.add_read; split <;> rfl

@[simp] theorem TransItem.add_read_has_lock (it : TransItem) (v : Nat) :
    (it.add_read v).has_lock = it.has_lock := by unfold TransItem.add_read; split <;> rfl

@[simp] theorem TransItem.add_read_has_read (it : TransItem) (v : Nat) :
    (it.add_read v).has_read = true := by
  unfold TransItem.add_read; split
  · assumption
  · rfl

theorem TransItem.add_read_read_value (it : TransItem) (v : Nat) :
    (it.add_read v).read_value = if it.has_read = true then it.read_value else v := by
  unfold TransItem.add_read; split <;> rfl

theorem TransItem.add_read_of_has_read (it : TransItem) (v : Nat) (h : it.has_read = true) :
    it.add_read v = it := by
  unfold TransItem.add_read; simp [h]

@[simp] theorem TransItem.add_write_user0 (it : TransItem) (w : Int) :
    (it.add_write w).user0 = it.user0 := rfl

@[simp] theorem TransItem.add_write_user1 (it : TransItem) (w : Int) :
    (it.add_write w).user1 = it.user1 := rfl

@[simp] theorem TransItem.add_write_has_write (it : TransItem) (w : Int) :
    (it.add_write w).has_write = true := rfl

@[simp] theorem TransItem.add_write_write_value (it : TransItem) (w : Int) :
    (it.add_write w).write_value = w := rfl

@[simp] theorem TransItem.add_write_has_read (it : TransItem) (w : Int) :
    (it.add_write w).has_read = it.has_read := rfl

@[simp] theorem TransItem.add_write_read_value (it : TransItem) (w : Int) :
    (it.add_write w).read_value = it.read_value := rfl

@[simp] theorem TransItem.add_write_has_lock (it : TransItem) (w : Int) :
    (it.add_write w).has_lock = it.has_lock := rfl

@[simp] theorem TransItem.add_insert_tag (it : TransItem) :
    it.add_flags RBTree.insert_tag = { it with user0 := true } := rfl

@[simp] theorem TransItem.add_delete_tag (it : TransItem) :
    it.add_flags RBTree.delete_tag = { it with user1 := true } := rfl

@[simp] theorem TransItem.clear_insert_tag (it : TransItem) :
    it.clear_flags RBTree.insert_tag = { it with user0 := false } := rfl

@[simp] theorem TransItem.clear_delete_tag (it : TransItem) :
    it.clear_flags RBTree.delete_tag = { it with user1 := false } := rfl

@[simp] theorem TransItem.update_read_user0 (it : TransItem) (a b : Nat) :
    (it.update_read a b).user0 = it.user0 := by unfold TransItem.update_read; split <;> rfl

@[simp] theorem TransItem.update_read_user1 (it : TransItem) (a b : Nat) :
    (it.update_read a b).user1 = it.user1 := by unfold TransItem.update_read; split <;> rfl

@[simp] theorem TransItem.update_read_has_write (it : TransItem) (a b : Nat) :
    (it.update_read a b).has_write = it.has_write := by
  unfold TransItem.update_read; split <;> rfl

@[simp] theorem TransItem.update_read_write_value (it : TransItem) (a b : Nat) :
    (it.update_read a b).write_value = it.write_value := by
  unfold TransItem.update_read; split <;> rfl

@[simp] theorem TransItem.update_read_has_read (it : TransItem) (a b : Nat) :
    (it.update_read a b).has_read = it.has_read := by
  unfold TransItem.update_read; split <;> rfl

@[simp] theorem TransItem.update_read_has_lock (it : TransItem) (a b : Nat) :
    (it.update_read a b).has_lock = it.has_lock := by
  unfold TransItem.update_read; split <;> rfl

theorem TransItem.update_read_read_value (it : TransItem) (a b : Nat) :
    (it.update_read a b).read_value =
      if it.has_read = true ∧ it.read_value = a then b else it.read_value := by
  unfold TransItem.update_read
  by_cases h1 : it.has_read = true <;> by_cases h2 : it.read_value = a <;> simp [h1, h2]

/-! ## Item-set lemmas -/

@[simp] theorem Transaction.items_item (tx : Transaction) (k : Nat) :
    (tx.item k).items = tx.items := by
  unfold Transaction.item; split <;> rfl

@[simp] theorem Transaction.keys_modify (tx : Transaction) (k : Nat) (f : TransItem → TransItem) :
    (tx.modify k f).keys = tx.keys := rfl

theorem Transaction.items_modify (tx : Transaction) (k j : Nat) (f : TransItem → TransItem) :
    (tx.modify k f).items j = if j = k then f (tx.items k) else tx.items j := by
  unfold Transaction.modify
  by_cases h : j = k
  · subst h; simp
  · simp [h, Function.update_noteq]

@[simp] theorem Transaction.items_modify_same (tx : Transaction) (k : Nat)
    (f : TransItem → TransItem) : (tx.modify k f).items k = f (tx.items k) := by
  simp [Transaction.items_modify]

theorem Transaction.items_modify_ne (tx : Transaction) (k j : Nat)
    (f : TransItem → TransItem) (h : j ≠ k) : (tx.modify k f).items j = tx.items j := by
  simp [Transaction.items_modify, h]

theorem Transaction.mem_keys_item (tx : Transaction) (k j : Nat) :
    j ∈ (tx.item k).keys ↔ j = k ∨ j ∈ tx.keys := by
  unfold Transaction.item
  by_cases h : k ∈ tx.keys
  · simp only [h, if_true]
    constructor
    · intro hj; exact Or.inr hj
    · rintro (rfl | hj)
      · exact h
      · exact hj
  · simp only [h, if_false, List.mem_append, List.mem_singleton]
    tauto

theorem Transaction.item_of_mem (tx : Transaction) (k : Nat) (h : k ∈ tx.keys) :
    tx.item k = tx := by
  unfold Transaction.item; simp [h]

theorem Transaction.modify_id (tx : Transaction) (k : Nat) (f : TransItem → TransItem)
    (h : f (tx.items k) = tx.items k) : tx.modify k f = tx := by
  unfold Transaction.modify
  rw [h, Function.update_eq_self]

/-! ## Fields left alone by the tree lock -/

@[simp] theorem RBTree.version_lock_tree (t : RBTree) : t.lock_tree.version = t.version := rfl

@[simp] theorem RBTree.version_unlock_tree (t : RBTree) : t.unlock_tree.version = t.version := rfl

@[simp] theorem RBTree.key_lock_tree (t : RBTree) : t.lock_tree.key = t.key := rfl

@[simp] theorem RBTree.key_unlock_tree (t : RBTree) : t.unlock_tree.key = t.key := rfl

@[simp] theorem RBTree.value_lock_tree (t : RBTree) : t.lock_tree.value = t.value := rfl

@[simp] theorem RBTree.value_unlock_tree (t : RBTree) : t.unlock_tree.value = t.value := rfl

@[simp] theorem RBTree.tree_lock_tree (t : RBTree) :
    t.lock_tree.wrapper_tree_ = t.wrapper_tree_ := rfl

@[simp] theorem RBTree.tree_unlock_tree (t : RBTree) :
    t.unlock_tree.wrapper_tree_ = t.wrapper_tree_ := rfl

@[simp] theorem RBTree.nodeversion_lock_tree (t : RBTree) :
    t.lock_tree.nodeversion = t.nodeversion := rfl

@[simp] theorem RBTree.nodeversion_unlock_tree (t : RBTree) :
    t.unlock_tree.nodeversion = t.nodeversion := rfl

@[simp] theorem RBTree.treeversion_lock_tree (t : RBTree) :
    t.lock_tree.treeversion_ = t.treeversion_ := rfl

@[simp] theorem RBTree.treeversion_unlock_tree (t : RBTree) :
    t.unlock_tree.treeversion_ = t.treeversion_ := rfl

@[simp] theorem RBTree.sizeversion_lock_tree (t : RBTree) :
    t.lock_tree.sizeversion_ = t.sizeversion_ := rfl

@[simp] theorem RBTree.sizeversion_unlock_tree (t : RBTree) :
    t.unlock_tree.sizeversion_ = t.sizeversion_ := rfl

@[simp] theorem RBTree.size_lock_tree (t : RBTree) : t.lock_tree.size_ = t.size_ := rfl

@[simp] theorem RBTree.size_unlock_tree (t : RBTree) : t.unlock_tree.size_ = t.size_ := rfl

@[simp] theorem RBTree.heap_top_lock_tree (t : RBTree) : t.lock_tree.heap_top = t.heap_top := rfl

@[simp] theorem RBTree.heap_top_unlock_tree (t : RBTree) :
    t.unlock_tree.heap_top = t.heap_top := rfl

@[simp] theorem RBTree.find_any_set_value (t : RBTree) (n : Nat) (v : Int) (k : Int) :
    (t.set_value n v).find_any k = t.find_any k := rfl

@[simp] theorem RBTree.find_any_set_version (t : RBTree) (n : Nat) (v : Nat) (k : Int) :
    (t.set_version n v).find_any k = t.find_any k := rfl

@[simp] theorem RBTree.version_set_value (t : RBTree) (n : Nat) (v : Int) :
    (t.set_value n v).version = t.version := rfl

@[simp] theorem RBTree.version_set_version (t : RBTree) (n : Nat) (v : Nat) :
    (t.set_version n v).version = Function.update t.version n v := rfl

@[simp] theorem RBTree.value_set_value (t : RBTree) (n : Nat) (v : Int) :
    (t.set_value n v).value = Function.update t.value n v := rfl

@[simp] theorem RBTree.value_set_version (t : RBTree) (n : Nat) (v : Nat) :
    (t.set_version n v).value = t.value := rfl

@[simp] theorem RBTree.key_set_value (t : RBTree) (n : Nat) (v : Int) :
    (t.set_value n v).key = t.key := rfl

@[simp] theorem RBTree.key_set_version (t : RBTree) (n : Nat) (v : Nat) :
    (t.set_version n v).key = t.key := rfl

@[simp] theorem RBTree.tree_set_value (t : RBTree) (n : Nat) (v : Int) :
    (t.set_value n v).wrapper_tree_ = t.wrapper_tree_ := rfl

@[simp] theorem RBTree.tree_set_version (t : RBTree) (n : Nat) (v : Nat) :
    (t.set_version n v).wrapper_tree_ = t.wrapper_tree_ := rfl

@[simp] theorem RBTree.nodeversion_set_value (t : RBTree) (n : Nat) (v : Int) :
    (t.set_value n v).nodeversion = t.nodeversion := rfl

@[simp] theorem RBTree.nodeversion_set_version (t : RBTree) (n : Nat) (v : Nat) :
    (t.set_version n v).nodeversion = t.nodeversion := rfl

@[simp] theorem RBTree.heap_top_set_value (t : RBTree) (n : Nat) (v : Int) :
    (t.set_value n v).heap_top = t.heap_top := rfl

@[simp] theorem RBTree.heap_top_set_version (t : RBTree) (n : Nat) (v : Nat) :
    (t.set_version n v).heap_top = t.heap_top := rfl

@[simp] theorem RBTree.size_set_value (t : RBTree) (n : Nat) (v : Int) :
    (t.set_value n v).size_ = t.size_ := rfl

@[simp] theorem RBTree.size_set_version (t : RBTree) (n : Nat) (v : Nat) :
    (t.set_version n v).size_ = t.size_ := rfl

@[simp] theorem RBTree.sizeversion_set_value (t : RBTree) (n : Nat) (v : Int) :
    (t.set_value n v).sizeversion_ = t.sizeversion_ := rfl

@[simp] theorem RBTree.sizeversion_set_version (t : RBTree) (n : Nat) (v : Nat) :
    (t.set_version n v).sizeversion_ = t.sizeversion_ := rfl

@[simp] theorem RBTree.treeversion_set_value (t : RBTree) (n : Nat) (v : Int) :
    (t.set_value n v).treeversion_ = t.treeversion_ := rfl

@[simp] theorem RBTree.treeversion_set_version (t : RBTree) (n : Nat) (v : Nat) :
    (t.set_version n v).treeversion_ = t.treeversion_ := rfl

@[simp] theorem RBTree.treelock_set_value (t : RBTree) (n : Nat) (v : Int) :
    (t.set_value n v).treelock_ = t.treelock_ := rfl

@[simp] theorem RBTree.treelock_set_version (t : RBTree) (n : Nat) (v : Nat) :
    (t.set_version n v).treelock_ = t.treelock_ := rfl

@[simp] theorem RBTree.find_any_lock_tree (t : RBTree) (k : Int) :
    t.lock_tree.find_any k = t.find_any k := rfl

@[simp] theorem RBTree.find_any_unlock_tree (t : RBTree) (k : Int) :
    t.unlock_tree.find_any k = t.find_any k := rfl

/-! ## Paths of `find_or_abort` -/

theorem RBTree.foa_found_own (t : RBTree) (tx : Transaction) (k : Int) (ins : Bool)
    (hf : (t.find_any k).found = true)
    (hi : RBTree.is_inserted (t.version (t.find_any k).node) = true)
    (ho : (tx.items (t.find_any k).node).user0 = true ∨
      (tx.items (t.find_any k).node).user1 = true) :
    t.find_or_abort tx k ins =
      (some (t.find_any k), t,
        tx.item (t.find_any k).node) := by
  unfold RBTree.find_or_abort
  simp [hf, hi, ho]

theorem RBTree.foa_found_phantom (t : RBTree) (tx : Transaction) (k : Int) (ins : Bool)
    (hf : (t.find_any k).found = true)
    (hi : RBTree.is_inserted (t.version (t.find_any k).node) = true)
    (h0 : (tx.items (t.find_any k).node).user0 = false)
    (h1 : (tx.items (t.find_any k).node).user1 = false) :
    t.find_or_abort tx k ins =
      RBTree.aborted t.unlock_tree (tx.item (t.find_any k).node) := by
  unfold RBTree.find_or_abort
  simp [hf, hi, h0, h1]

theorem RBTree.foa_found_committed (t : RBTree) (tx : Transaction) (k : Int) (ins : Bool)
    (hf : (t.find_any k).found = true)
    (hi : RBTree.is_inserted (t.version (t.find_any k).node) = false) :
    t.find_or_abort tx k ins =
      (some (t.find_any k), t,
        if ins = true then tx.item (t.find_any k).node
        else (tx.item (t.find_any k).node).modify
          (t.find_any k).node
          (fun it => it.add_read (t.version (t.find_any k).node))) := by
  unfold RBTree.find_or_abort
  cases ins <;> simp [hf, hi]

theorem RBTree.foa_absent_read (t : RBTree) (tx : Transaction) (k : Int)
    (hf : (t.find_any k).found = false) :
    t.find_or_abort tx k false =
      (some (t.find_any k), t,
        t.track_boundary (t.track_boundary
          (if (t.find_any k).node = 0 then
            (tx.item RBTree.tree_key_).modify RBTree.tree_key_
              (fun it => it.add_read t.treeversion_)
           else tx) (t.find_any k).lo)
          (t.find_any k).hi) := by
  unfold RBTree.find_or_abort
  simp [hf]

theorem RBTree.foa_absent_insert (t : RBTree) (tx : Transaction) (k : Int)
    (hf : (t.find_any k).found = false)
    (hp : (t.find_any k).node ≠ 0 →
      RBTree.is_inserted (t.version (t.find_any k).node) = true →
      (tx.items (t.find_any k).node).user0 = true ∨
      (tx.items (t.find_any k).node).user1 = true) :
    t.find_or_abort tx k true =
      (some (t.find_any k), t,
        if (t.find_any k).node = 0 then tx
        else tx.item (t.find_any k).node) := by
  unfold RBTree.find_or_abort RBTree.is_phantom_node
  by_cases hx : (t.find_any k).node = 0
  · simp [hf, hx]
  · by_cases hi : RBTree.is_inserted (t.version (t.find_any k).node) = true
    · rcases hp hx hi with h | h <;> simp [hf, hx, hi, h]
    · simp [hf, hx, hi]

theorem RBTree.foa_absent_insert_phantom (t : RBTree) (tx : Transaction) (k : Int)
    (hf : (t.find_any k).found = false)
    (hx : (t.find_any k).node ≠ 0)
    (hi : RBTree.is_inserted (t.version (t.find_any k).node) = true)
    (h0 : (tx.items (t.find_any k).node).user0 = false)
    (h1 : (tx.items (t.find_any k).node).user1 = false) :
    t.find_or_abort tx k true =
      RBTree.aborted t.unlock_tree (tx.item (t.find_any k).node) := by
  unfold RBTree.find_or_abort RBTree.is_phantom_node
  simp [hf, hx, hi, h0, h1]

/-! ## Search in the internal tree -/

theorem rbtree.sorted_node {key : Nat → Int} {l r : rbtree} {x : Nat}
    (h : (rbtree.node l x r).toList.Pairwise (fun a b => key a < key b)) :
    l.toList.Pairwise (fun a b => key a < key b) ∧
    r.toList.Pairwise (fun a b => key a < key b) ∧
    (∀ a ∈ l.toList, key a < key x) ∧ (∀ b ∈ r.toList, key x < key b) := by
  simp only [rbtree.toList, List.pairwise_append, List.pairwise_cons, List.mem_cons] at h
  obtain ⟨hl, ⟨hx, hr⟩, hlr⟩ := h
  exact ⟨hl, hr, fun a ha => hlr a ha x (Or.inl rfl), hx⟩

theorem rbtree.find_any_found (key : Nat → Int) (k : Int) :
    ∀ (tr : rbtree) (p lo hi : Nat), (rbtree.find_any key k tr p lo hi).found = true →
      (rbtree.find_any key k tr p lo hi).node ∈ tr.toList ∧
      key (rbtree.find_any key k tr p lo hi).node = k := by
  intro tr
  induction tr with
  | nil => intro p lo hi h; simp [rbtree.find_any] at h
  | node l x r ihl ihr =>
    intro p lo hi h
    unfold rbtree.find_any at h ⊢
    by_cases h1 : k < key x
    · simp only [h1, if_true] at h ⊢
      have := ihl x lo x h
      exact ⟨by simp [rbtree.toList, this.1], this.2⟩
    · by_cases h2 : key x < k
      · simp only [h1, h2, if_true, if_false] at h ⊢
        have := ihr x x hi h
        exact ⟨by simp [rbtree.toList, this.1], this.2⟩
      · simp only [h1, h2, if_false]
        exact ⟨by simp [rbtree.toList], by omega⟩

theorem rbtree.find_any_of_mem (key : Nat → Int) (k : Int) :
    ∀ (tr : rbtree) (p lo hi n : Nat), tr.toList.Pairwise (fun a b => key a < key b) →
      n ∈ tr.toList → key n = k →
      (rbtree.find_any key k tr p lo hi).found = true ∧
      (rbtree.find_any key k tr p lo hi).node = n := by
  intro tr
  induction tr with
  | nil => intro p lo hi n _ hn; simp [rbtree.toList] at hn
  | node l x r ihl ihr =>
    intro p lo hi n hs hn hk
    obtain ⟨hl, hr, hlx, hxr⟩ := rbtree.sorted_node hs
    simp only [rbtree.toList, List.mem_append, List.mem_cons] at hn
    unfold rbtree.find_any
    rcases hn with hn | hn | hn
    · have : k < key x := hk ▸ hlx n hn
      simp only [this, if_true]
      exact ihl x lo x n hl hn hk
    · subst hn
      have h1 : ¬ k < key n := by omega
      have h2 : ¬ key n < k := by omega
      simp [h1, h2]
    · have h2 : key x < k := hk ▸ hxr n hn
      have h1 : ¬ k < key x := by omega
      simp only [h1, h2, if_true, if_false]
      exact ihr x x hi n hr hn hk

theorem rbtree.find_any_absent (key : Nat → Int) (k : Int) (tr : rbtree) (p lo hi : Nat)
    (hs : tr.toList.Pairwise (fun a b => key a < key b))
    (hf : (rbtree.find_any key k tr p lo hi).found = false) :
    ∀ n ∈ tr.toList, key n ≠ k := by
  intro n hn hk
  have := (rbtree.find_any_of_mem key k tr p lo hi n hs hn hk).1
  rw [hf] at this
  exact Bool.noConfusion this

/-- When the key is absent the node returned is the parent of the empty slot: it is the
starting parent for the empty tree and a node of the tree otherwise. -/
theorem rbtree.find_any_parent (key : Nat → Int) (k : Int) :
    ∀ (tr : rbtree) (p lo hi : Nat), (rbtree.find_any key k tr p lo hi).found = false →
      (tr = rbtree.nil ∧ (rbtree.find_any key k tr p lo hi).node = p) ∨
      (rbtree.find_any key k tr p lo hi).node ∈ tr.toList := by
  intro tr
  induction tr with
  | nil => intro p lo hi _; left; simp [rbtree.find_any]
  | node l x r ihl ihr =>
    intro p lo hi h
    right
    unfold rbtree.find_any at h ⊢
    by_cases h1 : k < key x
    · simp only [h1, if_true] at h ⊢
      rcases ihl x lo x h with ⟨_, hp⟩ | hm
      · rw [hp]; simp [rbtree.toList]
      · simp [rbtree.toList, hm]
    · by_cases h2 : key x < k
      · simp only [h1, h2, if_true, if_false] at h ⊢
        rcases ihr x x hi h with ⟨_, hp⟩ | hm
        · rw [hp]; simp [rbtree.toList]
        · simp [rbtree.toList, hm]
      · simp [h1, h2] at h

/-- The boundary nodes returned are the starting boundaries or nodes of the tree. -/
theorem rbtree.find_any_boundary_mem (key : Nat → Int) (k : Int) :
    ∀ (tr : rbtree) (p lo hi : Nat),
      ((rbtree.find_any key k tr p lo hi).lo = lo ∨
        (rbtree.find_any key k tr p lo hi).lo ∈ tr.toList) ∧
      ((rbtree.find_any key k tr p lo hi).hi = hi ∨
        (rbtree.find_any key k tr p lo hi).hi ∈ tr.toList) := by
  intro tr
  induction tr with
  | nil => intro p lo hi; simp [rbtree.find_any]
  | node l x r ihl ihr =>
    intro p lo hi
    unfold rbtree.find_any
    by_cases h1 : k < key x
    · simp only [h1, if_true]
      have := ihl x lo x
      constructor
      · rcases this.1 with e | m
        · exact Or.inl e
        · right; simp [rbtree.toList, m]
      · rcases this.2 with e | m
        · right; rw [e]; simp [rbtree.toList]
        · right; simp [rbtree.toList, m]
    · by_cases h2 : key x < k
      · simp only [h1, h2, if_true, if_false]
        have := ihr x x hi
        constructor
        · rcases this.1 with e | m
          · right; rw [e]; simp [rbtree.toList]
          · right; simp [rbtree.toList, m]
        · rcases this.2 with e | m
          · exact Or.inl e
          · right; simp [rbtree.toList, m]
      · simp [h1, h2]

/-- The boundary nodes returned for an absent key enclose it, and the parent is one of
the two boundaries. -/
theorem rbtree.find_any_boundary (key : Nat → Int) (k : Int) :
    ∀ (tr : rbtree) (p lo hi : Nat),
      (rbtree.find_any key k tr p lo hi).found = false →
      (lo ≠ 0 → key lo < k) → (hi ≠ 0 → k < key hi) → (p = lo ∨ p = hi) →
      ((rbtree.find_any key k tr p lo hi).lo ≠ 0 →
          key (rbtree.find_any key k tr p lo hi).lo < k) ∧
      ((rbtree.find_any key k tr p lo hi).hi ≠ 0 →
          k < key (rbtree.find_any key k tr p lo hi).hi) ∧
      ((rbtree.find_any key k tr p lo hi).node = (rbtree.find_any key k tr p lo hi).lo ∨
        (rbtree.find_any key k tr p lo hi).node = (rbtree.find_any key k tr p lo hi).hi) := by
  intro tr
  induction tr with
  | nil => intro p lo hi _ hlo hhi hp; simp [rbtree.find_any]; exact ⟨hlo, hhi, hp⟩
  | node l x r ihl ihr =>
    intro p lo hi h hlo hhi hp
    unfold rbtree.find_any at h ⊢
    by_cases h1 : k < key x
    · simp only [h1, if_true] at h ⊢
      exact ihl x lo x h hlo (fun _ => h1) (Or.inr rfl)
    · by_cases h2 : key x < k
      · simp only [h1, h2, if_true, if_false] at h ⊢
        exact ihr x x hi h (fun _ => h2) hhi (Or.inl rfl)
      · simp [h1, h2] at h

/-- Two absent keys of the same gap are searched along the same path. -/
theorem rbtree.find_any_gap (key : Nat → Int) (k m : Int) :
    ∀ (tr : rbtree) (p lo hi : Nat), tr.toList.Pairwise (fun a b => key a < key b) →
      (∀ n ∈ tr.toList, n ≠ 0) →
      (rbtree.find_any key k tr p lo hi).found = false →
      ((rbtree.find_any key k tr p lo hi).lo ≠ 0 →
          key (rbtree.find_any key k tr p lo hi).lo < m) →
      ((rbtree.find_any key k tr p lo hi).hi ≠ 0 →
          m < key (rbtree.find_any key k tr p lo hi).hi) →
      rbtree.find_any key m tr p lo hi = rbtree.find_any key k tr p lo hi := by
  intro tr
  induction tr with
  | nil => intro p lo hi _ _ _ _ _; simp [rbtree.find_any]
  | node l x r ihl ihr =>
    intro p lo hi hs hnz h hlo hhi
    obtain ⟨hl, hr, hlx, hxr⟩ := rbtree.sorted_node hs
    have hxz : x ≠ 0 := hnz x (by simp [rbtree.toList])
    have hnzl : ∀ n ∈ l.toList, n ≠ 0 := fun n hn => hnz n (by simp [rbtree.toList, hn])
    have hnzr : ∀ n ∈ r.toList, n ≠ 0 := fun n hn => hnz n (by simp [rbtree.toList, hn])
    unfold rbtree.find_any at h hlo hhi ⊢
    by_cases h1 : k < key x
    · simp only [h1, if_true] at h hlo hhi ⊢
      have hm : m < key x := by
        rcases (rbtree.find_any_boundary_mem key k l x lo x).2 with e | mem
        · rw [e] at hhi; exact hhi hxz
        · have := hhi (hnzl _ mem)
          have := hlx _ mem
          omega
      simp only [hm, if_true]
      exact ihl x lo x hl hnzl h hlo hhi
    · by_cases h2 : key x < k
      · simp only [h1, h2, if_true, if_false] at h hlo hhi ⊢
        have hm : key x < m := by
          rcases (rbtree.find_any_boundary_mem key k r x x hi).1 with e | mem
          · rw [e] at hlo; exact hlo hxz
          · have := hlo (hnzr _ mem)
            have := hxr _ mem
            omega
        have hm1 : ¬ m < key x := by omega
        simp only [hm, hm1, if_true, if_false]
        exact ihr x x hi hr hnzr h hlo hhi
      · simp [h1, h2] at h

/-! ## Splicing nodes in and out -/

theorem rbtree.link_of_not_mem (n p : Nat) (side : Bool) :
    ∀ tr : rbtree, p ∉ tr.toList → rbtree.link n p side tr = tr := by
  intro tr
  induction tr with
  | nil => intro _; rfl
  | node l x r ihl ihr =>
    intro h
    simp only [rbtree.toList, List.mem_append, List.mem_cons, not_or] at h
    have hx : x ≠ p := fun e => h.2.1 e.symm
    simp [rbtree.link, hx, ihl h.1, ihr h.2.2]

/-- Linking the fresh node under the parent that `find_any` returned puts it at its place
in the in-order sequence. -/
theorem rbtree.link_toList (key : Nat → Int) (k : Int) (n : Nat) :
    ∀ (tr : rbtree) (p lo hi : Nat), tr.toList.Pairwise (fun a b => key a < key b) →
      (rbtree.find_any key k tr p lo hi).found = false →
      (rbtree.find_any key k tr p lo hi).node ∈ tr.toList →
      ∃ l1 l2, tr.toList = l1 ++ l2 ∧
        (rbtree.link n (rbtree.find_any key k tr p lo hi).node
          (decide (k > key (rbtree.find_any key k tr p lo hi).node)) tr).toList = l1 ++ n :: l2 ∧
        (∀ a ∈ l1, key a < k) ∧ (∀ b ∈ l2, k < key b) := by
  intro tr
  induction tr with
  | nil => intro p lo hi _ _ hm; simp [rbtree.toList] at hm
  | node l x r ihl ihr =>
    intro p lo hi hs h _
    obtain ⟨hl, hr, hlx, hxr⟩ := rbtree.sorted_node hs
    unfold rbtree.find_any at h ⊢
    by_cases h1 : k < key x
    · simp only [h1, if_true] at h ⊢
      rcases rbtree.find_any_parent key k l x lo x h with ⟨hnil, hp⟩ | hm
      · subst hnil
        rw [hp]
        have hside : ¬ (k > key x) := by omega
        refine ⟨[], x :: r.toList, by simp [rbtree.toList], ?_, by simp, ?_⟩
        · simp [rbtree.link, hside, rbtree.toList]
        · intro b hb
          simp only [List.mem_cons] at hb
          rcases hb with rfl | hb
          · exact h1
          · have := hxr b hb; omega
      · obtain ⟨l1, l2, e1, e2, o1, o2⟩ := ihl x lo x hl h hm
        have hne : x ≠ (rbtree.find_any key k l x lo x).node := by
          intro e; have := hlx _ hm; rw [← e] at this; omega
        have hnr : (rbtree.find_any key k l x lo x).node ∉ r.toList := by
          intro hmr; have := hlx _ hm; have := hxr _ hmr; omega
        refine ⟨l1, l2 ++ x :: r.toList, by simp [rbtree.toList, e1], ?_, o1, ?_⟩
        · simp only [rbtree.link, hne, if_false, rbtree.toList, e2,
            rbtree.link_of_not_mem _ _ _ r hnr]
          simp
        · intro b hb
          simp only [List.mem_append, List.mem_cons] at hb
          rcases hb with hb | rfl | hb
          · exact o2 b hb
          · exact h1
          · have := hxr b hb; omega
    · by_cases h2 : key x < k
      · simp only [h1, h2, if_true, if_false] at h ⊢
        rcases rbtree.find_any_parent key k r x x hi h with ⟨hnil, hp⟩ | hm
        · subst hnil
          rw [hp]
          have hside : k > key x := h2
          refine ⟨l.toList ++ [x], [], by simp [rbtree.toList], ?_, ?_, by simp⟩
          · simp [rbtree.link, hside, rbtree.toList]
          · intro a ha
            simp only [List.mem_append, List.mem_singleton] at ha
            rcases ha with ha | rfl
            · have := hlx a ha; omega
            · exact h2
        · obtain ⟨l1, l2, e1, e2, o1, o2⟩ := ihr x x hi hr h hm
          have hne : x ≠ (rbtree.find_any key k r x x hi).node := by
            intro e; have := hxr _ hm; rw [← e] at this; omega
          have hnl : (rbtree.find_any key k r x x hi).node ∉ l.toList := by
            intro hml; have := hxr _ hm; have := hlx _ hml; omega
          refine ⟨l.toList ++ x :: l1, l2, by simp [rbtree.toList, e1], ?_, ?_, o2⟩
          · simp only [rbtree.link, hne, if_false, rbtree.toList, e2,
              rbtree.link_of_not_mem _ _ _ l hnl]
            simp
          · intro a ha
            simp only [List.mem_append, List.mem_cons] at ha
            rcases ha with ha | rfl | ha
            · have := hlx a ha; omega
            · exact h2
            · exact o1 a ha
      · simp [h1, h2] at h

theorem rbtree.min_cons_delete_min :
    ∀ r : rbtree, r ≠ rbtree.nil → r.toList = r.min :: r.delete_min.toList := by
  intro r
  induction r with
  | nil => intro h; exact absurd rfl h
  | node l x r ihl _ =>
    intro _
    cases l with
    | nil => simp [rbtree.toList, rbtree.min, rbtree.delete_min]
    | node a y b =>
      have := ihl (by simp)
      simp only [rbtree.min, rbtree.delete_min]
      rw [rbtree.toList, this]
      simp [rbtree.toList]

theorem rbtree.toList_join (l r : rbtree) : (rbtree.join l r).toList = l.toList ++ r.toList := by
  cases l with
  | nil => simp [rbtree.join, rbtree.toList]
  | node a x b =>
    cases r with
    | nil => simp [rbtree.join, rbtree.toList]
    | node c y d =>
      simp only [rbtree.join]
      rw [rbtree.toList, ← rbtree.min_cons_delete_min _ (by simp)]

/-- Erasing a node removes exactly its address from the in-order sequence. -/
theorem rbtree.toList_erase (key : Nat → Int) (e : Nat) :
    ∀ tr : rbtree, tr.toList.Pairwise (fun a b => key a < key b) →
      (rbtree.erase e tr).toList = tr.toList.filter (fun a => decide (a ≠ e)) := by
  intro tr
  induction tr with
  | nil => intro _; rfl
  | node l x r ihl ihr =>
    intro hs
    obtain ⟨hl, hr, hlx, hxr⟩ := rbtree.sorted_node hs
    unfold rbtree.erase
    by_cases hx : x = e
    · subst hx
      have h1 : l.toList.filter (fun a => decide (a ≠ x)) = l.toList := by
        rw [List.filter_eq_self]
        intro a ha
        have := hlx a ha
        simp only [decide_eq_true_eq]
        intro e; rw [e] at this; omega
      have h2 : r.toList.filter (fun a => decide (a ≠ x)) = r.toList := by
        rw [List.filter_eq_self]
        intro a ha
        have := hxr a ha
        simp only [decide_eq_true_eq]
        intro e; rw [e] at this; omega
      simp only [ne_eq, decide_not] at h1 h2
      simp [rbtree.toList_join, rbtree.toList, List.filter_append, h1, h2]
    · simp [hx, rbtree.toList, List.filter_append, ihl hl, ihr hr, List.filter_cons]

/-! ## More item-set lemmas -/

@[simp] theorem Transaction.item_item (tx : Transaction) (k : Nat) :
    (tx.item k).item k = tx.item k := by
  apply Transaction.item_of_mem
  rw [Transaction.mem_keys_item]; exact Or.inl rfl

theorem RBTree.change_size_offset_items (tx : Transaction) (d : Int) (j : Nat) :
    (RBTree.change_size_offset tx d).items j =
      if j = RBTree.size_key_ then
        (tx.items RBTree.size_key_).add_write
          ((if (tx.items RBTree.size_key_).has_write = true
            then (tx.items RBTree.size_key_).write_value else 0) + d)
      else tx.items j := by
  unfold RBTree.change_size_offset
  simp [Transaction.items_modify]

theorem RBTree.change_size_offset_items_ne (tx : Transaction) (d : Int) (j : Nat)
    (h : j ≠ RBTree.size_key_) : (RBTree.change_size_offset tx d).items j = tx.items j := by
  simp [RBTree.change_size_offset_items, h]

@[simp] theorem RBTree.change_size_offset_keys (tx : Transaction) (d : Int) :
    (RBTree.change_size_offset tx d).keys = (tx.item RBTree.size_key_).keys := rfl

theorem RBTree.track_boundary_items (t : RBTree) (tx : Transaction) (n j : Nat) :
    (t.track_boundary tx n).items j =
      if n ≠ 0 ∧ j = n ||| 1 then (tx.items j).add_read (t.nodeversion n) else tx.items j := by
  unfold RBTree.track_boundary
  by_cases hn : n = 0
  · simp [hn]
  · by_cases hj : j = n ||| 1
    · subst hj; simp [hn]
    · simp [hn, hj, Transaction.items_modify]

theorem RBTree.track_boundary_keys (t : RBTree) (tx : Transaction) (n : Nat) :
    (t.track_boundary tx n).keys = if n ≠ 0 then (tx.item (n ||| 1)).keys else tx.keys := by
  unfold RBTree.track_boundary
  by_cases hn : n = 0 <;> simp [hn]

@[simp] theorem RBTree.track_boundary_lock_tree (t : RBTree) (tx : Transaction) (n : Nat) :
    t.lock_tree.track_boundary tx n = t.track_boundary tx n := rfl

@[simp] theorem RBTree.aborted_fst {α : Type} (t : RBTree) (tx : Transaction) :
    (RBTree.aborted t tx : Option α × RBTree × Transaction).1 = none := rfl

/-! ## Paths of `count` -/

theorem RBTree.count_absent (t : RBTree) (tx : Transaction) (k : Int)
    (hf : (t.find_any k).found = false) :
    t.count tx k = (some 0, t.lock_tree.unlock_tree, (t.lock_tree.find_or_abort tx k false).2.2) := by
  have hfoa := RBTree.foa_absent_read t.lock_tree tx k (by simpa using hf)
  simp only [RBTree.find_any_lock_tree, RBTree.version_lock_tree] at hfoa
  unfold RBTree.count
  simp only [hfoa]
  simp [hf]

theorem RBTree.count_committed (t : RBTree) (tx : Transaction) (k : Int)
    (hf : (t.find_any k).found = true)
    (hi : RBTree.is_inserted (t.version (t.find_any k).node) = false) :
    t.count tx k = (some 1, t.lock_tree.unlock_tree,
      (tx.item (t.find_any k).node).modify (t.find_any k).node
        (fun it => it.add_read (t.version (t.find_any k).node))) := by
  have hfoa := RBTree.foa_found_committed t.lock_tree tx k false (by simpa using hf) (by simpa using hi)
  simp only [RBTree.find_any_lock_tree, RBTree.version_lock_tree] at hfoa
  unfold RBTree.count
  simp only [hfoa]
  simp [hf, hi, Transaction.item_of_mem, Transaction.mem_keys_item]

theorem RBTree.count_own (t : RBTree) (tx : Transaction) (k : Int)
    (hf : (t.find_any k).found = true)
    (hi : RBTree.is_inserted (t.version (t.find_any k).node) = true)
    (ho : (tx.items (t.find_any k).node).user0 = true ∨
      (tx.items (t.find_any k).node).user1 = true) :
    t.count tx k = (some (if (tx.items (t.find_any k).node).user1 = true then 0 else 1),
      t.lock_tree.unlock_tree, tx.item (t.find_any k).node) := by
  have hfoa := RBTree.foa_found_own t.lock_tree tx k false (by simpa using hf) (by simpa using hi) (by simpa using ho)
  simp only [RBTree.find_any_lock_tree, RBTree.version_lock_tree] at hfoa
  unfold RBTree.count
  simp only [hfoa]
  by_cases h1 : (tx.items (t.find_any k).node).user1 = true <;> simp [hf, hi, h1]

theorem RBTree.count_phantom (t : RBTree) (tx : Transaction) (k : Int)
    (hf : (t.find_any k).found = true)
    (hi : RBTree.is_inserted (t.version (t.find_any k).node) = true)
    (h0 : (tx.items (t.find_any k).node).user0 = false)
    (h1 : (tx.items (t.find_any k).node).user1 = false) :
    (t.count tx k).1 = none := by
  have hfoa := RBTree.foa_found_phantom t.lock_tree tx k false (by simpa using hf) (by simpa using hi)
    (by simpa using h0) (by simpa using h1)
  simp only [RBTree.find_any_lock_tree, RBTree.version_lock_tree] at hfoa
  unfold RBTree.count
  simp only [hfoa]
  rfl

/-! ## Paths of `erase` -/

theorem RBTree.erase_absent (t : RBTree) (tx : Transaction) (k : Int)
    (hf : (t.find_any k).found = false) :
    t.erase tx k = (some 0, t.lock_tree.unlock_tree, (t.lock_tree.find_or_abort tx k false).2.2) := by
  have hfoa := RBTree.foa_absent_read t.lock_tree tx k (by simpa using hf)
  simp only [RBTree.find_any_lock_tree, RBTree.version_lock_tree] at hfoa
  unfold RBTree.erase
  simp only [hfoa]
  simp [hf]

theorem RBTree.erase_committed (t : RBTree) (tx : Transaction) (k : Int)
    (hf : (t.find_any k).found = true)
    (hi : RBTree.is_inserted (t.version (t.find_any k).node) = false)
    (h1 : (tx.items (t.find_any k).node).user1 = false) :
    t.erase tx k = (some 1, t.lock_tree.unlock_tree,
      RBTree.change_size_offset
        (((tx.item (t.find_any k).node).modify (t.find_any k).node
          (fun it => it.add_read (t.version (t.find_any k).node))).modify (t.find_any k).node
          (fun it => (it.add_write 0).add_flags RBTree.delete_tag)) (-1)) := by
  have hfoa := RBTree.foa_found_committed t.lock_tree tx k false (by simpa using hf) (by simpa using hi)
  simp only [RBTree.find_any_lock_tree, RBTree.version_lock_tree] at hfoa
  unfold RBTree.erase
  simp only [hfoa]
  simp [hf, hi, h1, Transaction.item_of_mem, Transaction.mem_keys_item]

theorem RBTree.erase_deleted (t : RBTree) (tx : Transaction) (k : Int)
    (hf : (t.find_any k).found = true)
    (hi : RBTree.is_inserted (t.version (t.find_any k).node) = false)
    (h1 : (tx.items (t.find_any k).node).user1 = true) :
    t.erase tx k = (some 0, t.lock_tree.unlock_tree,
      (tx.item (t.find_any k).node).modify (t.find_any k).node
          (fun it => it.add_read (t.version (t.find_any k).node))) := by
  have hfoa := RBTree.foa_found_committed t.lock_tree tx k false (by simpa using hf) (by simpa using hi)
  simp only [RBTree.find_any_lock_tree, RBTree.version_lock_tree] at hfoa
  unfold RBTree.erase
  simp only [hfoa]
  simp [hf, hi, h1, Transaction.item_of_mem, Transaction.mem_keys_item]

theorem RBTree.erase_own_insert (t : RBTree) (tx : Transaction) (k : Int)
    (hf : (t.find_any k).found = true)
    (hi : RBTree.is_inserted (t.version (t.find_any k).node) = true)
    (h0 : (tx.items (t.find_any k).node).user0 = true) :
    t.erase tx k = (some 1, t.lock_tree.unlock_tree,
      RBTree.change_size_offset
        ((tx.item (t.find_any k).node).modify (t.find_any k).node
          (fun it => ((it.add_write 0).clear_flags RBTree.insert_tag).add_flags RBTree.delete_tag))
        (-1)) := by
  have hfoa := RBTree.foa_found_own t.lock_tree tx k false (by simpa using hf) (by simpa using hi)
    (Or.inl (by simpa using h0))
  simp only [RBTree.find_any_lock_tree, RBTree.version_lock_tree] at hfoa
  unfold RBTree.erase
  simp only [hfoa]
  simp [hf, hi, h0]

theorem RBTree.erase_own_deleted (t : RBTree) (tx : Transaction) (k : Int)
    (hf : (t.find_any k).found = true)
    (hi : RBTree.is_inserted (t.version (t.find_any k).node) = true)
    (h0 : (tx.items (t.find_any k).node).user0 = false)
    (h1 : (tx.items (t.find_any k).node).user1 = true) :
    t.erase tx k = (some 0, t.lock_tree.unlock_tree, tx.item (t.find_any k).node) := by
  have hfoa := RBTree.foa_found_own t.lock_tree tx k false (by simpa using hf) (by simpa using hi)
    (Or.inr (by simpa using h1))
  simp only [RBTree.find_any_lock_tree, RBTree.version_lock_tree] at hfoa
  unfold RBTree.erase
  simp only [hfoa]
  simp [hf, hi, h0, h1]

theorem RBTree.erase_phantom (t : RBTree) (tx : Transaction) (k : Int)
    (hf : (t.find_any k).found = true)
    (hi : RBTree.is_inserted (t.version (t.find_any k).node) = true)
    (h0 : (tx.items (t.find_any k).node).user0 = false)
    (h1 : (tx.items (t.find_any k).node).user1 = false) :
    (t.erase tx k).1 = none := by
  have hfoa := RBTree.foa_found_phantom t.lock_tree tx k false (by simpa using hf) (by simpa using hi)
    (by simpa using h0) (by simpa using h1)
  simp only [RBTree.find_any_lock_tree, RBTree.version_lock_tree] at hfoa
  unfold RBTree.erase
  simp only [hfoa]
  rfl

/-! ## Paths of `insert` -/

theorem RBTree.insert_found_plain (t : RBTree) (tx : Transaction) (k : Int)
    (hf : (t.find_any k).found = true)
    (ho : RBTree.is_inserted (t.version (t.find_any k).node) = true →
      (tx.items (t.find_any k).node).user0 = true)
    (h1 : (tx.items (t.find_any k).node).user1 = false) :
    t.insert tx k = (some (t.find_any k).node, t.lock_tree.unlock_tree,
      (tx.item (t.find_any k).node).modify (t.find_any k).node
        (fun it => it.add_read (t.version (t.find_any k).node))) := by
  by_cases hi : RBTree.is_inserted (t.version (t.find_any k).node) = true
  · have hfoa := RBTree.foa_found_own t.lock_tree tx k true (by simpa using hf)
      (by simpa using hi) (Or.inl (by simpa using ho hi))
    simp only [RBTree.find_any_lock_tree, RBTree.version_lock_tree] at hfoa
    unfold RBTree.insert
    simp only [hfoa]
    simp [hf, h1]
  · have hfoa := RBTree.foa_found_committed t.lock_tree tx k true (by simpa using hf)
      (by simpa using hi)
    simp only [RBTree.find_any_lock_tree, RBTree.version_lock_tree] at hfoa
    unfold RBTree.insert
    simp only [hfoa]
    simp [hf, h1]

theorem RBTree.insert_found_deleted (t : RBTree) (tx : Transaction) (k : Int)
    (hf : (t.find_any k).found = true)
    (hi : RBTree.is_inserted (t.version (t.find_any k).node) = false)
    (h1 : (tx.items (t.find_any k).node).user1 = true) :
    t.insert tx k = (some (t.find_any k).node, t.lock_tree.unlock_tree,
      RBTree.change_size_offset
        (((tx.item (t.find_any k).node).modify (t.find_any k).node
          (fun it => it.clear_flags RBTree.delete_tag)).modify (t.find_any k).node
          (fun it => it.add_write 0)) 1) := by
  have hfoa := RBTree.foa_found_committed t.lock_tree tx k true (by simpa using hf)
    (by simpa using hi)
  simp only [RBTree.find_any_lock_tree, RBTree.version_lock_tree] at hfoa
  unfold RBTree.insert
  simp only [hfoa]
  simp [hf, h1, hi]

theorem RBTree.insert_found_own_deleted (t : RBTree) (tx : Transaction) (k : Int)
    (hf : (t.find_any k).found = true)
    (hi : RBTree.is_inserted (t.version (t.find_any k).node) = true)
    (h1 : (tx.items (t.find_any k).node).user1 = true) :
    t.insert tx k = (some (t.find_any k).node,
      (t.lock_tree.set_value (t.find_any k).node 0).unlock_tree,
      RBTree.change_size_offset
        ((((tx.item (t.find_any k).node).modify (t.find_any k).node
          (fun it => it.clear_flags RBTree.delete_tag)).modify (t.find_any k).node
          (fun it => it.add_flags RBTree.insert_tag)).modify (t.find_any k).node
          (fun it => it.add_write 0)) 1) := by
  have hfoa := RBTree.foa_found_own t.lock_tree tx k true (by simpa using hf)
    (by simpa using hi) (Or.inr (by simpa using h1))
  simp only [RBTree.find_any_lock_tree, RBTree.version_lock_tree] at hfoa
  unfold RBTree.insert
  simp only [hfoa]
  simp [hf, h1, hi]

theorem RBTree.insert_found_phantom (t : RBTree) (tx : Transaction) (k : Int)
    (hf : (t.find_any k).found = true)
    (hi : RBTree.is_inserted (t.version (t.find_any k).node) = true)
    (h0 : (tx.items (t.find_any k).node).user0 = false)
    (h1 : (tx.items (t.find_any k).node).user1 = false) :
    (t.insert tx k).1 = none := by
  have hfoa := RBTree.foa_found_phantom t.lock_tree tx k true (by simpa using hf)
    (by simpa using hi) (by simpa using h0) (by simpa using h1)
  simp only [RBTree.find_any_lock_tree, RBTree.version_lock_tree] at hfoa
  unfold RBTree.insert
  simp only [hfoa]
  rfl

theorem RBTree.insert_absent_phantom (t : RBTree) (tx : Transaction) (k : Int)
    (hf : (t.find_any k).found = false)
    (hx : (t.find_any k).node ≠ 0)
    (hi : RBTree.is_inserted (t.version (t.find_any k).node) = true)
    (h0 : (tx.items (t.find_any k).node).user0 = false)
    (h1 : (tx.items (t.find_any k).node).user1 = false) :
    (t.insert tx k).1 = none := by
  have hfoa := RBTree.foa_absent_insert_phantom t.lock_tree tx k (by simpa using hf)
    (by simpa using hx) (by simpa using hi) (by simpa using h0) (by simpa using h1)
  simp only [RBTree.find_any_lock_tree, RBTree.version_lock_tree] at hfoa
  unfold RBTree.insert
  simp only [hfoa]
  rfl

theorem RBTree.insert_absent_path (t : RBTree) (tx : Transaction) (k : Int)
    (hf : (t.find_any k).found = false)
    (hp : (t.find_any k).node ≠ 0 →
      RBTree.is_inserted (t.version (t.find_any k).node) = true →
      (tx.items (t.find_any k).node).user0 = true ∨
      (tx.items (t.find_any k).node).user1 = true) :
    t.insert tx k =
      (some (t.lock_tree.insert_absent
          (if (t.find_any k).node = 0 then tx else tx.item (t.find_any k).node)
          (t.find_any k).node k).1,
        (t.lock_tree.insert_absent
          (if (t.find_any k).node = 0 then tx else tx.item (t.find_any k).node)
          (t.find_any k).node k).2.1,
        (t.lock_tree.insert_absent
          (if (t.find_any k).node = 0 then tx else tx.item (t.find_any k).node)
          (t.find_any k).node k).2.2) := by
  have hfoa := RBTree.foa_absent_insert t.lock_tree tx k (by simpa using hf)
    (by simpa using hp)
  simp only [RBTree.find_any_lock_tree, RBTree.version_lock_tree] at hfoa
  unfold RBTree.insert
  simp only [hfoa]
  simp [hf]

/-! ## The effect of `insert_absent` -/

theorem RBTree.insert_absent_root (t : RBTree) (tx : Transaction) (k : Int) :
    t.insert_absent tx 0 k =
      (t.heap_top,
        ({ t with heap_top := t.heap_top + 8,
                  key := Function.update t.key t.heap_top k,
                  value := Function.update t.value t.heap_top 0,
                  version := Function.update t.version t.heap_top 10,
                  nodeversion := Function.update t.nodeversion t.heap_top 0,
                  wrapper_tree_ := rbtree.node rbtree.nil t.heap_top rbtree.nil } : RBTree).unlock_tree,
        RBTree.change_size_offset
          ((((tx.item RBTree.tree_key_).modify RBTree.tree_key_ (fun it => it.add_write 0)).item
            t.heap_top).modify t.heap_top (fun it => (it.add_write 0).add_flags RBTree.insert_tag))
          1) := by
  simp [RBTree.insert_absent, rbtree.insert_commit, TransactionTid.increment_value,
    RBTree.insert_bit, TransactionTid.user_bit1]

theorem RBTree.insert_absent_under (t : RBTree) (tx : Transaction) (p : Nat) (k : Int)
    (hp : p ≠ 0) (hpn : p ≠ t.heap_top) :
    t.insert_absent tx p k =
      (t.heap_top,
        ({ t with heap_top := t.heap_top + 8,
                  key := Function.update t.key t.heap_top k,
                  value := Function.update t.value t.heap_top 0,
                  version := Function.update t.version t.heap_top 10,
                  nodeversion := Function.update (Function.update t.nodeversion t.heap_top 0) p
                    ((t.nodeversion p + 8) % 2 ^ 64),
                  wrapper_tree_ := rbtree.link t.heap_top p (decide (k > t.key p))
                    t.wrapper_tree_ } : RBTree).unlock_tree,
        RBTree.change_size_offset
          ((((tx.item (p ||| 1)).modify (p ||| 1)
              (fun it => it.update_read (t.nodeversion p) ((t.nodeversion p + 8) % 2 ^ 64))).item
            t.heap_top).modify t.heap_top (fun it => (it.add_write 0).add_flags RBTree.insert_tag))
          1) := by
  have hm : ∀ (tx1 : Transaction) (a b : Nat),
      (if (tx1.items (p ||| 1)).has_read = true then
        tx1.modify (p ||| 1) (fun it => it.update_read a b) else tx1) =
      tx1.modify (p ||| 1) (fun it => it.update_read a b) := by
    intro tx1 a b
    by_cases h : (tx1.items (p ||| 1)).has_read = true
    · simp [h]
    · simp only [h, if_false]
      symm
      apply Transaction.modify_id
      simp [TransItem.update_read, h]
  simp only [RBTree.insert_absent, rbtree.insert_commit, hp, if_false, hm,
    RBTree.inc_nodeversion, TransactionTid.increment_value,
    RBTree.insert_bit, TransactionTid.user_bit1, TransactionTid.word,
    Function.update_same, Function.update_noteq hpn, Function.update_noteq hpn.symm]

/-! ## Well-formed trees -/

theorem RBTree.wf.found (t : RBTree) (hwf : t.wf) (k : Int)
    (hf : (t.find_any k).found = true) :
    (t.find_any k).node ∈ t.wrapper_tree_.toList ∧ t.key (t.find_any k).node = k ∧
    (t.find_any k).node ≠ 0 ∧ (t.find_any k).node % 8 = 0 ∧
    (t.find_any k).node < t.heap_top := by
  have h := rbtree.find_any_found t.key k t.wrapper_tree_ 0 0 0 hf
  have ha := hwf.alloc _ h.1
  exact ⟨h.1, h.2, ha.1, ha.2.1, ha.2.2⟩

theorem RBTree.wf.lock_unlock (t : RBTree) (hwf : t.wf) : t.lock_tree.unlock_tree.wf :=
  ⟨hwf.sorted, hwf.alloc, hwf.top⟩


theorem RBTree.is_inserted_ten : RBTree.is_inserted 10 = true := by decide

/-- The tree after `insert_absent` under the parent that `find_any` returned: it is
well formed, the fresh node sits at the place of its key in the in-order sequence, and a
search for the key finds the fresh node. -/
theorem RBTree.insert_absent_spec (t : RBTree) (tx : Transaction) (k : Int) (hwf : t.wf)
    (hf : (t.find_any k).found = false) :
    (t.insert_absent tx (t.find_any k).node k).2.1.wf ∧
    ((t.insert_absent tx (t.find_any k).node k).2.1.find_any k).found = true ∧
    ((t.insert_absent tx (t.find_any k).node k).2.1.find_any k).node = t.heap_top ∧
    (∃ l1 l2, t.wrapper_tree_.toList = l1 ++ l2 ∧
      (t.insert_absent tx (t.find_any k).node k).2.1.wrapper_tree_.toList
        = l1 ++ t.heap_top :: l2) := by
  have hfresh : ∀ a ∈ t.wrapper_tree_.toList, a ≠ t.heap_top := by
    intro a ha e; have := (hwf.alloc a ha).2.2; omega
  have hkey : ∀ a ∈ t.wrapper_tree_.toList, Function.update t.key t.heap_top k a = t.key a := by
    intro a ha; exact Function.update_noteq (hfresh a ha) _ _
  have main : ∀ tr : rbtree, (∃ l1 l2, t.wrapper_tree_.toList = l1 ++ l2 ∧
      tr.toList = l1 ++ t.heap_top :: l2 ∧ (∀ a ∈ l1, t.key a < k) ∧ (∀ b ∈ l2, k < t.key b)) →
      tr.toList.Pairwise (fun a b => Function.update t.key t.heap_top k a
        < Function.update t.key t.heap_top k b) ∧
      (∀ n ∈ tr.toList, n ≠ 0 ∧ n % 8 = 0 ∧ n < t.heap_top + 8) := by
    rintro tr ⟨l1, l2, e1, e2, o1, o2⟩
    have hs := hwf.sorted
    rw [e1, List.pairwise_append] at hs
    have m1 : ∀ a ∈ l1, a ∈ t.wrapper_tree_.toList := fun a ha => by rw [e1]; simp [ha]
    have m2 : ∀ a ∈ l2, a ∈ t.wrapper_tree_.toList := fun a ha => by rw [e1]; simp [ha]
    constructor
    · rw [e2, List.pairwise_append, List.pairwise_cons]
      refine ⟨?_, ⟨?_, ?_⟩, ?_⟩
      · exact hs.1.imp_of_mem (fun {a b} ha hb h => by
          rw [hkey a (m1 a ha), hkey b (m1 b hb)]; exact h)
      · intro b hb
        rw [Function.update_same, hkey b (m2 b hb)]; exact o2 b hb
      · exact hs.2.1.imp_of_mem (fun {a b} ha hb h => by
          rw [hkey a (m2 a ha), hkey b (m2 b hb)]; exact h)
      · intro a ha b hb
        simp only [List.mem_cons] at hb
        rcases hb with rfl | hb
        · rw [Function.update_same, hkey a (m1 a ha)]; exact o1 a ha
        · rw [hkey a (m1 a ha), hkey b (m2 b hb)]; exact hs.2.2 a ha b hb
    · intro n hn
      rw [e2] at hn
      simp only [List.mem_append, List.mem_cons] at hn
      rcases hn with hn | rfl | hn
      · have := hwf.alloc n (m1 n hn); omega
      · have := hwf.top; omega
      · have := hwf.alloc n (m2 n hn); omega
  have hlist : ∃ l1 l2, t.wrapper_tree_.toList = l1 ++ l2 ∧
      (t.insert_absent tx (t.find_any k).node k).2.1.wrapper_tree_.toList
        = l1 ++ t.heap_top :: l2 ∧ (∀ a ∈ l1, t.key a < k) ∧ (∀ b ∈ l2, k < t.key b) := by
    rcases rbtree.find_any_parent t.key k t.wrapper_tree_ 0 0 0 hf with ⟨hnil, hp⟩ | hm
    · have hp0 : (t.find_any k).node = 0 := hp
      rw [hp0, RBTree.insert_absent_root]
      exact ⟨[], [], by simp [hnil, rbtree.toList], by simp [rbtree.toList], by simp, by simp⟩
    · have hx := hwf.alloc _ hm
      have hm1 : (t.find_any k).node ∈ t.wrapper_tree_.toList := hm
      rw [RBTree.insert_absent_under t tx _ k (hwf.alloc _ hm1).1 (hfresh _ hm1)]
      exact rbtree.link_toList t.key k t.heap_top t.wrapper_tree_ 0 0 0 hwf.sorted hf hm
  obtain ⟨l1, l2, e1, e2, o1, o2⟩ := hlist
  have hkey1 : (t.insert_absent tx (t.find_any k).node k).2.1.key
      = Function.update t.key t.heap_top k := by
    simp [RBTree.insert_absent, RBTree.unlock_tree, RBTree.inc_nodeversion]
    split <;> rfl
  have htop1 : (t.insert_absent tx (t.find_any k).node k).2.1.heap_top = t.heap_top + 8 := by
    simp [RBTree.insert_absent, RBTree.unlock_tree, RBTree.inc_nodeversion]
    split <;> rfl
  have hm := main _ ⟨l1, l2, e1, e2, o1, o2⟩
  have hwf1 : (t.insert_absent tx (t.find_any k).node k).2.1.wf := by
    refine ⟨?_, ?_, ?_⟩
    · rw [hkey1]; exact hm.1
    · rw [htop1]; exact hm.2
    · rw [htop1]; have := hwf.top; omega
  have hfind := rbtree.find_any_of_mem (t.insert_absent tx (t.find_any k).node k).2.1.key k
    (t.insert_absent tx (t.find_any k).node k).2.1.wrapper_tree_ 0 0 0 t.heap_top hwf1.sorted
    (by rw [e2]; simp) (by rw [hkey1]; simp)
  exact ⟨hwf1, hfind.1, hfind.2, l1, l2, e1, e2⟩

theorem RBTree.insert_absent_fst (t : RBTree) (tx : Transaction) (p : Nat) (k : Int) :
    (t.insert_absent tx p k).1 = t.heap_top := rfl

theorem RBTree.insert_absent_version (t : RBTree) (tx : Transaction) (p : Nat) (k : Int) :
    (t.insert_absent tx p k).2.1.version = Function.update t.version t.heap_top 10 := by
  simp [RBTree.insert_absent, RBTree.unlock_tree, RBTree.inc_nodeversion]
  split <;> rfl

/-- The item of the fresh node after `insert_absent`, for a transaction that held no item
for that address: a write of the default value with `insert_tag`. -/
theorem RBTree.insert_absent_item (t : RBTree) (tx : Transaction) (p : Nat) (k : Int)
    (htop : 0 < t.heap_top ∧ t.heap_top % 8 = 0) (hfresh : tx.items t.heap_top = {}) :
    (t.insert_absent tx p k).2.2.items t.heap_top =
      { has_write := true, write_value := 0, user0 := true } := by
  have h2 : t.heap_top ≠ RBTree.size_key_ := by simp only [RBTree.size_key_]; omega
  have h1 : t.heap_top ≠ RBTree.tree_key_ := by simp only [RBTree.tree_key_]; omega
  have h3 : t.heap_top ≠ p ||| 1 := by rw [or_one_eq]; omega
  by_cases hp : p = 0
  · subst hp
    rw [RBTree.insert_absent_root]
    simp [RBTree.change_size_offset_items, h2, Transaction.items_modify, h1, hfresh,
      TransItem.add_write]
  · simp only [RBTree.insert_absent, hp, if_false]
    split <;>
      simp [RBTree.change_size_offset_items, h2, Transaction.items_modify, h3, hfresh,
        TransItem.add_write]

theorem RBTree.proxy_read_written (t : RBTree) (tx : Transaction) (n : Nat)
    (h : (tx.items n).has_write = true) :
    (t.proxy_read tx n).1 = some (tx.items n).write_value := by
  simp [RBTree.proxy_read, h]

/-- Reading `tree[k]` when the transaction has a pending write for the node of `k`. -/
theorem RBTree.read_written (t : RBTree) (tx : Transaction) (k : Int)
    (hf : (t.find_any k).found = true)
    (ho : RBTree.is_inserted (t.version (t.find_any k).node) = true →
      (tx.items (t.find_any k).node).user0 = true)
    (h1 : (tx.items (t.find_any k).node).user1 = false)
    (hw : (tx.items (t.find_any k).node).has_write = true) :
    (t.read tx k).1 = some (tx.items (t.find_any k).node).write_value := by
  unfold RBTree.read RBTree.operator_index
  rw [RBTree.insert_found_plain t tx k hf ho h1]
  simp only []
  rw [RBTree.proxy_read_written _ _ _ (by simp [hw])]
  simp

/-- Counting a key whose node is visible to the transaction and not erased by it. -/
theorem RBTree.count_visible (t : RBTree) (tx : Transaction) (k : Int)
    (hf : (t.find_any k).found = true)
    (ho : RBTree.is_inserted (t.version (t.find_any k).node) = true →
      (tx.items (t.find_any k).node).user0 = true)
    (h1 : (tx.items (t.find_any k).node).user1 = false) :
    (t.count tx k).1 = some 1 := by
  by_cases hi : RBTree.is_inserted (t.version (t.find_any k).node) = true
  · rw [RBTree.count_own t tx k hf hi (Or.inl (ho hi))]
    simp [h1]
  · rw [RBTree.count_committed t tx k hf (by simpa using hi)]

/-- State after a successful `tree[k] = v`: the key is found, its node is visible to the
transaction and not marked deleted, and the item carries the write of `v`. -/
theorem RBTree.assign_post (t : RBTree) (tx : Transaction) (k v : Int) (hwf : t.wf)
    (hfresh : tx.items t.heap_top = {}) (h : (t.assign tx k v).1 = some ()) :
    ((t.assign tx k v).2.1.find_any k).found = true ∧
    (RBTree.is_inserted ((t.assign tx k v).2.1.version ((t.assign tx k v).2.1.find_any k).node)
        = true →
      ((t.assign tx k v).2.2.items ((t.assign tx k v).2.1.find_any k).node).user0 = true) ∧
    ((t.assign tx k v).2.2.items ((t.assign tx k v).2.1.find_any k).node).user1 = false ∧
    ((t.assign tx k v).2.2.items ((t.assign tx k v).2.1.find_any k).node).has_write = true ∧
    ((t.assign tx k v).2.2.items ((t.assign tx k v).2.1.find_any k).node).write_value = v := by
  unfold RBTree.assign RBTree.operator_index at h ⊢
  by_cases hf : (t.find_any k).found = true
  · obtain ⟨_, _, hx0, hx8, _⟩ := hwf.found t k hf
    have hx2 : (t.find_any k).node ≠ RBTree.size_key_ := by
      simp only [RBTree.size_key_]; omega
    by_cases h1 : (tx.items (t.find_any k).node).user1 = true
    · by_cases hi : RBTree.is_inserted (t.version (t.find_any k).node) = true
      · rw [RBTree.insert_found_own_deleted t tx k hf hi h1]
        simp only [RBTree.proxy_assign]
        simp [hf, RBTree.change_size_offset_items, hx2, Transaction.items_modify]
      · rw [RBTree.insert_found_deleted t tx k hf (by simpa using hi) h1]
        simp only [RBTree.proxy_assign]
        simp [hf, hi, RBTree.change_size_offset_items, hx2, Transaction.items_modify]
    · have h1f : (tx.items (t.find_any k).node).user1 = false := by simpa using h1
      by_cases ho : RBTree.is_inserted (t.version (t.find_any k).node) = true →
          (tx.items (t.find_any k).node).user0 = true
      · rw [RBTree.insert_found_plain t tx k hf ho h1f]
        simp only [RBTree.proxy_assign]
        simp only [RBTree.find_any_unlock_tree, RBTree.find_any_lock_tree,
          RBTree.version_unlock_tree, RBTree.version_lock_tree]
        simp [hf, h1f, Transaction.items_modify]
        exact ho
      · simp only [Classical.not_imp] at ho
        have := RBTree.insert_found_phantom t tx k hf ho.1 (by simpa using ho.2) h1f
        generalize t.insert tx k = r at h this
        obtain ⟨a, b, c⟩ := r
        simp only at this; subst this
        simp at h
  · have hff : (t.find_any k).found = false := by simpa using hf
    by_cases hp : (t.find_any k).node ≠ 0 →
        RBTree.is_inserted (t.version (t.find_any k).node) = true →
        (tx.items (t.find_any k).node).user0 = true ∨
        (tx.items (t.find_any k).node).user1 = true
    · rw [RBTree.insert_absent_path t tx k hff hp]
      simp only [RBTree.proxy_assign]
      have hwfl : t.lock_tree.wf := ⟨hwf.sorted, hwf.alloc, hwf.top⟩
      have hs := RBTree.insert_absent_spec t.lock_tree
        (if (t.find_any k).node = 0 then tx else tx.item (t.find_any k).node) k hwfl
        (by simpa using hff)
      simp only [RBTree.find_any_lock_tree, RBTree.heap_top_lock_tree] at hs
      obtain ⟨_, hfound, hnode, _⟩ := hs
      have hit := RBTree.insert_absent_item t.lock_tree
        (if (t.find_any k).node = 0 then tx else tx.item (t.find_any k).node)
        (t.find_any k).node k hwf.top (by split <;> simp [hfresh])
      simp only [RBTree.heap_top_lock_tree] at hit
      rw [hfound, hnode, RBTree.insert_absent_fst]
      simp [Transaction.items_modify, hit]
    · simp only [Classical.not_imp, not_or] at hp
      have := RBTree.insert_absent_phantom t tx k hff hp.1 hp.2.1 (by simpa using hp.2.2.1)
        (by simpa using hp.2.2.2)
      generalize t.insert tx k = r at h this
      obtain ⟨a, b, c⟩ := r
      simp only at this; subst this
      simp at h


/-! ## Folds over item keys -/

theorem foldl_inv {α β : Type} (f : α → β → α) (P : α → Prop) :
    ∀ (l : List β) (a : α), P a → (∀ s b, b ∈ l → P s → P (f s b)) → P (l.foldl f a) := by
  intro l
  induction l with
  | nil => intro a h _; exact h
  | cons x xs ih =>
    intro a h hs
    exact ih (f a x) (hs a x (by simp) h) (fun s b hb hp => hs s b (by simp [hb]) hp)

theorem foldl_obs_eq {α β γ : Type} (f : α → β → α) (obs : α → γ) (l : List β) (a : α)
    (h : ∀ s b, b ∈ l → obs (f s b) = obs s) : obs (l.foldl f a) = obs a :=
  foldl_inv f (fun s => obs s = obs a) l a rfl
    (fun s b hb hp => by show obs (f s b) = obs a; rw [h s b hb]; exact hp)

theorem foldl_obs_single {α β γ : Type} (f : α → β → α) (obs : α → γ) (x : β) (g : γ → γ) :
    ∀ (l : List β) (a : α), l.Nodup → x ∈ l →
      (∀ s b, b ∈ l → b ≠ x → obs (f s b) = obs s) → (∀ s, obs (f s x) = g (obs s)) →
      obs (l.foldl f a) = g (obs a) := by
  intro l
  induction l with
  | nil => intro a _ hx; simp at hx
  | cons y ys ih =>
    intro a hnd hx ho hs
    rw [List.nodup_cons] at hnd
    simp only [List.foldl_cons]
    by_cases hy : y = x
    · subst hy
      rw [foldl_obs_eq f obs ys (f a y)
        (fun s b hb => ho s b (by simp [hb]) (fun e => hnd.1 (e ▸ hb)))]
      exact hs a
    · have hx2 : x ∈ ys := by
        simp only [List.mem_cons] at hx
        rcases hx with e | hx
        · exact absurd e.symm hy
        · exact hx
      rw [ih (f a y) hnd.2 hx2 (fun s b hb hbx => ho s b (by simp [hb]) hbx) hs,
        ho a y (by simp) hy]

/-! ## The write set -/

theorem Sto.mem_write_set (tx : Transaction) (k : Nat) :
    k ∈ Sto.write_set tx ↔ k ∈ tx.keys ∧ (tx.items k).has_write = true := by
  unfold Sto.write_set
  rw [(List.perm_insertionSort _ _).mem_iff, List.mem_filter]

theorem Sto.nodup_write_set (tx : Transaction) (h : tx.keys.Nodup) :
    (Sto.write_set tx).Nodup := by
  unfold Sto.write_set
  rw [(List.perm_insertionSort _ _).nodup_iff]
  exact h.filter _

theorem Transaction.nodup_item (tx : Transaction) (k : Nat) (h : tx.keys.Nodup) :
    (tx.item k).keys.Nodup := by
  unfold Transaction.item
  by_cases hk : k ∈ tx.keys
  · simp [hk, h]
  · simp only [hk, if_false]
    rw [List.nodup_append]
    exact ⟨h, by simp, by
      intro a ha hb
      simp only [List.mem_singleton] at hb
      subst hb; exact hk ha⟩

/-! ## The lock phase -/

theorem Sto.lock_fold_keys (l : List Nat) (t : RBTree) (tx : Transaction) :
    (l.foldl Sto.lock_item (t, tx)).2.keys = tx.keys :=
  foldl_obs_eq Sto.lock_item (fun s => s.2.keys) l (t, tx) (fun _ _ _ => rfl)

theorem Sto.lock_fold_items (l : List Nat) (t : RBTree) (tx : Transaction) (k : Nat) :
    (l.foldl Sto.lock_item (t, tx)).2.items k
      = if k ∈ l then { tx.items k with has_lock := true } else tx.items k := by
  induction l generalizing t tx with
  | nil => simp
  | cons x xs ih =>
    simp only [List.foldl_cons, Sto.lock_item, ih, List.mem_cons]
    by_cases hx : k = x
    · subst hx
      by_cases hm : k ∈ xs <;> simp [hm]
    · by_cases hm : k ∈ xs <;> simp [hm, hx, Transaction.items_modify]

theorem Sto.lock_phase_keys (t : RBTree) (tx : Transaction) :
    (Sto.lock_phase t tx).2.keys = tx.keys := Sto.lock_fold_keys _ t tx

theorem Sto.lock_phase_items (t : RBTree) (tx : Transaction) (k : Nat) :
    (Sto.lock_phase t tx).2.items k =
      if k ∈ tx.keys ∧ (tx.items k).has_write = true then { tx.items k with has_lock := true }
      else tx.items k := by
  unfold Sto.lock_phase
  rw [Sto.lock_fold_items]
  by_cases h : k ∈ Sto.write_set tx
  · rw [if_pos h, if_pos ((Sto.mem_write_set tx k).mp h)]
  · rw [if_neg h, if_neg (fun h2 => h ((Sto.mem_write_set tx k).mpr h2))]

theorem Sto.lock_phase_has_read (t : RBTree) (tx : Transaction) (k : Nat) :
    ((Sto.lock_phase t tx).2.items k).has_read = (tx.items k).has_read := by
  rw [Sto.lock_phase_items]; split <;> rfl

theorem Sto.lock_phase_read_value (t : RBTree) (tx : Transaction) (k : Nat) :
    ((Sto.lock_phase t tx).2.items k).read_value = (tx.items k).read_value := by
  rw [Sto.lock_phase_items]; split <;> rfl

theorem Sto.lock_phase_has_write (t : RBTree) (tx : Transaction) (k : Nat) :
    ((Sto.lock_phase t tx).2.items k).has_write = (tx.items k).has_write := by
  rw [Sto.lock_phase_items]; split <;> rfl

theorem Sto.lock_phase_write_value (t : RBTree) (tx : Transaction) (k : Nat) :
    ((Sto.lock_phase t tx).2.items k).write_value = (tx.items k).write_value := by
  rw [Sto.lock_phase_items]; split <;> rfl

theorem Sto.lock_phase_user0 (t : RBTree) (tx : Transaction) (k : Nat) :
    ((Sto.lock_phase t tx).2.items k).user0 = (tx.items k).user0 := by
  rw [Sto.lock_phase_items]; split <;> rfl

theorem Sto.lock_phase_user1 (t : RBTree) (tx : Transaction) (k : Nat) :
    ((Sto.lock_phase t tx).2.items k).user1 = (tx.items k).user1 := by
  rw [Sto.lock_phase_items]; split <;> rfl

theorem Sto.validate_iff (t : RBTree) (tx : Transaction) :
    Sto.validate t tx = true ↔
      ∀ k ∈ tx.keys, (tx.items k).has_read = true → t.check k (tx.items k) = true := by
  unfold Sto.validate
  rw [List.all_eq_true]
  constructor
  · intro h k hk hr
    have := h k hk
    simpa [hr] using this
  · intro h k hk
    by_cases hr : (tx.items k).has_read = true
    · simp [hr, h k hk hr]
    · simp [hr]

theorem Sto.try_commit_fst (t : RBTree) (tx : Transaction) :
    (Sto.try_commit t tx).1 = Sto.validate (Sto.lock_phase t tx).1 (Sto.lock_phase t tx).2 := by
  unfold Sto.try_commit
  simp only []
  split <;> simp_all

/-- A transaction without reads commits. -/
theorem Sto.try_commit_of_no_reads (t : RBTree) (tx : Transaction)
    (h : ∀ k ∈ tx.keys, (tx.items k).has_read = false) : (Sto.try_commit t tx).1 = true := by
  rw [Sto.try_commit_fst, Sto.validate_iff]
  intro k hk hr
  rw [Sto.lock_phase_keys] at hk
  rw [Sto.lock_phase_has_read, h k hk] at hr
  exact Bool.noConfusion hr

/-! ## Fields touched by `lock`, `unlock`, `install` and `cleanup` -/

theorem TransactionTid.lock_lock (v : Nat) :
    TransactionTid.lock (TransactionTid.lock v) = TransactionTid.lock v := by
  simp only [lock_eq]; omega

theorem TransactionTid.unlock_unlock (v : Nat) :
    TransactionTid.unlock (TransactionTid.unlock v) = TransactionTid.unlock v := by
  simp only [unlock_eq]; omega

@[simp] theorem RBTree.tree_key_ne_size_key : (RBTree.tree_key_ = RBTree.size_key_) = False := by
  simp [RBTree.tree_key_, RBTree.size_key_]

@[simp] theorem RBTree.size_key_ne_tree_key : (RBTree.size_key_ = RBTree.tree_key_) = False := by
  simp [RBTree.tree_key_, RBTree.size_key_]

@[simp] theorem RBTree.nodeversion_lock (t : RBTree) (k : Nat) :
    (t.lock k).nodeversion = t.nodeversion := by
  unfold RBTree.lock; split <;> (try split) <;> rfl

@[simp] theorem RBTree.tree_lock (t : RBTree) (k : Nat) :
    (t.lock k).wrapper_tree_ = t.wrapper_tree_ := by
  unfold RBTree.lock; split <;> (try split) <;> rfl

@[simp] theorem RBTree.key_lock (t : RBTree) (k : Nat) : (t.lock k).key = t.key := by
  unfold RBTree.lock; split <;> (try split) <;> rfl

@[simp] theorem RBTree.value_lock (t : RBTree) (k : Nat) : (t.lock k).value = t.value := by
  unfold RBTree.lock; split <;> (try split) <;> rfl

@[simp] theorem RBTree.size_lock (t : RBTree) (k : Nat) : (t.lock k).size_ = t.size_ := by
  unfold RBTree.lock; split <;> (try split) <;> rfl

@[simp] theorem RBTree.heap_top_lock (t : RBTree) (k : Nat) :
    (t.lock k).heap_top = t.heap_top := by
  unfold RBTree.lock; split <;> (try split) <;> rfl

theorem RBTree.version_lock (t : RBTree) (k e : Nat) :
    (t.lock k).version e =
      if e = k ∧ k ≠ RBTree.size_key_ ∧ k ≠ RBTree.tree_key_ then TransactionTid.lock (t.version e)
      else t.version e := by
  unfold RBTree.lock
  by_cases h2 : k = RBTree.size_key_
  · simp [h2]
  · by_cases h1 : k = RBTree.tree_key_
    · simp [h1, h2]
    · by_cases he : e = k
      · subst he; simp [h1, h2]
      · simp [h1, h2, he, Function.update_noteq he]

theorem RBTree.sizeversion_lock (t : RBTree) (k : Nat) :
    (t.lock k).sizeversion_ =
      if k = RBTree.size_key_ then TransactionTid.lock t.sizeversion_ else t.sizeversion_ := by
  unfold RBTree.lock
  by_cases h2 : k = RBTree.size_key_
  · simp [h2]
  · by_cases h1 : k = RBTree.tree_key_ <;> simp [h1, h2]

theorem RBTree.treeversion_lock (t : RBTree) (k : Nat) :
    (t.lock k).treeversion_ =
      if k = RBTree.tree_key_ then TransactionTid.lock t.treeversion_ else t.treeversion_ := by
  unfold RBTree.lock
  by_cases h2 : k = RBTree.size_key_
  · simp [h2, RBTree.size_key_, RBTree.tree_key_]
  · by_cases h1 : k = RBTree.tree_key_ <;> simp [h1, h2]

@[simp] theorem RBTree.nodeversion_unlock (t : RBTree) (k : Nat) :
    (t.unlock k).nodeversion = t.nodeversion := by
  unfold RBTree.unlock; split <;> (try split) <;> rfl

@[simp] theorem RBTree.tree_unlock (t : RBTree) (k : Nat) :
    (t.unlock k).wrapper_tree_ = t.wrapper_tree_ := by
  unfold RBTree.unlock; split <;> (try split) <;> rfl

@[simp] theorem RBTree.key_unlock (t : RBTree) (k : Nat) : (t.unlock k).key = t.key := by
  unfold RBTree.unlock; split <;> (try split) <;> rfl

@[simp] theorem RBTree.value_unlock (t : RBTree) (k : Nat) : (t.unlock k).value = t.value := by
  unfold RBTree.unlock; split <;> (try split) <;> rfl

@[simp] theorem RBTree.size_unlock (t : RBTree) (k : Nat) : (t.unlock k).size_ = t.size_ := by
  unfold RBTree.unlock; split <;> (try split) <;> rfl

@[simp] theorem RBTree.heap_top_unlock (t : RBTree) (k : Nat) :
    (t.unlock k).heap_top = t.heap_top := by
  unfold RBTree.unlock; split <;> (try split) <;> rfl

theorem RBTree.version_unlock (t : RBTree) (k e : Nat) :
    (t.unlock k).version e =
      if e = k ∧ k ≠ RBTree.size_key_ ∧ k ≠ RBTree.tree_key_
      then TransactionTid.unlock (t.version e) else t.version e := by
  unfold RBTree.unlock
  by_cases h2 : k = RBTree.size_key_
  · simp [h2]
  · by_cases h1 : k = RBTree.tree_key_
    · simp [h1, h2]
    · by_cases he : e = k
      · subst he; simp [h1, h2]
      · simp [h1, h2, he, Function.update_noteq he]

@[simp] theorem RBTree.cleanup_committed (t : RBTree) (k : Nat) (it : TransItem) :
    t.cleanup k it true = t := by
  simp [RBTree.cleanup]

/-! ## The lock phase on the tree -/

theorem Sto.lock_phase_nodeversion (t : RBTree) (tx : Transaction) :
    (Sto.lock_phase t tx).1.nodeversion = t.nodeversion :=
  foldl_obs_eq Sto.lock_item (fun s => s.1.nodeversion) _ (t, tx)
    (fun s b _ => by simp [Sto.lock_item])

theorem Sto.lock_phase_tree (t : RBTree) (tx : Transaction) :
    (Sto.lock_phase t tx).1.wrapper_tree_ = t.wrapper_tree_ :=
  foldl_obs_eq Sto.lock_item (fun s => s.1.wrapper_tree_) _ (t, tx)
    (fun s b _ => by simp [Sto.lock_item])

theorem Sto.lock_phase_key (t : RBTree) (tx : Transaction) :
    (Sto.lock_phase t tx).1.key = t.key :=
  foldl_obs_eq Sto.lock_item (fun s => s.1.key) _ (t, tx)
    (fun s b _ => by simp [Sto.lock_item])

theorem Sto.lock_phase_value (t : RBTree) (tx : Transaction) :
    (Sto.lock_phase t tx).1.value = t.value :=
  foldl_obs_eq Sto.lock_item (fun s => s.1.value) _ (t, tx)
    (fun s b _ => by simp [Sto.lock_item])

theorem Sto.lock_phase_size (t : RBTree) (tx : Transaction) :
    (Sto.lock_phase t tx).1.size_ = t.size_ :=
  foldl_obs_eq Sto.lock_item (fun s => s.1.size_) _ (t, tx)
    (fun s b _ => by simp [Sto.lock_item])

theorem Sto.lock_phase_heap_top (t : RBTree) (tx : Transaction) :
    (Sto.lock_phase t tx).1.heap_top = t.heap_top :=
  foldl_obs_eq Sto.lock_item (fun s => s.1.heap_top) _ (t, tx)
    (fun s b _ => by simp [Sto.lock_item])

theorem Sto.lock_fold_version (l : List Nat) (t : RBTree) (tx : Transaction) (e : Nat) :
    (l.foldl Sto.lock_item (t, tx)).1.version e =
      if e ∈ l ∧ e ≠ RBTree.size_key_ ∧ e ≠ RBTree.tree_key_
      then TransactionTid.lock (t.version e) else t.version e := by
  induction l generalizing t tx with
  | nil => simp
  | cons x xs ih =>
    simp only [List.foldl_cons, Sto.lock_item, ih, List.mem_cons, RBTree.version_lock]
    by_cases hx : e = x
    · subst hx
      by_cases h2 : e = RBTree.size_key_
      · simp [h2]
      · by_cases h1 : e = RBTree.tree_key_
        · simp [h1]
        · by_cases hm : e ∈ xs <;> simp [hm, h1, h2, TransactionTid.lock_lock]
    · by_cases hm : e ∈ xs <;> simp [hm, hx]

theorem Sto.lock_phase_version (t : RBTree) (tx : Transaction) (e : Nat) :
    (Sto.lock_phase t tx).1.version e =
      if (e ∈ tx.keys ∧ (tx.items e).has_write = true) ∧ e ≠ RBTree.size_key_ ∧
          e ≠ RBTree.tree_key_
      then TransactionTid.lock (t.version e) else t.version e := by
  unfold Sto.lock_phase
  rw [Sto.lock_fold_version]
  by_cases h : e ∈ Sto.write_set tx
  · have := (Sto.mem_write_set tx e).mp h
    simp [h, this]
  · have : ¬ (e ∈ tx.keys ∧ (tx.items e).has_write = true) :=
      fun h2 => h ((Sto.mem_write_set tx e).mpr h2)
    simp [h, this]

theorem Sto.lock_fold_sizeversion (l : List Nat) (t : RBTree) (tx : Transaction) :
    (l.foldl Sto.lock_item (t, tx)).1.sizeversion_ =
      if RBTree.size_key_ ∈ l then TransactionTid.lock t.sizeversion_ else t.sizeversion_ := by
  induction l generalizing t tx with
  | nil => simp
  | cons x xs ih =>
    simp only [List.foldl_cons, Sto.lock_item, ih, List.mem_cons, RBTree.sizeversion_lock]
    by_cases hx : x = RBTree.size_key_
    · by_cases hm : RBTree.size_key_ ∈ xs <;> simp [hm, hx, TransactionTid.lock_lock]
    · have hx2 : ¬ RBTree.size_key_ = x := fun e => hx e.symm
      by_cases hm : RBTree.size_key_ ∈ xs <;> simp [hm, hx, hx2]

theorem Sto.lock_fold_treeversion (l : List Nat) (t : RBTree) (tx : Transaction) :
    (l.foldl Sto.lock_item (t, tx)).1.treeversion_ =
      if RBTree.tree_key_ ∈ l then TransactionTid.lock t.treeversion_ else t.treeversion_ := by
  induction l generalizing t tx with
  | nil => simp
  | cons x xs ih =>
    simp only [List.foldl_cons, Sto.lock_item, ih, List.mem_cons, RBTree.treeversion_lock]
    by_cases hx : x = RBTree.tree_key_
    · by_cases hm : RBTree.tree_key_ ∈ xs <;> simp [hm, hx, TransactionTid.lock_lock]
    · have hx2 : ¬ RBTree.tree_key_ = x := fun e => hx e.symm
      by_cases hm : RBTree.tree_key_ ∈ xs <;> simp [hm, hx, hx2]

theorem Sto.lock_phase_sizeversion (t : RBTree) (tx : Transaction) :
    (Sto.lock_phase t tx).1.sizeversion_ =
      if RBTree.size_key_ ∈ tx.keys ∧ (tx.items RBTree.size_key_).has_write = true
      then TransactionTid.lock t.sizeversion_ else t.sizeversion_ := by
  unfold Sto.lock_phase
  rw [Sto.lock_fold_sizeversion]
  by_cases h : RBTree.size_key_ ∈ Sto.write_set tx
  · rw [if_pos h, if_pos ((Sto.mem_write_set tx _).mp h)]
  · rw [if_neg h, if_neg (fun h2 => h ((Sto.mem_write_set tx _).mpr h2))]

theorem Sto.lock_phase_treeversion (t : RBTree) (tx : Transaction) :
    (Sto.lock_phase t tx).1.treeversion_ =
      if RBTree.tree_key_ ∈ tx.keys ∧ (tx.items RBTree.tree_key_).has_write = true
      then TransactionTid.lock t.treeversion_ else t.treeversion_ := by
  unfold Sto.lock_phase
  rw [Sto.lock_fold_treeversion]
  by_cases h : RBTree.tree_key_ ∈ Sto.write_set tx
  · rw [if_pos h, if_pos ((Sto.mem_write_set tx _).mp h)]
  · rw [if_neg h, if_neg (fun h2 => h ((Sto.mem_write_set tx _).mpr h2))]

theorem Sto.try_commit_snd (t : RBTree) (tx : Transaction)
    (h : (Sto.try_commit t tx).1 = true) :
    (Sto.try_commit t tx).2 =
      Sto.unlock_phase (Sto.install_phase (Sto.lock_phase t tx).1 (Sto.lock_phase t tx).2)
        (Sto.lock_phase t tx).2 := by
  rw [Sto.try_commit_fst] at h
  unfold Sto.try_commit
  simp only [h, if_true]
  exact foldl_obs_eq _ id _ _ (fun s b _ => by simp)

/-! ## Paths of `tree[k]` as a value and of `tree[k] = v` -/

theorem RBTree.read_of_insert_none (t : RBTree) (tx : Transaction) (k : Int)
    (h : (t.insert tx k).1 = none) : (t.read tx k).1 = none := by
  unfold RBTree.read RBTree.operator_index
  generalize t.insert tx k = r at h
  obtain ⟨a, b, c⟩ := r
  simp only at h; subst h
  rfl

theorem RBTree.assign_of_insert_none (t : RBTree) (tx : Transaction) (k v : Int)
    (h : (t.insert tx k).1 = none) : (t.assign tx k v).1 = none := by
  unfold RBTree.assign RBTree.operator_index
  generalize t.insert tx k = r at h
  obtain ⟨a, b, c⟩ := r
  simp only at h; subst h
  rfl

/-! ## Reads and flags through `insert_absent` -/

theorem RBTree.change_size_offset_has_read (tx : Transaction) (d : Int) (j : Nat) :
    ((RBTree.change_size_offset tx d).items j).has_read = (tx.items j).has_read := by
  rw [RBTree.change_size_offset_items]; split
  · rename_i h; subst h; simp
  · rfl

theorem RBTree.change_size_offset_user1 (tx : Transaction) (d : Int) (j : Nat) :
    ((RBTree.change_size_offset tx d).items j).user1 = (tx.items j).user1 := by
  rw [RBTree.change_size_offset_items]; split
  · rename_i h; subst h; simp
  · rfl

/-- The item set after `insert_absent`. -/
theorem RBTree.insert_absent_tx (t : RBTree) (tx : Transaction) (p : Nat) (k : Int) :
    (t.insert_absent tx p k).2.2 =
      RBTree.change_size_offset
        (((if p = 0 then (tx.item RBTree.tree_key_).modify RBTree.tree_key_
              (fun it => it.add_write 0)
           else (tx.item (p ||| 1)).modify (p ||| 1)
              (fun it => it.update_read (Function.update t.nodeversion t.heap_top 0 p)
                ((Function.update t.nodeversion t.heap_top 0 p + 8) % 2 ^ 64))).item
          t.heap_top).modify t.heap_top (fun it => (it.add_write 0).add_flags RBTree.insert_tag))
        1 := by
  have hm : ∀ (tx1 : Transaction) (a b : Nat),
      (if (tx1.items (p ||| 1)).has_read = true then
        tx1.modify (p ||| 1) (fun it => it.update_read a b) else tx1) =
      tx1.modify (p ||| 1) (fun it => it.update_read a b) := by
    intro tx1 a b
    by_cases h : (tx1.items (p ||| 1)).has_read = true
    · simp [h]
    · simp only [h, if_false]
      symm
      apply Transaction.modify_id
      simp [TransItem.update_read, h]
  by_cases hp : p = 0
  · simp [RBTree.insert_absent, hp]
  · simp only [RBTree.insert_absent, hp, if_false, hm, RBTree.inc_nodeversion,
      TransactionTid.increment_value, TransactionTid.word]

theorem RBTree.insert_absent_has_read (t : RBTree) (tx : Transaction) (p : Nat) (k : Int)
    (j : Nat) :
    ((t.insert_absent tx p k).2.2.items j).has_read = (tx.items j).has_read := by
  rw [RBTree.insert_absent_tx, RBTree.change_size_offset_has_read]
  simp only [Transaction.items_modify, Transaction.items_item]
  by_cases hp : p = 0
  · simp only [hp, if_true, Transaction.items_modify, Transaction.items_item]
    split <;> (try split) <;> simp_all
  · simp only [hp, if_false, Transaction.items_modify, Transaction.items_item]
    split <;> (try split) <;> simp_all

theorem RBTree.insert_absent_user1 (t : RBTree) (tx : Transaction) (p : Nat) (k : Int)
    (j : Nat) :
    ((t.insert_absent tx p k).2.2.items j).user1 = (tx.items j).user1 := by
  rw [RBTree.insert_absent_tx, RBTree.change_size_offset_user1]
  simp only [Transaction.items_modify, Transaction.items_item]
  by_cases hp : p = 0
  · simp only [hp, if_true, Transaction.items_modify, Transaction.items_item]
    split <;> (try split) <;> simp_all
  · simp only [hp, if_false, Transaction.items_modify, Transaction.items_item]
    split <;> (try split) <;> simp_all

/-- Reading `tree[k]` for an absent key whose insertion parent is no phantom: the key is
inserted with the default value, which is what the read returns; the transaction gains no
read and no `delete_tag`. -/
theorem RBTree.read_absent (t : RBTree) (tx : Transaction) (k : Int)
    (htop : 0 < t.heap_top ∧ t.heap_top % 8 = 0) (hfresh : tx.items t.heap_top = {})
    (hf : (t.find_any k).found = false)
    (hp : (t.find_any k).node ≠ 0 →
      RBTree.is_inserted (t.version (t.find_any k).node) = true →
      (tx.items (t.find_any k).node).user0 = true ∨
      (tx.items (t.find_any k).node).user1 = true) :
    (t.read tx k).1 = some 0 ∧
    (t.read tx k).2.1 = (t.lock_tree.insert_absent
          (if (t.find_any k).node = 0 then tx else tx.item (t.find_any k).node)
          (t.find_any k).node k).2.1 ∧
    (∀ j, ((t.read tx k).2.2.items j).has_read = (tx.items j).has_read) ∧
    (∀ j, ((t.read tx k).2.2.items j).user1 = (tx.items j).user1) := by
  have hit := RBTree.insert_absent_item t.lock_tree
    (if (t.find_any k).node = 0 then tx else tx.item (t.find_any k).node)
    (t.find_any k).node k htop (by split <;> simp [hfresh])
  simp only [RBTree.heap_top_lock_tree] at hit
  unfold RBTree.read RBTree.operator_index
  rw [RBTree.insert_absent_path t tx k hf hp]
  simp only [RBTree.insert_absent_fst, RBTree.heap_top_lock_tree]
  have hw : ((t.lock_tree.insert_absent
      (if (t.find_any k).node = 0 then tx else tx.item (t.find_any k).node)
      (t.find_any k).node k).2.2.items t.heap_top).has_write = true := by rw [hit]
  refine ⟨?_, ?_, ?_, ?_⟩
  · rw [RBTree.proxy_read_written _ _ _ hw, hit]
  · simp [RBTree.proxy_read, hw]
  · intro j
    simp only [RBTree.proxy_read, Transaction.items_item, hw, if_true,
      RBTree.insert_absent_has_read]
    split <;> simp
  · intro j
    simp only [RBTree.proxy_read, Transaction.items_item, hw, if_true,
      RBTree.insert_absent_user1]
    split <;> simp

theorem RBTree.read_keys_subset (t : RBTree) (tx : Transaction) (k : Int) (j : Nat)
    (h : (tx.items j).has_read = false)
    (hr : ∀ i, ((t.read tx k).2.2.items i).has_read = (tx.items i).has_read) :
    ((t.read tx k).2.2.items j).has_read = false := by
  rw [hr j, h]

/-- The statement `tree[k] = v` for an absent key whose insertion parent is no phantom:
it returns, the tree is the one `insert_absent` leaves, and the transaction gains no read
and no `delete_tag`. -/
theorem RBTree.assign_absent (t : RBTree) (tx : Transaction) (k v : Int)
    (hf : (t.find_any k).found = false)
    (hp : (t.find_any k).node ≠ 0 →
      RBTree.is_inserted (t.version (t.find_any k).node) = true →
      (tx.items (t.find_any k).node).user0 = true ∨
      (tx.items (t.find_any k).node).user1 = true) :
    (t.assign tx k v).1 = some () ∧
    (t.assign tx k v).2.1 = (t.lock_tree.insert_absent
          (if (t.find_any k).node = 0 then tx else tx.item (t.find_any k).node)
          (t.find_any k).node k).2.1 ∧
    (t.assign tx k v).2.2 = ((t.lock_tree.insert_absent
          (if (t.find_any k).node = 0 then tx else tx.item (t.find_any k).node)
          (t.find_any k).node k).2.2.item t.heap_top).modify t.heap_top
            (fun it => it.add_write v) ∧
    (∀ j, ((t.assign tx k v).2.2.items j).has_read = (tx.items j).has_read) ∧
    (∀ j, ((t.assign tx k v).2.2.items j).user1 = (tx.items j).user1) := by
  unfold RBTree.assign RBTree.operator_index
  rw [RBTree.insert_absent_path t tx k hf hp]
  simp only [RBTree.insert_absent_fst, RBTree.heap_top_lock_tree, RBTree.proxy_assign]
  refine ⟨trivial, trivial, trivial, ?_, ?_⟩
  · intro j
    simp only [Transaction.items_modify, Transaction.items_item]
    split
    · rename_i h; subst h
      simp [RBTree.insert_absent_has_read]
      split <;> simp
    · simp [RBTree.insert_absent_has_read]
      split <;> simp
  · intro j
    simp only [Transaction.items_modify, Transaction.items_item]
    split
    · rename_i h; subst h
      simp [RBTree.insert_absent_user1]
      split <;> simp
    · simp [RBTree.insert_absent_user1]
      split <;> simp

/-! ## Nodeversion keys -/

theorem or_one_of_even (p : Nat) (h : p % 2 = 0) : p ||| 1 = p + 1 := by
  rw [or_one_eq]; omega

theorem RBTree.check_structured (t : RBTree) (p : Nat) (it : TransItem)
    (hp0 : p ≠ 0) (hp : p % 2 = 0) :
    t.check (p ||| 1) it =
      (it.read_value == t.nodeversion p &&
        (!TransactionTid.is_locked (t.nodeversion p) || it.has_lock)) := by
  have h1 : (p ||| 1) &&& 1 = 1 := by
    rw [or_one_of_even p hp, Nat.and_one_is_mod]; omega
  have h2 : p ||| 1 ≠ RBTree.tree_key_ := by
    rw [or_one_of_even p hp]; simp only [RBTree.tree_key_]; omega
  have h3 : p ||| 1 ≠ RBTree.size_key_ := by
    rw [or_one_of_even p hp]; simp only [RBTree.size_key_]; omega
  have h4 : (p ||| 1) - 1 = p := by
    rw [or_one_of_even p hp]; omega
  unfold RBTree.check
  simp [h1, h2, h3, h4, RBTree.is_locked]

/-! ## Nodeversions through a commit -/

theorem RBTree.nodeversion_install (t : RBTree) (k : Nat) (it : TransItem)
    (h : it.user1 = false) : (t.install k it).nodeversion = t.nodeversion := by
  unfold RBTree.install
  simp only [RBTree.has_delete_eq, h]
  split
  · rfl
  · split
    · rfl
    · simp only [Bool.false_eq_true, if_false]
      split <;> rfl

theorem Sto.install_phase_nodeversion (t : RBTree) (tx : Transaction)
    (h : ∀ k ∈ tx.keys, (tx.items k).has_write = true → (tx.items k).user1 = false) :
    (Sto.install_phase t tx).nodeversion = t.nodeversion :=
  foldl_obs_eq _ (fun s => s.nodeversion) _ t
    (fun s b hb => RBTree.nodeversion_install s b _
      (h b ((Sto.mem_write_set tx b).mp hb).1 ((Sto.mem_write_set tx b).mp hb).2))

theorem Sto.unlock_phase_nodeversion (t : RBTree) (tx : Transaction) :
    (Sto.unlock_phase t tx).nodeversion = t.nodeversion :=
  foldl_obs_eq _ (fun s => s.nodeversion) _ t (fun s b _ => by simp)

/-- A commit of a transaction that erases nothing leaves the nodeversions alone. -/
theorem Sto.try_commit_nodeversion (t : RBTree) (tx : Transaction)
    (hc : (Sto.try_commit t tx).1 = true)
    (h : ∀ k ∈ tx.keys, (tx.items k).has_write = true → (tx.items k).user1 = false) :
    (Sto.try_commit t tx).2.nodeversion = t.nodeversion := by
  rw [Sto.try_commit_snd t tx hc, Sto.unlock_phase_nodeversion,
    Sto.install_phase_nodeversion, Sto.lock_phase_nodeversion]
  intro k hk hw
  rw [Sto.lock_phase_keys] at hk
  rw [Sto.lock_phase_has_write] at hw
  rw [Sto.lock_phase_user1]
  exact h k hk hw

/-- A commit fails when the check of one read item fails after the lock phase. -/
theorem Sto.try_commit_false (t : RBTree) (tx : Transaction) (j : Nat) (hj : j ∈ tx.keys)
    (hr : (tx.items j).has_read = true)
    (hc : (Sto.lock_phase t tx).1.check j ((Sto.lock_phase t tx).2.items j) = false) :
    (Sto.try_commit t tx).1 = false := by
  rw [Sto.try_commit_fst]
  cases hv : Sto.validate (Sto.lock_phase t tx).1 (Sto.lock_phase t tx).2
  · rfl
  · rw [Sto.validate_iff] at hv
    have := hv j (by rw [Sto.lock_phase_keys]; exact hj)
      (by rw [Sto.lock_phase_has_read]; exact hr)
    rw [hc] at this
    exact Bool.noConfusion this

/-- A nodeversion read that differs from the node's nodeversion makes the commit fail. -/
theorem Sto.try_commit_false_of_nodeversion (t : RBTree) (tx : Transaction) (p : Nat)
    (hp0 : p ≠ 0) (hp : p % 2 = 0) (hj : p ||| 1 ∈ tx.keys)
    (hr : (tx.items (p ||| 1)).has_read = true)
    (hne : (tx.items (p ||| 1)).read_value ≠ t.nodeversion p) :
    (Sto.try_commit t tx).1 = false := by
  apply Sto.try_commit_false t tx (p ||| 1) hj hr
  rw [RBTree.check_structured _ p _ hp0 hp, Sto.lock_phase_nodeversion,
    Sto.lock_phase_read_value]
  simp [hne]

theorem RBTree.insert_absent_nodeversion_parent (t : RBTree) (tx : Transaction) (p : Nat)
    (k : Int) (hp : p ≠ 0) (hpn : p ≠ t.heap_top) :
    (t.insert_absent tx p k).2.1.nodeversion p = (t.nodeversion p + 8) % 2 ^ 64 := by
  rw [RBTree.insert_absent_under t tx p k hp hpn]
  simp

/-- Facts about the search for an absent key in a non-empty tree: the parent
is a node of the tree and one of the two boundaries, and each non-null boundary is a node
of the tree whose key lies on its side of the searched key. -/
theorem RBTree.absent_facts (t : RBTree) (k : Int)
    (hne : t.wrapper_tree_ ≠ rbtree.nil) (hf : (t.find_any k).found = false) :
    (t.find_any k).node ∈ t.wrapper_tree_.toList ∧
    ((t.find_any k).node = (t.find_any k).lo ∨ (t.find_any k).node = (t.find_any k).hi) ∧
    ((t.find_any k).lo ≠ 0 → (t.find_any k).lo ∈ t.wrapper_tree_.toList ∧
      t.key (t.find_any k).lo < k) ∧
    ((t.find_any k).hi ≠ 0 → (t.find_any k).hi ∈ t.wrapper_tree_.toList ∧
      k < t.key (t.find_any k).hi) := by
  have hb := rbtree.find_any_boundary t.key k t.wrapper_tree_ 0 0 0 hf
    (fun h => absurd rfl h) (fun h => absurd rfl h) (Or.inl rfl)
  have hm := rbtree.find_any_boundary_mem t.key k t.wrapper_tree_ 0 0 0
  refine ⟨?_, hb.2.2, ?_, ?_⟩
  · rcases rbtree.find_any_parent t.key k t.wrapper_tree_ 0 0 0 hf with ⟨h, _⟩ | h
    · exact absurd h hne
    · exact h
  · intro h
    rcases hm.1 with e | m
    · exact absurd e h
    · exact ⟨m, hb.1 h⟩
  · intro h
    rcases hm.2 with e | m
    · exact absurd e h
    · exact ⟨m, hb.2.1 h⟩


/-! ## Fields through `install` -/

theorem RBTree.install_eq (t : RBTree) (k : Nat) (it : TransItem) :
    t.install k it =
      if k = RBTree.tree_key_ then
        { t with treeversion_ := TransactionTid.inc_invalid_version t.treeversion_ }
      else if k = RBTree.size_key_ then
        { t with
          size_ := (((t.size_ : Int) + it.write_value) % (TransactionTid.word : Int)).toNat,
          sizeversion_ := TransactionTid.inc_invalid_version t.sizeversion_ }
      else if it.user1 = true then
        (((t.lock_tree.tree_erase k).unlock_tree.set_version k
          (TransactionTid.inc_invalid_version (t.version k))).inc_nodeversion k).2
      else if it.user0 = true then t.set_version k (RBTree.erase_inserted (t.version k))
      else (t.set_value k it.write_value).set_version k
        (TransactionTid.inc_invalid_version (t.version k)) := by
  simp only [RBTree.install, RBTree.has_delete_eq, RBTree.has_insert_eq]
  rfl

@[simp] theorem RBTree.key_install (t : RBTree) (k : Nat) (it : TransItem) :
    (t.install k it).key = t.key := by
  rw [RBTree.install_eq]
  split
  · rfl
  · split
    · rfl
    · split
      · rfl
      · split <;> rfl

@[simp] theorem RBTree.heap_top_install (t : RBTree) (k : Nat) (it : TransItem) :
    (t.install k it).heap_top = t.heap_top := by
  rw [RBTree.install_eq]
  split
  · rfl
  · split
    · rfl
    · split
      · rfl
      · split <;> rfl

theorem RBTree.tree_install (t : RBTree) (k : Nat) (it : TransItem) :
    (t.install k it).wrapper_tree_ =
      if k ≠ RBTree.tree_key_ ∧ k ≠ RBTree.size_key_ ∧ it.user1 = true
      then t.wrapper_tree_.erase k else t.wrapper_tree_ := by
  rw [RBTree.install_eq]
  by_cases h1 : k = RBTree.tree_key_
  · simp [h1]
  · by_cases h2 : k = RBTree.size_key_
    · simp [h1, h2]
    · by_cases h3 : it.user1 = true
      · simp [h1, h2, h3, RBTree.inc_nodeversion, RBTree.tree_erase]
      · have h3f : it.user1 = false := by simpa using h3
        by_cases h4 : it.user0 = true <;> simp [h1, h2, h3f, h4]

theorem RBTree.size_install (t : RBTree) (k : Nat) (it : TransItem) :
    (t.install k it).size_ =
      if k = RBTree.size_key_
      then (((t.size_ : Int) + it.write_value) % (TransactionTid.word : Int)).toNat
      else t.size_ := by
  rw [RBTree.install_eq]
  by_cases h1 : k = RBTree.tree_key_
  · simp [h1]
  · by_cases h2 : k = RBTree.size_key_
    · simp [h2]
    · simp only [h1, h2, if_false]
      split
      · rfl
      · split <;> rfl

theorem RBTree.version_install (t : RBTree) (k : Nat) (it : TransItem) (e : Nat)
    (h : e ≠ k) : (t.install k it).version e = t.version e := by
  rw [RBTree.install_eq]
  split
  · rfl
  · split
    · rfl
    · split
      · simp [RBTree.inc_nodeversion, RBTree.tree_erase, Function.update_noteq h]
      · split <;> simp [Function.update_noteq h]

theorem RBTree.version_install_deleted (t : RBTree) (k : Nat) (it : TransItem)
    (h1 : k ≠ RBTree.tree_key_) (h2 : k ≠ RBTree.size_key_) (h3 : it.user1 = true) :
    (t.install k it).version k = TransactionTid.inc_invalid_version (t.version k) := by
  rw [RBTree.install_eq]
  simp [h1, h2, h3, RBTree.inc_nodeversion, RBTree.tree_erase]

theorem RBTree.value_install (t : RBTree) (k : Nat) (it : TransItem) (e : Nat)
    (h : e ≠ k ∨ it.user0 = true ∨ it.user1 = true) :
    (t.install k it).value e = t.value e := by
  rw [RBTree.install_eq]
  split
  · rfl
  · split
    · rfl
    · split
      · rfl
      · split
        · rfl
        · rename_i hd hi
          rcases h with h | h | h
          · simp [Function.update_noteq h]
          · exact absurd h hi
          · exact absurd h hd

/-! ## The install and unlock phases -/

theorem Sto.install_phase_key (t : RBTree) (tx : Transaction) :
    (Sto.install_phase t tx).key = t.key :=
  foldl_obs_eq _ (fun s => s.key) _ t (fun s b _ => by simp)

theorem Sto.install_phase_heap_top (t : RBTree) (tx : Transaction) :
    (Sto.install_phase t tx).heap_top = t.heap_top :=
  foldl_obs_eq _ (fun s => s.heap_top) _ t (fun s b _ => by simp)

theorem Sto.unlock_phase_key (t : RBTree) (tx : Transaction) :
    (Sto.unlock_phase t tx).key = t.key :=
  foldl_obs_eq _ (fun s => s.key) _ t (fun s b _ => by simp)

theorem Sto.unlock_phase_heap_top (t : RBTree) (tx : Transaction) :
    (Sto.unlock_phase t tx).heap_top = t.heap_top :=
  foldl_obs_eq _ (fun s => s.heap_top) _ t (fun s b _ => by simp)

theorem Sto.unlock_phase_tree (t : RBTree) (tx : Transaction) :
    (Sto.unlock_phase t tx).wrapper_tree_ = t.wrapper_tree_ :=
  foldl_obs_eq _ (fun s => s.wrapper_tree_) _ t (fun s b _ => by simp)

theorem Sto.unlock_phase_size (t : RBTree) (tx : Transaction) :
    (Sto.unlock_phase t tx).size_ = t.size_ :=
  foldl_obs_eq _ (fun s => s.size_) _ t (fun s b _ => by simp)

theorem Sto.unlock_phase_value (t : RBTree) (tx : Transaction) :
    (Sto.unlock_phase t tx).value = t.value :=
  foldl_obs_eq _ (fun s => s.value) _ t (fun s b _ => by simp)

/-- The tree after the install phase of a transaction whose only erased node is `n`. -/
theorem Sto.install_phase_tree_single (t : RBTree) (tx : Transaction) (n : Nat)
    (hnd : tx.keys.Nodup) (hn : n ∈ tx.keys) (hw : (tx.items n).has_write = true)
    (h1 : n ≠ RBTree.tree_key_) (h2 : n ≠ RBTree.size_key_) (hd : (tx.items n).user1 = true)
    (ho : ∀ j ∈ tx.keys, j ≠ n → (tx.items j).has_write = true → (tx.items j).user1 = false) :
    (Sto.install_phase t tx).wrapper_tree_ = t.wrapper_tree_.erase n := by
  unfold Sto.install_phase
  apply foldl_obs_single (fun s k => s.install k (tx.items k)) (fun s => s.wrapper_tree_) n
    (fun tr => tr.erase n) _ t (Sto.nodup_write_set tx hnd)
    ((Sto.mem_write_set tx n).mpr ⟨hn, hw⟩)
  · intro s b hb hbn
    have := (Sto.mem_write_set tx b).mp hb
    simp [RBTree.tree_install, ho b this.1 hbn this.2]
  · intro s
    simp [RBTree.tree_install, h1, h2, hd]

/-- No node is spliced out by the install phase of a transaction that erases nothing. -/
theorem Sto.install_phase_tree_none (t : RBTree) (tx : Transaction)
    (ho : ∀ j ∈ tx.keys, (tx.items j).has_write = true → (tx.items j).user1 = false) :
    (Sto.install_phase t tx).wrapper_tree_ = t.wrapper_tree_ :=
  foldl_obs_eq _ (fun s => s.wrapper_tree_) _ t (fun s b hb => by
    have := (Sto.mem_write_set tx b).mp hb
    simp [RBTree.tree_install, ho b this.1 this.2])

/-- The size after the install phase of a transaction that wrote the size item. -/
theorem Sto.install_phase_size (t : RBTree) (tx : Transaction)
    (hnd : tx.keys.Nodup) (hn : RBTree.size_key_ ∈ tx.keys)
    (hw : (tx.items RBTree.size_key_).has_write = true) :
    (Sto.install_phase t tx).size_ =
      (((t.size_ : Int) + (tx.items RBTree.size_key_).write_value)
        % (TransactionTid.word : Int)).toNat := by
  unfold Sto.install_phase
  apply @foldl_obs_single RBTree Nat Nat (fun s k => s.install k (tx.items k))
    (fun s => s.size_) RBTree.size_key_
    (fun z => (((z : Int) + (tx.items RBTree.size_key_).write_value)
        % (TransactionTid.word : Int)).toNat) _ t (Sto.nodup_write_set tx hnd)
    ((Sto.mem_write_set tx _).mpr ⟨hn, hw⟩)
  · intro s b _ hbn
    simp [RBTree.size_install, hbn]
  · intro s
    simp [RBTree.size_install]

theorem Sto.install_phase_size_none (t : RBTree) (tx : Transaction)
    (h : ¬ (RBTree.size_key_ ∈ tx.keys ∧ (tx.items RBTree.size_key_).has_write = true)) :
    (Sto.install_phase t tx).size_ = t.size_ :=
  foldl_obs_eq _ (fun s => s.size_) _ t (fun s b hb => by
    have hb2 := (Sto.mem_write_set tx b).mp hb
    have : b ≠ RBTree.size_key_ := fun e => h (e ▸ hb2)
    simp [RBTree.size_install, this])

theorem RBTree.or_one_ne_size_key (p : Nat) : p ||| 1 ≠ RBTree.size_key_ := by
  rw [or_one_eq]; simp only [RBTree.size_key_]; omega

/-- The size item after `insert_absent`: the offset is one larger. -/
theorem RBTree.insert_absent_size_item (t : RBTree) (tx : Transaction) (p : Nat) (k : Int)
    (htop : 0 < t.heap_top ∧ t.heap_top % 8 = 0) :
    (t.insert_absent tx p k).2.2.items RBTree.size_key_ =
      (tx.items RBTree.size_key_).add_write
        ((if (tx.items RBTree.size_key_).has_write = true
          then (tx.items RBTree.size_key_).write_value else 0) + 1) := by
  have h2 : RBTree.size_key_ ≠ t.heap_top := by simp only [RBTree.size_key_]; omega
  have h3 : RBTree.size_key_ ≠ p ||| 1 := fun e => RBTree.or_one_ne_size_key p e.symm
  rw [RBTree.insert_absent_tx, RBTree.change_size_offset_items]
  by_cases hp : p = 0
  · simp [hp, Transaction.items_modify, h2]
  · simp [hp, Transaction.items_modify, h2, h3]

theorem RBTree.insert_absent_keys (t : RBTree) (tx : Transaction) (p : Nat) (k : Int) :
    t.heap_top ∈ (t.insert_absent tx p k).2.2.keys ∧
    RBTree.size_key_ ∈ (t.insert_absent tx p k).2.2.keys ∧
    (tx.keys.Nodup → (t.insert_absent tx p k).2.2.keys.Nodup) ∧
    (∀ j ∈ tx.keys, j ∈ (t.insert_absent tx p k).2.2.keys) := by
  rw [RBTree.insert_absent_tx]
  simp only [RBTree.change_size_offset_keys, Transaction.keys_modify]
  refine ⟨?_, ?_, ?_, ?_⟩
  · simp [Transaction.mem_keys_item]
  · simp [Transaction.mem_keys_item]
  · intro h
    apply Transaction.nodup_item
    apply Transaction.nodup_item
    split
    · exact Transaction.nodup_item _ _ h
    · exact Transaction.nodup_item _ _ h
  · intro j hj
    simp only [Transaction.mem_keys_item, Transaction.keys_modify]
    right; right
    split <;> simp [Transaction.mem_keys_item, hj]

theorem RBTree.insert_absent_key (t : RBTree) (tx : Transaction) (p : Nat) (k : Int) :
    (t.insert_absent tx p k).2.1.key = Function.update t.key t.heap_top k := by
  by_cases hp : p = 0 <;> simp [RBTree.insert_absent, hp, RBTree.inc_nodeversion]

theorem RBTree.insert_absent_size (t : RBTree) (tx : Transaction) (p : Nat) (k : Int) :
    (t.insert_absent tx p k).2.1.size_ = t.size_ := by
  by_cases hp : p = 0 <;> simp [RBTree.insert_absent, hp, RBTree.inc_nodeversion]

theorem RBTree.insert_absent_heap_top (t : RBTree) (tx : Transaction) (p : Nat) (k : Int) :
    (t.insert_absent tx p k).2.1.heap_top = t.heap_top + 8 := by
  by_cases hp : p = 0 <;> simp [RBTree.insert_absent, hp, RBTree.inc_nodeversion]

theorem RBTree.insert_absent_value (t : RBTree) (tx : Transaction) (p : Nat) (k : Int) :
    (t.insert_absent tx p k).2.1.value = Function.update t.value t.heap_top 0 := by
  by_cases hp : p = 0 <;> simp [RBTree.insert_absent, hp, RBTree.inc_nodeversion]

theorem RBTree.insert_absent_sizeversion (t : RBTree) (tx : Transaction) (p : Nat) (k : Int) :
    (t.insert_absent tx p k).2.1.sizeversion_ = t.sizeversion_ := by
  by_cases hp : p = 0 <;> simp [RBTree.insert_absent, hp, RBTree.inc_nodeversion]

theorem RBTree.insert_absent_treeversion (t : RBTree) (tx : Transaction) (p : Nat) (k : Int) :
    (t.insert_absent tx p k).2.1.treeversion_ = t.treeversion_ := by
  by_cases hp : p = 0 <;> simp [RBTree.insert_absent, hp, RBTree.inc_nodeversion]

theorem RBTree.insert_absent_nodeversion (t : RBTree) (tx : Transaction) (p : Nat) (k : Int)
    (e : Nat) (he : e ≠ t.heap_top) (hep : e ≠ p) :
    (t.insert_absent tx p k).2.1.nodeversion e = t.nodeversion e := by
  by_cases hp : p = 0 <;>
    simp [RBTree.insert_absent, hp, RBTree.inc_nodeversion, Function.update_noteq he,
      Function.update_noteq hep]

theorem RBTree.find_any_def (t : RBTree) (k : Int) :
    rbtree.find_any t.key k t.wrapper_tree_ 0 0 0 = t.find_any k := rfl

theorem prod_eta3 {α β γ : Type} (x : α × β × γ) (a : α) (h : x.1 = a) :
    x = (a, x.2.1, x.2.2) := by
  obtain ⟨x1, x2, x3⟩ := x
  simp only at h
  rw [h]

theorem RBTree.size_add_zero (z : Nat) (h : z < 2 ^ 64) :
    (((z : Int) + 0) % (TransactionTid.word : Int)).toNat = z := by
  simp only [TransactionTid.word]
  omega


/-! ## Value versions through a commit -/

theorem RBTree.check_node (t : RBTree) (e : Nat) (it : TransItem) (h8 : e % 8 = 0) :
    t.check e it =
      (decide (it.read_value / 2 = t.version e / 2) &&
        (!TransactionTid.is_locked (t.version e) || it.has_lock)) := by
  have h1 : e &&& 1 = 0 := by rw [Nat.and_one_is_mod]; omega
  have h2 : e ≠ RBTree.tree_key_ := by simp only [RBTree.tree_key_]; omega
  have h3 : e ≠ RBTree.size_key_ := by simp only [RBTree.size_key_]; omega
  unfold RBTree.check
  simp [h1, h2, h3, RBTree.is_locked, TransactionTid.lock_bit, xor_le_one_iff]

/-- A read of a node's value version that differs from the current version in more than
the lock bit makes the commit fail. -/
theorem Sto.try_commit_false_of_version (t : RBTree) (tx : Transaction) (e : Nat)
    (h8 : e % 8 = 0) (hj : e ∈ tx.keys)
    (hr : (tx.items e).has_read = true)
    (hne : (tx.items e).read_value / 2 ≠ t.version e / 2) :
    (Sto.try_commit t tx).1 = false := by
  apply Sto.try_commit_false t tx e hj hr
  rw [RBTree.check_node _ e _ h8, Sto.lock_phase_version, Sto.lock_phase_read_value]
  have : ¬ ((tx.items e).read_value / 2 =
      (if (e ∈ tx.keys ∧ (tx.items e).has_write = true) ∧ e ≠ RBTree.size_key_ ∧
          e ≠ RBTree.tree_key_
        then TransactionTid.lock (t.version e) else t.version e) / 2) := by
    split
    · rw [lock_eq]; omega
    · exact hne
  simp [this]

theorem Sto.unlock_fold_version (l : List Nat) (t : RBTree) (e : Nat) :
    (l.foldl (fun s k => s.unlock k) t).version e =
      if e ∈ l ∧ e ≠ RBTree.size_key_ ∧ e ≠ RBTree.tree_key_
      then TransactionTid.unlock (t.version e) else t.version e := by
  induction l generalizing t with
  | nil => simp
  | cons x xs ih =>
    simp only [List.foldl_cons, ih, List.mem_cons, RBTree.version_unlock]
    by_cases hx : e = x
    · subst hx
      by_cases h2 : e = RBTree.size_key_
      · simp [h2]
      · by_cases h1 : e = RBTree.tree_key_
        · simp [h1]
        · by_cases hm : e ∈ xs <;> simp [hm, h1, h2, TransactionTid.unlock_unlock]
    · by_cases hm : e ∈ xs <;> simp [hm, hx]

theorem Sto.unlock_phase_version (t : RBTree) (tx : Transaction) (e : Nat) :
    (Sto.unlock_phase t tx).version e =
      if (e ∈ tx.keys ∧ (tx.items e).has_lock = true) ∧ e ≠ RBTree.size_key_ ∧
          e ≠ RBTree.tree_key_
      then TransactionTid.unlock (t.version e) else t.version e := by
  unfold Sto.unlock_phase
  rw [Sto.unlock_fold_version]
  simp only [List.mem_filter]

theorem Sto.install_phase_version_frame (t : RBTree) (tx : Transaction) (e : Nat)
    (h : ¬ (e ∈ tx.keys ∧ (tx.items e).has_write = true)) :
    (Sto.install_phase t tx).version e = t.version e :=
  foldl_obs_eq _ (fun s => s.version e) _ t (fun s b hb => by
    have hb2 := (Sto.mem_write_set tx b).mp hb
    exact RBTree.version_install s b _ e (fun e2 => h (e2 ▸ hb2)))

theorem Sto.install_phase_version_deleted (t : RBTree) (tx : Transaction) (e : Nat)
    (hnd : tx.keys.Nodup) (hn : e ∈ tx.keys) (hw : (tx.items e).has_write = true)
    (h1 : e ≠ RBTree.tree_key_) (h2 : e ≠ RBTree.size_key_) (hd : (tx.items e).user1 = true) :
    (Sto.install_phase t tx).version e = TransactionTid.inc_invalid_version (t.version e) := by
  unfold Sto.install_phase
  apply @foldl_obs_single RBTree Nat Nat (fun s k => s.install k (tx.items k))
    (fun s => s.version e) e TransactionTid.inc_invalid_version _ t
    (Sto.nodup_write_set tx hnd) ((Sto.mem_write_set tx e).mpr ⟨hn, hw⟩)
  · intro s b _ hbn
    exact RBTree.version_install s b _ e (fun e2 => hbn e2.symm)
  · intro s
    exact RBTree.version_install_deleted s e _ h1 h2 hd

/-- A commit leaves alone the value version of every node for which the transaction
holds neither a write nor a lock. -/
theorem Sto.try_commit_version_frame (t : RBTree) (tx : Transaction) (e : Nat)
    (hc : (Sto.try_commit t tx).1 = true)
    (hw : (tx.items e).has_write = false) (hl : (tx.items e).has_lock = false) :
    (Sto.try_commit t tx).2.version e = t.version e := by
  rw [Sto.try_commit_snd t tx hc, Sto.unlock_phase_version,
    Sto.install_phase_version_frame _ _ _
      (by rw [Sto.lock_phase_has_write, hw]; simp),
    Sto.lock_phase_version, Sto.lock_phase_keys, Sto.lock_phase_items]
  simp [hw, hl]

/-! ## Observing a committed key -/

/-- The value a call returns when it finds its key present with value `x`. -/
theorem RBTree.proxy_read_plain (t : RBTree) (tx : Transaction) (n : Nat)
    (hw : (tx.items n).has_write = false) (hr : (tx.items n).read_value = t.version n)
    (hl : RBTree.is_locked (t.version n) = false) :
    t.proxy_read tx n = (some (t.value n), t, tx.item n) := by
  simp [RBTree.proxy_read, hw, hr, hl]

/-- A fresh transaction that runs one call on a committed, unlocked key of the tree
gets the present answer and holds afterwards a read of the node's value version. -/
theorem RBTree.observe_present (t : RBTree) (op : Op) :
    (t.find_any op.key).found = true →
    RBTree.is_inserted (t.version (t.find_any op.key).node) = false →
    RBTree.is_locked (t.version (t.find_any op.key).node) = false →
    (t.find_any op.key).node ≠ RBTree.size_key_ →
    (t.run Transaction.start op).1 = some (match op with
      | .count _ => 1
      | .read _ => t.value (t.find_any op.key).node
      | .assign _ _ => 0
      | .erase _ => 1) ∧
    (t.run Transaction.start op).2.1 = t.lock_tree.unlock_tree ∧
    (t.find_any op.key).node ∈ (t.run Transaction.start op).2.2.keys ∧
    ((t.run Transaction.start op).2.2.items (t.find_any op.key).node).has_read = true ∧
    ((t.run Transaction.start op).2.2.items (t.find_any op.key).node).read_value
      = t.version (t.find_any op.key).node := by
  intro hf hi hl h2
  cases op with
  | count k =>
    simp only [Op.key] at hf hi hl h2
    simp only [RBTree.run, Op.key, RBTree.count_committed t Transaction.start k hf hi]
    simp [Transaction.mem_keys_item, TransItem.add_read_read_value, Transaction.start]
  | read k =>
    simp only [Op.key] at hf hi hl h2
    simp only [RBTree.run, Op.key, RBTree.read, RBTree.operator_index,
      RBTree.insert_found_plain t Transaction.start k hf
        (fun h => by rw [hi] at h; exact Bool.noConfusion h) rfl]
    rw [RBTree.proxy_read_plain _ _ _ (by simp [Transaction.start])
      (by simp [TransItem.add_read_read_value, Transaction.start]) (by simpa using hl)]
    simp [Transaction.mem_keys_item, TransItem.add_read_read_value, Transaction.start]
  | assign k v =>
    simp only [Op.key] at hf hi hl h2
    simp only [RBTree.run, Op.key, RBTree.assign, RBTree.operator_index,
      RBTree.insert_found_plain t Transaction.start k hf
        (fun h => by rw [hi] at h; exact Bool.noConfusion h) rfl, RBTree.proxy_assign]
    simp [Transaction.mem_keys_item, TransItem.add_read_read_value, Transaction.start]
  | erase k =>
    simp only [Op.key] at hf hi hl h2
    simp only [RBTree.run, Op.key, RBTree.erase_committed t Transaction.start k hf hi rfl]
    simp [Transaction.mem_keys_item, TransItem.add_read_read_value, Transaction.start,
      RBTree.change_size_offset_items, h2]

/-- The commit of a transaction whose only read and only erased node is `e`, read at the
node's current value version: it succeeds, splices the node out and bumps its value
version. -/
theorem Sto.commit_erase (t : RBTree) (tx : Transaction) (e : Nat)
    (h0 : e ≠ 0) (h8 : e % 8 = 0) (hnd : tx.keys.Nodup) (he : e ∈ tx.keys)
    (hw : (tx.items e).has_write = true) (hd : (tx.items e).user1 = true)
    (hr : (tx.items e).read_value = t.version e)
    (ho : ∀ j ∈ tx.keys, j ≠ e → (tx.items j).has_read = false ∧ (tx.items j).user1 = false) :
    (Sto.try_commit t tx).1 = true ∧
    (Sto.try_commit t tx).2.version e = TransactionTid.unlock
      (TransactionTid.inc_invalid_version (TransactionTid.lock (t.version e))) ∧
    (Sto.try_commit t tx).2.wrapper_tree_ = t.wrapper_tree_.erase e ∧
    (Sto.try_commit t tx).2.key = t.key ∧
    (Sto.try_commit t tx).2.heap_top = t.heap_top := by
  have h1 : e ≠ RBTree.tree_key_ := by simp only [RBTree.tree_key_]; omega
  have h2 : e ≠ RBTree.size_key_ := by simp only [RBTree.size_key_]; omega
  have hc : (Sto.try_commit t tx).1 = true := by
    rw [Sto.try_commit_fst, Sto.validate_iff]
    intro j hj hjr
    rw [Sto.lock_phase_keys] at hj
    rw [Sto.lock_phase_has_read] at hjr
    by_cases hje : j = e
    · subst hje
      rw [RBTree.check_node _ j _ h8, Sto.lock_phase_version, Sto.lock_phase_read_value,
        Sto.lock_phase_items]
      simp only [hj, hw, and_self, ne_eq, h1, h2, not_false_eq_true, if_true, hr, lock_eq]
      simp
      omega
    · rw [(ho j hj hje).1] at hjr
      exact Bool.noConfusion hjr
  refine ⟨hc, ?_, ?_, ?_, ?_⟩
  · rw [Sto.try_commit_snd t tx hc, Sto.unlock_phase_version,
      Sto.install_phase_version_deleted _ _ e (by rw [Sto.lock_phase_keys]; exact hnd)
        (by rw [Sto.lock_phase_keys]; exact he) (by rw [Sto.lock_phase_has_write]; exact hw)
        h1 h2 (by rw [Sto.lock_phase_user1]; exact hd),
      Sto.lock_phase_version, Sto.lock_phase_keys, Sto.lock_phase_items]
    simp [he, hw, h1, h2]
  · rw [Sto.try_commit_snd t tx hc, Sto.unlock_phase_tree,
      Sto.install_phase_tree_single _ _ e (by rw [Sto.lock_phase_keys]; exact hnd)
        (by rw [Sto.lock_phase_keys]; exact he) (by rw [Sto.lock_phase_has_write]; exact hw)
        h1 h2 (by rw [Sto.lock_phase_user1]; exact hd), Sto.lock_phase_tree]
    intro j hj hje _
    rw [Sto.lock_phase_keys] at hj
    rw [Sto.lock_phase_user1]
    exact (ho j hj hje).2
  · rw [Sto.try_commit_snd t tx hc, Sto.unlock_phase_key, Sto.install_phase_key,
      Sto.lock_phase_key]
  · rw [Sto.try_commit_snd t tx hc, Sto.unlock_phase_heap_top, Sto.install_phase_heap_top,
      Sto.lock_phase_heap_top]

/-- The item of a node the transaction did not touch passes through `insert_absent`. -/
theorem RBTree.insert_absent_items_other (t : RBTree) (tx : Transaction) (p : Nat) (k : Int)
    (j : Nat) (hj1 : j ≠ t.heap_top) (hj2 : j % 8 = 0) :
    (t.insert_absent tx p k).2.2.items j = tx.items j := by
  have h2 : j ≠ RBTree.size_key_ := by simp only [RBTree.size_key_]; omega
  have h1 : j ≠ RBTree.tree_key_ := by simp only [RBTree.tree_key_]; omega
  have h3 : j ≠ p ||| 1 := by rw [or_one_eq]; omega
  rw [RBTree.insert_absent_tx, RBTree.change_size_offset_items]
  by_cases hp : p = 0
  · simp [hp, Transaction.items_modify, h1, h2, hj1]
  · simp [hp, Transaction.items_modify, h2, h3, hj1]

/-- A version that moved by one increment differs in more than the lock bit. -/
theorem TransactionTid.bumped_ne (v : Nat) :
    v / 2 ≠ TransactionTid.unlock
      (TransactionTid.inc_invalid_version (TransactionTid.lock v)) / 2 := by
  rw [lock_eq, inc_invalid_version_eq, unlock_eq]
  omega

/-- A fresh transaction erasing a committed key: the result and the item set it leaves. -/
theorem RBTree.erase_fresh (t : RBTree) (k : Int)
    (hf : (t.find_any k).found = true)
    (hi : RBTree.is_inserted (t.version (t.find_any k).node) = false)
    (h2 : (t.find_any k).node ≠ RBTree.size_key_) :
    (t.erase Transaction.start k).1 = some 1 ∧
    (t.erase Transaction.start k).2.1 = t.lock_tree.unlock_tree ∧
    (t.erase Transaction.start k).2.2.keys.Nodup ∧
    (t.find_any k).node ∈ (t.erase Transaction.start k).2.2.keys ∧
    ((t.erase Transaction.start k).2.2.items (t.find_any k).node).has_write = true ∧
    ((t.erase Transaction.start k).2.2.items (t.find_any k).node).user1 = true ∧
    ((t.erase Transaction.start k).2.2.items (t.find_any k).node).read_value =
      t.version (t.find_any k).node ∧
    (∀ j ∈ (t.erase Transaction.start k).2.2.keys, j ≠ (t.find_any k).node →
      ((t.erase Transaction.start k).2.2.items j).has_read = false ∧
      ((t.erase Transaction.start k).2.2.items j).user1 = false) := by
  rw [RBTree.erase_committed t Transaction.start k hf hi (by simp [Transaction.start])]
  refine ⟨rfl, rfl, ?_, ?_, ?_, ?_, ?_, ?_⟩
  · simp only [RBTree.change_size_offset_keys]
    apply Transaction.nodup_item
    simp only [Transaction.keys_modify]
    apply Transaction.nodup_item
    simp [Transaction.start]
  · simp [Transaction.mem_keys_item]
  · simp [RBTree.change_size_offset_items, h2, Transaction.items_modify]
  · simp [RBTree.change_size_offset_items, h2, Transaction.items_modify]
  · simp [RBTree.change_size_offset_items, h2, Transaction.items_modify,
      TransItem.add_read_read_value, Transaction.start]
  · intro j _ hje
    by_cases hj2 : j = RBTree.size_key_
    · subst hj2
      simp [RBTree.change_size_offset_items, Transaction.items_modify, hje, Transaction.start]
    · simp [RBTree.change_size_offset_items, Transaction.items_modify, hje, hj2,
        Transaction.start]

/-- In a sorted tree a key names at most one node. -/
theorem RBTree.wf.key_inj (t : RBTree) (hwf : t.wf) (a b : Nat)
    (ha : a ∈ t.wrapper_tree_.toList) (hb : b ∈ t.wrapper_tree_.toList)
    (h : t.key a = t.key b) : a = b := by
  have h1 := rbtree.find_any_of_mem t.key (t.key b) t.wrapper_tree_ 0 0 0 a hwf.sorted ha h
  have h2 := rbtree.find_any_of_mem t.key (t.key b) t.wrapper_tree_ 0 0 0 b hwf.sorted hb rfl
  exact h1.2.symm.trans h2.2

/-- The tree a committed erase of the node `e` leaves: well formed, committed, without
the key of `e`, and with the value version of `e` one increment further. -/
theorem Sto.commit_erase_state (t : RBTree) (tx : Transaction) (e : Nat) (hwf : t.wf)
    (hcomm : ∀ n ∈ t.wrapper_tree_.toList, RBTree.is_inserted (t.version n) = false)
    (hmem : e ∈ t.wrapper_tree_.toList)
    (hnd : tx.keys.Nodup) (he : e ∈ tx.keys)
    (hw : (tx.items e).has_write = true) (hd : (tx.items e).user1 = true)
    (hr : (tx.items e).read_value = t.version e)
    (ho : ∀ j ∈ tx.keys, j ≠ e → (tx.items j).has_read = false ∧ (tx.items j).user1 = false)
    (hoth : ∀ j, j ≠ e → j ≠ RBTree.size_key_ → tx.items j = {}) :
    (Sto.try_commit t tx).1 = true ∧
    (Sto.try_commit t tx).2.wf ∧
    (∀ n ∈ (Sto.try_commit t tx).2.wrapper_tree_.toList,
      RBTree.is_inserted ((Sto.try_commit t tx).2.version n) = false) ∧
    ((Sto.try_commit t tx).2.find_any (t.key e)).found = false ∧
    (Sto.try_commit t tx).2.version e = TransactionTid.unlock
      (TransactionTid.inc_invalid_version (TransactionTid.lock (t.version e))) ∧
    (Sto.try_commit t tx).2.heap_top = t.heap_top := by
  have ha := hwf.alloc e hmem
  obtain ⟨hc, hv, htr, hkey, htop⟩ := Sto.commit_erase t tx e ha.1 ha.2.1 hnd he hw hd hr ho
  have hl : (Sto.try_commit t tx).2.wrapper_tree_.toList =
      t.wrapper_tree_.toList.filter (fun a => decide (a ≠ e)) := by
    rw [htr, rbtree.toList_erase t.key e _ hwf.sorted]
  have hwf3 : (Sto.try_commit t tx).2.wf := by
    refine ⟨?_, ?_, ?_⟩
    · rw [hl, hkey]
      exact List.Pairwise.filter _ hwf.sorted
    · intro n hn
      rw [hl] at hn
      rw [htop]
      exact hwf.alloc n (List.mem_of_mem_filter hn)
    · rw [htop]; exact hwf.top
  refine ⟨hc, hwf3, ?_, ?_, hv, htop⟩
  · intro n hn
    rw [hl, List.mem_filter] at hn
    have hne : n ≠ e := by simpa using hn.2
    have h2 : n ≠ RBTree.size_key_ := by
      have := (hwf.alloc n hn.1).2.1
      simp only [RBTree.size_key_]; omega
    rw [Sto.try_commit_version_frame t tx n hc (by rw [hoth n hne h2]) (by rw [hoth n hne h2])]
    exact hcomm n hn.1
  · by_contra hf
    have hf1 : ((Sto.try_commit t tx).2.find_any (t.key e)).found = true := by
      simpa using hf
    have hfd := rbtree.find_any_found (Sto.try_commit t tx).2.key (t.key e)
      (Sto.try_commit t tx).2.wrapper_tree_ 0 0 0 hf1
    rw [RBTree.find_any_def] at hfd
    obtain ⟨hm, hk⟩ := hfd
    rw [hl, List.mem_filter] at hm
    rw [hkey] at hk
    have := RBTree.wf.key_inj t hwf _ _ hm.1 hmem hk
    simp [this] at hm

/-- On the empty tree the search ends at the null parent. -/
theorem RBTree.find_any_nil (t : RBTree) (k : Int) (h : t.wrapper_tree_ = rbtree.nil) :
    (t.find_any k).node = 0 := by
  unfold RBTree.find_any
  rw [h]
  rfl

/-- A fresh transaction re-inserting an absent key into a committed tree: the insert
returns, its commit succeeds, and the value version of an older address `e` is not touched. -/
theorem RBTree.reinsert_frame (t : RBTree) (k w : Int) (e : Nat)
    (hcomm : ∀ n ∈ t.wrapper_tree_.toList, RBTree.is_inserted (t.version n) = false)
    (hf : (t.find_any k).found = false) (h8 : e % 8 = 0) (hlt : e < t.heap_top) :
    (t.assign Transaction.start k w).1 = some () ∧
    (Sto.try_commit (t.assign Transaction.start k w).2.1
      (t.assign Transaction.start k w).2.2).1 = true ∧
    (Sto.try_commit (t.assign Transaction.start k w).2.1
      (t.assign Transaction.start k w).2.2).2.version e = t.version e := by
  have hp : (t.find_any k).node ≠ 0 →
      RBTree.is_inserted (t.version (t.find_any k).node) = true →
      (Transaction.start.items (t.find_any k).node).user0 = true ∨
      (Transaction.start.items (t.find_any k).node).user1 = true := by
    intro hn hi
    by_cases hnil : t.wrapper_tree_ = rbtree.nil
    · exact absurd (RBTree.find_any_nil t k hnil) hn
    · rw [hcomm _ (RBTree.absent_facts t k hnil hf).1] at hi
      exact Bool.noConfusion hi
  obtain ⟨h1, h2, h3, h4, _⟩ := RBTree.assign_absent t Transaction.start k w hf hp
  have hc : (Sto.try_commit (t.assign Transaction.start k w).2.1
      (t.assign Transaction.start k w).2.2).1 = true := by
    apply Sto.try_commit_of_no_reads
    intro j _
    rw [h4 j]
    rfl
  have hne : e ≠ t.heap_top := by omega
  have hit : (t.assign Transaction.start k w).2.2.items e = {} := by
    rw [h3, Transaction.items_modify, if_neg hne, Transaction.items_item,
      RBTree.insert_absent_items_other _ _ _ _ e (by simpa using hne) h8]
    split <;> simp [Transaction.start]
  refine ⟨h1, hc, ?_⟩
  rw [Sto.try_commit_version_frame _ _ e hc (by rw [hit]) (by rw [hit]), h2,
    RBTree.insert_absent_version]
  simp [Function.update_noteq hne]

/-- A fresh transaction erasing a committed key holds no item besides the node and the
size key. -/
theorem RBTree.erase_fresh_other (t : RBTree) (k : Int)
    (hf : (t.find_any k).found = true)
    (hi : RBTree.is_inserted (t.version (t.find_any k).node) = false) :
    ∀ j, j ≠ (t.find_any k).node → j ≠ RBTree.size_key_ →
      (t.erase Transaction.start k).2.2.items j = {} := by
  intro j hje hj2
  rw [RBTree.erase_committed t Transaction.start k hf hi (by simp [Transaction.start])]
  simp [RBTree.change_size_offset_items, Transaction.items_modify, hje, hj2, Transaction.start]

/-! ## A transaction running alone -/

theorem RBTree.solo.start (t0 : RBTree) (hwf : t0.wf)
    (hcomm : ∀ n ∈ t0.wrapper_tree_.toList, RBTree.is_inserted (t0.version n) = false)
    (hunl : ∀ n ∈ t0.wrapper_tree_.toList,
      RBTree.is_locked (t0.version n) = false ∧ RBTree.is_locked (t0.nodeversion n) = false)
    (htv : RBTree.is_locked t0.treeversion_ = false) :
    RBTree.solo t0 t0 Transaction.start := by
  refine ⟨hwf, hunl, htv, ?_, ?_, ?_, ?_, le_refl _, ?_, rfl, ?_, ?_, hcomm⟩
  · intro n hn hi
    rw [hcomm n hn] at hi
    exact Bool.noConfusion hi
  · intro j hj
    exact Bool.noConfusion hj
  · intro j; rfl
  · intro j _; rfl
  · intro n _; exact ⟨rfl, rfl, rfl⟩
  · rw [List.filter_eq_self]
    intro n hn
    simpa using (hwf.alloc n hn).2.2
  · intro n hn hge
    have := (hwf.alloc n hn).2.2
    omega

theorem RBTree.solo.through_lock {t0 t : RBTree} {tx : Transaction} (h : RBTree.solo t0 t tx) :
    RBTree.solo t0 t.lock_tree.unlock_tree tx :=
  ⟨RBTree.wf.lock_unlock t h.wf, h.unlocked, h.tree_unlocked, h.own, h.reads, h.nolock,
    h.fresh, h.base_top, h.base_fields, h.base_size, h.base_nodes, h.added, h.base_committed⟩

theorem RBTree.solo.item {t0 t : RBTree} {tx : Transaction} (h : RBTree.solo t0 t tx)
    (j : Nat) : RBTree.solo t0 t (tx.item j) := by
  refine ⟨h.wf, h.unlocked, h.tree_unlocked, ?_, ?_, ?_, ?_, h.base_top, h.base_fields,
    h.base_size, h.base_nodes, h.added, h.base_committed⟩
  · intro n hn hi
    obtain ⟨a, b, c⟩ := h.own n hn hi
    rw [Transaction.items_item]
    exact ⟨(Transaction.mem_keys_item tx j n).2 (Or.inr a), b, c⟩
  · intro i; rw [Transaction.items_item]; exact h.reads i
  · intro i; rw [Transaction.items_item]; exact h.nolock i
  · intro i hi; rw [Transaction.items_item]; exact h.fresh i hi

/-- One item operation keeps the state of a lone transaction when it leaves the lock flag
alone, leaves a current read, and keeps write and tag on an uncommitted node. -/
theorem RBTree.solo.modify {t0 t : RBTree} {tx : Transaction} (h : RBTree.solo t0 t tx)
    (j : Nat) (f : TransItem → TransItem) (hj : j < t.heap_top)
    (hl : (f (tx.items j)).has_lock = false)
    (hr : (f (tx.items j)).has_read = true → t.read_current j (f (tx.items j)).read_value)
    (ho : j ∈ t.wrapper_tree_.toList → RBTree.is_inserted (t.version j) = true →
      (f (tx.items j)).has_write = true ∧
      ((f (tx.items j)).user0 = true ∨ (f (tx.items j)).user1 = true)) :
    RBTree.solo t0 t (tx.modify j f) := by
  refine ⟨h.wf, h.unlocked, h.tree_unlocked, ?_, ?_, ?_, ?_, h.base_top, h.base_fields,
    h.base_size, h.base_nodes, h.added, h.base_committed⟩
  · intro n hn hi
    obtain ⟨a, b, c⟩ := h.own n hn hi
    rw [Transaction.items_modify, Transaction.keys_modify]
    by_cases hnj : n = j
    · subst hnj
      rw [if_pos rfl]
      exact ⟨a, ho hn hi⟩
    · rw [if_neg hnj]
      exact ⟨a, b, c⟩
  · intro i
    rw [Transaction.items_modify]
    by_cases hij : i = j
    · subst hij
      rw [if_pos rfl]
      exact hr
    · rw [if_neg hij]
      exact h.reads i
  · intro i
    rw [Transaction.items_modify]
    by_cases hij : i = j
    · subst hij
      rw [if_pos rfl]
      exact hl
    · rw [if_neg hij]
      exact h.nolock i
  · intro i hi
    rw [Transaction.items_modify, if_neg (by omega)]
    exact h.fresh i hi

theorem RBTree.wf.node {t : RBTree} (hwf : t.wf) {n : Nat} (hn : n ∈ t.wrapper_tree_.toList) :
    n ≠ 0 ∧ n % 8 = 0 ∧ n < t.heap_top ∧ n ≠ RBTree.tree_key_ ∧ n ≠ RBTree.size_key_ ∧
    n ||| 1 = n + 1 ∧ n + 1 < t.heap_top := by
  obtain ⟨a, b, c⟩ := hwf.alloc n hn
  have d := hwf.top
  refine ⟨a, b, c, ?_, ?_, or_one_of_even n (by omega), by omega⟩
  · simp only [RBTree.tree_key_]; omega
  · simp only [RBTree.size_key_]; omega

/-- A tree that differs only in the tree lock and in values of nodes added since `t0`. -/
theorem RBTree.solo.tree_eq {t0 t : RBTree} {tx : Transaction} (h : RBTree.solo t0 t tx)
    (u : RBTree) (h1 : u.wrapper_tree_ = t.wrapper_tree_) (h2 : u.key = t.key)
    (h3 : u.version = t.version) (h4 : u.nodeversion = t.nodeversion)
    (h5 : u.treeversion_ = t.treeversion_) (h6 : u.heap_top = t.heap_top)
    (h7 : u.size_ = t.size_) (h8 : ∀ n, n < t0.heap_top → u.value n = t.value n) :
    RBTree.solo t0 u tx := by
  refine ⟨⟨?_, ?_, ?_⟩, ?_, ?_, ?_, ?_, h.nolock, ?_, ?_, ?_, ?_, ?_, ?_, h.base_committed⟩
  · rw [h1, h2]; exact h.wf.sorted
  · rw [h1, h6]; exact h.wf.alloc
  · rw [h6]; exact h.wf.top
  · rw [h1, h3, h4]; exact h.unlocked
  · rw [h5]; exact h.tree_unlocked
  · rw [h1, h3]; exact h.own
  · intro j hj
    have := h.reads j hj
    unfold RBTree.read_current at this ⊢
    rw [h1, h3, h4, h5]
    exact this
  · rw [h6]; exact h.fresh
  · rw [h6]; exact h.base_top
  · intro n hn
    rw [h2, h3, h8 n hn]
    exact h.base_fields n hn
  · rw [h7]; exact h.base_size
  · rw [h1]; exact h.base_nodes
  · rw [h1, h3]; exact h.added

/-- An uncommitted node was allocated after `t0`. -/
theorem RBTree.solo.inserted_ge {t0 t : RBTree} {tx : Transaction} (h : RBTree.solo t0 t tx)
    {e : Nat} (he : e ∈ t.wrapper_tree_.toList)
    (hi : RBTree.is_inserted (t.version e) = true) : t0.heap_top ≤ e := by
  by_contra hlt
  have hlt2 : e < t0.heap_top := by omega
  have hm : e ∈ t0.wrapper_tree_.toList := by
    rw [← h.base_nodes, List.mem_filter]
    exact ⟨he, by simpa using hlt2⟩
  rw [(h.base_fields e hlt2).2.2, h.base_committed e hm] at hi
  exact Bool.noConfusion hi

theorem RBTree.solo.set_value {t0 t : RBTree} {tx : Transaction} (h : RBTree.solo t0 t tx)
    {e : Nat} (he : e ∈ t.wrapper_tree_.toList)
    (hi : RBTree.is_inserted (t.version e) = true) (v : Int) :
    RBTree.solo t0 (t.lock_tree.set_value e v).unlock_tree tx := by
  refine h.tree_eq (t.lock_tree.set_value e v).unlock_tree rfl rfl rfl rfl rfl rfl rfl ?_
  intro n hn
  have := h.inserted_ge he hi
  show Function.update t.value e v n = t.value n
  rw [Function.update_noteq (by omega)]

/-- The read an item of a node holds is the node's value version. -/
theorem RBTree.solo.node_read {t0 t : RBTree} {tx : Transaction} (h : RBTree.solo t0 t tx)
    {n : Nat} (hn : n ∈ t.wrapper_tree_.toList) (hr : (tx.items n).has_read = true) :
    (tx.items n).read_value = t.version n := by
  obtain ⟨a, b, _, c, _, _, _⟩ := h.wf.node hn
  rcases h.reads n hr with ⟨h1, _⟩ | ⟨_, h2⟩ | ⟨_, h3, _⟩
  · exact absurd h1 c
  · exact h2
  · have := (h.wf.alloc _ h3).2.1
    omega

theorem RBTree.solo.add_read {t0 t : RBTree} {tx : Transaction} (h : RBTree.solo t0 t tx)
    (j v : Nat) (hj : j < t.heap_top) (hv : t.read_current j v) :
    RBTree.solo t0 t (tx.modify j (fun it => it.add_read v)) := by
  apply h.modify j _ hj
  · simp only [TransItem.add_read_has_lock]; exact h.nolock j
  · intro _
    simp only [TransItem.add_read_read_value]
    split
    · next hr => exact h.reads j hr
    · exact hv
  · intro hm hi
    simp only [TransItem.add_read_has_write, TransItem.add_read_user0,
      TransItem.add_read_user1]
    exact (h.own j hm hi).2

theorem RBTree.change_size_offset_eq (tx : Transaction) (d : Int) :
    RBTree.change_size_offset tx d = (tx.item RBTree.size_key_).modify RBTree.size_key_
      (fun it => it.add_write
        ((if ((tx.item RBTree.size_key_).items RBTree.size_key_).has_write = true
          then ((tx.item RBTree.size_key_).items RBTree.size_key_).write_value else 0) + d)) :=
  rfl

theorem RBTree.solo.change_size_offset {t0 t : RBTree} {tx : Transaction}
    (h : RBTree.solo t0 t tx) (d : Int) :
    RBTree.solo t0 t (RBTree.change_size_offset tx d) := by
  have htop := h.wf.top
  rw [RBTree.change_size_offset_eq]
  apply (h.item RBTree.size_key_).modify
  · simp only [RBTree.size_key_]; omega
  · simp only [Transaction.items_item, TransItem.add_write_has_lock]
    exact h.nolock _
  · simp only [Transaction.items_item, TransItem.add_write_has_read,
      TransItem.add_write_read_value]
    exact h.reads _
  · intro hm
    exact absurd rfl (h.wf.node hm).2.2.2.2.1

theorem RBTree.solo.track_boundary {t0 t : RBTree} {tx : Transaction}
    (h : RBTree.solo t0 t tx) (n : Nat) (hn : n ≠ 0 → n ∈ t.wrapper_tree_.toList) :
    RBTree.solo t0 t (t.track_boundary tx n) := by
  unfold RBTree.track_boundary
  by_cases h0 : n = 0
  · simp only [h0, ne_eq, not_true_eq_false, if_false]
    exact h
  · simp only [ne_eq, h0, not_false_eq_true, if_true]
    obtain ⟨_, _, _, _, _, e1, e2⟩ := h.wf.node (hn h0)
    apply (h.item _).add_read
    · omega
    · right; right
      rw [e1]
      exact ⟨by omega, by simpa using hn h0, by simp⟩

/-- Where an unsuccessful search ends: boundary nodes and the insertion parent are nodes
of the tree, and the parent is null on the empty tree only. -/
theorem RBTree.absent_mem (t : RBTree) (hwf : t.wf) (k : Int)
    (hf : (t.find_any k).found = false) :
    ((t.find_any k).lo ≠ 0 → (t.find_any k).lo ∈ t.wrapper_tree_.toList) ∧
    ((t.find_any k).hi ≠ 0 → (t.find_any k).hi ∈ t.wrapper_tree_.toList) ∧
    ((t.find_any k).node ≠ 0 → (t.find_any k).node ∈ t.wrapper_tree_.toList) ∧
    ((t.find_any k).node = 0 → t.wrapper_tree_ = rbtree.nil) := by
  obtain ⟨b1, b2⟩ := rbtree.find_any_boundary_mem t.key k t.wrapper_tree_ 0 0 0
  have b3 := rbtree.find_any_parent t.key k t.wrapper_tree_ 0 0 0 hf
  rw [RBTree.find_any_def] at b1 b2 b3
  refine ⟨?_, ?_, ?_, ?_⟩
  · intro h; rcases b1 with h1 | h1
    · exact absurd h1 h
    · exact h1
  · intro h; rcases b2 with h1 | h1
    · exact absurd h1 h
    · exact h1
  · intro h; rcases b3 with ⟨_, h1⟩ | h1
    · exact absurd h1 h
    · exact h1
  · intro h; rcases b3 with ⟨h1, _⟩ | h1
    · exact h1
    · exact absurd h ((hwf.alloc _ h1).1)

/-- An unsuccessful search by a lone transaction, boundaries tracked. -/
theorem RBTree.solo.absent_read {t0 t : RBTree} {tx : Transaction} (h : RBTree.solo t0 t tx)
    (k : Int) (hf : (t.find_any k).found = false) :
    RBTree.solo t0 t.lock_tree.unlock_tree (t.lock_tree.find_or_abort tx k false).2.2 := by
  obtain ⟨m1, m2, _, _⟩ := RBTree.absent_mem t h.wf k hf
  have hfoa := RBTree.foa_absent_read t.lock_tree tx k (by simpa using hf)
  simp only [RBTree.find_any_lock_tree, RBTree.treeversion_lock_tree,
    RBTree.track_boundary_lock_tree] at hfoa
  rw [hfoa]
  apply RBTree.solo.through_lock
  apply RBTree.solo.track_boundary _ _ m2
  apply RBTree.solo.track_boundary _ _ m1
  split
  · apply (h.item _).add_read
    · have := h.wf.top; simp only [RBTree.tree_key_]; omega
    · left; exact ⟨rfl, rfl⟩
  · exact h

/-- `count` by a lone transaction returns and keeps the state. -/
theorem RBTree.solo.count {t0 t : RBTree} {tx : Transaction} (h : RBTree.solo t0 t tx)
    (k : Int) :
    ∃ r, (t.count tx k).1 = some r ∧ RBTree.solo t0 (t.count tx k).2.1 (t.count tx k).2.2 := by
  by_cases hf : (t.find_any k).found = true
  · obtain ⟨hm, _⟩ := rbtree.find_any_found t.key k t.wrapper_tree_ 0 0 0 hf
    rw [RBTree.find_any_def] at hm
    obtain ⟨_, _, hlt, _⟩ := h.wf.node hm
    by_cases hi : RBTree.is_inserted (t.version (t.find_any k).node) = true
    · rw [RBTree.count_own t tx k hf hi (h.own _ hm hi).2.2]
      exact ⟨_, rfl, (h.item _).through_lock⟩
    · have hi2 : RBTree.is_inserted (t.version (t.find_any k).node) = false := by
        simpa using hi
      rw [RBTree.count_committed t tx k hf hi2]
      refine ⟨_, rfl, RBTree.solo.through_lock ?_⟩
      exact (h.item _).add_read _ _ hlt (Or.inr (Or.inl ⟨hm, rfl⟩))
  · have hf2 : (t.find_any k).found = false := by simpa using hf
    rw [RBTree.count_absent t tx k hf2]
    exact ⟨_, rfl, h.absent_read k hf2⟩

/-- An item operation that touches only the write payload and the tags. -/
theorem RBTree.solo.rewrite {t0 t : RBTree} {tx : Transaction} (h : RBTree.solo t0 t tx)
    (j : Nat) (f : TransItem → TransItem) (hj : j < t.heap_top)
    (hl : (f (tx.items j)).has_lock = (tx.items j).has_lock)
    (hr : (f (tx.items j)).has_read = (tx.items j).has_read)
    (hv : (f (tx.items j)).read_value = (tx.items j).read_value)
    (ho : j ∈ t.wrapper_tree_.toList → RBTree.is_inserted (t.version j) = true →
      (f (tx.items j)).has_write = true ∧
      ((f (tx.items j)).user0 = true ∨ (f (tx.items j)).user1 = true)) :
    RBTree.solo t0 t (tx.modify j f) := by
  apply h.modify j f hj _ _ ho
  · rw [hl]; exact h.nolock j
  · rw [hr, hv]; exact h.reads j

/-- `erase` by a lone transaction returns and keeps the state. -/
theorem RBTree.solo.erase {t0 t : RBTree} {tx : Transaction} (h : RBTree.solo t0 t tx)
    (k : Int) :
    ∃ r, (t.erase tx k).1 = some r ∧ RBTree.solo t0 (t.erase tx k).2.1 (t.erase tx k).2.2 := by
  by_cases hf : (t.find_any k).found = true
  · obtain ⟨hm, _⟩ := rbtree.find_any_found t.key k t.wrapper_tree_ 0 0 0 hf
    rw [RBTree.find_any_def] at hm
    obtain ⟨_, _, hlt, _⟩ := h.wf.node hm
    by_cases hi : RBTree.is_inserted (t.version (t.find_any k).node) = true
    · by_cases h0 : (tx.items (t.find_any k).node).user0 = true
      · rw [RBTree.erase_own_insert t tx k hf hi h0]
        refine ⟨_, rfl, RBTree.solo.through_lock (RBTree.solo.change_size_offset ?_ _)⟩
        apply (h.item _).rewrite _ _ hlt rfl rfl rfl
        intro _ _
        exact ⟨rfl, Or.inr rfl⟩
      · have h0f : (tx.items (t.find_any k).node).user0 = false := by simpa using h0
        have h1 : (tx.items (t.find_any k).node).user1 = true := by
          rcases (h.own _ hm hi).2.2 with a | a
          · exact absurd a h0
          · exact a
        rw [RBTree.erase_own_deleted t tx k hf hi h0f h1]
        exact ⟨_, rfl, (h.item _).through_lock⟩
    · have hi2 : RBTree.is_inserted (t.version (t.find_any k).node) = false := by
        simpa using hi
      have hrd := (h.item (t.find_any k).node).add_read _
        (t.version (t.find_any k).node) hlt (Or.inr (Or.inl ⟨hm, rfl⟩))
      by_cases h1 : (tx.items (t.find_any k).node).user1 = true
      · rw [RBTree.erase_deleted t tx k hf hi2 h1]
        exact ⟨_, rfl, hrd.through_lock⟩
      · have h1f : (tx.items (t.find_any k).node).user1 = false := by simpa using h1
        rw [RBTree.erase_committed t tx k hf hi2 h1f]
        refine ⟨_, rfl, RBTree.solo.through_lock (RBTree.solo.change_size_offset ?_ _)⟩
        apply hrd.rewrite _ _ hlt rfl rfl rfl
        intro _ hins
        exact absurd hins hi
  · have hf2 : (t.find_any k).found = false := by simpa using hf
    rw [RBTree.erase_absent t tx k hf2]
    exact ⟨_, rfl, h.absent_read k hf2⟩

/-- Items that `insert_absent` leaves alone. -/
theorem RBTree.insert_absent_items_frame (t : RBTree) (tx : Transaction) (p : Nat) (k : Int)
    (j : Nat) (h1 : j ≠ t.heap_top) (h2 : j ≠ RBTree.size_key_)
    (h3 : p = 0 → j ≠ RBTree.tree_key_) (h4 : p ≠ 0 → j ≠ p ||| 1) :
    (t.insert_absent tx p k).2.2.items j = tx.items j := by
  rw [RBTree.insert_absent_tx, RBTree.change_size_offset_items]
  by_cases hp : p = 0
  · simp [hp, Transaction.items_modify, h1, h2, h3 hp]
  · simp [hp, Transaction.items_modify, h1, h2, h4 hp]

theorem RBTree.change_size_offset_has_lock (tx : Transaction) (d : Int) (j : Nat) :
    ((RBTree.change_size_offset tx d).items j).has_lock = (tx.items j).has_lock := by
  rw [RBTree.change_size_offset_items]; split
  · rename_i h; subst h; simp
  · rfl

theorem RBTree.insert_absent_has_lock (t : RBTree) (tx : Transaction) (p : Nat) (k : Int)
    (j : Nat) :
    ((t.insert_absent tx p k).2.2.items j).has_lock = (tx.items j).has_lock := by
  rw [RBTree.insert_absent_tx, RBTree.change_size_offset_has_lock]
  simp only [Transaction.items_modify, Transaction.items_item]
  by_cases hp : p = 0
  · simp only [hp, if_true, Transaction.items_modify, Transaction.items_item]
    split <;> (try split) <;> simp_all
  · simp only [hp, if_false, Transaction.items_modify, Transaction.items_item]
    split <;> (try split) <;> simp_all

/-- The read of the parent's nodeversion through `insert_absent`. -/
theorem RBTree.insert_absent_parent_read (t : RBTree) (tx : Transaction) (p : Nat) (k : Int)
    (hp : p ≠ 0) (h8 : p % 8 = 0) (hlt : p < t.heap_top) (htop : t.heap_top % 8 = 0) :
    ((t.insert_absent tx p k).2.2.items (p ||| 1)).read_value =
      ((tx.items (p ||| 1)).update_read (t.nodeversion p)
        ((t.nodeversion p + 8) % 2 ^ 64)).read_value := by
  have e1 : p ||| 1 = p + 1 := or_one_of_even p (by omega)
  have a1 : p + 1 ≠ t.heap_top := by omega
  have a2 : p + 1 ≠ RBTree.size_key_ := by simp only [RBTree.size_key_]; omega
  have a3 : p ≠ t.heap_top := by omega
  rw [RBTree.insert_absent_tx, RBTree.change_size_offset_items]
  simp [hp, Transaction.items_modify, e1, a1, a2, Function.update_noteq a3]

theorem RBTree.insert_absent_nodeversion_new (t : RBTree) (tx : Transaction) (p : Nat)
    (k : Int) (hp : p ≠ t.heap_top) :
    (t.insert_absent tx p k).2.1.nodeversion t.heap_top = 0 := by
  by_cases h0 : p = 0
  · subst h0
    rw [RBTree.insert_absent_root]
    simp [RBTree.unlock_tree]
  · rw [RBTree.insert_absent_under t tx p k h0 hp]
    simp [RBTree.unlock_tree, Function.update_noteq (Ne.symm hp)]

theorem RBTree.insert_absent_read_value (t : RBTree) (tx : Transaction) (p : Nat) (k : Int)
    (j : Nat) (h : p ≠ 0 → j ≠ p ||| 1) :
    ((t.insert_absent tx p k).2.2.items j).read_value = (tx.items j).read_value := by
  rw [RBTree.insert_absent_tx, RBTree.change_size_offset_items]
  by_cases hp : p = 0
  · simp only [hp, if_true, Transaction.items_modify, Transaction.items_item]
    split <;> (try split) <;> (try split) <;> simp_all
  · simp only [hp, if_false, Transaction.items_modify, Transaction.items_item, h hp]
    split <;> (try split) <;> simp_all

/-- The insertion of an absent key by a lone transaction keeps the state: the new node is
an uncommitted node of the transaction and the tracked read of the parent's nodeversion
follows the increment. -/
theorem RBTree.solo.insert_absent {t0 t : RBTree} {tx : Transaction}
    (h : RBTree.solo t0 t tx) (k : Int) (hf : (t.find_any k).found = false) :
    RBTree.solo t0 (t.insert_absent tx (t.find_any k).node k).2.1
      (t.insert_absent tx (t.find_any k).node k).2.2 := by
  obtain ⟨_, _, m3, _⟩ := RBTree.absent_mem t h.wf k hf
  obtain ⟨s1, _, _, l1, l2, s4, s5⟩ := RBTree.insert_absent_spec t tx k h.wf hf
  obtain ⟨p, hp⟩ : ∃ p, p = (t.find_any k).node := ⟨_, rfl⟩
  rw [← hp] at m3 s1 s5 ⊢
  have htop := h.wf.top
  have hpf : p ≠ 0 → p % 8 = 0 ∧ p < t.heap_top ∧ p ||| 1 = p + 1 := by
    intro h0
    obtain ⟨_, a, b, _, _, c, _⟩ := h.wf.node (m3 h0)
    exact ⟨a, b, c⟩
  have hpn : p ≠ t.heap_top := by
    by_cases h0 : p = 0
    · omega
    · have := (hpf h0).2.1; omega
  have hmem : ∀ m, m ∈ (t.insert_absent tx p k).2.1.wrapper_tree_.toList ↔
      m = t.heap_top ∨ m ∈ t.wrapper_tree_.toList := by
    intro m
    rw [s5, s4]
    simp only [List.mem_append, List.mem_cons]
    constructor
    · rintro (a | a | a)
      · exact Or.inr (Or.inl a)
      · exact Or.inl a
      · exact Or.inr (Or.inr a)
    · rintro (a | a | a)
      · exact Or.inr (Or.inl a)
      · exact Or.inl a
      · exact Or.inr (Or.inr a)
  have hver := RBTree.insert_absent_version t tx p k
  have hold : ∀ m, m ∈ t.wrapper_tree_.toList → m ≠ t.heap_top := by
    intro m hm
    have := (h.wf.alloc m hm).2.2
    omega
  refine ⟨s1, ?_, ?_, ?_, ?_, ?_, ?_, ?_, ?_, ?_, ?_, ?_, h.base_committed⟩
  · intro m hm0
    rcases (hmem m).1 hm0 with hm | hm
    · subst hm
      rw [hver, Function.update_same, RBTree.insert_absent_nodeversion_new t tx p k hpn]
      exact ⟨by decide, by decide⟩
    · refine ⟨?_, ?_⟩
      · rw [hver, Function.update_noteq (hold m hm)]
        exact (h.unlocked m hm).1
      · by_cases hmp : m = p
        · have hu := (h.unlocked m hm).2
          rw [hmp] at hu ⊢
          rw [RBTree.insert_absent_nodeversion_parent t tx p k
            (by rw [← hmp]; exact (h.wf.alloc m hm).1) hpn]
          simp only [RBTree.is_locked, is_locked_eq, decide_eq_false_iff_not] at hu ⊢
          omega
        · rw [RBTree.insert_absent_nodeversion t tx p k m (hold m hm) hmp]
          exact (h.unlocked m hm).2
  · rw [RBTree.insert_absent_treeversion]
    exact h.tree_unlocked
  · intro m hm0 hi
    rcases (hmem m).1 hm0 with hm | hm
    · subst hm
      rw [RBTree.insert_absent_item t tx p k htop (h.fresh _ (le_refl _))]
      exact ⟨(RBTree.insert_absent_keys t tx p k).1, rfl, Or.inl rfl⟩
    · rw [hver, Function.update_noteq (hold m hm)] at hi
      obtain ⟨a, b, c⟩ := h.own m hm hi
      rw [RBTree.insert_absent_items_other t tx p k m (hold m hm) (h.wf.alloc m hm).2.1]
      exact ⟨(RBTree.insert_absent_keys t tx p k).2.2.2 m a, b, c⟩
  · intro j hj
    rw [RBTree.insert_absent_has_read] at hj
    rcases h.reads j hj with ⟨hj1, hv⟩ | ⟨hm, hv⟩ | ⟨hj0, hm, hv⟩
    · left
      refine ⟨hj1, ?_⟩
      rw [RBTree.insert_absent_treeversion, RBTree.insert_absent_read_value _ _ _ _ _
        (by intro h0; have e1 := (hpf h0).2.2; have e2 := (hpf h0).1
            rw [hj1, e1]; simp only [RBTree.tree_key_]; omega)]
      exact hv
    · right; left
      refine ⟨(hmem j).2 (Or.inr hm), ?_⟩
      rw [RBTree.insert_absent_read_value _ _ _ _ _
        (by intro h0; have := (hpf h0).2.2; have := (hpf h0).1
            have := (h.wf.alloc j hm).2.1; omega), hver,
        Function.update_noteq (hold j hm)]
      exact hv
    · right; right
      refine ⟨hj0, (hmem _).2 (Or.inr hm), ?_⟩
      have hm8 := (h.wf.alloc _ hm).2.1
      have hm0 := (h.wf.alloc _ hm).1
      by_cases hmp : j - 1 = p
      · have hjp : j = p ||| 1 := by
          rw [(hpf (by omega)).2.2]; omega
        rw [hmp] at hv ⊢
        rw [hjp] at hj hv ⊢
        rw [RBTree.insert_absent_parent_read t tx p k (by omega) (by omega)
            (hpf (by omega)).2.1 htop.2,
          RBTree.insert_absent_nodeversion_parent t tx p k (by omega) hpn,
          TransItem.update_read_read_value, if_pos ⟨hj, hv⟩]
      · rw [RBTree.insert_absent_read_value _ _ _ _ _
          (by intro h0; have := (hpf h0).2.2; omega),
          RBTree.insert_absent_nodeversion t tx p k (j - 1) (hold _ hm) hmp]
        exact hv
  · intro j
    rw [RBTree.insert_absent_has_lock]
    exact h.nolock j
  · intro j hj
    rw [RBTree.insert_absent_heap_top] at hj
    rw [RBTree.insert_absent_items_frame t tx p k j (by omega)
      (by simp only [RBTree.size_key_]; omega)
      (by intro _; simp only [RBTree.tree_key_]; omega)
      (by intro h0; have := hpf h0; omega)]
    exact h.fresh j (by omega)
  · rw [RBTree.insert_absent_heap_top]
    have := h.base_top
    omega
  · intro m hm
    have hne : m ≠ t.heap_top := by have := h.base_top; omega
    rw [RBTree.insert_absent_key, RBTree.insert_absent_value, hver,
      Function.update_noteq hne, Function.update_noteq hne, Function.update_noteq hne]
    exact h.base_fields m hm
  · rw [RBTree.insert_absent_size]
    exact h.base_size
  · rw [s5, ← h.base_nodes, s4]
    have : ¬ t.heap_top < t0.heap_top := by have := h.base_top; omega
    simp [List.filter_append, List.filter_cons, this]
  · intro m hm0 hge
    rcases (hmem m).1 hm0 with hm | hm
    · subst hm
      rw [hver, Function.update_same]
      exact RBTree.is_inserted_ten
    · rw [hver, Function.update_noteq (hold m hm)]
      exact h.added m hm hge

theorem Transaction.modify_modify (tx : Transaction) (j : Nat) (f g : TransItem → TransItem) :
    (tx.modify j f).modify j g = tx.modify j (fun it => g (f it)) := by
  unfold Transaction.modify
  simp

theorem RBTree.solo.lock {t0 t : RBTree} {tx : Transaction} (h : RBTree.solo t0 t tx) :
    RBTree.solo t0 t.lock_tree tx :=
  h.tree_eq t.lock_tree rfl rfl rfl rfl rfl rfl rfl (fun _ _ => rfl)

/-- The call `insert` behind `operator[]` by a lone transaction returns a node of the tree
whose item then holds a write or a read, and keeps the state. -/
theorem RBTree.solo.insert {t0 t : RBTree} {tx : Transaction} (h : RBTree.solo t0 t tx)
    (k : Int) :
    ∃ n, (t.insert tx k).1 = some n ∧
      RBTree.solo t0 (t.insert tx k).2.1 (t.insert tx k).2.2 ∧
      n ∈ (t.insert tx k).2.1.wrapper_tree_.toList ∧
      (((t.insert tx k).2.2.items n).has_write = true ∨
        ((t.insert tx k).2.2.items n).has_read = true) := by
  by_cases hf : (t.find_any k).found = true
  · obtain ⟨hm, _⟩ := rbtree.find_any_found t.key k t.wrapper_tree_ 0 0 0 hf
    rw [RBTree.find_any_def] at hm
    obtain ⟨_, _, hlt, _, h2, _⟩ := h.wf.node hm
    by_cases h1 : (tx.items (t.find_any k).node).user1 = true
    · by_cases hi : RBTree.is_inserted (t.version (t.find_any k).node) = true
      · rw [RBTree.insert_found_own_deleted t tx k hf hi h1]
        refine ⟨_, rfl, RBTree.solo.change_size_offset ?_ _, hm, Or.inl ?_⟩
        · rw [Transaction.modify_modify, Transaction.modify_modify]
          apply ((h.set_value hm hi 0).item _).rewrite _ _ hlt rfl rfl rfl
          intro _ _
          exact ⟨rfl, Or.inl rfl⟩
        · simp [RBTree.change_size_offset_items, h2, Transaction.items_modify]
      · have hi2 : RBTree.is_inserted (t.version (t.find_any k).node) = false := by
          simpa using hi
        rw [RBTree.insert_found_deleted t tx k hf hi2 h1]
        refine ⟨_, rfl, RBTree.solo.through_lock (RBTree.solo.change_size_offset ?_ _), hm,
          Or.inl ?_⟩
        · rw [Transaction.modify_modify]
          apply (h.item _).rewrite _ _ hlt rfl rfl rfl
          intro _ hins
          exact absurd hins hi
        · simp [RBTree.change_size_offset_items, h2, Transaction.items_modify]
    · have h1f : (tx.items (t.find_any k).node).user1 = false := by simpa using h1
      rw [RBTree.insert_found_plain t tx k hf
        (fun hi => by
          rcases (h.own _ hm hi).2.2 with a | a
          · exact a
          · exact absurd a h1) h1f]
      refine ⟨_, rfl, RBTree.solo.through_lock ?_, hm, Or.inr ?_⟩
      · exact (h.item _).add_read _ _ hlt (Or.inr (Or.inl ⟨hm, rfl⟩))
      · simp [Transaction.items_modify]
  · have hf2 : (t.find_any k).found = false := by simpa using hf
    obtain ⟨_, _, m3, _⟩ := RBTree.absent_mem t h.wf k hf2
    rw [RBTree.insert_absent_path t tx k hf2
      (fun hx hi => (h.own _ (m3 hx) hi).2.2)]
    have hs0 : RBTree.solo t0 t.lock_tree
        (if (t.find_any k).node = 0 then tx else tx.item (t.find_any k).node) := by
      split
      · exact h.lock
      · exact (h.item _).lock
    have hs := hs0.insert_absent k (by simpa using hf2)
    obtain ⟨_, _, _, l1, l2, _, s5⟩ := RBTree.insert_absent_spec t.lock_tree
      (if (t.find_any k).node = 0 then tx else tx.item (t.find_any k).node) k
      hs0.wf (by simpa using hf2)
    simp only [RBTree.find_any_lock_tree, RBTree.heap_top_lock_tree] at hs s5
    refine ⟨_, rfl, hs, ?_, Or.inl ?_⟩
    · simp only [RBTree.insert_absent_fst, RBTree.heap_top_lock_tree]
      rw [s5]
      simp
    · simp only [RBTree.insert_absent_fst]
      rw [RBTree.insert_absent_item _ _ _ _ hs0.wf.top (hs0.fresh _ (le_refl _))]

/-- `tree[k]` read as a value by a lone transaction returns and keeps the state. -/
theorem RBTree.solo.read {t0 t : RBTree} {tx : Transaction} (h : RBTree.solo t0 t tx)
    (k : Int) :
    ∃ r, (t.read tx k).1 = some r ∧ RBTree.solo t0 (t.read tx k).2.1 (t.read tx k).2.2 := by
  obtain ⟨n, e1, hs, hn, hw⟩ := h.insert k
  unfold RBTree.read RBTree.operator_index
  generalize t.insert tx k = x at e1 hs hn hw
  obtain ⟨r, t1, tx1⟩ := x
  simp only at e1 hs hn hw
  subst e1
  simp only []
  by_cases hwr : (tx1.items n).has_write = true
  · refine ⟨(tx1.items n).write_value, ?_, ?_⟩
    · simp [RBTree.proxy_read, hwr]
    · simp only [RBTree.proxy_read, Transaction.items_item, hwr, if_true]
      exact hs.item n
  · have hrd : (tx1.items n).has_read = true := by
      rcases hw with a | a
      · exact absurd a hwr
      · exact a
    rw [RBTree.proxy_read_plain t1 tx1 n (by simpa using hwr) (hs.node_read hn hrd)
      (hs.unlocked n hn).1]
    exact ⟨_, rfl, hs.item n⟩

/-- `tree[k] = v` by a lone transaction returns and keeps the state. -/
theorem RBTree.solo.assign {t0 t : RBTree} {tx : Transaction} (h : RBTree.solo t0 t tx)
    (k v : Int) :
    (t.assign tx k v).1 = some () ∧
      RBTree.solo t0 (t.assign tx k v).2.1 (t.assign tx k v).2.2 := by
  obtain ⟨n, e1, hs, hn, _⟩ := h.insert k
  unfold RBTree.assign RBTree.operator_index
  generalize t.insert tx k = x at e1 hs hn
  obtain ⟨r, t1, tx1⟩ := x
  simp only at e1 hs hn
  subst e1
  simp only [RBTree.proxy_assign]
  refine ⟨trivial, ?_⟩
  apply (hs.item n).rewrite n _ (hs.wf.alloc n hn).2.2 rfl rfl rfl
  intro _ hi
  exact ⟨rfl, by simpa using (hs.own n hn hi).2.2⟩

/-- Every call of a lone transaction returns and keeps the state. -/
theorem RBTree.solo.run {t0 t : RBTree} {tx : Transaction} (h : RBTree.solo t0 t tx)
    (op : Op) :
    ∃ r, (t.run tx op).1 = some r ∧ RBTree.solo t0 (t.run tx op).2.1 (t.run tx op).2.2 := by
  cases op with
  | count k =>
    obtain ⟨r, e, hs⟩ := h.count k
    exact ⟨r, by simp [RBTree.run, e], hs⟩
  | read k => exact h.read k
  | assign k v =>
    obtain ⟨e, hs⟩ := h.assign k v
    exact ⟨0, by simp [RBTree.run, e], hs⟩
  | erase k =>
    obtain ⟨r, e, hs⟩ := h.erase k
    exact ⟨r, by simp [RBTree.run, e], hs⟩

/-- A sequence of calls of a lone transaction runs to its end and keeps the state. -/
theorem RBTree.solo.run_ops {t0 : RBTree} (ops : List Op) :
    ∀ {t : RBTree} {tx : Transaction}, RBTree.solo t0 t tx →
      ∃ u ux, t.run_ops tx ops = some (u, ux) ∧ RBTree.solo t0 u ux := by
  induction ops with
  | nil =>
    intro t tx h
    exact ⟨t, tx, rfl, h⟩
  | cons op ops ih =>
    intro t tx h
    obtain ⟨r, e, hs⟩ := h.run op
    obtain ⟨u, ux, e2, hu⟩ := ih hs
    refine ⟨u, ux, ?_, hu⟩
    rw [← e2, RBTree.run_ops]
    generalize t.run tx op = x at e
    obtain ⟨r1, t1, tx1⟩ := x
    simp only at e
    subst e
    rfl

/-! ## Commit and abort of a transaction running alone -/

theorem RBTree.check_tree_key (t : RBTree) (it : TransItem) :
    t.check RBTree.tree_key_ it =
      (decide (it.read_value / 2 = t.treeversion_ / 2) &&
        (!TransactionTid.is_locked t.treeversion_ || it.has_lock)) := by
  simp [RBTree.check, RBTree.tree_key_, RBTree.size_key_, RBTree.is_locked,
    TransactionTid.lock_bit, xor_le_one_iff]

/-- A transaction that ran alone validates: its commit succeeds. -/
theorem RBTree.solo.commits {t0 t : RBTree} {tx : Transaction} (h : RBTree.solo t0 t tx) :
    (Sto.try_commit t tx).1 = true := by
  rw [Sto.try_commit_fst, Sto.validate_iff]
  intro j hj hr
  rw [Sto.lock_phase_keys] at hj
  rw [Sto.lock_phase_has_read] at hr
  rcases h.reads j hr with ⟨hj1, hv⟩ | ⟨hm, hv⟩ | ⟨hj0, hm, hv⟩
  · subst hj1
    have hu := h.tree_unlocked
    simp only [RBTree.is_locked, is_locked_eq, decide_eq_false_iff_not] at hu
    rw [RBTree.check_tree_key, Sto.lock_phase_treeversion, Sto.lock_phase_read_value,
      Sto.lock_phase_items, hv]
    by_cases hw : (tx.items RBTree.tree_key_).has_write = true
    · simp [hj, hw, lock_eq]
      omega
    · simp [hw, is_locked_eq, hu]
  · obtain ⟨_, h8, _, h1, h2, _⟩ := h.wf.node hm
    have hu := (h.unlocked j hm).1
    simp only [RBTree.is_locked, is_locked_eq, decide_eq_false_iff_not] at hu
    rw [RBTree.check_node _ j _ h8, Sto.lock_phase_version, Sto.lock_phase_read_value,
      Sto.lock_phase_items, hv]
    by_cases hw : (tx.items j).has_write = true
    · simp [hj, hw, h1, h2, lock_eq]
      omega
    · simp [hw, is_locked_eq, hu]
  · obtain ⟨m0, m8, _, _, _, e1, _⟩ := h.wf.node hm
    have hu := (h.unlocked _ hm).2
    have hjm : j = (j - 1) ||| 1 := by rw [e1]; omega
    rw [hjm, RBTree.check_structured _ (j - 1) _ m0 (by omega), ← hjm,
      Sto.lock_phase_nodeversion, Sto.lock_phase_read_value, hv]
    simp only [RBTree.is_locked] at hu
    simp [hu]

/-- The tracked nodeversion reads of a lone transaction are current. -/
theorem RBTree.solo.boundary_read {t0 t : RBTree} {tx : Transaction}
    (h : RBTree.solo t0 t tx) {n : Nat} (hn : n ∈ t.wrapper_tree_.toList)
    (hr : (tx.items (n ||| 1)).has_read = true) :
    (tx.items (n ||| 1)).read_value = t.nodeversion n := by
  obtain ⟨n0, n8, _, _, _, e1, _⟩ := h.wf.node hn
  rw [e1] at hr ⊢
  rcases h.reads _ hr with ⟨h1, _⟩ | ⟨h2, _⟩ | ⟨_, _, h3⟩
  · simp only [RBTree.tree_key_] at h1; omega
  · have := (h.wf.alloc _ h2).2.1; omega
  · simpa using h3

theorem RBTree.is_inserted_erase_inserted (v : Nat) :
    RBTree.is_inserted (RBTree.erase_inserted v) = false := by
  rw [is_inserted_eq, erase_inserted_eq]
  simp only [decide_eq_false_iff_not]
  omega

/-- What `cleanup` of an aborting transaction does to the tree. -/
theorem RBTree.cleanup_abort (t : RBTree) (k : Nat) (it : TransItem) :
    (t.cleanup k it false).key = t.key ∧ (t.cleanup k it false).value = t.value ∧
    (t.cleanup k it false).size_ = t.size_ ∧
    (((it.user0 || it.user1) && RBTree.is_inserted (t.version k)) = false →
      t.cleanup k it false = t) ∧
    (((it.user0 || it.user1) && RBTree.is_inserted (t.version k)) = true →
      (t.cleanup k it false).wrapper_tree_ = t.wrapper_tree_.erase k ∧
      (t.cleanup k it false).version =
        Function.update t.version k (RBTree.erase_inserted (t.version k))) := by
  unfold RBTree.cleanup
  by_cases h1 : (it.user0 || it.user1) = true
  · by_cases h2 : RBTree.is_inserted (t.version k) = true
    · simp [h1, h2, RBTree.inc_nodeversion, RBTree.set_version, RBTree.unlock_tree,
        RBTree.tree_erase, RBTree.lock_tree]
    · simp [h1, h2]
  · simp [h1]

/-- The cleanup pass of an abort removes exactly the uncommitted nodes whose items carry a
tag, and leaves keys, values and `size_` alone. -/
theorem Sto.cleanup_fold (tx : Transaction) :
    ∀ (L : List Nat) (s : RBTree),
      s.wrapper_tree_.toList.Pairwise (fun a b => s.key a < s.key b) →
      (L.foldl (fun u k => u.cleanup k (tx.items k) false) s).key = s.key ∧
      (L.foldl (fun u k => u.cleanup k (tx.items k) false) s).value = s.value ∧
      (L.foldl (fun u k => u.cleanup k (tx.items k) false) s).size_ = s.size_ ∧
      (L.foldl (fun u k => u.cleanup k (tx.items k) false) s).wrapper_tree_.toList =
        s.wrapper_tree_.toList.filter (fun n => !(decide (n ∈ L) &&
          (((tx.items n).user0 || (tx.items n).user1) &&
            RBTree.is_inserted (s.version n)))) := by
  intro L
  induction L with
  | nil =>
    intro s _
    simp
  | cons k L ih =>
    intro s hs
    simp only [List.foldl_cons]
    obtain ⟨c1, c2, c3, c4, c5⟩ := RBTree.cleanup_abort s k (tx.items k)
    by_cases hq : (((tx.items k).user0 || (tx.items k).user1) &&
        RBTree.is_inserted (s.version k)) = true
    · obtain ⟨e1, e2⟩ := c5 hq
      have hl : (s.cleanup k (tx.items k) false).wrapper_tree_.toList =
          s.wrapper_tree_.toList.filter (fun a => decide (a ≠ k)) := by
        rw [e1, rbtree.toList_erase s.key k _ hs]
      have hs1 : (s.cleanup k (tx.items k) false).wrapper_tree_.toList.Pairwise
          (fun a b => (s.cleanup k (tx.items k) false).key a <
            (s.cleanup k (tx.items k) false).key b) := by
        rw [hl, c1]
        exact List.Pairwise.filter _ hs
      obtain ⟨i1, i2, i3, i4⟩ := ih _ hs1
      refine ⟨i1.trans c1, i2.trans c2, i3.trans c3, ?_⟩
      rw [i4, hl, List.filter_filter]
      apply List.filter_congr
      intro n _
      by_cases hnk : n = k
      · subst hnk
        simp [hq]
      · rw [e2, Function.update_noteq hnk]
        simp [hnk]
    · have hq2 : (((tx.items k).user0 || (tx.items k).user1) &&
          RBTree.is_inserted (s.version k)) = false := by simpa using hq
      rw [c4 hq2]
      obtain ⟨i1, i2, i3, i4⟩ := ih s hs
      refine ⟨i1, i2, i3, ?_⟩
      rw [i4]
      apply List.filter_congr
      intro n _
      by_cases hnk : n = k
      · subst hnk
        simp [hq2]
      · simp [hnk]

/-- Abort of a transaction that ran alone: the tree has the nodes, keys, values and
`size_` of the tree the transaction started on. -/
theorem RBTree.solo.abort {t0 t : RBTree} {tx : Transaction} (h : RBTree.solo t0 t tx) :
    (Sto.abort t tx).wrapper_tree_.toList = t0.wrapper_tree_.toList ∧
    (∀ n ∈ t0.wrapper_tree_.toList,
      (Sto.abort t tx).key n = t0.key n ∧ (Sto.abort t tx).value n = t0.value n) ∧
    (Sto.abort t tx).size_ = t0.size_ := by
  have hnl : tx.keys.filter (fun k => (tx.items k).has_lock) = [] := by
    rw [List.filter_eq_nil_iff]
    intro a _
    rw [h.nolock a]
    exact Bool.noConfusion
  have hab : Sto.abort t tx =
      (Sto.cleanup_keys tx).reverse.foldl (fun u k => u.cleanup k (tx.items k) false) t := by
    unfold Sto.abort
    simp only [hnl, List.foldl_nil]
  obtain ⟨f1, f2, f3, f4⟩ := Sto.cleanup_fold tx (Sto.cleanup_keys tx).reverse t h.wf.sorted
  rw [hab]
  refine ⟨?_, ?_, ?_⟩
  · rw [f4, ← h.base_nodes]
    apply List.filter_congr
    intro n hn
    by_cases hlt : n < t0.heap_top
    · have hm : n ∈ t0.wrapper_tree_.toList := by
        rw [← h.base_nodes, List.mem_filter]
        exact ⟨hn, by simpa using hlt⟩
      have hi : RBTree.is_inserted (t.version n) = false := by
        rw [(h.base_fields n hlt).2.2]
        exact h.base_committed n hm
      simp [hi, hlt]
    · have hi := h.added n hn (by omega)
      obtain ⟨a, b, c⟩ := h.own n hn hi
      have hk : n ∈ Sto.cleanup_keys tx := by
        unfold Sto.cleanup_keys
        rw [List.mem_filter]
        exact ⟨a, by simp [b]⟩
      have hc : ((tx.items n).user0 || (tx.items n).user1) = true := by
        rcases c with c | c <;> simp [c]
      simp [hi, hlt, hk, hc]
  · intro n hn
    have hlt2 : n < t0.heap_top := by
      rw [← h.base_nodes, List.mem_filter] at hn
      simpa using hn.2
    rw [f1, f2]
    exact ⟨(h.base_fields n hlt2).1, (h.base_fields n hlt2).2.1⟩
  · rw [f3]
    exact h.base_size

/-! ## Aborting accesses -/

theorem RBTree.count_phantom_eq (t : RBTree) (tx : Transaction) (k : Int)
    (hf : (t.find_any k).found = true)
    (hi : RBTree.is_inserted (t.version (t.find_any k).node) = true)
    (h0 : (tx.items (t.find_any k).node).user0 = false)
    (h1 : (tx.items (t.find_any k).node).user1 = false) :
    t.count tx k = RBTree.aborted t.lock_tree.unlock_tree (tx.item (t.find_any k).node) := by
  have hfoa := RBTree.foa_found_phantom t.lock_tree tx k false (by simpa using hf)
    (by simpa using hi) (by simpa using h0) (by simpa using h1)
  simp only [RBTree.find_any_lock_tree, RBTree.version_lock_tree] at hfoa
  unfold RBTree.count
  simp only [hfoa]
  rfl

theorem RBTree.erase_phantom_eq (t : RBTree) (tx : Transaction) (k : Int)
    (hf : (t.find_any k).found = true)
    (hi : RBTree.is_inserted (t.version (t.find_any k).node) = true)
    (h0 : (tx.items (t.find_any k).node).user0 = false)
    (h1 : (tx.items (t.find_any k).node).user1 = false) :
    t.erase tx k = RBTree.aborted t.lock_tree.unlock_tree (tx.item (t.find_any k).node) := by
  have hfoa := RBTree.foa_found_phantom t.lock_tree tx k false (by simpa using hf)
    (by simpa using hi) (by simpa using h0) (by simpa using h1)
  simp only [RBTree.find_any_lock_tree, RBTree.version_lock_tree] at hfoa
  unfold RBTree.erase
  simp only [hfoa]
  rfl

theorem RBTree.insert_phantom_eq (t : RBTree) (tx : Transaction) (k : Int)
    (hf : (t.find_any k).found = true)
    (hi : RBTree.is_inserted (t.version (t.find_any k).node) = true)
    (h0 : (tx.items (t.find_any k).node).user0 = false)
    (h1 : (tx.items (t.find_any k).node).user1 = false) :
    t.insert tx k = RBTree.aborted t.lock_tree.unlock_tree (tx.item (t.find_any k).node) := by
  have hfoa := RBTree.foa_found_phantom t.lock_tree tx k true (by simpa using hf)
    (by simpa using hi) (by simpa using h0) (by simpa using h1)
  simp only [RBTree.find_any_lock_tree, RBTree.version_lock_tree] at hfoa
  unfold RBTree.insert
  simp only [hfoa]
  rfl

theorem RBTree.treelock_cleanup (t : RBTree) (k : Nat) (it : TransItem) (c : Bool)
    (h : RBTree.is_locked t.treelock_ = false) :
    RBTree.is_locked (t.cleanup k it c).treelock_ = false := by
  cases c with
  | true => simpa [RBTree.cleanup] using h
  | false =>
    by_cases h1 : (it.user0 || it.user1) = true
    · by_cases h2 : RBTree.is_inserted (t.version k) = true
      · have e : (t.cleanup k it false).treelock_ =
            TransactionTid.unlock (TransactionTid.lock t.treelock_) := by
          unfold RBTree.cleanup
          simp [h1, h2, RBTree.inc_nodeversion, RBTree.set_version, RBTree.unlock_tree,
            RBTree.tree_erase, RBTree.lock_tree]
        rw [e]
        simp only [RBTree.is_locked, is_locked_eq, unlock_eq, decide_eq_false_iff_not]
        omega
      · rw [(RBTree.cleanup_abort t k it).2.2.2.1 (by simp [h2])]
        exact h
    · rw [(RBTree.cleanup_abort t k it).2.2.2.1 (by simp [h1])]
      exact h

theorem RBTree.treelock_unlock (t : RBTree) (k : Nat) : (t.unlock k).treelock_ = t.treelock_ := by
  unfold RBTree.unlock
  split
  · rfl
  · split <;> rfl

/-- An abort leaves the tree lock free when it was free. -/
theorem Sto.abort_treelock (t : RBTree) (tx : Transaction)
    (h : RBTree.is_locked t.treelock_ = false) :
    RBTree.is_locked (Sto.abort t tx).treelock_ = false := by
  simp only [Sto.abort]
  refine foldl_inv (fun (s : RBTree) (k : Nat) => s.unlock k)
    (fun (s : RBTree) => RBTree.is_locked s.treelock_ = false) _ _ ?_ ?_
  · exact foldl_inv (fun (s : RBTree) (k : Nat) => s.cleanup k (tx.items k) false)
      (fun (s : RBTree) => RBTree.is_locked s.treelock_ = false) _ _ h
      (fun s b _ hs => RBTree.treelock_cleanup s b _ false hs)
  · intro s b _ hs
    rw [RBTree.treelock_unlock]
    exact hs

theorem RBTree.treelock_released (t : RBTree) :
    RBTree.is_locked t.lock_tree.unlock_tree.treelock_ = false := by
  simp only [RBTree.unlock_tree, RBTree.lock_tree, RBTree.is_locked, is_locked_eq, unlock_eq,
    decide_eq_false_iff_not]
  omega

/-! ## The size offset -/

theorem RBTree.size_fst (t : RBTree) (tx : Transaction) :
    (t.size tx).1 =
      (((t.size_ : Int) + RBTree.size_offset tx) % (TransactionTid.word : Int)).toNat := by
  unfold RBTree.size RBTree.size_offset
  by_cases hr : (tx.items RBTree.size_key_).has_read = true <;>
    by_cases hw : (tx.items RBTree.size_key_).has_write = true <;>
    simp [hr, hw, Transaction.items_modify]

theorem RBTree.size_offset_item (tx : Transaction) (j : Nat) :
    RBTree.size_offset (tx.item j) = RBTree.size_offset tx := by
  unfold RBTree.size_offset
  rw [Transaction.items_item]

theorem RBTree.size_offset_modify (tx : Transaction) (j : Nat) (f : TransItem → TransItem)
    (h : j ≠ RBTree.size_key_) :
    RBTree.size_offset (tx.modify j f) = RBTree.size_offset tx := by
  unfold RBTree.size_offset
  rw [Transaction.items_modify, if_neg (Ne.symm h)]

theorem RBTree.size_offset_change (tx : Transaction) (d : Int) :
    RBTree.size_offset (RBTree.change_size_offset tx d) = RBTree.size_offset tx + d := by
  unfold RBTree.size_offset
  rw [RBTree.change_size_offset_items, if_pos rfl]
  simp

theorem RBTree.size_offset_track (t : RBTree) (tx : Transaction) (n : Nat) :
    RBTree.size_offset (t.track_boundary tx n) = RBTree.size_offset tx := by
  unfold RBTree.track_boundary
  by_cases h : n = 0
  · simp [h]
  · simp only [ne_eq, h, not_false_eq_true, if_true]
    rw [RBTree.size_offset_modify _ _ _ (RBTree.or_one_ne_size_key n), RBTree.size_offset_item]

theorem Transaction.tidy.at_start : Transaction.start.tidy :=
  ⟨List.nodup_nil, fun _ h => Bool.noConfusion h⟩

theorem Transaction.tidy.through_item {tx : Transaction} (h : tx.tidy) (j : Nat) : (tx.item j).tidy := by
  refine ⟨Transaction.nodup_item tx j h.1, ?_⟩
  intro i hi
  rw [Transaction.items_item] at hi
  exact (Transaction.mem_keys_item tx j i).2 (Or.inr (h.2 i hi))

theorem Transaction.tidy.through_modify {tx : Transaction} (h : tx.tidy) (j : Nat)
    (f : TransItem → TransItem) (hj : j ∈ tx.keys) : (tx.modify j f).tidy := by
  refine ⟨h.1, ?_⟩
  intro i hi
  rw [Transaction.items_modify] at hi
  rw [Transaction.keys_modify]
  by_cases hij : i = j
  · rw [hij]; exact hj
  · rw [if_neg hij] at hi
    exact h.2 i hi

/-- Find-or-append followed by an item operation. -/
theorem Transaction.tidy.touch {tx : Transaction} (h : tx.tidy) (j : Nat)
    (f : TransItem → TransItem) : ((tx.item j).modify j f).tidy :=
  (h.through_item j).through_modify j f ((Transaction.mem_keys_item tx j j).2 (Or.inl rfl))

theorem Transaction.tidy.through_change_size_offset {tx : Transaction} (h : tx.tidy) (d : Int) :
    (RBTree.change_size_offset tx d).tidy := by
  rw [RBTree.change_size_offset_eq]
  exact h.touch _ _

theorem Transaction.tidy.through_track_boundary {tx : Transaction} (h : tx.tidy) (t : RBTree)
    (n : Nat) : (t.track_boundary tx n).tidy := by
  unfold RBTree.track_boundary
  by_cases h0 : n = 0
  · simpa [h0] using h
  · simp only [ne_eq, h0, not_false_eq_true, if_true]
    exact h.touch _ _

theorem Transaction.tidy.through_insert_absent {tx : Transaction} (h : tx.tidy) (t : RBTree)
    (p : Nat) (k : Int) : (t.insert_absent tx p k).2.2.tidy := by
  rw [RBTree.insert_absent_tx]
  apply Transaction.tidy.through_change_size_offset
  apply Transaction.tidy.touch
  split
  · exact h.touch _ _
  · exact h.touch _ _

/-- A returning `count` in any state: the tree stays well formed, the item set tidy, and
the size offset and `size_` are untouched. -/
theorem RBTree.step_count (t : RBTree) (tx : Transaction) (k : Int) (hwf : t.wf)
    (htd : tx.tidy) (hret : (t.count tx k).1 ≠ none) :
    (t.count tx k).2.1.wf ∧ (t.count tx k).2.2.tidy ∧
    RBTree.size_offset (t.count tx k).2.2 = RBTree.size_offset tx ∧
    (t.count tx k).2.1.size_ = t.size_ := by
  by_cases hf : (t.find_any k).found = true
  · obtain ⟨hm, _⟩ := RBTree.wf.found t hwf k hf
    have h2 := (RBTree.wf.node hwf hm).2.2.2.2.1
    by_cases hi : RBTree.is_inserted (t.version (t.find_any k).node) = true
    · by_cases ho : (tx.items (t.find_any k).node).user0 = true ∨
          (tx.items (t.find_any k).node).user1 = true
      · rw [RBTree.count_own t tx k hf hi ho]
        exact ⟨RBTree.wf.lock_unlock t hwf, htd.through_item _, RBTree.size_offset_item _ _, rfl⟩
      · exact absurd (RBTree.count_phantom t tx k hf hi (by simpa using fun h => ho (Or.inl h))
          (by simpa using fun h => ho (Or.inr h))) hret
    · rw [RBTree.count_committed t tx k hf (by simpa using hi)]
      refine ⟨RBTree.wf.lock_unlock t hwf, htd.touch _ _, ?_, rfl⟩
      rw [RBTree.size_offset_modify _ _ _ h2, RBTree.size_offset_item]
  · have hf2 : (t.find_any k).found = false := by simpa using hf
    rw [RBTree.count_absent t tx k hf2]
    have hfoa := RBTree.foa_absent_read t.lock_tree tx k (by simpa using hf2)
    simp only [RBTree.find_any_lock_tree, RBTree.treeversion_lock_tree,
      RBTree.track_boundary_lock_tree] at hfoa
    rw [hfoa]
    refine ⟨RBTree.wf.lock_unlock t hwf, ?_, ?_, rfl⟩
    · apply Transaction.tidy.through_track_boundary
      apply Transaction.tidy.through_track_boundary
      split
      · exact htd.touch _ _
      · exact htd
    · rw [RBTree.size_offset_track, RBTree.size_offset_track]
      split
      · rw [RBTree.size_offset_modify _ _ _ (by decide : RBTree.tree_key_ ≠ RBTree.size_key_),
          RBTree.size_offset_item]
      · rfl

/-- A returning `erase` in any state: the size offset drops by one exactly when the call
returns `1`. -/
theorem RBTree.step_erase (t : RBTree) (tx : Transaction) (k : Int) (hwf : t.wf)
    (htd : tx.tidy) (hret : (t.erase tx k).1 ≠ none) :
    (t.erase tx k).2.1.wf ∧ (t.erase tx k).2.2.tidy ∧
    RBTree.size_offset (t.erase tx k).2.2 =
      RBTree.size_offset tx + (if (t.erase tx k).1 = some 1 then -1 else 0) ∧
    (t.erase tx k).2.1.size_ = t.size_ := by
  by_cases hf : (t.find_any k).found = true
  · obtain ⟨hm, _⟩ := RBTree.wf.found t hwf k hf
    have h2 := (RBTree.wf.node hwf hm).2.2.2.2.1
    by_cases hi : RBTree.is_inserted (t.version (t.find_any k).node) = true
    · by_cases h0 : (tx.items (t.find_any k).node).user0 = true
      · rw [RBTree.erase_own_insert t tx k hf hi h0]
        refine ⟨RBTree.wf.lock_unlock t hwf, (htd.touch _ _).through_change_size_offset _, ?_, rfl⟩
        rw [RBTree.size_offset_change, RBTree.size_offset_modify _ _ _ h2,
          RBTree.size_offset_item]
        simp
      · have h0f : (tx.items (t.find_any k).node).user0 = false := by simpa using h0
        by_cases h1 : (tx.items (t.find_any k).node).user1 = true
        · rw [RBTree.erase_own_deleted t tx k hf hi h0f h1]
          refine ⟨RBTree.wf.lock_unlock t hwf, htd.through_item _, ?_, rfl⟩
          rw [RBTree.size_offset_item]
          simp
        · exact absurd (RBTree.erase_phantom t tx k hf hi h0f (by simpa using h1)) hret
    · have hi2 : RBTree.is_inserted (t.version (t.find_any k).node) = false := by
        simpa using hi
      by_cases h1 : (tx.items (t.find_any k).node).user1 = true
      · rw [RBTree.erase_deleted t tx k hf hi2 h1]
        refine ⟨RBTree.wf.lock_unlock t hwf, htd.touch _ _, ?_, rfl⟩
        rw [RBTree.size_offset_modify _ _ _ h2, RBTree.size_offset_item]
        simp
      · rw [RBTree.erase_committed t tx k hf hi2 (by simpa using h1)]
        refine ⟨RBTree.wf.lock_unlock t hwf, ?_, ?_, rfl⟩
        · apply Transaction.tidy.through_change_size_offset
          rw [Transaction.modify_modify]
          exact htd.touch _ _
        · rw [RBTree.size_offset_change, RBTree.size_offset_modify _ _ _ h2,
            RBTree.size_offset_modify _ _ _ h2, RBTree.size_offset_item]
          simp
  · have hf2 : (t.find_any k).found = false := by simpa using hf
    rw [RBTree.erase_absent t tx k hf2]
    have hfoa := RBTree.foa_absent_read t.lock_tree tx k (by simpa using hf2)
    simp only [RBTree.find_any_lock_tree, RBTree.treeversion_lock_tree,
      RBTree.track_boundary_lock_tree] at hfoa
    rw [hfoa]
    refine ⟨RBTree.wf.lock_unlock t hwf, ?_, ?_, rfl⟩
    · apply Transaction.tidy.through_track_boundary
      apply Transaction.tidy.through_track_boundary
      split
      · exact htd.touch _ _
      · exact htd
    · rw [RBTree.size_offset_track, RBTree.size_offset_track]
      simp only [show ((some 0 : Option Nat) = some 1) = False from by simp, if_false,
        add_zero]
      split
      · rw [RBTree.size_offset_modify _ _ _ (by decide : RBTree.tree_key_ ≠ RBTree.size_key_),
          RBTree.size_offset_item]
      · rfl

/-- A returning `insert` (the call behind `operator[]`) in any state: the size offset
grows by one exactly when the key is absent or carries the caller's delete tag. -/
theorem RBTree.step_insert (t : RBTree) (tx : Transaction) (k : Int) (hwf : t.wf)
    (htd : tx.tidy) (hret : (t.insert tx k).1 ≠ none) :
    ∃ n, (t.insert tx k).1 = some n ∧ n ≠ RBTree.size_key_ ∧
    (t.insert tx k).2.1.wf ∧ (t.insert tx k).2.2.tidy ∧
    RBTree.size_offset (t.insert tx k).2.2 = RBTree.size_offset tx +
      (if (t.find_any k).found = false ∨ (tx.items (t.find_any k).node).user1 = true
        then 1 else 0) ∧
    (t.insert tx k).2.1.size_ = t.size_ := by
  by_cases hf : (t.find_any k).found = true
  · obtain ⟨hm, _⟩ := RBTree.wf.found t hwf k hf
    have h2 := (RBTree.wf.node hwf hm).2.2.2.2.1
    by_cases h1 : (tx.items (t.find_any k).node).user1 = true
    · by_cases hi : RBTree.is_inserted (t.version (t.find_any k).node) = true
      · rw [RBTree.insert_found_own_deleted t tx k hf hi h1]
        refine ⟨_, rfl, h2, ⟨hwf.sorted, hwf.alloc, hwf.top⟩, ?_, ?_, rfl⟩
        · apply Transaction.tidy.through_change_size_offset
          rw [Transaction.modify_modify, Transaction.modify_modify]
          exact htd.touch _ _
        · rw [RBTree.size_offset_change, RBTree.size_offset_modify _ _ _ h2,
            RBTree.size_offset_modify _ _ _ h2, RBTree.size_offset_modify _ _ _ h2,
            RBTree.size_offset_item]
          simp [h1]
      · rw [RBTree.insert_found_deleted t tx k hf (by simpa using hi) h1]
        refine ⟨_, rfl, h2, RBTree.wf.lock_unlock t hwf, ?_, ?_, rfl⟩
        · apply Transaction.tidy.through_change_size_offset
          rw [Transaction.modify_modify]
          exact htd.touch _ _
        · rw [RBTree.size_offset_change, RBTree.size_offset_modify _ _ _ h2,
            RBTree.size_offset_modify _ _ _ h2, RBTree.size_offset_item]
          simp [h1]
    · have h1f : (tx.items (t.find_any k).node).user1 = false := by simpa using h1
      by_cases ho : RBTree.is_inserted (t.version (t.find_any k).node) = true →
          (tx.items (t.find_any k).node).user0 = true
      · rw [RBTree.insert_found_plain t tx k hf ho h1f]
        refine ⟨_, rfl, h2, RBTree.wf.lock_unlock t hwf, htd.touch _ _, ?_, rfl⟩
        rw [RBTree.size_offset_modify _ _ _ h2, RBTree.size_offset_item]
        simp [hf, h1f]
      · have hi : RBTree.is_inserted (t.version (t.find_any k).node) = true := by
          by_contra hc
          exact ho (fun h => absurd h hc)
        exact absurd (RBTree.insert_found_phantom t tx k hf hi
          (by simpa using fun h => ho (fun _ => h)) h1f) hret
  · have hf2 : (t.find_any k).found = false := by simpa using hf
    by_cases hp : (t.find_any k).node ≠ 0 →
        RBTree.is_inserted (t.version (t.find_any k).node) = true →
        (tx.items (t.find_any k).node).user0 = true ∨
        (tx.items (t.find_any k).node).user1 = true
    · rw [RBTree.insert_absent_path t tx k hf2 hp]
      have hwl : t.lock_tree.wf := ⟨hwf.sorted, hwf.alloc, hwf.top⟩
      have hs := (RBTree.insert_absent_spec t.lock_tree
        (if (t.find_any k).node = 0 then tx else tx.item (t.find_any k).node) k hwl
        (by simpa using hf2)).1
      simp only [RBTree.find_any_lock_tree] at hs
      have htop := hwf.top
      refine ⟨_, rfl, ?_, hs, ?_, ?_, ?_⟩
      · simp only [RBTree.insert_absent_fst, RBTree.heap_top_lock_tree, RBTree.size_key_]
        omega
      · apply Transaction.tidy.through_insert_absent
        split
        · exact htd
        · exact htd.through_item _
      · simp only [RBTree.size_offset]
        rw [RBTree.insert_absent_size_item _ _ _ _ (by simpa using htop)]
        split <;> simp [hf2]
      · rw [RBTree.insert_absent_size]
        rfl
    · have hx : (t.find_any k).node ≠ 0 := by
        by_contra hc
        exact hp (fun h => absurd hc h)
      have hi : RBTree.is_inserted (t.version (t.find_any k).node) = true := by
        by_contra hc
        exact hp (fun _ h => absurd h hc)
      exact absurd (RBTree.insert_absent_phantom t tx k hf2 hx hi
        (by simpa using fun h => hp (fun _ _ => Or.inl h))
        (by simpa using fun h => hp (fun _ _ => Or.inr h))) hret

theorem RBTree.step_read (t : RBTree) (tx : Transaction) (k : Int) (hwf : t.wf)
    (htd : tx.tidy) (hret : (t.read tx k).1 ≠ none) :
    (t.read tx k).2.1.wf ∧ (t.read tx k).2.2.tidy ∧
    RBTree.size_offset (t.read tx k).2.2 = RBTree.size_offset tx +
      (if (t.find_any k).found = false ∨ (tx.items (t.find_any k).node).user1 = true
        then 1 else 0) ∧
    (t.read tx k).2.1.size_ = t.size_ := by
  have hi : (t.insert tx k).1 ≠ none := fun h => hret (RBTree.read_of_insert_none t tx k h)
  obtain ⟨n, e1, _, s1, s2, s3, s4⟩ := RBTree.step_insert t tx k hwf htd hi
  unfold RBTree.read RBTree.operator_index at hret ⊢
  generalize t.insert tx k = x at e1 s1 s2 s3 s4 hret
  obtain ⟨r, t1, tx1⟩ := x
  simp only at e1 s1 s2 s3 s4
  subst e1
  simp only [] at hret ⊢
  unfold RBTree.proxy_read at hret ⊢
  simp only [Transaction.items_item] at hret ⊢
  split
  · exact ⟨s1, s2.through_item n, by rw [RBTree.size_offset_item]; exact s3, s4⟩
  · split
    · rename_i h1 h2
      rw [if_neg h1, if_pos h2] at hret
      exact absurd rfl hret
    · exact ⟨s1, s2.through_item n, by rw [RBTree.size_offset_item]; exact s3, s4⟩

theorem RBTree.step_assign (t : RBTree) (tx : Transaction) (k v : Int) (hwf : t.wf)
    (htd : tx.tidy) (hret : (t.assign tx k v).1 ≠ none) :
    (t.assign tx k v).2.1.wf ∧ (t.assign tx k v).2.2.tidy ∧
    RBTree.size_offset (t.assign tx k v).2.2 = RBTree.size_offset tx +
      (if (t.find_any k).found = false ∨ (tx.items (t.find_any k).node).user1 = true
        then 1 else 0) ∧
    (t.assign tx k v).2.1.size_ = t.size_ := by
  have hi : (t.insert tx k).1 ≠ none := fun h => hret (RBTree.assign_of_insert_none t tx k v h)
  obtain ⟨n, e1, hn, s1, s2, s3, s4⟩ := RBTree.step_insert t tx k hwf htd hi
  unfold RBTree.assign RBTree.operator_index
  generalize t.insert tx k = x at e1 s1 s2 s3 s4
  obtain ⟨r, t1, tx1⟩ := x
  simp only at e1 s1 s2 s3 s4
  subst e1
  simp only [RBTree.proxy_assign]
  refine ⟨s1, s2.touch _ _, ?_, s4⟩
  rw [RBTree.size_offset_modify _ _ _ hn, RBTree.size_offset_item]
  exact s3

/-- Every returning call, in any state, changes the size offset by what the specification
assigns to it and leaves `size_` alone. -/
theorem RBTree.step_run (t : RBTree) (tx : Transaction) (op : Op) (hwf : t.wf)
    (htd : tx.tidy) (hret : (t.run tx op).1 ≠ none) :
    (t.run tx op).2.1.wf ∧ (t.run tx op).2.2.tidy ∧
    RBTree.size_offset (t.run tx op).2.2 =
      RBTree.size_offset tx + RBTree.offset_change t tx op ∧
    (t.run tx op).2.1.size_ = t.size_ := by
  cases op with
  | count k =>
    have h : (t.count tx k).1 ≠ none := by
      intro e; apply hret; simp [RBTree.run, e]
    obtain ⟨a, b, c, d⟩ := RBTree.step_count t tx k hwf htd h
    exact ⟨a, b, by simpa [RBTree.run, RBTree.offset_change] using c, d⟩
  | read k => exact RBTree.step_read t tx k hwf htd hret
  | assign k v =>
    have h : (t.assign tx k v).1 ≠ none := by
      intro e; apply hret; simp [RBTree.run, e]
    exact RBTree.step_assign t tx k v hwf htd h
  | erase k =>
    have h : (t.erase tx k).1 ≠ none := by
      intro e; apply hret; simp [RBTree.run, e]
    exact RBTree.step_erase t tx k hwf htd h

theorem RBTree.run_ops_cons (t : RBTree) (tx : Transaction) (op : Op) (ops : List Op)
    (r : RBTree × Transaction) (h : t.run_ops tx (op :: ops) = some r) :
    (t.run tx op).1 ≠ none ∧ (t.run tx op).2.1.run_ops (t.run tx op).2.2 ops = some r := by
  rw [RBTree.run_ops] at h
  generalize t.run tx op = x at h
  obtain ⟨r1, t1, tx1⟩ := x
  cases r1 with
  | none => simp at h
  | some v => exact ⟨by simp, h⟩

/-- Along a sequence of returning calls the size offset is the sum of the changes the
specification assigns to the calls, and `size_` does not move. -/
theorem RBTree.run_ops_offset (ops : List Op) :
    ∀ (t : RBTree) (tx : Transaction) (u : RBTree) (ux : Transaction), t.wf → tx.tidy →
      t.run_ops tx ops = some (u, ux) →
      u.wf ∧ ux.tidy ∧
      RBTree.size_offset ux = RBTree.size_offset tx + RBTree.offset_of_ops t tx ops ∧
      u.size_ = t.size_ := by
  induction ops with
  | nil =>
    intro t tx u ux hwf htd h
    simp only [RBTree.run_ops, Option.some.injEq, Prod.mk.injEq] at h
    obtain ⟨rfl, rfl⟩ := h
    exact ⟨hwf, htd, by simp [RBTree.offset_of_ops], rfl⟩
  | cons op ops ih =>
    intro t tx u ux hwf htd h
    obtain ⟨h1, h2⟩ := RBTree.run_ops_cons t tx op ops _ h
    obtain ⟨a, b, c, d⟩ := RBTree.step_run t tx op hwf htd h1
    obtain ⟨a2, b2, c2, d2⟩ := ih _ _ u ux a b h2
    refine ⟨a2, b2, ?_, d2.trans d⟩
    rw [c2, c, RBTree.offset_of_ops]
    ring

/-! ## The size version through a commit -/

theorem RBTree.sizeversion_install (t : RBTree) (k : Nat) (it : TransItem) :
    (t.install k it).sizeversion_ =
      if k = RBTree.size_key_ then TransactionTid.inc_invalid_version t.sizeversion_
      else t.sizeversion_ := by
  rw [RBTree.install_eq]
  by_cases h1 : k = RBTree.tree_key_
  · have : ¬ RBTree.tree_key_ = RBTree.size_key_ := by decide
    simp [h1, this]
  · by_cases h2 : k = RBTree.size_key_
    · simp [h1, h2]
    · simp only [h1, h2, if_false]
      split
      · rfl
      · split <;> rfl

theorem RBTree.sizeversion_unlock (t : RBTree) (k : Nat) :
    (t.unlock k).sizeversion_ =
      if k = RBTree.size_key_ then TransactionTid.unlock t.sizeversion_
      else t.sizeversion_ := by
  unfold RBTree.unlock
  by_cases h2 : k = RBTree.size_key_
  · simp [h2]
  · by_cases h1 : k = RBTree.tree_key_ <;> simp [h1, h2]

theorem Sto.unlock_fold_sizeversion (l : List Nat) (t : RBTree) :
    (l.foldl (fun s k => s.unlock k) t).sizeversion_ =
      if RBTree.size_key_ ∈ l then TransactionTid.unlock t.sizeversion_
      else t.sizeversion_ := by
  induction l generalizing t with
  | nil => simp
  | cons x xs ih =>
    simp only [List.foldl_cons, ih, List.mem_cons, RBTree.sizeversion_unlock]
    by_cases hx : x = RBTree.size_key_
    · by_cases hm : RBTree.size_key_ ∈ xs <;> simp [hm, hx, TransactionTid.unlock_unlock]
    · have hx2 : ¬ RBTree.size_key_ = x := fun e => hx e.symm
      by_cases hm : RBTree.size_key_ ∈ xs <;> simp [hm, hx, hx2]

theorem Sto.install_phase_sizeversion (t : RBTree) (tx : Transaction)
    (hnd : tx.keys.Nodup) (hn : RBTree.size_key_ ∈ tx.keys)
    (hw : (tx.items RBTree.size_key_).has_write = true) :
    (Sto.install_phase t tx).sizeversion_ =
      TransactionTid.inc_invalid_version t.sizeversion_ := by
  unfold Sto.install_phase
  apply @foldl_obs_single RBTree Nat Nat (fun s k => s.install k (tx.items k))
    (fun s => s.sizeversion_) RBTree.size_key_
    (fun z => TransactionTid.inc_invalid_version z) _ t (Sto.nodup_write_set tx hnd)
    ((Sto.mem_write_set tx _).mpr ⟨hn, hw⟩)
  · intro s b _ hbn
    simp [RBTree.sizeversion_install, hbn]
  · intro s
    simp [RBTree.sizeversion_install]

theorem Sto.install_phase_sizeversion_none (t : RBTree) (tx : Transaction)
    (h : ¬ (RBTree.size_key_ ∈ tx.keys ∧ (tx.items RBTree.size_key_).has_write = true)) :
    (Sto.install_phase t tx).sizeversion_ = t.sizeversion_ :=
  foldl_obs_eq _ (fun s => s.sizeversion_) _ t (fun s b hb => by
    have hb2 := (Sto.mem_write_set tx b).mp hb
    have : b ≠ RBTree.size_key_ := fun e => h (e ▸ hb2)
    simp [RBTree.sizeversion_install, this])

/-- A successful commit of a written size item: `size_` moves by the offset and the size
version moves to the next unlocked version. -/
theorem Sto.try_commit_size (t : RBTree) (tx : Transaction)
    (hc : (Sto.try_commit t tx).1 = true) (htd : tx.tidy)
    (hw : (tx.items RBTree.size_key_).has_write = true) :
    (Sto.try_commit t tx).2.size_ =
      (((t.size_ : Int) + (tx.items RBTree.size_key_).write_value)
        % (TransactionTid.word : Int)).toNat ∧
    (Sto.try_commit t tx).2.sizeversion_ = TransactionTid.unlock
      (TransactionTid.inc_invalid_version (TransactionTid.lock t.sizeversion_)) := by
  have hk := htd.2 _ hw
  rw [Sto.try_commit_snd t tx hc]
  constructor
  · rw [Sto.unlock_phase_size, Sto.install_phase_size _ _
      (by rw [Sto.lock_phase_keys]; exact htd.1) (by rw [Sto.lock_phase_keys]; exact hk)
      (by rw [Sto.lock_phase_has_write]; exact hw), Sto.lock_phase_size,
      Sto.lock_phase_write_value]
  · unfold Sto.unlock_phase
    rw [Sto.unlock_fold_sizeversion, Sto.install_phase_sizeversion _ _
      (by rw [Sto.lock_phase_keys]; exact htd.1) (by rw [Sto.lock_phase_keys]; exact hk)
      (by rw [Sto.lock_phase_has_write]; exact hw), Sto.lock_phase_sizeversion]
    simp [List.mem_filter, Sto.lock_phase_keys, Sto.lock_phase_items, hk, hw]

/-- A commit without a written size item leaves `size_` and the size version alone. -/
theorem Sto.try_commit_size_none (t : RBTree) (tx : Transaction)
    (hc : (Sto.try_commit t tx).1 = true)
    (hw : (tx.items RBTree.size_key_).has_write = false)
    (hl : (tx.items RBTree.size_key_).has_lock = false) :
    (Sto.try_commit t tx).2.size_ = t.size_ ∧
    (Sto.try_commit t tx).2.sizeversion_ = t.sizeversion_ := by
  rw [Sto.try_commit_snd t tx hc]
  constructor
  · rw [Sto.unlock_phase_size, Sto.install_phase_size_none _ _
      (by rw [Sto.lock_phase_has_write, hw]; simp), Sto.lock_phase_size]
  · unfold Sto.unlock_phase
    rw [Sto.unlock_fold_sizeversion]
    have h1 : RBTree.size_key_ ∉ List.filter
        (fun k => ((Sto.lock_phase t tx).2.items k).has_lock) (Sto.lock_phase t tx).2.keys := by
      simp [List.mem_filter, Sto.lock_phase_items, hw, hl]
    rw [if_neg h1]
    have h2 := Sto.install_phase_sizeversion_none (Sto.lock_phase t tx).1
      (Sto.lock_phase t tx).2 (by rw [Sto.lock_phase_has_write, hw]; simp)
    rw [h2, Sto.lock_phase_sizeversion, hw]
    simp

/-- The items after `tree[k]` read as a value for an absent key are those `insert_absent`
leaves. -/
theorem RBTree.read_absent_items (t : RBTree) (tx : Transaction) (k : Int)
    (htop : 0 < t.heap_top ∧ t.heap_top % 8 = 0) (hfresh : tx.items t.heap_top = {})
    (hf : (t.find_any k).found = false)
    (hp : (t.find_any k).node ≠ 0 →
      RBTree.is_inserted (t.version (t.find_any k).node) = true →
      (tx.items (t.find_any k).node).user0 = true ∨
      (tx.items (t.find_any k).node).user1 = true) :
    (t.read tx k).2.2.items = (t.lock_tree.insert_absent
          (if (t.find_any k).node = 0 then tx else tx.item (t.find_any k).node)
          (t.find_any k).node k).2.2.items := by
  have hit := RBTree.insert_absent_item t.lock_tree
    (if (t.find_any k).node = 0 then tx else tx.item (t.find_any k).node)
    (t.find_any k).node k htop (by split <;> simp [hfresh])
  simp only [RBTree.heap_top_lock_tree] at hit
  unfold RBTree.read RBTree.operator_index
  rw [RBTree.insert_absent_path t tx k hf hp]
  simp only [RBTree.insert_absent_fst, RBTree.heap_top_lock_tree]
  have hw : ((t.lock_tree.insert_absent
      (if (t.find_any k).node = 0 then tx else tx.item (t.find_any k).node)
      (t.find_any k).node k).2.2.items t.heap_top).has_write = true := by rw [hit]
  simp [RBTree.proxy_read, hw]

/-! ## The logger: the default partition of `Init` -/

theorem Logger.flatten_singletons (l : List Nat) : (l.map (fun i => [i])).flatten = l := by
  induction l with
  | nil => rfl
  | cons a l ih => simp [ih]

theorem Logger.flatten_blocks (start : Nat → Nat) (h0 : start 0 = 0)
    (hmono : ∀ i, start i ≤ start (i + 1)) (m : Nat) :
    ((List.range m).map (fun i => List.range' (start i) (start (i + 1) - start i))).flatten
      = List.range (start m) := by
  induction m with
  | zero => simp [h0]
  | succ m ih =>
    rw [List.range_succ, List.map_append, List.flatten_append, ih, List.range_eq_range',
      List.range_eq_range']
    simp only [List.map_cons, List.map_nil, List.flatten_cons, List.flatten_nil, List.append_nil]
    have h := List.range'_append 0 (start m) (start (m + 1) - start m) 1
    simp only [Nat.zero_add, Nat.one_mul] at h
    rw [h]
    congr 1
    have := hmono m
    omega

theorem Logger.MakeRange_small (a b : Nat) (ha : a ≤ b) (hb : b < 2 ^ 32) :
    Logger.MakeRange a b = List.range' a (b - a) := by
  unfold Logger.MakeRange
  rw [Nat.mod_eq_of_lt hb, Nat.mod_eq_of_lt (lt_of_le_of_lt ha hb)]

/-- The inner initialisation loop over indices inside `epochs_` zeroes them. -/
theorem Logger.init_row_inside (M i : Nat) (js : List Nat) :
    ∀ (E : Nat → Nat → Nat), (∀ j ∈ js, j < M) →
      Logger.init_row M i js E
        = some (fun i2 j2 => if i2 = i ∧ j2 ∈ js then 0 else E i2 j2) := by
  induction js with
  | nil =>
    intro E _
    simp [Logger.init_row]
  | cons j rest ih =>
    intro E h
    have hj : j < M := h j (List.mem_cons_self _ _)
    rw [Logger.init_row, Logger.store_zero, if_pos hj]
    simp only []
    rw [ih _ (fun x hx => h x (List.mem_cons_of_mem _ hx))]
    congr 1
    funext i2 j2
    by_cases hi : i2 = i
    · by_cases hr : j2 ∈ rest
      · simp [hi, hr]
      · by_cases hjj : j2 = j
        · simp [hi, hjj]
        · simp [hi, hr, hjj]
    · simp [hi]

/-- The inner initialisation loop stops at an index outside `epochs_`. -/
theorem Logger.init_row_outside (M i : Nat) (js : List Nat) :
    ∀ (E : Nat → Nat → Nat), (∃ j ∈ js, ¬ j < M) → Logger.init_row M i js E = none := by
  induction js with
  | nil =>
    intro E h
    obtain ⟨j, hj, _⟩ := h
    cases hj
  | cons j rest ih =>
    intro E h
    rw [Logger.init_row, Logger.store_zero]
    by_cases hj : j < M
    · rw [if_pos hj]
      simp only []
      apply ih
      obtain ⟨x, hx, hxM⟩ := h
      rcases List.mem_cons.mp hx with e | e
      · subst e; exact absurd hj hxM
      · exact ⟨x, e, hxM⟩
    · rw [if_neg hj]

/-- The initialisation loops of `Init` with at most `MAX_THREADS_` workers zero the entries
of the loggers `ls` for the workers below `g_nworkers`. -/
theorem Logger.init_rows_inside (M n : Nat) (hn : n ≤ M) (ls : List Nat) :
    ∀ (E : Nat → Nat → Nat),
      Logger.init_rows M n ls E
        = some (fun i2 j2 => if i2 ∈ ls ∧ j2 < n then 0 else E i2 j2) := by
  induction ls with
  | nil =>
    intro E
    simp [Logger.init_rows]
  | cons i rest ih =>
    intro E
    rw [Logger.init_rows, Logger.init_row_inside M i _ E
      (fun j hj => lt_of_lt_of_le (List.mem_range.mp hj) hn)]
    simp only []
    rw [ih]
    congr 1
    funext i2 j2
    by_cases hj : j2 < n
    · by_cases hr : i2 ∈ rest
      · simp [hj, hr]
      · by_cases hi : i2 = i
        · simp [hj, hi]
        · simp [hj, hr, hi]
    · simp [hj]

/-- The initialisation loops of `Init` with more than `MAX_THREADS_` workers stop at a
store outside `epochs_`. -/
theorem Logger.init_rows_outside (M n : Nat) (hn : M < n) (i : Nat) (rest : List Nat)
    (E : Nat → Nat → Nat) : Logger.init_rows M n (i :: rest) E = none := by
  rw [Logger.init_rows, Logger.init_row_outside M i _ E
    ⟨M, List.mem_range.mpr hn, Nat.lt_irrefl M⟩]

theorem Logger.Init_default (g_nmax_loggers M g_perthread_buffers : Nat)
    (E : Nat → Nat → Nat) (nworkers nlogfiles : Nat)
    (use_compression : Bool) (hw : 1 ≤ nworkers) (hM : nworkers ≤ M) (hl : 1 ≤ nlogfiles)
    (hl2 : nlogfiles ≤ g_nmax_loggers)
    (hc : use_compression = true → g_perthread_buffers > 1) :
    Logger.Init false 0 g_nmax_loggers M g_perthread_buffers E nworkers nlogfiles []
        use_compression
      = some (fun i j => if i < g_nmax_loggers ∧ j < nworkers then 0 else E i j,
          if nworkers ≤ nlogfiles then (List.range nworkers).map (fun i => [i % 2 ^ 32])
          else (List.range nlogfiles).map (fun i =>
            Logger.MakeRange (i * (nworkers / nlogfiles))
              (if i + 1 = nlogfiles then nworkers else (i + 1) * (nworkers / nlogfiles)))) := by
  have h1 : ¬ (nlogfiles = 0) := by omega
  have h2 : (!use_compression || decide (g_perthread_buffers > 1)) = true := by
    cases use_compression with
    | false => rfl
    | true => simp [hc rfl]
  unfold Logger.Init
  simp only [Bool.false_eq_true, if_false, ne_eq, not_true_eq_false, gt_iff_lt,
    Nat.lt_of_lt_of_le Nat.zero_lt_one hw, not_false_eq_true, h1, hl2, h2, List.isEmpty_nil,
    if_true, Logger.init_rows_inside M nworkers hM, List.mem_range]
  split <;> rfl

/-- With more workers than `epochs_` has entries `Init` does not get past its
initialisation loops. -/
theorem Logger.Init_outside (g_nmax_loggers M g_perthread_buffers : Nat)
    (E : Nat → Nat → Nat) (nworkers nlogfiles : Nat) (A : List (List Nat))
    (use_compression : Bool) (hM : M < nworkers) (hl : 1 ≤ nlogfiles)
    (hl2 : nlogfiles ≤ g_nmax_loggers) :
    Logger.Init false 0 g_nmax_loggers M g_perthread_buffers E nworkers nlogfiles A
        use_compression = none := by
  obtain ⟨m, hm⟩ : ∃ m, g_nmax_loggers = m + 1 := ⟨g_nmax_loggers - 1, by omega⟩
  unfold Logger.Init
  rw [hm, List.range_succ_eq_map]
  simp only [Logger.init_rows_outside M nworkers hM]
  split_ifs <;> rfl

theorem Logger.exists_unique_block (blocks : List (List Nat)) (hn : blocks.flatten.Nodup)
    (x : Nat) (hx : x ∈ blocks.flatten) :
    ∃! i : Nat, ∃ b : List Nat, blocks[i]? = some b ∧ x ∈ b := by
  induction blocks with
  | nil => simp at hx
  | cons b bs ih =>
    rw [List.flatten_cons] at hn hx
    obtain ⟨_, hn2, hd⟩ := List.nodup_append.mp hn
    rcases List.mem_append.mp hx with hb | hb
    · refine ⟨0, ⟨b, by simp, hb⟩, ?_⟩
      rintro j ⟨c, hc, hxc⟩
      cases j with
      | zero => rfl
      | succ j =>
        exfalso
        simp only [List.getElem?_cons_succ] at hc
        have hcm : c ∈ bs := List.mem_iff_getElem?.mpr ⟨j, hc⟩
        exact hd hb (List.mem_flatten.mpr ⟨c, hcm, hxc⟩)
    · obtain ⟨i, ⟨c, hc, hxc⟩, hu⟩ := ih hn2 hb
      refine ⟨i + 1, ⟨c, by simpa using hc, hxc⟩, ?_⟩
      rintro j ⟨c2, hc2, hxc2⟩
      cases j with
      | zero =>
        exfalso
        simp only [List.getElem?_cons_zero, Option.some.injEq] at hc2
        subst hc2
        exact hd hxc2 hb
      | succ j =>
        simp only [List.getElem?_cons_succ] at hc2
        rw [hu j ⟨c2, hc2, hxc2⟩]

/-! ## The logger: one visit of the persister -/

@[simp] theorem Logger.set_ctx_epochs (s : Logger.State) (k : Nat) (c : Logger.persist_ctx) :
    (s.set_ctx k c).per_thread_sync_epochs_ = s.per_thread_sync_epochs_ := rfl

@[simp] theorem Logger.set_ctx_sys (s : Logger.State) (k : Nat) (c : Logger.persist_ctx) :
    (s.set_ctx k c).system_sync_epoch_ = s.system_sync_epoch_ := rfl

@[simp] theorem Logger.set_ctx_global (s : Logger.State) (k : Nat) (c : Logger.persist_ctx) :
    (s.set_ctx k c).global_epoch = s.global_epoch := rfl

@[simp] theorem Logger.set_ctx_pepoch (s : Logger.State) (k : Nat) (c : Logger.persist_ctx) :
    (s.set_ctx k c).pepoch = s.pepoch := rfl

@[simp] theorem Logger.set_ctx_ctxs (s : Logger.State) (k : Nat) (c : Logger.persist_ctx) :
    (s.set_ctx k c).g_persist_ctxs = Function.update s.g_persist_ctxs k c := rfl

@[simp] theorem Logger.set_epoch_sys (s : Logger.State) (i k e : Nat) :
    (s.set_epoch i k e).system_sync_epoch_ = s.system_sync_epoch_ := rfl

@[simp] theorem Logger.set_epoch_global (s : Logger.State) (i k e : Nat) :
    (s.set_epoch i k e).global_epoch = s.global_epoch := rfl

@[simp] theorem Logger.set_epoch_pepoch (s : Logger.State) (i k e : Nat) :
    (s.set_epoch i k e).pepoch = s.pepoch := rfl

@[simp] theorem Logger.set_epoch_ctxs (s : Logger.State) (i k e : Nat) :
    (s.set_epoch i k e).g_persist_ctxs = s.g_persist_ctxs := rfl

theorem Logger.set_epoch_get (s : Logger.State) (i k e i2 k2 : Nat) :
    (s.set_epoch i k e).per_thread_sync_epochs_ i2 k2
      = if i2 = i ∧ k2 = k then e else s.per_thread_sync_epochs_ i2 k2 := by
  show Function.update s.per_thread_sync_epochs_ i
    (Function.update (s.per_thread_sync_epochs_ i) k e) i2 k2 = _
  by_cases hi : i2 = i
  · subst hi
    by_cases hk : k2 = k
    · subst hk; simp
    · simp [hk]
  · simp [hi]

theorem Logger.head_isNone {α : Type} (l : List α) : l.head?.isNone = true ↔ l = [] := by
  cases l <;> simp

/-- A visit under the quiescence condition stores `best`. -/
theorem Logger.visit_quiesced (best i k m : Nat) (s : Logger.State)
    (hq : Logger.quiesced (s.g_persist_ctxs k)) :
    Logger.visit best i k (m, s)
      = (min m best, (s.set_epoch i k best).set_ctx k
          { s.g_persist_ctxs k with lock_ := (Logger.acquire (s.g_persist_ctxs k).lock_ 3).2.unlock }) := by
  obtain ⟨h1, h2, h3, h4⟩ := hq
  unfold Logger.visit
  simp only [h1, h2, h3, List.head?_nil, Option.isNone_none, if_true, Bool.not_false]
  cases hh : (s.g_persist_ctxs k).all_buffers_.head? with
  | none => simp [h1]
  | some px =>
    have := h4 px hh
    simp [h1, this]

/-- A visit that finds records in the head buffer of `all_buffers_` moves that buffer to
`persist_buffers_` and stores no epoch. -/
theorem Logger.visit_moves (best i k m : Nat) (s : Logger.State) (px : Logger.pbuffer)
    (h1 : (s.g_persist_ctxs k).persist_buffers_ = [])
    (h2 : (s.g_persist_ctxs k).lock_.is_locked = false)
    (h3 : (Logger.acquire (s.g_persist_ctxs k).lock_ 3).1 = true)
    (h4 : (s.g_persist_ctxs k).all_buffers_.head? = some px) (h5 : 0 < px.nentries_) :
    Logger.visit best i k (m, s)
      = (min (s.per_thread_sync_epochs_ i k) m, s.set_ctx k
          { s.g_persist_ctxs k with
            lock_ := (Logger.acquire (s.g_persist_ctxs k).lock_ 3).2.unlock
            all_buffers_ := (s.g_persist_ctxs k).all_buffers_.tail
            persist_buffers_ := [px] }) := by
  unfold Logger.visit
  simp [h1, h2, h3, h4, h5]

/-- A visit outside the quiescence condition stores no epoch and takes the entry as it
is into the minimum. -/
theorem Logger.visit_busy (best i k m : Nat) (s : Logger.State)
    (hq : ¬ Logger.quiesced (s.g_persist_ctxs k)) :
    (Logger.visit best i k (m, s)).1 = min (s.per_thread_sync_epochs_ i k) m ∧
    (Logger.visit best i k (m, s)).2.per_thread_sync_epochs_ = s.per_thread_sync_epochs_ := by
  unfold Logger.visit
  simp only []
  by_cases h1 : (s.g_persist_ctxs k).persist_buffers_ = []
  · by_cases h2 : (s.g_persist_ctxs k).lock_.is_locked = false
    · by_cases h3 : (Logger.acquire (s.g_persist_ctxs k).lock_ 3).1 = true
      · cases h4 : (s.g_persist_ctxs k).all_buffers_.head? with
        | none =>
          exfalso; apply hq
          exact ⟨h1, h2, h3, by intro px hpx; rw [h4] at hpx; cases hpx⟩
        | some px =>
          have h5 : 0 < px.nentries_ := by
            by_contra h5
            apply hq
            refine ⟨h1, h2, h3, ?_⟩
            intro px2 hpx; rw [h4] at hpx; cases hpx; omega
          simp [h1, h2, h3, h5]
      · simp [h1, h2, h3]
    · simp [h1, h2]
  · have h1b : (s.g_persist_ctxs k).persist_buffers_.head?.isNone = false := by
      cases hh : (s.g_persist_ctxs k).persist_buffers_ with
      | nil => exact absurd hh h1
      | cons a l => rfl
    simp [h1b]

/-- A visit changes no entry but the one of its own pair. -/
theorem Logger.visit_epoch_other (best i k m : Nat) (s : Logger.State) (i2 k2 : Nat)
    (h : ¬ (i2 = i ∧ k2 = k)) :
    (Logger.visit best i k (m, s)).2.per_thread_sync_epochs_ i2 k2
      = s.per_thread_sync_epochs_ i2 k2 := by
  by_cases hq : Logger.quiesced (s.g_persist_ctxs k)
  · rw [Logger.visit_quiesced best i k m s hq]
    simp only [Logger.set_ctx_epochs]
    rw [Logger.set_epoch_get, if_neg h]
  · rw [(Logger.visit_busy best i k m s hq).2]

/-- The value a visit takes into the minimum is the entry of its pair as the visit leaves
it. -/
theorem Logger.visit_min (best i k m : Nat) (s : Logger.State) :
    (Logger.visit best i k (m, s)).1
      = min m ((Logger.visit best i k (m, s)).2.per_thread_sync_epochs_ i k) := by
  by_cases hq : Logger.quiesced (s.g_persist_ctxs k)
  · rw [Logger.visit_quiesced best i k m s hq]
    simp only [Logger.set_ctx_epochs]
    rw [Logger.set_epoch_get, if_pos ⟨rfl, rfl⟩]
  · rw [(Logger.visit_busy best i k m s hq).1, (Logger.visit_busy best i k m s hq).2,
      Nat.min_comm]

/-- A visit leaves `system_sync_epoch_`, `global_epoch` and the marker alone. -/
theorem Logger.visit_frame (best i k m : Nat) (s : Logger.State) :
    (Logger.visit best i k (m, s)).2.system_sync_epoch_ = s.system_sync_epoch_ ∧
    (Logger.visit best i k (m, s)).2.global_epoch = s.global_epoch ∧
    (Logger.visit best i k (m, s)).2.pepoch = s.pepoch := by
  unfold Logger.visit
  simp only []
  split_ifs <;> exact ⟨rfl, rfl, rfl⟩

/-- A visit of thread `k` leaves the contexts of the other threads alone. -/
theorem Logger.visit_ctx_other (best i k m : Nat) (s : Logger.State) (k2 : Nat) (h : k2 ≠ k) :
    (Logger.visit best i k (m, s)).2.g_persist_ctxs k2 = s.g_persist_ctxs k2 := by
  unfold Logger.visit
  simp only []
  split_ifs <;> simp [h]

/-! ## The logger: the loops of the persister -/

theorem Logger.visit_epoch_self (best i k m : Nat) (s : Logger.State) :
    (Logger.visit best i k (m, s)).2.per_thread_sync_epochs_ i k
      = if Logger.quiesced (s.g_persist_ctxs k) then best else s.per_thread_sync_epochs_ i k := by
  by_cases hq : Logger.quiesced (s.g_persist_ctxs k)
  · rw [Logger.visit_quiesced best i k m s hq, if_pos hq]
    simp only [Logger.set_ctx_epochs]
    rw [Logger.set_epoch_get, if_pos ⟨rfl, rfl⟩]
  · rw [(Logger.visit_busy best i k m s hq).2, if_neg hq]

theorem Logger.visit_ctx_self (best i k m m1 : Nat) (s s1 : Logger.State)
    (h : s1.g_persist_ctxs k = s.g_persist_ctxs k) :
    (Logger.visit best i k (m1, s1)).2.g_persist_ctxs k
      = (Logger.visit best i k (m, s)).2.g_persist_ctxs k := by
  unfold Logger.visit
  simp only [h]
  split_ifs <;> simp [h]

theorem Logger.visits_frame (best : Nat) (ps : List (Nat × Nat)) (m : Nat) (s : Logger.State) :
    (ps.foldl (fun acc p => Logger.visit best p.1 p.2 acc) (m, s)).2.system_sync_epoch_
      = s.system_sync_epoch_ ∧
    (ps.foldl (fun acc p => Logger.visit best p.1 p.2 acc) (m, s)).2.global_epoch
      = s.global_epoch ∧
    (ps.foldl (fun acc p => Logger.visit best p.1 p.2 acc) (m, s)).2.pepoch = s.pepoch := by
  induction ps generalizing m s with
  | nil => exact ⟨rfl, rfl, rfl⟩
  | cons p rest ih =>
    rw [List.foldl_cons]
    have hv := Logger.visit_frame best p.1 p.2 m s
    generalize Logger.visit best p.1 p.2 (m, s) = x at hv
    obtain ⟨m1, s1⟩ := x
    obtain ⟨a, b, c⟩ := ih m1 s1
    exact ⟨a.trans hv.1, b.trans hv.2.1, c.trans hv.2.2⟩

theorem Logger.visits_epoch_other (best : Nat) (ps : List (Nat × Nat)) (m : Nat)
    (s : Logger.State) (i2 k2 : Nat) (h : (i2, k2) ∉ ps) :
    (ps.foldl (fun acc p => Logger.visit best p.1 p.2 acc) (m, s)).2.per_thread_sync_epochs_ i2 k2
      = s.per_thread_sync_epochs_ i2 k2 := by
  induction ps generalizing m s with
  | nil => rfl
  | cons p rest ih =>
    rw [List.foldl_cons]
    have hp : ¬ (i2 = p.1 ∧ k2 = p.2) := by
      rintro ⟨a, b⟩
      apply h
      rw [a, b]
      exact List.mem_cons_self _ _
    have hv := Logger.visit_epoch_other best p.1 p.2 m s i2 k2 hp
    generalize Logger.visit best p.1 p.2 (m, s) = x at hv
    obtain ⟨m1, s1⟩ := x
    rw [ih m1 s1 (fun hm => h (List.mem_cons_of_mem _ hm))]
    exact hv

theorem Logger.visits_ctx_other (best : Nat) (ps : List (Nat × Nat)) (m : Nat)
    (s : Logger.State) (k2 : Nat) (h : k2 ∉ ps.map Prod.snd) :
    (ps.foldl (fun acc p => Logger.visit best p.1 p.2 acc) (m, s)).2.g_persist_ctxs k2
      = s.g_persist_ctxs k2 := by
  induction ps generalizing m s with
  | nil => rfl
  | cons p rest ih =>
    rw [List.foldl_cons]
    rw [List.map_cons, List.mem_cons, not_or] at h
    have hv := Logger.visit_ctx_other best p.1 p.2 m s k2 h.1
    generalize Logger.visit best p.1 p.2 (m, s) = x at hv
    obtain ⟨m1, s1⟩ := x
    rw [ih m1 s1 h.2]
    exact hv

/-- With every thread visited once, the loops leave for a visited pair what its one visit
leaves. -/
theorem Logger.visits_entry (best : Nat) (ps : List (Nat × Nat)) (m : Nat) (s : Logger.State)
    (hn : (ps.map Prod.snd).Nodup) (i k : Nat) (hm : (i, k) ∈ ps) :
    (ps.foldl (fun acc p => Logger.visit best p.1 p.2 acc) (m, s)).2.per_thread_sync_epochs_ i k
      = (if Logger.quiesced (s.g_persist_ctxs k) then best else s.per_thread_sync_epochs_ i k) ∧
    (ps.foldl (fun acc p => Logger.visit best p.1 p.2 acc) (m, s)).2.g_persist_ctxs k
      = (Logger.visit best i k (m, s)).2.g_persist_ctxs k := by
  induction ps generalizing m s with
  | nil => cases hm
  | cons p rest ih =>
    rw [List.map_cons, List.nodup_cons] at hn
    rw [List.foldl_cons]
    rcases List.mem_cons.mp hm with he | hr
    · subst he
      have h1 := Logger.visit_epoch_self best i k m s
      have hk : k ∉ rest.map Prod.snd := hn.1
      have hik : (i, k) ∉ rest := fun hc => hk (List.mem_map.mpr ⟨(i, k), hc, rfl⟩)
      show (rest.foldl _ (Logger.visit best i k (m, s))).2.per_thread_sync_epochs_ i k = _ ∧
        (rest.foldl _ (Logger.visit best i k (m, s))).2.g_persist_ctxs k = _
      generalize Logger.visit best i k (m, s) = x at h1
      obtain ⟨m1, s1⟩ := x
      rw [Logger.visits_epoch_other best rest m1 s1 i k hik,
        Logger.visits_ctx_other best rest m1 s1 k hk]
      exact ⟨h1, rfl⟩
    · have hk : k ∈ rest.map Prod.snd := List.mem_map.mpr ⟨(i, k), hr, rfl⟩
      have hne : k ≠ p.2 := fun hc => hn.1 (hc ▸ hk)
      have h1 := Logger.visit_epoch_other best p.1 p.2 m s i k (fun hc => hne hc.2)
      have h2 := Logger.visit_ctx_other best p.1 p.2 m s k hne
      generalize Logger.visit best p.1 p.2 (m, s) = x at h1 h2
      obtain ⟨m1, s1⟩ := x
      obtain ⟨a, b⟩ := ih m1 s1 hn.2 hr
      simp only at h1 h2
      rw [a, b, h1, h2]
      exact ⟨rfl, Logger.visit_ctx_self best i k m m1 s s1 h2⟩

/-- With every pair visited once, the value the loops compute is the smallest of the
start value and the entries of the visited pairs as the loops leave them. -/
theorem Logger.visits_min (best : Nat) (ps : List (Nat × Nat)) (m : Nat) (s : Logger.State)
    (hn : ps.Nodup) :
    (ps.foldl (fun acc p => Logger.visit best p.1 p.2 acc) (m, s)).1 ≤ m ∧
    (∀ p ∈ ps, (ps.foldl (fun acc p => Logger.visit best p.1 p.2 acc) (m, s)).1
      ≤ (ps.foldl (fun acc p => Logger.visit best p.1 p.2 acc) (m, s)).2.per_thread_sync_epochs_
          p.1 p.2) ∧
    ((ps.foldl (fun acc p => Logger.visit best p.1 p.2 acc) (m, s)).1 = m ∨
      ∃ p ∈ ps, (ps.foldl (fun acc p => Logger.visit best p.1 p.2 acc) (m, s)).1
        = (ps.foldl (fun acc p => Logger.visit best p.1 p.2 acc) (m, s)).2.per_thread_sync_epochs_
            p.1 p.2) := by
  induction ps generalizing m s with
  | nil => exact ⟨le_refl _, fun p hp => (by cases hp), Or.inl rfl⟩
  | cons p rest ih =>
    rw [List.nodup_cons] at hn
    rw [List.foldl_cons]
    have h1 := Logger.visit_min best p.1 p.2 m s
    generalize Logger.visit best p.1 p.2 (m, s) = x at h1
    obtain ⟨m1, s1⟩ := x
    simp only at h1
    obtain ⟨a, b, c⟩ := ih m1 s1 hn.2
    have hp := Logger.visits_epoch_other best rest m1 s1 p.1 p.2 hn.1
    generalize rest.foldl (fun acc p => Logger.visit best p.1 p.2 acc) (m1, s1) = r at a b c hp
    refine ⟨?_, ?_, ?_⟩
    · rw [h1] at a; exact le_trans a (Nat.min_le_left _ _)
    · intro q hq
      rcases List.mem_cons.mp hq with he | hr
      · subst he
        rw [hp]
        rw [h1] at a
        exact le_trans a (Nat.min_le_right _ _)
      · exact b q hr
    · rcases c with c | ⟨q, hq, c⟩
      · rw [h1] at c
        rcases Nat.le_total m (s1.per_thread_sync_epochs_ p.1 p.2) with hle | hle
        · left; rw [c, Nat.min_eq_left hle]
        · right
          refine ⟨p, List.mem_cons_self _ _, ?_⟩
          rw [c, Nat.min_eq_right hle, hp]
      · exact Or.inr ⟨q, List.mem_cons_of_mem _ hq, c⟩

/-! ## The logger: the pairs the persister visits -/

theorem Logger.mem_thread_ids (cfg : Logger.Config) (j k : Nat) :
    k ∈ Logger.thread_ids cfg j ↔ k < cfg.MAX_THREADS_ ∧ j ≤ k ∧ (k - j) % cfg.g_nworkers = 0 := by
  unfold Logger.thread_ids
  simp only [List.mem_filter, List.mem_map, List.mem_range, decide_eq_true_eq]
  constructor
  · rintro ⟨⟨m, _, rfl⟩, hk⟩
    refine ⟨hk, Nat.le_add_right _ _, ?_⟩
    rw [Nat.add_sub_cancel_left]
    exact Nat.mul_mod_left _ _
  · rintro ⟨hk, hj, hm⟩
    have hd : cfg.g_nworkers * ((k - j) / cfg.g_nworkers) = k - j :=
      Nat.mul_div_cancel' (Nat.dvd_of_mod_eq_zero hm)
    refine ⟨⟨(k - j) / cfg.g_nworkers, ?_, ?_⟩, hk⟩
    · have h1 : (k - j) / cfg.g_nworkers ≤ k - j := Nat.div_le_self _ _
      omega
    · rw [Nat.mul_comm, hd]; omega

theorem Logger.thread_ids_nodup (cfg : Logger.Config) (hg : 0 < cfg.g_nworkers) (j : Nat) :
    (Logger.thread_ids cfg j).Nodup := by
  unfold Logger.thread_ids
  apply List.Nodup.filter
  apply List.Nodup.map _ (List.nodup_range _)
  intro a b hab
  simp only at hab
  have h : a * cfg.g_nworkers = b * cfg.g_nworkers := by omega
  exact Nat.eq_of_mul_eq_mul_right hg h

theorem Logger.thread_ids_disjoint (cfg : Logger.Config) (j1 j2 : Nat)
    (h1 : j1 < cfg.g_nworkers) (h2 : j2 < cfg.g_nworkers) (hne : j1 ≠ j2) :
    List.Disjoint (Logger.thread_ids cfg j1) (Logger.thread_ids cfg j2) := by
  intro k hk1 hk2
  rw [Logger.mem_thread_ids cfg] at hk1 hk2
  obtain ⟨_, ha, hb⟩ := hk1
  obtain ⟨_, hc, hd⟩ := hk2
  apply hne
  have e1 : k % cfg.g_nworkers = j1 := by
    have : k = j1 + (k - j1) := by omega
    rw [this, Nat.add_mod, hb, Nat.add_zero, Nat.mod_mod, Nat.mod_eq_of_lt h1]
  have e2 : k % cfg.g_nworkers = j2 := by
    have : k = j2 + (k - j2) := by omega
    rw [this, Nat.add_mod, hd, Nat.add_zero, Nat.mod_mod, Nat.mod_eq_of_lt h2]
  rw [← e1, ← e2]

theorem Logger.visited_threads_from (cfg : Logger.Config) (A : List (List Nat)) (n : Nat) :
    ((A.enumFrom n).flatMap (fun ia => ia.2.flatMap (fun j =>
        (Logger.thread_ids cfg j).map (fun k => (ia.1, k))))).map Prod.snd
      = A.flatten.flatMap (Logger.thread_ids cfg) := by
  induction A generalizing n with
  | nil => rfl
  | cons a rest ih =>
    rw [List.enumFrom_cons, List.flatMap_cons, List.map_append, ih, List.flatten_cons,
      List.flatMap_append]
    congr 1
    induction a with
    | nil => rfl
    | cons j js ihj =>
      rw [List.flatMap_cons, List.map_append, ihj, List.flatMap_cons, List.map_map]
      congr 1
      exact List.map_id _

theorem Logger.visited_threads (cfg : Logger.Config) (A : List (List Nat)) :
    (Logger.visited cfg A).map Prod.snd = A.flatten.flatMap (Logger.thread_ids cfg) :=
  Logger.visited_threads_from cfg A 0

/-- For a partition of worker ids below `g_nworkers` every thread is visited once. -/
theorem Logger.visited_threads_nodup (cfg : Logger.Config) (A : List (List Nat))
    (hg : 0 < cfg.g_nworkers) (hn : A.flatten.Nodup) (hb : ∀ j ∈ A.flatten, j < cfg.g_nworkers) :
    ((Logger.visited cfg A).map Prod.snd).Nodup := by
  rw [Logger.visited_threads, List.nodup_flatMap]
  refine ⟨fun j _ => Logger.thread_ids_nodup cfg hg j, ?_⟩
  have h2 : ∀ l : List Nat, l.Nodup → (∀ j ∈ l, j < cfg.g_nworkers) →
      List.Pairwise (fun a b => List.Disjoint (Logger.thread_ids cfg a) (Logger.thread_ids cfg b))
        l := by
    intro l hl hlb
    induction l with
    | nil => exact List.Pairwise.nil
    | cons a l ih =>
      rw [List.nodup_cons] at hl
      refine List.Pairwise.cons ?_ (ih hl.2 (fun j hj => hlb j (List.mem_cons_of_mem _ hj)))
      intro b hbm
      exact Logger.thread_ids_disjoint cfg a b (hlb a (List.mem_cons_self _ _))
        (hlb b (List.mem_cons_of_mem _ hbm)) (fun e => hl.1 (e ▸ hbm))
  exact h2 _ hn hb

theorem Logger.nodup_of_map_snd (ps : List (Nat × Nat)) (h : (ps.map Prod.snd).Nodup) :
    ps.Nodup := List.Nodup.of_map _ h

theorem Logger.mem_visited_from (cfg : Logger.Config) (A : List (List Nat)) (n i k : Nat) :
    (i, k) ∈ (A.enumFrom n).flatMap (fun ia => ia.2.flatMap (fun j =>
        (Logger.thread_ids cfg j).map (fun k => (ia.1, k))))
      ↔ n ≤ i ∧ ∃ a, A[i - n]? = some a ∧ ∃ j ∈ a, k ∈ Logger.thread_ids cfg j := by
  induction A generalizing n with
  | nil => simp
  | cons a rest ih =>
    rw [List.enumFrom_cons, List.flatMap_cons, List.mem_append, ih]
    constructor
    · rintro (h | ⟨hn, b, hb, hj⟩)
      · simp only [List.mem_flatMap, List.mem_map, Prod.mk.injEq] at h
        obtain ⟨j, hj, k2, hk2, rfl, rfl⟩ := h
        exact ⟨le_refl _, a, by simp, j, hj, hk2⟩
      · refine ⟨by omega, b, ?_, hj⟩
        have : i - n = (i - (n + 1)) + 1 := by omega
        rw [this, List.getElem?_cons_succ]
        exact hb
    · rintro ⟨hn, b, hb, j, hj, hk⟩
      by_cases he : i = n
      · left
        subst he
        simp only [Nat.sub_self, List.getElem?_cons_zero, Option.some.injEq] at hb
        subst hb
        simp only [List.mem_flatMap, List.mem_map, Prod.mk.injEq]
        refine ⟨j, hj, k, hk, ?_⟩
        simp
      · right
        refine ⟨by omega, b, ?_, j, hj, hk⟩
        have : i - n = (i - (n + 1)) + 1 := by omega
        rw [this, List.getElem?_cons_succ] at hb
        exact hb

/-- The pairs visited: logger `i` with every thread of every worker id of its block. -/
theorem Logger.mem_visited (cfg : Logger.Config) (A : List (List Nat)) (i k : Nat) :
    (i, k) ∈ Logger.visited cfg A
      ↔ ∃ a, A[i]? = some a ∧ ∃ j ∈ a, k ∈ Logger.thread_ids cfg j := by
  have h := Logger.mem_visited_from cfg A 0 i k
  simp only [Nat.zero_le, true_and, Nat.sub_zero] at h
  exact h

/-! ## The logger: one iteration of a writer -/

theorem Logger.scheduled_since.at_first (cfg : Logger.Config) (w : Logger.writer_state)
    (h : w.nbufswritten ≤ w.iovs.length) : Logger.scheduled_since cfg w [] w :=
  ⟨h, (List.append_nil _).symm, rfl, rfl⟩

/-- Scheduling one buffer extends the trace by it. -/
theorem Logger.scheduled_since.push (cfg : Logger.Config) (w0 w : Logger.writer_state)
    (added : List Logger.pbuffer) (h : Logger.scheduled_since cfg w0 added w)
    (px : Logger.pbuffer) (w1 : Logger.writer_state)
    (h1 : w1.data_log = w.data_log) (h2 : w1.iovs = w.iovs.take w.nbufswritten ++ [px])
    (h3 : w1.nbufswritten = w.nbufswritten + 1)
    (h4 : w1.epoch_prefixes
      = Function.update w.epoch_prefixes px.thread_id_ (Logger.recorded_epoch cfg px))
    (h5 : w1.totalbufswritten = w.totalbufswritten + 1) :
    Logger.scheduled_since cfg w0 (added ++ [px]) w1 := by
  have hlen : (w.iovs.take w.nbufswritten).length = w.nbufswritten := by
    rw [List.length_take]; exact Nat.min_eq_left h.bound
  refine ⟨?_, ?_, ?_, ?_⟩
  · rw [h2, h3, List.length_append, hlen]; rfl
  · unfold Logger.writer_state.trace
    rw [h1, h2, h3]
    have e : (w.iovs.take w.nbufswritten ++ [px]).take (w.nbufswritten + 1)
        = w.iovs.take w.nbufswritten ++ [px] := by
      apply List.take_of_length_le
      rw [List.length_append, hlen]; rfl
    rw [e, ← List.append_assoc]
    have := h.trace
    unfold Logger.writer_state.trace at this
    rw [this, List.append_assoc]
  · rw [h4, h.prefixes, List.foldl_append]; rfl
  · rw [h5, h.total, List.length_append]; rfl

/-- The loop over the buffers of one thread. -/
theorem Logger.schedule_pxs_since (cfg : Logger.Config) (ex k : Nat) (w0 : Logger.writer_state)
    (pxs : List Logger.pbuffer) :
    ∀ (added : List Logger.pbuffer) (w : Logger.writer_state)
      (pxs1 : List Logger.pbuffer) (w1 : Logger.writer_state) (g : Bool),
      Logger.scheduled_since cfg w0 added w →
      Logger.schedule_pxs cfg ex k pxs w = some (pxs1, w1, g) →
      ∃ more, Logger.scheduled_since cfg w0 (added ++ more) w1 ∧
        ∀ b ∈ more, b.thread_id_ = k := by
  induction pxs with
  | nil =>
    intro added w pxs1 w1 g h he
    simp only [Logger.schedule_pxs, Option.some.injEq, Prod.mk.injEq] at he
    obtain ⟨_, rfl, _⟩ := he
    exact ⟨[], by rw [List.append_nil]; exact h, fun b hb => (by cases hb)⟩
  | cons px rest ih =>
    intro added w pxs1 w1 g h he
    unfold Logger.schedule_pxs at he
    split_ifs at he with c1 c2 c3 c4 c5 c6
    · simp only [Option.some.injEq, Prod.mk.injEq] at he
      obtain ⟨_, rfl, _⟩ := he
      exact ⟨[], by rw [List.append_nil]; exact h, fun b hb => (by cases hb)⟩
    · simp only [Option.some.injEq, Prod.mk.injEq] at he
      obtain ⟨_, rfl, _⟩ := he
      exact ⟨[], by rw [List.append_nil]; exact h, fun b hb => (by cases hb)⟩
    · split at he
      · cases he
      · rename_i rest1 w2 g2 hrec
        simp only [Option.some.injEq, Prod.mk.injEq] at he
        obtain ⟨_, rfl, _⟩ := he
        have hk : px.thread_id_ = k := not_not.mp c4
        have hpush : Logger.scheduled_since cfg w0 (added ++ [px])
            (Logger.schedule_one cfg k px w) :=
          Logger.scheduled_since.push cfg w0 w added h px _ rfl rfl rfl (by rw [hk]; rfl) rfl
        obtain ⟨more, hm, hall⟩ := ih _ _ _ _ _ hpush hrec
        refine ⟨px :: more, ?_, ?_⟩
        · rw [List.append_assoc] at hm; exact hm
        · intro b hb
          rcases List.mem_cons.mp hb with hb | hb
          · rw [hb]; exact hk
          · exact hall b hb

/-- The scheduling loop over the threads of one worker id. -/
theorem Logger.schedule_threads_since (cfg : Logger.Config) (ex : Nat)
    (w0 : Logger.writer_state) (T : List Nat) (ks : List Nat) :
    ∀ (added : List Logger.pbuffer) (s : Logger.State) (w : Logger.writer_state)
      (s1 : Logger.State) (w1 : Logger.writer_state),
      (∀ k ∈ ks, k ∈ T) →
      Logger.scheduled_since cfg w0 added w →
      Logger.schedule_threads cfg ex ks s w = some (s1, w1) →
      (∃ more, Logger.scheduled_since cfg w0 (added ++ more) w1 ∧
        ∀ b ∈ more, b.thread_id_ ∈ T) ∧
      s1.per_thread_sync_epochs_ = s.per_thread_sync_epochs_ ∧
      s1.system_sync_epoch_ = s.system_sync_epoch_ := by
  induction ks with
  | nil =>
    intro added s w s1 w1 _ h he
    simp only [Logger.schedule_threads, Option.some.injEq, Prod.mk.injEq] at he
    obtain ⟨rfl, rfl⟩ := he
    exact ⟨⟨[], by rw [List.append_nil]; exact h, fun b hb => (by cases hb)⟩, rfl, rfl⟩
  | cons k rest ih =>
    intro added s w s1 w1 hT h he
    unfold Logger.schedule_threads at he
    simp only [] at he
    split at he
    · cases he
    · rename_i pxs w2 g hsched
      obtain ⟨m1, hm1, hall1⟩ := Logger.schedule_pxs_since cfg ex k w0 _ _ _ _ _ _ h hsched
      have hall1T : ∀ b ∈ m1, b.thread_id_ ∈ T := by
        intro b hb
        rw [hall1 b hb]
        exact hT k (List.mem_cons_self _ _)
      split_ifs at he
      · simp only [Option.some.injEq, Prod.mk.injEq] at he
        obtain ⟨rfl, rfl⟩ := he
        exact ⟨⟨m1, hm1, hall1T⟩, rfl, rfl⟩
      · obtain ⟨⟨m2, hm2, hall2⟩, e1, e2⟩ :=
          ih _ _ _ _ _ (fun k2 hk2 => hT k2 (List.mem_cons_of_mem _ hk2)) hm1 he
        refine ⟨⟨m1 ++ m2, ?_, ?_⟩, e1, e2⟩
        · rw [← List.append_assoc]; exact hm2
        · intro b hb
          rcases List.mem_append.mp hb with hb | hb
          · exact hall1T b hb
          · exact hall2 b hb

theorem Logger.return_threads_frame (ks : List Nat) :
    ∀ (s s1 : Logger.State), Logger.return_threads ks s = some s1 →
      s1.per_thread_sync_epochs_ = s.per_thread_sync_epochs_ ∧
      s1.system_sync_epoch_ = s.system_sync_epoch_ := by
  induction ks with
  | nil =>
    intro s s1 he
    simp only [Logger.return_threads, Option.some.injEq] at he
    subst he
    exact ⟨rfl, rfl⟩
  | cons k rest ih =>
    intro s s1 he
    unfold Logger.return_threads at he
    simp only [] at he
    split at he
    · cases he
    · obtain ⟨a, b⟩ := ih _ _ he
      exact ⟨a, b⟩

/-- The block at `process:` writes what is scheduled and schedules nothing. -/
theorem Logger.process_since (cfg : Logger.Config) (idx : Nat) (w0 : Logger.writer_state)
    (added : List Logger.pbuffer) (s : Logger.State) (w : Logger.writer_state)
    (s1 : Logger.State) (w1 : Logger.writer_state)
    (h : Logger.scheduled_since cfg w0 added w)
    (he : Logger.process cfg idx s w = some (s1, w1)) :
    Logger.scheduled_since cfg w0 added w1 ∧
    s1.per_thread_sync_epochs_ = s.per_thread_sync_epochs_ ∧
    s1.system_sync_epoch_ = s.system_sync_epoch_ ∧
    (cfg.g_fake_writes = false → w1.nbufswritten = 0) := by
  unfold Logger.process at he
  split_ifs at he with c
  · simp only [] at he
    split at he
    · cases he
    · rename_i s2 hret
      simp only [Option.some.injEq, Prod.mk.injEq] at he
      obtain ⟨rfl, rfl⟩ := he
      obtain ⟨a, b⟩ := Logger.return_threads_frame _ _ _ hret
      refine ⟨⟨Nat.zero_le _, ?_, h.prefixes, h.total⟩, a, b, fun _ => rfl⟩
      have := h.trace
      unfold Logger.writer_state.trace at this ⊢
      simp only [List.take_zero, List.append_nil]
      exact this
  · simp only [Option.some.injEq, Prod.mk.injEq] at he
    obtain ⟨rfl, rfl⟩ := he
    refine ⟨h, rfl, rfl, ?_⟩
    intro hf
    rw [hf] at c
    simp only [Bool.not_false, Bool.true_and, decide_eq_true_eq] at c
    omega

/-- The scheduling phase of one iteration. -/
theorem Logger.writer_assignment_since (cfg : Logger.Config) (ex : Nat)
    (w0 : Logger.writer_state) (T : List Nat) (A : List Nat) :
    ∀ (added : List Logger.pbuffer) (s : Logger.State) (w : Logger.writer_state)
      (s1 : Logger.State) (w1 : Logger.writer_state),
      (∀ idx ∈ A, ∀ k ∈ Logger.thread_ids cfg idx, k ∈ T) →
      Logger.scheduled_since cfg w0 added w →
      (cfg.g_fake_writes = false → w.nbufswritten = 0) →
      Logger.writer_assignment cfg ex A s w = some (s1, w1) →
      (∃ more, Logger.scheduled_since cfg w0 (added ++ more) w1 ∧
        ∀ b ∈ more, b.thread_id_ ∈ T) ∧
      s1.per_thread_sync_epochs_ = s.per_thread_sync_epochs_ ∧
      s1.system_sync_epoch_ = s.system_sync_epoch_ ∧
      (cfg.g_fake_writes = false → w1.nbufswritten = 0) := by
  induction A with
  | nil =>
    intro added s w s1 w1 _ h hz he
    simp only [Logger.writer_assignment, Option.some.injEq, Prod.mk.injEq] at he
    obtain ⟨rfl, rfl⟩ := he
    exact ⟨⟨[], by rw [List.append_nil]; exact h, fun b hb => (by cases hb)⟩, rfl, rfl, hz⟩
  | cons idx rest ih =>
    intro added s w s1 w1 hT h _ he
    unfold Logger.writer_assignment at he
    split_ifs at he
    · split at he
      · cases he
      · rename_i s2 w2 hsched
        obtain ⟨⟨m1, hm1, hall1⟩, a1, b1⟩ := Logger.schedule_threads_since cfg ex w0 T _ _ _ _ _ _
          (hT idx (List.mem_cons_self _ _)) h hsched
        split at he
        · cases he
        · rename_i s3 w3 hproc
          obtain ⟨hm3, a3, b3, z3⟩ := Logger.process_since cfg idx w0 _ _ _ _ _ hm1 hproc
          obtain ⟨⟨m2, hm2, hall2⟩, a2, b2, z2⟩ := ih _ _ _ _ _
            (fun i2 hi2 => hT i2 (List.mem_cons_of_mem _ hi2)) hm3 z3 he
          refine ⟨⟨m1 ++ m2, ?_, ?_⟩, a2.trans (a3.trans a1), b2.trans (b3.trans b1), z2⟩
          · rw [← List.append_assoc]; exact hm2
          · intro b hb
            rcases List.mem_append.mp hb with hb | hb
            · exact hall1 b hb
            · exact hall2 b hb

theorem Logger.writer_store_get (id k0 x1 : Nat) (s : Logger.State) (i k : Nat) :
    (Logger.writer_store id k0 (Logger.writer_load id k0 s) x1 s).per_thread_sync_epochs_ i k
      = if i = id ∧ k = k0 then max (s.per_thread_sync_epochs_ i k) x1
        else s.per_thread_sync_epochs_ i k := by
  unfold Logger.writer_store Logger.writer_load
  by_cases hx : x1 > s.per_thread_sync_epochs_ id k0
  · rw [if_pos hx, Logger.set_epoch_get]
    by_cases hik : i = id ∧ k = k0
    · rw [if_pos hik, if_pos hik, hik.1, hik.2, Nat.max_eq_right (le_of_lt hx)]
    · rw [if_neg hik, if_neg hik]
  · rw [if_neg hx]
    by_cases hik : i = id ∧ k = k0
    · rw [if_pos hik, hik.1, hik.2, Nat.max_eq_left (not_lt.mp hx)]
    · rw [if_neg hik]

theorem Logger.writer_store_sys (id k0 x0 x1 : Nat) (s : Logger.State) :
    (Logger.writer_store id k0 x0 x1 s).system_sync_epoch_ = s.system_sync_epoch_ := by
  unfold Logger.writer_store
  split <;> rfl

theorem Logger.publish_fold_get (id : Nat) (p : Nat → Nat) (ks : List Nat) :
    ∀ (s : Logger.State) (i k : Nat),
      (ks.foldl (fun s k => Logger.writer_store id k (Logger.writer_load id k s) (p k) s)
          s).per_thread_sync_epochs_ i k
        = if i = id ∧ k ∈ ks then max (s.per_thread_sync_epochs_ i k) (p k)
          else s.per_thread_sync_epochs_ i k := by
  induction ks with
  | nil => intro s i k; simp
  | cons k0 rest ih =>
    intro s i k
    rw [List.foldl_cons, ih, Logger.writer_store_get]
    by_cases hi : i = id
    · by_cases hk : k = k0
      · subst hk
        simp only [hi, true_and, and_self, if_true, List.mem_cons, true_or]
        split
        · rw [Nat.max_assoc, Nat.max_self]
        · rfl
      · simp only [hi, hk, true_and, and_false, if_false, List.mem_cons, false_or]
    · simp only [hi, false_and, if_false]

theorem Logger.publish_fold_sys (id : Nat) (p : Nat → Nat) (ks : List Nat) :
    ∀ (s : Logger.State),
      (ks.foldl (fun s k => Logger.writer_store id k (Logger.writer_load id k s) (p k) s)
          s).system_sync_epoch_ = s.system_sync_epoch_ := by
  induction ks with
  | nil => intro s; rfl
  | cons k0 rest ih =>
    intro s
    rw [List.foldl_cons, ih, Logger.writer_store_sys]

/-- The publication loops leave in every entry of the writer's threads the larger of the
entry and the recorded value. -/
theorem Logger.publish_get (cfg : Logger.Config) (id : Nat) (A : List Nat)
    (w : Logger.writer_state) (s : Logger.State) (i k : Nat) :
    (Logger.publish cfg id A w s).per_thread_sync_epochs_ i k
      = if i = id ∧ k ∈ A.flatMap (Logger.thread_ids cfg)
        then max (s.per_thread_sync_epochs_ i k) (w.epoch_prefixes k)
        else s.per_thread_sync_epochs_ i k :=
  Logger.publish_fold_get id w.epoch_prefixes _ s i k

theorem Logger.recorded_last (cfg : Logger.Config) (p0 : Nat → Nat)
    (added : List Logger.pbuffer) (k : Nat) :
    (∀ px, (added.filter (fun b => decide (b.thread_id_ = k))).getLast? = some px →
      added.foldl (fun p px => Function.update p px.thread_id_ (Logger.recorded_epoch cfg px))
        p0 k = Logger.recorded_epoch cfg px) ∧
    ((∀ b ∈ added, b.thread_id_ ≠ k) →
      added.foldl (fun p px => Function.update p px.thread_id_ (Logger.recorded_epoch cfg px))
        p0 k = p0 k) := by
  induction added using List.reverseRecOn with
  | nil =>
    constructor
    · intro px h; simp at h
    · intro _; rfl
  | append_singleton l b ih =>
    rw [List.foldl_append]
    simp only [List.foldl_cons, List.foldl_nil]
    by_cases hb : b.thread_id_ = k
    · constructor
      · intro px h
        rw [List.filter_append] at h
        simp only [List.filter_cons, hb, decide_True, if_true, List.filter_nil,
          List.getLast?_append, List.getLast?_singleton] at h
        have h : b = px := by simpa [Option.or] using h
        subst h
        rw [← hb, Function.update_same]
      · intro h
        exact absurd hb (h b (List.mem_append_right _ (List.mem_singleton_self _)))
    · rw [Function.update_noteq (Ne.symm hb)]
      constructor
      · intro px h
        rw [List.filter_append] at h
        simp only [List.filter_cons, hb, decide_False, List.filter_nil,
          List.append_nil] at h
        exact ih.1 px (by simpa using h)
      · intro h
        exact ih.2 (fun c hc => h c (List.mem_append_left _ hc))

theorem Logger.writer_rotate_prefixes (w : Logger.writer_state) :
    (Logger.writer_rotate w).epoch_prefixes = w.epoch_prefixes := by
  unfold Logger.writer_rotate
  split_ifs <;> rfl

/-! ## The logger: sequences of atomic steps -/

/-- One step of the persister over a partition of the worker ids: what it publishes, and
when it passes its assertions. -/
theorem Logger.advance_min (cfg : Logger.Config) (A : List (List Nat))
    (s : Logger.State) (hg : 0 < cfg.g_nworkers) (hn : A.flatten.Nodup)
    (hb : ∀ j ∈ A.flatten, j < cfg.g_nworkers) :
    (∀ s1, Logger.advance_system_sync_epoch cfg A s = some s1 →
      (∀ p ∈ Logger.visited cfg A,
        s1.system_sync_epoch_ ≤ s1.per_thread_sync_epochs_ p.1 p.2) ∧
      (∃ p ∈ Logger.visited cfg A,
        s1.system_sync_epoch_ = s1.per_thread_sync_epochs_ p.1 p.2) ∧
      s.system_sync_epoch_ ≤ s1.system_sync_epoch_ ∧
      s1.pepoch = (if s.system_sync_epoch_ < s1.system_sync_epoch_
        then s1.system_sync_epoch_ :: s.pepoch else s.pepoch)) ∧
    (Logger.visited cfg A ≠ [] →
      (∀ p ∈ Logger.visited cfg A,
        s.system_sync_epoch_ ≤ s.per_thread_sync_epochs_ p.1 p.2 ∧
        s.per_thread_sync_epochs_ p.1 p.2 < Logger.uint64_max) →
      s.system_sync_epoch_ ≤ Logger.best_epoch s.global_epoch →
      Logger.best_epoch s.global_epoch < Logger.uint64_max →
      ∃ s1, Logger.advance_system_sync_epoch cfg A s = some s1) := by
  have hnd := Logger.visited_threads_nodup cfg A hg hn hb
  have hmin := Logger.visits_min (Logger.best_epoch s.global_epoch) (Logger.visited cfg A)
    Logger.uint64_max s (Logger.nodup_of_map_snd _ hnd)
  have hfr := Logger.visits_frame (Logger.best_epoch s.global_epoch) (Logger.visited cfg A)
    Logger.uint64_max s
  have hent := Logger.visits_entry (Logger.best_epoch s.global_epoch) (Logger.visited cfg A)
    Logger.uint64_max s hnd
  have hloops : Logger.advance_loops cfg A s
      = (Logger.visited cfg A).foldl
          (fun acc p => Logger.visit (Logger.best_epoch s.global_epoch) p.1 p.2 acc)
          (Logger.uint64_max, s) := rfl
  rw [← hloops] at hmin hfr hent
  constructor
  · intro s1 h1
    unfold Logger.advance_system_sync_epoch at h1
    simp only [] at h1
    rw [hfr.1] at h1
    by_cases ha : (Logger.advance_loops cfg A s).1 < Logger.uint64_max
    · by_cases hb2 : s.system_sync_epoch_ ≤ (Logger.advance_loops cfg A s).1
      · rw [if_neg (not_not.mpr ha), if_neg (not_not.mpr hb2)] at h1
        have hne : (Logger.advance_loops cfg A s).1 ≠ Logger.uint64_max := Nat.ne_of_lt ha
        obtain ⟨_, hle, hex⟩ := hmin
        rcases hex with hex | hex
        · exact absurd hex hne
        · by_cases hlt : s.system_sync_epoch_ < (Logger.advance_loops cfg A s).1
          · rw [if_pos hlt] at h1
            cases h1
            refine ⟨hle, hex, hb2, ?_⟩
            show _ = if s.system_sync_epoch_ < (Logger.advance_loops cfg A s).1 then _ else _
            rw [if_pos hlt, hfr.2.2]
          · rw [if_neg hlt] at h1
            cases h1
            refine ⟨hle, hex, hb2, ?_⟩
            show _ = if s.system_sync_epoch_ < (Logger.advance_loops cfg A s).1 then _ else _
            rw [if_neg hlt, hfr.2.2]
      · rw [if_neg (not_not.mpr ha), if_pos hb2] at h1
        cases h1
    · rw [if_pos ha] at h1
      cases h1
  · intro hne hrange hbest hbm
    have hval : ∀ p ∈ Logger.visited cfg A,
        s.system_sync_epoch_ ≤ (Logger.advance_loops cfg A s).2.per_thread_sync_epochs_ p.1 p.2 ∧
        (Logger.advance_loops cfg A s).2.per_thread_sync_epochs_ p.1 p.2 < Logger.uint64_max := by
      intro p hp
      rw [(hent p.1 p.2 hp).1]
      split
      · exact ⟨hbest, hbm⟩
      · exact hrange p hp
    obtain ⟨p0, hp0⟩ := List.exists_mem_of_ne_nil _ hne
    obtain ⟨_, hle, hex⟩ := hmin
    have ha : (Logger.advance_loops cfg A s).1 < Logger.uint64_max :=
      lt_of_le_of_lt (hle p0 hp0) (hval p0 hp0).2
    have hb2 : s.system_sync_epoch_ ≤ (Logger.advance_loops cfg A s).1 := by
      rcases hex with hex | ⟨p, hp, hex⟩
      · rw [hex]; exact le_trans hbest (le_of_lt hbm)
      · rw [hex]; exact (hval p hp).1
    unfold Logger.advance_system_sync_epoch
    simp only []
    rw [hfr.1, if_neg (not_not.mpr ha), if_neg (not_not.mpr hb2)]
    exact ⟨_, rfl⟩


theorem Logger.best_epoch_mono (g1 g2 : Nat) (h : g1 ≤ g2) :
    Logger.best_epoch g1 ≤ Logger.best_epoch g2 := by
  unfold Logger.best_epoch
  split <;> split <;> omega

theorem Logger.best_epoch_lt (g : Nat) (h : g ≤ Logger.uint64_max) :
    Logger.best_epoch g < Logger.uint64_max := by
  unfold Logger.best_epoch Logger.uint64_max at *
  split <;> omega

/-- A step of the persister from a consistent state passes its assertions, does not lower
`system_sync_epoch_`, and leaves a consistent state. -/
theorem Logger.consistent.persist (cfg : Logger.Config) (A : List (List Nat))
    (s : Logger.State) (hg : 0 < cfg.g_nworkers) (hn : A.flatten.Nodup)
    (hb : ∀ j ∈ A.flatten, j < cfg.g_nworkers) (hv : Logger.visited cfg A ≠ [])
    (h : Logger.consistent cfg A s) :
    ∃ s1, Logger.advance_system_sync_epoch cfg A s = some s1 ∧
      s.system_sync_epoch_ ≤ s1.system_sync_epoch_ ∧ Logger.consistent cfg A s1 := by
  have hmin := Logger.advance_min cfg A s hg hn hb
  have hbl := Logger.best_epoch_lt _ h.epoch_bound
  obtain ⟨s1, he⟩ := hmin.2 hv
    (fun p hp => ⟨h.sys_le p hp, lt_of_le_of_lt (h.entries p.1 p.2) hbl⟩) h.sys_best hbl
  obtain ⟨hle, ⟨p0, hp0, hex⟩, hmono, _⟩ := hmin.1 s1 he
  have hnd := Logger.visited_threads_nodup cfg A hg hn hb
  have hE : s1.per_thread_sync_epochs_
      = (Logger.advance_loops cfg A s).2.per_thread_sync_epochs_ := by
    unfold Logger.advance_system_sync_epoch at he
    simp only [] at he
    split_ifs at he <;> cases he <;> rfl
  have hG : s1.global_epoch = s.global_epoch := by
    have hfr := (Logger.visits_frame (Logger.best_epoch s.global_epoch) (Logger.visited cfg A)
      Logger.uint64_max s).2.1
    unfold Logger.advance_system_sync_epoch at he
    simp only [] at he
    split_ifs at he <;> cases he <;> exact hfr
  have hent : ∀ i k, s1.per_thread_sync_epochs_ i k ≤ Logger.best_epoch s.global_epoch := by
    intro i k
    rw [hE]
    by_cases hm : (i, k) ∈ Logger.visited cfg A
    · have := (Logger.visits_entry (Logger.best_epoch s.global_epoch) (Logger.visited cfg A)
        Logger.uint64_max s hnd i k hm).1
      show (Logger.advance_loops cfg A s).2.per_thread_sync_epochs_ i k ≤ _
      unfold Logger.advance_loops
      simp only []
      rw [this]
      split
      · exact le_refl _
      · exact h.entries i k
    · have := Logger.visits_epoch_other (Logger.best_epoch s.global_epoch)
        (Logger.visited cfg A) Logger.uint64_max s i k hm
      show (Logger.advance_loops cfg A s).2.per_thread_sync_epochs_ i k ≤ _
      unfold Logger.advance_loops
      simp only []
      rw [this]
      exact h.entries i k
  refine ⟨s1, he, hmono, ⟨?_, ?_, hle, ?_⟩⟩
  · rw [hG]; exact h.epoch_bound
  · intro i k; rw [hG]; exact hent i k
  · rw [hG, hex]; exact hent p0.1 p0.2

/-- An atomic publication of a value that is not ahead of the global epoch keeps the state
consistent. -/
theorem Logger.consistent.publish (cfg : Logger.Config) (A : List (List Nat))
    (s : Logger.State) (id k x1 : Nat) (hx : x1 + 1 ≤ s.global_epoch)
    (h : Logger.consistent cfg A s) :
    Logger.consistent cfg A (Logger.writer_store id k (Logger.writer_load id k s) x1 s) ∧
    (Logger.writer_store id k (Logger.writer_load id k s) x1 s).system_sync_epoch_
      = s.system_sync_epoch_ := by
  have hsys := Logger.writer_store_sys id k (Logger.writer_load id k s) x1 s
  have hG : (Logger.writer_store id k (Logger.writer_load id k s) x1 s).global_epoch
      = s.global_epoch := by
    unfold Logger.writer_store
    split <;> rfl
  have hx1 : x1 ≤ Logger.best_epoch s.global_epoch := by
    unfold Logger.best_epoch
    split <;> omega
  refine ⟨⟨?_, ?_, ?_, ?_⟩, hsys⟩
  · rw [hG]; exact h.epoch_bound
  · intro i k2
    rw [hG, Logger.writer_store_get]
    split
    · exact Nat.max_le.mpr ⟨h.entries i k2, hx1⟩
    · exact h.entries i k2
  · intro p hp
    rw [hsys, Logger.writer_store_get]
    split
    · exact le_trans (h.sys_le p hp) (Nat.le_max_left _ _)
    · exact h.sys_le p hp
  · rw [hsys, hG]; exact h.sys_best

/-- With every publication atomic, the global epoch growing and no published value ahead
of it, no step of the persister stops at an assertion and `system_sync_epoch_` never
decreases. -/
theorem Logger.atomic_runs_monotone (cfg : Logger.Config) (A : List (List Nat))
    (hg : 0 < cfg.g_nworkers) (hn : A.flatten.Nodup)
    (hb : ∀ j ∈ A.flatten, j < cfg.g_nworkers) (hv : Logger.visited cfg A ≠ [])
    (es : List Logger.Event) :
    ∀ s, Logger.consistent cfg A s → Logger.admissible cfg A es s →
      ∃ s1, Logger.run cfg A es s = some s1 ∧
        s.system_sync_epoch_ ≤ s1.system_sync_epoch_ ∧ Logger.consistent cfg A s1 := by
  induction es with
  | nil => intro s h _; exact ⟨s, rfl, le_refl _, h⟩
  | cons e rest ih =>
    intro s h ha
    obtain ⟨hal, hrest⟩ := ha
    have key : ∃ s1, Logger.fire cfg A e s = some s1 ∧
        s.system_sync_epoch_ ≤ s1.system_sync_epoch_ ∧ Logger.consistent cfg A s1 := by
      cases e with
      | tick g =>
        refine ⟨_, rfl, le_refl _, ⟨hal.2, ?_, h.sys_le, ?_⟩⟩
        · intro i k
          exact le_trans (h.entries i k) (Logger.best_epoch_mono _ _ hal.1)
        · exact le_trans h.sys_best (Logger.best_epoch_mono _ _ hal.1)
      | work f =>
        exact ⟨_, rfl, le_refl _, ⟨h.epoch_bound, h.entries, h.sys_le, h.sys_best⟩⟩
      | persist => exact Logger.consistent.persist cfg A s hg hn hb hv h
      | publish id k x1 =>
        obtain ⟨hc, hs⟩ := Logger.consistent.publish cfg A s id k x1 hal h
        exact ⟨_, rfl, le_of_eq hs.symm, hc⟩
    obtain ⟨s1, hf, hle, hc⟩ := key
    obtain ⟨s2, hr, hle2, hc2⟩ := ih s1 hc (hrest s1 hf)
    refine ⟨s2, ?_, le_trans hle hle2, hc2⟩
    show (match Logger.fire cfg A e s with
      | none => none
      | some s1 => Logger.run cfg A rest s1) = some s2
    rw [hf]
    exact hr

theorem Logger.start_state_consistent (cfg : Logger.Config) (A : List (List Nat))
    (nbuf g : Nat) (h : g ≤ Logger.uint64_max) :
    Logger.consistent cfg A (Logger.start_state nbuf g) :=
  ⟨h, fun _ _ => Nat.zero_le _, fun _ _ => Nat.zero_le _, Nat.zero_le _⟩

/-! ## The bookkeeping of a transaction running alone -/

theorem sum_map_change (l : List Nat) (w w2 : Nat → Int) (x : Nat) (hn : l.Nodup) (hx : x ∈ l)
    (hw : ∀ m ∈ l, m ≠ x → w2 m = w m) :
    (l.map w2).sum = (l.map w).sum + (w2 x - w x) := by
  induction l with
  | nil => cases hx
  | cons a l ih =>
    rw [List.nodup_cons] at hn
    simp only [List.map_cons, List.sum_cons]
    rcases List.mem_cons.mp hx with he | hm
    · subst he
      have e : l.map w2 = l.map w := by
        apply List.map_congr_left
        intro m hm
        exact hw m (List.mem_cons_of_mem _ hm) (fun e => hn.1 (e ▸ hm))
      rw [e]; ring
    · have hax : a ≠ x := fun e => hn.1 (e ▸ hm)
      rw [ih hn.2 hm (fun m hm2 hne => hw m (List.mem_cons_of_mem _ hm2) hne),
        hw a (List.mem_cons_self _ _) hax]
      ring

theorem RBTree.wf.nodup {t : RBTree} (hwf : t.wf) : t.wrapper_tree_.toList.Nodup := by
  have h := hwf.sorted
  exact h.imp (fun hab e => by rw [e] at hab; exact lt_irrefl _ hab)

theorem RBTree.weight_congr (t0 : RBTree) (tx tx2 : Transaction) (m : Nat)
    (h : (tx2.items m).user1 = (tx.items m).user1) :
    RBTree.weight t0 tx2 m = RBTree.weight t0 tx m := by
  unfold RBTree.weight
  rw [h]

/-- A step that changes no tag, no node and no version keeps the books. -/
theorem RBTree.ledger.keep {t0 t : RBTree} {tx : Transaction} (h : RBTree.ledger t0 t tx)
    (t2 : RBTree) (tx2 : Transaction) (htd : tx2.tidy)
    (hoff : RBTree.size_offset tx2 = RBTree.size_offset tx)
    (hl : t2.wrapper_tree_ = t.wrapper_tree_) (hv : t2.version = t.version)
    (h0 : ∀ j, (tx2.items j).user0 = (tx.items j).user0)
    (h1 : ∀ j, (tx2.items j).user1 = (tx.items j).user1)
    (hw : ∀ j, (tx.items j).has_write = true → (tx2.items j).has_write = true) :
    RBTree.ledger t0 t2 tx2 := by
  refine ⟨htd, ?_, ?_, ?_⟩
  · intro j hj
    rw [h0] at hj
    rw [h1, hv]
    exact h.excl j hj
  · intro j hj
    rw [h1] at hj
    exact hw j (h.del_write j hj)
  · rw [hoff, hl, h.balance]
    congr 1
    apply List.map_congr_left
    intro m _
    exact (RBTree.weight_congr t0 tx tx2 m (h1 m)).symm

/-- A step that changes the tags of the one node `x` keeps the books when the size offset
moves by the change of the weight of `x`. -/
theorem RBTree.ledger.retag {t0 t : RBTree} {tx : Transaction} (h : RBTree.ledger t0 t tx)
    (hwf : t.wf) (x : Nat) (hx : x ∈ t.wrapper_tree_.toList)
    (t2 : RBTree) (tx2 : Transaction) (htd : tx2.tidy)
    (hl : t2.wrapper_tree_ = t.wrapper_tree_) (hv : t2.version = t.version)
    (h0 : ∀ j, j ≠ x → (tx2.items j).user0 = (tx.items j).user0)
    (h1 : ∀ j, j ≠ x → (tx2.items j).user1 = (tx.items j).user1)
    (hw : ∀ j, j ≠ x → (tx.items j).has_write = true → (tx2.items j).has_write = true)
    (hx0 : (tx2.items x).user0 = true →
      (tx2.items x).user1 = false ∧ RBTree.is_inserted (t.version x) = true)
    (hx1 : (tx2.items x).user1 = true → (tx2.items x).has_write = true)
    (hoff : RBTree.size_offset tx2
      = RBTree.size_offset tx + (RBTree.weight t0 tx2 x - RBTree.weight t0 tx x)) :
    RBTree.ledger t0 t2 tx2 := by
  refine ⟨htd, ?_, ?_, ?_⟩
  · intro j hj
    by_cases e : j = x
    · subst e; rw [hv]; exact hx0 hj
    · rw [h0 j e] at hj
      rw [h1 j e, hv]
      exact h.excl j hj
  · intro j hj
    by_cases e : j = x
    · subst e; exact hx1 hj
    · rw [h1 j e] at hj
      exact hw j e (h.del_write j hj)
  · rw [hoff, hl, h.balance]
    exact (sum_map_change _ _ _ x hwf.nodup hx
      (fun m _ hne => RBTree.weight_congr t0 tx tx2 m (h1 m hne))).symm

theorem Transaction.tags_kept.same (tx : Transaction) : tx.tags_kept tx :=
  fun _ => ⟨rfl, rfl, fun h => h⟩

theorem Transaction.tags_kept.then {tx tx1 tx2 : Transaction} (h1 : tx.tags_kept tx1)
    (h2 : tx1.tags_kept tx2) : tx.tags_kept tx2 := by
  intro j
  obtain ⟨a, b, c⟩ := h1 j
  obtain ⟨a2, b2, c2⟩ := h2 j
  exact ⟨a2.trans a, b2.trans b, fun h => c2 (c h)⟩

theorem Transaction.tags_kept.of_item (tx : Transaction) (k : Nat) : tx.tags_kept (tx.item k) := by
  intro j
  rw [Transaction.items_item]
  exact ⟨rfl, rfl, fun h => h⟩

theorem Transaction.tags_kept.of_modify (tx : Transaction) (k : Nat) (f : TransItem → TransItem)
    (h0 : (f (tx.items k)).user0 = (tx.items k).user0)
    (h1 : (f (tx.items k)).user1 = (tx.items k).user1)
    (hw : (tx.items k).has_write = true → (f (tx.items k)).has_write = true) :
    tx.tags_kept (tx.modify k f) := by
  intro j
  rw [Transaction.items_modify]
  split
  · rename_i e; subst e; exact ⟨h0, h1, hw⟩
  · exact ⟨rfl, rfl, fun h => h⟩

theorem Transaction.tags_kept.of_read (tx : Transaction) (k v : Nat) :
    tx.tags_kept (tx.modify k (fun it => it.add_read v)) :=
  Transaction.tags_kept.of_modify tx k _ (by simp) (by simp) (by simp)

theorem Transaction.tags_kept.of_write (tx : Transaction) (k : Nat) (v : Int) :
    tx.tags_kept (tx.modify k (fun it => it.add_write v)) :=
  Transaction.tags_kept.of_modify tx k _ (by simp) (by simp) (by simp)

theorem Transaction.tags_kept.of_track (t : RBTree) (tx : Transaction) (n : Nat) :
    tx.tags_kept (t.track_boundary tx n) := by
  unfold RBTree.track_boundary
  split
  · exact (Transaction.tags_kept.of_item tx _).then (Transaction.tags_kept.of_read _ _ _)
  · exact Transaction.tags_kept.same tx

theorem Transaction.tags_kept.of_offset (tx : Transaction) (d : Int) :
    tx.tags_kept (RBTree.change_size_offset tx d) := by
  rw [RBTree.change_size_offset_eq]
  exact (Transaction.tags_kept.of_item tx _).then (Transaction.tags_kept.of_write _ _ _)

/-- A step that keeps the tags, the nodes and the versions keeps the books. -/
theorem RBTree.ledger.kept {t0 t : RBTree} {tx : Transaction} (h : RBTree.ledger t0 t tx)
    (t2 : RBTree) (tx2 : Transaction) (htd : tx2.tidy)
    (hoff : RBTree.size_offset tx2 = RBTree.size_offset tx)
    (hl : t2.wrapper_tree_ = t.wrapper_tree_) (hv : t2.version = t.version)
    (hk : tx.tags_kept tx2) : RBTree.ledger t0 t2 tx2 :=
  h.keep t2 tx2 htd hoff hl hv (fun j => (hk j).1) (fun j => (hk j).2.1) (fun j => (hk j).2.2)

/-- The books through `count`. -/
theorem RBTree.ledger.through_count {t0 t : RBTree} {tx : Transaction} (h : RBTree.ledger t0 t tx)
    (hs : RBTree.solo t0 t tx) (k : Int) :
    RBTree.ledger t0 (t.count tx k).2.1 (t.count tx k).2.2 := by
  obtain ⟨r, hr, _⟩ := hs.count k
  obtain ⟨_, htd, hoff, _⟩ := RBTree.step_count t tx k hs.wf h.tidy (by rw [hr]; simp)
  refine h.kept _ _ htd hoff ?_ ?_ ?_
  · by_cases hf : (t.find_any k).found = true
    · by_cases hi : RBTree.is_inserted (t.version (t.find_any k).node) = true
      · obtain ⟨hm, _⟩ := RBTree.wf.found t hs.wf k hf
        rw [RBTree.count_own t tx k hf hi (hs.own _ hm hi).2.2]; rfl
      · rw [RBTree.count_committed t tx k hf (by simpa using hi)]; rfl
    · rw [RBTree.count_absent t tx k (by simpa using hf)]; rfl
  · by_cases hf : (t.find_any k).found = true
    · by_cases hi : RBTree.is_inserted (t.version (t.find_any k).node) = true
      · obtain ⟨hm, _⟩ := RBTree.wf.found t hs.wf k hf
        rw [RBTree.count_own t tx k hf hi (hs.own _ hm hi).2.2]; rfl
      · rw [RBTree.count_committed t tx k hf (by simpa using hi)]; rfl
    · rw [RBTree.count_absent t tx k (by simpa using hf)]; rfl
  · by_cases hf : (t.find_any k).found = true
    · by_cases hi : RBTree.is_inserted (t.version (t.find_any k).node) = true
      · obtain ⟨hm, _⟩ := RBTree.wf.found t hs.wf k hf
        rw [RBTree.count_own t tx k hf hi (hs.own _ hm hi).2.2]
        exact Transaction.tags_kept.of_item tx _
      · rw [RBTree.count_committed t tx k hf (by simpa using hi)]
        exact (Transaction.tags_kept.of_item tx _).then (Transaction.tags_kept.of_read _ _ _)
    · have hf2 : (t.find_any k).found = false := by simpa using hf
      rw [RBTree.count_absent t tx k hf2]
      have hfoa := RBTree.foa_absent_read t.lock_tree tx k (by simpa using hf2)
      simp only [RBTree.find_any_lock_tree, RBTree.treeversion_lock_tree,
        RBTree.track_boundary_lock_tree] at hfoa
      rw [hfoa]
      refine Transaction.tags_kept.then ?_ (Transaction.tags_kept.of_track _ _ _)
      refine Transaction.tags_kept.then ?_ (Transaction.tags_kept.of_track _ _ _)
      split
      · exact (Transaction.tags_kept.of_item tx _).then (Transaction.tags_kept.of_read _ _ _)
      · exact Transaction.tags_kept.same tx

/-- A step that rewrites the item of the node `x` and moves the size offset by the change
of the weight of `x` keeps the books. -/
theorem RBTree.ledger.retagged {t0 t : RBTree} {tx : Transaction} (h : RBTree.ledger t0 t tx)
    (hwf : t.wf) (x : Nat) (hx : x ∈ t.wrapper_tree_.toList) (t2 : RBTree)
    (hl : t2.wrapper_tree_ = t.wrapper_tree_) (hv : t2.version = t.version)
    (g : TransItem → TransItem) (d : Int)
    (hg0 : (g (tx.items x)).user0 = true →
      (g (tx.items x)).user1 = false ∧ RBTree.is_inserted (t.version x) = true)
    (hg1 : (g (tx.items x)).user1 = true → (g (tx.items x)).has_write = true)
    (hd : d = RBTree.weight t0 ((tx.item x).modify x g) x - RBTree.weight t0 tx x) :
    RBTree.ledger t0 t2 (RBTree.change_size_offset ((tx.item x).modify x g) d) := by
  have hx2 : x ≠ RBTree.size_key_ := (RBTree.wf.node hwf hx).2.2.2.2.1
  have hk := Transaction.tags_kept.of_offset ((tx.item x).modify x g) d
  have hitem : ((tx.item x).modify x g).items x = g (tx.items x) := by
    rw [Transaction.items_modify_same, Transaction.items_item]
  have hother : ∀ j, j ≠ x → ((tx.item x).modify x g).items j = tx.items j := by
    intro j hj
    rw [Transaction.items_modify_ne _ _ _ _ hj, Transaction.items_item]
  refine h.retag hwf x hx t2 _ ((h.tidy.touch x g).through_change_size_offset d) hl hv
    ?_ ?_ ?_ ?_ ?_ ?_
  · intro j hj; rw [(hk j).1, hother j hj]
  · intro j hj; rw [(hk j).2.1, hother j hj]
  · intro j hj hw
    apply (hk j).2.2
    rw [hother j hj]; exact hw
  · intro h0
    rw [(hk x).1, hitem] at h0
    rw [(hk x).2.1, hitem]
    exact hg0 h0
  · intro h1
    rw [(hk x).2.1, hitem] at h1
    apply (hk x).2.2
    rw [hitem]; exact hg1 h1
  · rw [RBTree.size_offset_change, RBTree.size_offset_modify _ _ _ hx2, RBTree.size_offset_item,
      RBTree.weight_congr t0 _ _ x (hk x).2.1, ← hd]

theorem RBTree.solo.not_inserted_lt {t0 t : RBTree} {tx : Transaction}
    (h : RBTree.solo t0 t tx) {e : Nat} (he : e ∈ t.wrapper_tree_.toList)
    (hi : RBTree.is_inserted (t.version e) = false) : e < t0.heap_top := by
  by_contra hge
  have := h.added e he (by omega)
  rw [hi] at this
  exact Bool.noConfusion this

/-- The books through `erase`. -/
theorem RBTree.ledger.through_erase {t0 t : RBTree} {tx : Transaction} (h : RBTree.ledger t0 t tx)
    (hs : RBTree.solo t0 t tx) (k : Int) :
    RBTree.ledger t0 (t.erase tx k).2.1 (t.erase tx k).2.2 := by
  obtain ⟨r, hr, _⟩ := hs.erase k
  obtain ⟨_, htd, hoff, _⟩ := RBTree.step_erase t tx k hs.wf h.tidy (by rw [hr]; simp)
  by_cases hf : (t.find_any k).found = true
  · obtain ⟨hm, _⟩ := RBTree.wf.found t hs.wf k hf
    by_cases hi : RBTree.is_inserted (t.version (t.find_any k).node) = true
    · have hge := hs.inserted_ge hm hi
      by_cases h0 : (tx.items (t.find_any k).node).user0 = true
      · have h1 := (h.excl _ h0).1
        rw [RBTree.erase_own_insert t tx k hf hi h0]
        refine h.retagged hs.wf _ hm t.lock_tree.unlock_tree rfl rfl _ _ ?_ ?_ ?_
        · intro hc; simp at hc
        · intro _; simp
        · simp [RBTree.weight, hge, h1]
      · have h0f : (tx.items (t.find_any k).node).user0 = false := by simpa using h0
        have h1 : (tx.items (t.find_any k).node).user1 = true := by
          rcases (hs.own _ hm hi).2.2 with c | c
          · exact absurd c h0
          · exact c
        rw [RBTree.erase_own_deleted t tx k hf hi h0f h1] at htd hoff ⊢
        simp only [show ((some 0 : Option Nat) = some 1) = False from by simp, if_false,
          add_zero] at hoff
        exact h.kept _ _ htd hoff rfl rfl (Transaction.tags_kept.of_item tx _)
    · have hi2 : RBTree.is_inserted (t.version (t.find_any k).node) = false := by
        simpa using hi
      have hlt := hs.not_inserted_lt hm hi2
      by_cases h1 : (tx.items (t.find_any k).node).user1 = true
      · rw [RBTree.erase_deleted t tx k hf hi2 h1] at htd hoff ⊢
        simp only [show ((some 0 : Option Nat) = some 1) = False from by simp, if_false,
          add_zero] at hoff
        exact h.kept _ _ htd hoff rfl rfl
          ((Transaction.tags_kept.of_item tx _).then (Transaction.tags_kept.of_read _ _ _))
      · have h1f : (tx.items (t.find_any k).node).user1 = false := by simpa using h1
        have h0f : (tx.items (t.find_any k).node).user0 = false := by
          by_contra hc
          have := (h.excl _ (by simpa using hc)).2
          rw [hi2] at this
          exact Bool.noConfusion this
        rw [RBTree.erase_committed t tx k hf hi2 h1f, Transaction.modify_modify]
        refine h.retagged hs.wf _ hm t.lock_tree.unlock_tree rfl rfl _ _ ?_ ?_ ?_
        · intro hc; simp [h0f] at hc
        · intro _; simp
        · simp [RBTree.weight, Nat.not_le.mpr hlt, h1f]
  · have hf2 : (t.find_any k).found = false := by simpa using hf
    rw [RBTree.erase_absent t tx k hf2] at htd hoff ⊢
    simp only [show ((some 0 : Option Nat) = some 1) = False from by simp, if_false,
      add_zero] at hoff
    refine h.kept _ _ htd hoff rfl rfl ?_
    have hfoa := RBTree.foa_absent_read t.lock_tree tx k (by simpa using hf2)
    simp only [RBTree.find_any_lock_tree, RBTree.treeversion_lock_tree,
      RBTree.track_boundary_lock_tree] at hfoa
    rw [hfoa]
    refine Transaction.tags_kept.then ?_ (Transaction.tags_kept.of_track _ _ _)
    refine Transaction.tags_kept.then ?_ (Transaction.tags_kept.of_track _ _ _)
    split
    · exact (Transaction.tags_kept.of_item tx _).then (Transaction.tags_kept.of_read _ _ _)
    · exact Transaction.tags_kept.same tx

/-- The tags after `insert_absent`: only the item of the fresh node changes. -/
theorem RBTree.insert_absent_tags (t : RBTree) (tx : Transaction) (p : Nat) (k : Int) :
    (∀ j, j ≠ t.heap_top →
      ((t.insert_absent tx p k).2.2.items j).user0 = (tx.items j).user0 ∧
      ((t.insert_absent tx p k).2.2.items j).user1 = (tx.items j).user1 ∧
      ((tx.items j).has_write = true → ((t.insert_absent tx p k).2.2.items j).has_write = true)) ∧
    (t.heap_top ≠ RBTree.size_key_ →
      ((t.insert_absent tx p k).2.2.items t.heap_top).user0 = true ∧
      ((t.insert_absent tx p k).2.2.items t.heap_top).user1 = (tx.items t.heap_top).user1 ∧
      ((t.insert_absent tx p k).2.2.items t.heap_top).has_write = true) := by
  rw [RBTree.insert_absent_tx]
  have hq : tx.tags_kept (if p = 0 then (tx.item RBTree.tree_key_).modify RBTree.tree_key_
              (fun it => it.add_write 0)
           else (tx.item (p ||| 1)).modify (p ||| 1)
              (fun it => it.update_read (Function.update t.nodeversion t.heap_top 0 p)
                ((Function.update t.nodeversion t.heap_top 0 p + 8) % 2 ^ 64))) := by
    split
    · exact (Transaction.tags_kept.of_item tx _).then (Transaction.tags_kept.of_write _ _ _)
    · exact (Transaction.tags_kept.of_item tx _).then
        (Transaction.tags_kept.of_modify _ _ _ (by simp) (by simp)
          (by unfold TransItem.update_read; split <;> simp))
  generalize (if p = 0 then (tx.item RBTree.tree_key_).modify RBTree.tree_key_
              (fun it => it.add_write 0)
           else (tx.item (p ||| 1)).modify (p ||| 1)
              (fun it => it.update_read (Function.update t.nodeversion t.heap_top 0 p)
                ((Function.update t.nodeversion t.heap_top 0 p + 8) % 2 ^ 64))) = txq at hq
  have hk := Transaction.tags_kept.of_offset
    ((txq.item t.heap_top).modify t.heap_top
      (fun it => (it.add_write 0).add_flags RBTree.insert_tag)) 1
  constructor
  · intro j hj
    have e : ((txq.item t.heap_top).modify t.heap_top
        (fun it => (it.add_write 0).add_flags RBTree.insert_tag)).items j = txq.items j := by
      rw [Transaction.items_modify_ne _ _ _ _ hj, Transaction.items_item]
    obtain ⟨a, b, c⟩ := hk j
    obtain ⟨a2, b2, c2⟩ := hq j
    rw [e] at a b c
    exact ⟨a.trans a2, b.trans b2, fun h => c (c2 h)⟩
  · intro hn
    have e : ((txq.item t.heap_top).modify t.heap_top
        (fun it => (it.add_write 0).add_flags RBTree.insert_tag)).items t.heap_top
        = ((txq.items t.heap_top).add_write 0).add_flags RBTree.insert_tag := by
      rw [Transaction.items_modify_same, Transaction.items_item]
    obtain ⟨a, b, c⟩ := hk t.heap_top
    rw [e] at a b c
    refine ⟨by rw [a]; simp, ?_, c (by simp)⟩
    rw [b]
    simp only [TransItem.add_insert_tag, TransItem.add_write_user1]
    exact (hq t.heap_top).2.1

/-- The books through `insert`, the call behind `operator[]`. -/
theorem RBTree.ledger.through_insert {t0 t : RBTree} {tx : Transaction} (h : RBTree.ledger t0 t tx)
    (hs : RBTree.solo t0 t tx) (k : Int) :
    RBTree.ledger t0 (t.insert tx k).2.1 (t.insert tx k).2.2 := by
  obtain ⟨n0, hr, _⟩ := hs.insert k
  obtain ⟨_, _, _, _, htd, hoff, _⟩ :=
    RBTree.step_insert t tx k hs.wf h.tidy (by rw [hr]; simp)
  by_cases hf : (t.find_any k).found = true
  · obtain ⟨hm, _⟩ := RBTree.wf.found t hs.wf k hf
    by_cases h1 : (tx.items (t.find_any k).node).user1 = true
    · have h0f : (tx.items (t.find_any k).node).user0 = false := by
        by_contra hc
        have := (h.excl _ (by simpa using hc)).1
        rw [h1] at this
        exact Bool.noConfusion this
      by_cases hi : RBTree.is_inserted (t.version (t.find_any k).node) = true
      · have hge := hs.inserted_ge hm hi
        rw [RBTree.insert_found_own_deleted t tx k hf hi h1, Transaction.modify_modify,
          Transaction.modify_modify]
        refine h.retagged hs.wf _ hm (t.lock_tree.set_value (t.find_any k).node 0).unlock_tree
          rfl rfl _ _ ?_ ?_ ?_
        · intro _; exact ⟨by simp, hi⟩
        · intro hc; simp at hc
        · simp [RBTree.weight, hge, h1]
      · have hi2 : RBTree.is_inserted (t.version (t.find_any k).node) = false := by
          simpa using hi
        have hlt := hs.not_inserted_lt hm hi2
        rw [RBTree.insert_found_deleted t tx k hf hi2 h1, Transaction.modify_modify]
        refine h.retagged hs.wf _ hm t.lock_tree.unlock_tree rfl rfl _ _ ?_ ?_ ?_
        · intro hc; simp [h0f] at hc
        · intro hc; simp at hc
        · simp [RBTree.weight, Nat.not_le.mpr hlt, h1]
    · have h1f : (tx.items (t.find_any k).node).user1 = false := by simpa using h1
      have ho : RBTree.is_inserted (t.version (t.find_any k).node) = true →
          (tx.items (t.find_any k).node).user0 = true := by
        intro hi
        rcases (hs.own _ hm hi).2.2 with c | c
        · exact c
        · exact absurd c h1
      rw [RBTree.insert_found_plain t tx k hf ho h1f] at htd hoff ⊢
      simp only [hf, h1f, Bool.true_eq_false, Bool.false_eq_true, or_self, if_false,
        add_zero] at hoff
      exact h.kept _ _ htd hoff rfl rfl
        ((Transaction.tags_kept.of_item tx _).then (Transaction.tags_kept.of_read _ _ _))
  · have hf2 : (t.find_any k).found = false := by simpa using hf
    obtain ⟨_, _, m3, _⟩ := RBTree.absent_mem t hs.wf k hf2
    have hp : (t.find_any k).node ≠ 0 →
        RBTree.is_inserted (t.version (t.find_any k).node) = true →
        (tx.items (t.find_any k).node).user0 = true ∨
        (tx.items (t.find_any k).node).user1 = true :=
      fun hx hi => (hs.own _ (m3 hx) hi).2.2
    rw [RBTree.insert_absent_path t tx k hf2 hp] at htd hoff ⊢
    simp only [hf2, true_or, if_true] at hoff
    have hwl : t.lock_tree.wf := ⟨hs.wf.sorted, hs.wf.alloc, hs.wf.top⟩
    obtain ⟨_, _, _, l1, l2, e1, e2⟩ := RBTree.insert_absent_spec t.lock_tree
      (if (t.find_any k).node = 0 then tx else tx.item (t.find_any k).node) k hwl
      (by simpa using hf2)
    simp only [RBTree.find_any_lock_tree, RBTree.tree_lock_tree, RBTree.heap_top_lock_tree]
      at e1 e2
    have htop := hs.wf.top
    have hn2 : t.lock_tree.heap_top ≠ RBTree.size_key_ := by
      simp only [RBTree.heap_top_lock_tree, RBTree.size_key_]; omega
    obtain ⟨tg1, tg2⟩ := RBTree.insert_absent_tags t.lock_tree
      (if (t.find_any k).node = 0 then tx else tx.item (t.find_any k).node)
      (t.find_any k).node k
    have tg2 := tg2 hn2
    simp only [RBTree.heap_top_lock_tree] at tg1 tg2
    have hitems : (if (t.find_any k).node = 0 then tx else tx.item (t.find_any k).node).items
        = tx.items := by
      split
      · rfl
      · exact Transaction.items_item _ _
    rw [hitems] at tg1 tg2
    have hfresh := hs.fresh t.heap_top (le_refl _)
    have hver := RBTree.insert_absent_version t.lock_tree
      (if (t.find_any k).node = 0 then tx else tx.item (t.find_any k).node)
      (t.find_any k).node k
    simp only [RBTree.heap_top_lock_tree, RBTree.version_lock_tree] at hver
    have hu1 : ∀ j, ((t.lock_tree.insert_absent
        (if (t.find_any k).node = 0 then tx else tx.item (t.find_any k).node)
        (t.find_any k).node k).2.2.items j).user1 = (tx.items j).user1 := by
      intro j
      by_cases hj : j = t.heap_top
      · rw [hj]; exact tg2.2.1
      · exact (tg1 j hj).2.1
    refine ⟨htd, ?_, ?_, ?_⟩
    · intro j hj
      rw [hu1, hver]
      by_cases e : j = t.heap_top
      · rw [e, hfresh, Function.update_same]
        exact ⟨rfl, RBTree.is_inserted_ten⟩
      · rw [(tg1 j e).1] at hj
        rw [Function.update_noteq e]
        exact h.excl j hj
    · intro j hj
      rw [hu1] at hj
      by_cases e : j = t.heap_top
      · rw [e]; exact tg2.2.2
      · exact (tg1 j e).2.2 (h.del_write j hj)
    · rw [hoff, e2, h.balance, e1]
      have hw : RBTree.weight t0 (t.lock_tree.insert_absent
          (if (t.find_any k).node = 0 then tx else tx.item (t.find_any k).node)
          (t.find_any k).node k).2.2 = RBTree.weight t0 tx :=
        funext (fun m => RBTree.weight_congr t0 _ _ m (hu1 m))
      have hwn : RBTree.weight t0 tx t.heap_top = 1 := by
        unfold RBTree.weight
        rw [if_pos hs.base_top, hfresh]
        rfl
      simp only [List.map_append, List.map_cons, List.sum_append, List.sum_cons, hw, hwn]
      ring

/-- The books through `tree[k]` read as a value. -/
theorem RBTree.ledger.through_read {t0 t : RBTree} {tx : Transaction} (h : RBTree.ledger t0 t tx)
    (hs : RBTree.solo t0 t tx) (k : Int) :
    RBTree.ledger t0 (t.read tx k).2.1 (t.read tx k).2.2 := by
  have hl := h.through_insert hs k
  obtain ⟨n, e1, hs1, hn, hw⟩ := hs.insert k
  unfold RBTree.read RBTree.operator_index
  generalize t.insert tx k = x at e1 hs1 hn hw hl
  obtain ⟨r, t1, tx1⟩ := x
  simp only at e1 hs1 hn hw hl
  subst e1
  simp only []
  have hres : (RBTree.proxy_read t1 tx1 n).2 = (t1, tx1.item n) := by
    by_cases hwr : (tx1.items n).has_write = true
    · simp [RBTree.proxy_read, hwr]
    · have hrd : (tx1.items n).has_read = true := by
        rcases hw with a | a
        · exact absurd a hwr
        · exact a
      rw [RBTree.proxy_read_plain t1 tx1 n (by simpa using hwr) (hs1.node_read hn hrd)
        (hs1.unlocked n hn).1]
  rw [hres]
  exact hl.kept _ _ (hl.tidy.through_item n) (RBTree.size_offset_item _ _) rfl rfl
    (Transaction.tags_kept.of_item tx1 n)

/-- The books through `tree[k] = v`. -/
theorem RBTree.ledger.through_assign {t0 t : RBTree} {tx : Transaction} (h : RBTree.ledger t0 t tx)
    (hs : RBTree.solo t0 t tx) (k v : Int) :
    RBTree.ledger t0 (t.assign tx k v).2.1 (t.assign tx k v).2.2 := by
  have hl := h.through_insert hs k
  obtain ⟨n, e1, hs1, hn, _⟩ := hs.insert k
  unfold RBTree.assign RBTree.operator_index
  generalize t.insert tx k = x at e1 hs1 hn hl
  obtain ⟨r, t1, tx1⟩ := x
  simp only at e1 hs1 hn hl
  subst e1
  simp only [RBTree.proxy_assign]
  have hn2 : n ≠ RBTree.size_key_ := (RBTree.wf.node hs1.wf hn).2.2.2.2.1
  refine hl.kept _ _ (hl.tidy.touch n _) ?_ rfl rfl
    ((Transaction.tags_kept.of_item tx1 n).then (Transaction.tags_kept.of_write _ _ _))
  rw [RBTree.size_offset_modify _ _ _ hn2, RBTree.size_offset_item]

/-- The books through any call. -/
theorem RBTree.ledger.through_run {t0 t : RBTree} {tx : Transaction} (h : RBTree.ledger t0 t tx)
    (hs : RBTree.solo t0 t tx) (op : Op) :
    RBTree.ledger t0 (t.run tx op).2.1 (t.run tx op).2.2 := by
  cases op with
  | count k => exact h.through_count hs k
  | read k => exact h.through_read hs k
  | assign k v => exact h.through_assign hs k v
  | erase k => exact h.through_erase hs k

/-- A transaction running alone on a committed tree returns from every call and keeps the
state and the books. -/
theorem RBTree.ledger.through_run_ops {t0 : RBTree} (ops : List Op) :
    ∀ {t : RBTree} {tx : Transaction}, RBTree.solo t0 t tx → RBTree.ledger t0 t tx →
      ∃ u ux, t.run_ops tx ops = some (u, ux) ∧ RBTree.solo t0 u ux ∧
        RBTree.ledger t0 u ux := by
  induction ops with
  | nil =>
    intro t tx hs h
    exact ⟨t, tx, rfl, hs, h⟩
  | cons op ops ih =>
    intro t tx hs h
    obtain ⟨r, e, hs1⟩ := hs.run op
    have hl1 := h.through_run hs op
    obtain ⟨u, ux, e2, hu, hlu⟩ := ih hs1 hl1
    refine ⟨u, ux, ?_, hu, hlu⟩
    rw [← e2, RBTree.run_ops]
    generalize t.run tx op = x at e
    obtain ⟨r1, t1, tx1⟩ := x
    simp only at e
    subst e
    rfl

theorem RBTree.ledger.opening (t0 : RBTree) (hwf : t0.wf) :
    RBTree.ledger t0 t0 Transaction.start := by
  refine ⟨Transaction.tidy.at_start, ?_, ?_, ?_⟩
  · intro j hj; exact Bool.noConfusion hj
  · intro j hj; exact Bool.noConfusion hj
  · have e : t0.wrapper_tree_.toList.map (RBTree.weight t0 Transaction.start)
        = t0.wrapper_tree_.toList.map (fun _ => (0 : Int)) := by
      apply List.map_congr_left
      intro m hm
      have hlt := (hwf.alloc m hm).2.2
      unfold RBTree.weight
      rw [if_neg (Nat.not_le.mpr hlt)]
      rfl
    rw [e]
    simp [RBTree.size_offset, Transaction.start]

/-! ## The commit of a transaction that ran alone -/

/-- The nodes after a run of installs: the nodes whose items carry the delete tag are
spliced out. -/
theorem Sto.install_fold_tree (tx : Transaction) :
    ∀ (L : List Nat) (s : RBTree),
      s.wrapper_tree_.toList.Pairwise (fun a b => s.key a < s.key b) →
      (L.foldl (fun u k => u.install k (tx.items k)) s).wrapper_tree_.toList =
        s.wrapper_tree_.toList.filter (fun n => !(decide (n ∈ L) &&
          (decide (n ≠ RBTree.tree_key_ ∧ n ≠ RBTree.size_key_) && (tx.items n).user1))) := by
  intro L
  induction L with
  | nil =>
    intro s _
    simp
  | cons k L ih =>
    intro s hs
    simp only [List.foldl_cons]
    by_cases hq : k ≠ RBTree.tree_key_ ∧ k ≠ RBTree.size_key_ ∧ (tx.items k).user1 = true
    · have hl : (s.install k (tx.items k)).wrapper_tree_.toList =
          s.wrapper_tree_.toList.filter (fun a => decide (a ≠ k)) := by
        rw [RBTree.tree_install, if_pos hq, rbtree.toList_erase s.key k _ hs]
      have hs1 : (s.install k (tx.items k)).wrapper_tree_.toList.Pairwise
          (fun a b => (s.install k (tx.items k)).key a < (s.install k (tx.items k)).key b) := by
        rw [hl, RBTree.key_install]
        exact List.Pairwise.filter _ hs
      rw [ih _ hs1, hl, List.filter_filter]
      apply List.filter_congr
      intro n _
      by_cases hnk : n = k
      · subst hnk
        simp [hq.1, hq.2.1, hq.2.2]
      · simp [hnk]
    · have hl : (s.install k (tx.items k)).wrapper_tree_ = s.wrapper_tree_ := by
        rw [RBTree.tree_install, if_neg hq]
      have hs1 : (s.install k (tx.items k)).wrapper_tree_.toList.Pairwise
          (fun a b => (s.install k (tx.items k)).key a < (s.install k (tx.items k)).key b) := by
        rw [hl, RBTree.key_install]
        exact hs
      rw [ih _ hs1, hl]
      apply List.filter_congr
      intro n _
      by_cases hnk : n = k
      · subst hnk
        by_cases hm : n ∈ L
        · simp [hm]
        · have : (decide (n ≠ RBTree.tree_key_ ∧ n ≠ RBTree.size_key_) && (tx.items n).user1)
              = false := by
            by_contra hc
            apply hq
            simp only [Bool.not_eq_false, Bool.and_eq_true, decide_eq_true_eq] at hc
            exact ⟨hc.1.1, hc.1.2, hc.2⟩
          rw [this]
          simp [hm]
      · simp [hnk]

theorem RBTree.version_install_self (t : RBTree) (k : Nat) (it : TransItem)
    (h1 : k ≠ RBTree.tree_key_) (h2 : k ≠ RBTree.size_key_) (h3 : it.user1 = false) :
    (t.install k it).version k =
      if it.user0 = true then RBTree.erase_inserted (t.version k)
      else TransactionTid.inc_invalid_version (t.version k) := by
  rw [RBTree.install_eq]
  by_cases h0 : it.user0 = true <;> simp [h1, h2, h3, h0]

theorem Sto.install_phase_version_self (t : RBTree) (tx : Transaction) (e : Nat)
    (hnd : tx.keys.Nodup) (hn : e ∈ tx.keys) (hw : (tx.items e).has_write = true)
    (h1 : e ≠ RBTree.tree_key_) (h2 : e ≠ RBTree.size_key_) (hd : (tx.items e).user1 = false) :
    (Sto.install_phase t tx).version e =
      if (tx.items e).user0 = true then RBTree.erase_inserted (t.version e)
      else TransactionTid.inc_invalid_version (t.version e) := by
  unfold Sto.install_phase
  apply @foldl_obs_single RBTree Nat Nat (fun s k => s.install k (tx.items k))
    (fun s => s.version e) e
    (fun v => if (tx.items e).user0 = true then RBTree.erase_inserted v
      else TransactionTid.inc_invalid_version v) _ t
    (Sto.nodup_write_set tx hnd) ((Sto.mem_write_set tx e).mpr ⟨hn, hw⟩)
  · intro s b _ hbn
    exact RBTree.version_install s b _ e (fun e2 => hbn e2.symm)
  · intro s
    exact RBTree.version_install_self s e _ h1 h2 hd

theorem RBTree.nodeversion_install_ne (t : RBTree) (k : Nat) (it : TransItem) (m : Nat)
    (h : m ≠ k) : (t.install k it).nodeversion m = t.nodeversion m := by
  rw [RBTree.install_eq]
  split
  · rfl
  · split
    · rfl
    · split
      · simp [RBTree.inc_nodeversion, RBTree.tree_erase, Function.update_noteq h]
      · split <;> rfl

theorem Sto.install_phase_nodeversion_at (t : RBTree) (tx : Transaction) (m : Nat)
    (h : (tx.items m).user1 = false) :
    (Sto.install_phase t tx).nodeversion m = t.nodeversion m :=
  foldl_obs_eq _ (fun s => s.nodeversion m) _ t (fun s b _ => by
    by_cases e : m = b
    · subst e
      show (s.install m (tx.items m)).nodeversion m = s.nodeversion m
      rw [RBTree.nodeversion_install s m _ h]
    · exact RBTree.nodeversion_install_ne s b _ m e)

theorem RBTree.treeversion_install_ne (t : RBTree) (k : Nat) (it : TransItem)
    (h : k ≠ RBTree.tree_key_) : (t.install k it).treeversion_ = t.treeversion_ := by
  rw [RBTree.install_eq, if_neg h]
  split
  · rfl
  · split
    · rfl
    · split <;> rfl

theorem Sto.unlock_fold_treeversion (l : List Nat) (t : RBTree) :
    (l.foldl (fun s k => s.unlock k) t).treeversion_ =
      if RBTree.tree_key_ ∈ l then TransactionTid.unlock t.treeversion_ else t.treeversion_ := by
  induction l generalizing t with
  | nil => simp
  | cons x xs ih =>
    simp only [List.foldl_cons, ih, List.mem_cons]
    by_cases hx : x = RBTree.tree_key_
    · subst hx
      by_cases hm : RBTree.tree_key_ ∈ xs <;>
        simp [hm, RBTree.unlock, RBTree.tree_key_, RBTree.size_key_,
          TransactionTid.unlock_unlock]
    · have hx2 : ¬ RBTree.tree_key_ = x := fun e => hx e.symm
      have e : (t.unlock x).treeversion_ = t.treeversion_ := by
        unfold RBTree.unlock
        split
        · rfl
        · rfl
      by_cases hm : RBTree.tree_key_ ∈ xs <;> simp [hm, hx2, e]

theorem RBTree.wf.length_le {t : RBTree} (hwf : t.wf) :
    t.wrapper_tree_.toList.length ≤ t.heap_top / 8 := by
  have hnd : (t.wrapper_tree_.toList.map (fun n => n / 8)).Nodup := by
    apply List.Nodup.map_on _ hwf.nodup
    intro a ha b hb e
    have h1 := (hwf.alloc a ha).2.1
    have h2 := (hwf.alloc b hb).2.1
    simp only at e
    omega
  have hsub : t.wrapper_tree_.toList.map (fun n => n / 8) ⊆ List.range (t.heap_top / 8) := by
    intro x hx
    obtain ⟨n, hn, rfl⟩ := List.mem_map.mp hx
    obtain ⟨_, h1, h2⟩ := hwf.alloc n hn
    have h3 := hwf.top.2
    rw [List.mem_range]
    omega
  have := (List.subperm_of_subset hnd hsub).length_le
  rw [List.length_map, List.length_range] at this
  exact this

/-- The nodes that stay after a commit are counted by the weights and the nodes of the
tree the transaction started on. -/
theorem RBTree.count_weights (t0 : RBTree) (tx : Transaction) (l : List Nat) :
    ((l.filter (fun m => !(tx.items m).user1)).length : Int)
      = (l.map (RBTree.weight t0 tx)).sum
        + ((l.filter (fun m => decide (m < t0.heap_top))).length : Int) := by
  induction l with
  | nil => simp
  | cons a l ih =>
    simp only [List.filter_cons, List.map_cons, List.sum_cons]
    by_cases h1 : (tx.items a).user1 = true
    · by_cases h2 : a < t0.heap_top
      · simp only [h1, h2, Bool.not_true, Bool.false_eq_true, if_false, decide_True, if_true,
          List.length_cons, RBTree.weight, Nat.not_le.mpr h2]
        push_cast; rw [ih]; ring
      · simp only [h1, h2, Bool.not_true, Bool.false_eq_true, if_false, decide_False,
          RBTree.weight, Nat.le_of_not_lt h2, if_true]
        rw [ih]; ring
    · have h1f : (tx.items a).user1 = false := by simpa using h1
      by_cases h2 : a < t0.heap_top
      · simp only [h1f, h2, Bool.not_false, if_true, decide_True, List.length_cons,
          RBTree.weight, Nat.not_le.mpr h2, Bool.false_eq_true, if_false]
        push_cast; rw [ih]; ring
      · simp only [h1f, h2, Bool.not_false, if_true, decide_False, List.length_cons,
          RBTree.weight, Nat.le_of_not_lt h2, Bool.false_eq_true, if_false]
        push_cast; rw [ih]; ring

theorem TransactionTid.unlock_not_locked (v : Nat) :
    RBTree.is_locked (TransactionTid.unlock v) = false := by
  simp only [RBTree.is_locked, is_locked_eq, unlock_eq, decide_eq_false_iff_not]
  omega

theorem RBTree.committed_after_insert (v : Nat) :
    RBTree.is_inserted (TransactionTid.unlock (RBTree.erase_inserted (TransactionTid.lock v)))
      = false := by
  simp only [is_inserted_eq, unlock_eq, erase_inserted_eq, lock_eq, decide_eq_false_iff_not]
  omega

theorem RBTree.committed_after_update (v : Nat) (h : RBTree.is_inserted v = false) :
    RBTree.is_inserted
      (TransactionTid.unlock (TransactionTid.inc_invalid_version (TransactionTid.lock v)))
      = false := by
  simp only [is_inserted_eq, unlock_eq, inc_invalid_version_eq, lock_eq,
    decide_eq_false_iff_not] at h ⊢
  omega

/-- The value version of a node that a successful commit leaves in the tree. -/
theorem Sto.try_commit_version_at (t : RBTree) (tx : Transaction) (m : Nat)
    (hc : (Sto.try_commit t tx).1 = true) (htd : tx.tidy)
    (h1 : m ≠ RBTree.tree_key_) (h2 : m ≠ RBTree.size_key_)
    (hd : (tx.items m).user1 = false) (hl : (tx.items m).has_lock = false) :
    (Sto.try_commit t tx).2.version m =
      if (tx.items m).has_write = true then
        TransactionTid.unlock
          (if (tx.items m).user0 = true
            then RBTree.erase_inserted (TransactionTid.lock (t.version m))
            else TransactionTid.inc_invalid_version (TransactionTid.lock (t.version m)))
      else t.version m := by
  rw [Sto.try_commit_snd t tx hc, Sto.unlock_phase_version]
  by_cases hw : (tx.items m).has_write = true
  · have hk := htd.2 m hw
    have e1 : (Sto.lock_phase t tx).1.version m = TransactionTid.lock (t.version m) := by
      rw [Sto.lock_phase_version, if_pos ⟨⟨hk, hw⟩, h2, h1⟩]
    have e2 : (Sto.install_phase (Sto.lock_phase t tx).1 (Sto.lock_phase t tx).2).version m =
        if (tx.items m).user0 = true
        then RBTree.erase_inserted ((Sto.lock_phase t tx).1.version m)
        else TransactionTid.inc_invalid_version ((Sto.lock_phase t tx).1.version m) := by
      rw [Sto.install_phase_version_self _ _ m
        (by rw [Sto.lock_phase_keys]; exact htd.1) (by rw [Sto.lock_phase_keys]; exact hk)
        (by rw [Sto.lock_phase_has_write]; exact hw) h1 h2
        (by rw [Sto.lock_phase_user1]; exact hd), Sto.lock_phase_user0]
    have e3 : (m ∈ (Sto.lock_phase t tx).2.keys ∧
        ((Sto.lock_phase t tx).2.items m).has_lock = true) ∧ m ≠ RBTree.size_key_ ∧
          m ≠ RBTree.tree_key_ := by
      refine ⟨⟨by rw [Sto.lock_phase_keys]; exact hk, ?_⟩, h2, h1⟩
      rw [Sto.lock_phase_items, if_pos ⟨hk, hw⟩]
    rw [if_pos e3, if_pos hw, e2, e1]
  · have hwf : (tx.items m).has_write = false := by simpa using hw
    have e3 : ¬ ((m ∈ (Sto.lock_phase t tx).2.keys ∧
        ((Sto.lock_phase t tx).2.items m).has_lock = true) ∧ m ≠ RBTree.size_key_ ∧
          m ≠ RBTree.tree_key_) := by
      rintro ⟨⟨_, h⟩, _⟩
      rw [Sto.lock_phase_items, if_neg (fun h => hw h.2), hl] at h
      exact Bool.noConfusion h
    rw [if_neg e3, if_neg hw, Sto.install_phase_version_frame _ _ _
      (by rw [Sto.lock_phase_has_write, hwf]; simp), Sto.lock_phase_version,
      if_neg (fun h => hw h.1.2)]

theorem Sto.install_phase_treeversion_none (t : RBTree) (tx : Transaction)
    (h : ¬ (RBTree.tree_key_ ∈ tx.keys ∧ (tx.items RBTree.tree_key_).has_write = true)) :
    (Sto.install_phase t tx).treeversion_ = t.treeversion_ :=
  foldl_obs_eq (fun (s : RBTree) (k : Nat) => s.install k (tx.items k))
    (fun (s : RBTree) => s.treeversion_) _ t (fun s b hb => by
      have hb2 := (Sto.mem_write_set tx b).mp hb
      exact RBTree.treeversion_install_ne s b _ (fun e => h (e ▸ hb2)))

theorem Sto.try_commit_treeversion_unlocked (t : RBTree) (tx : Transaction)
    (hc : (Sto.try_commit t tx).1 = true)
    (hu : RBTree.is_locked t.treeversion_ = false) :
    RBTree.is_locked (Sto.try_commit t tx).2.treeversion_ = false := by
  rw [Sto.try_commit_snd t tx hc]
  unfold Sto.unlock_phase
  rw [Sto.unlock_fold_treeversion]
  split
  · exact TransactionTid.unlock_not_locked _
  · rename_i hnot
    have hnw : ¬ (RBTree.tree_key_ ∈ tx.keys ∧ (tx.items RBTree.tree_key_).has_write = true) := by
      intro hw
      apply hnot
      rw [List.mem_filter, Sto.lock_phase_keys, Sto.lock_phase_items, if_pos hw]
      exact ⟨hw.1, rfl⟩
    rw [Sto.install_phase_treeversion_none _ _
      (by rw [Sto.lock_phase_keys, Sto.lock_phase_has_write]; exact hnw),
      Sto.lock_phase_treeversion, if_neg hnw]
    exact hu

theorem Sto.try_commit_nodeversion_at (t : RBTree) (tx : Transaction) (m : Nat)
    (hc : (Sto.try_commit t tx).1 = true) (hd : (tx.items m).user1 = false) :
    (Sto.try_commit t tx).2.nodeversion m = t.nodeversion m := by
  rw [Sto.try_commit_snd t tx hc, Sto.unlock_phase_nodeversion,
    Sto.install_phase_nodeversion_at _ _ m (by rw [Sto.lock_phase_user1]; exact hd),
    Sto.lock_phase_nodeversion]

/-- The nodes a successful commit leaves in the tree: those without the delete tag. -/
theorem Sto.try_commit_nodes (t : RBTree) (tx : Transaction)
    (hc : (Sto.try_commit t tx).1 = true) (hwf : t.wf) (htd : tx.tidy)
    (hdw : ∀ j, (tx.items j).user1 = true → (tx.items j).has_write = true) :
    (Sto.try_commit t tx).2.wrapper_tree_.toList
      = t.wrapper_tree_.toList.filter (fun m => !(tx.items m).user1) := by
  rw [Sto.try_commit_snd t tx hc, Sto.unlock_phase_tree]
  unfold Sto.install_phase
  rw [Sto.install_fold_tree _ _ _
    (by rw [Sto.lock_phase_tree, Sto.lock_phase_key]; exact hwf.sorted), Sto.lock_phase_tree]
  apply List.filter_congr
  intro n hn
  obtain ⟨_, _, _, h1, h2, _⟩ := RBTree.wf.node hwf hn
  rw [Sto.lock_phase_user1]
  by_cases hu : (tx.items n).user1 = true
  · have hw := hdw n hu
    have hm : n ∈ Sto.write_set (Sto.lock_phase t tx).2 := by
      rw [Sto.mem_write_set, Sto.lock_phase_keys, Sto.lock_phase_has_write]
      exact ⟨htd.2 n hw, hw⟩
    simp [hm, h1, h2, hu]
  · have huf : (tx.items n).user1 = false := by simpa using hu
    simp [huf]

/-- The commit of a transaction that ran alone on a tree between transactions: it
succeeds and leaves a tree between transactions; and when `size_` was the number of nodes
and the addresses fit into 64 bits, the size item does not take `size_` below zero and
`size_` is the number of nodes again. -/
theorem RBTree.solo.commit_clean {t0 u : RBTree} {ux : Transaction}
    (hs : RBTree.solo t0 u ux) (hl : RBTree.ledger t0 u ux) :
    (Sto.try_commit u ux).1 = true ∧ (Sto.try_commit u ux).2.settled ∧
    (Sto.try_commit u ux).2.heap_top = u.heap_top ∧
    (t0.size_ = t0.wrapper_tree_.toList.length → u.heap_top ≤ 2 ^ 64 →
      0 ≤ (u.size_ : Int) + RBTree.size_offset ux ∧
      (u.size_ : Int) + RBTree.size_offset ux < 2 ^ 63 ∧
      ((Sto.try_commit u ux).2.size_ : Int) = (u.size_ : Int) + RBTree.size_offset ux ∧
      (Sto.try_commit u ux).2.size_ = (Sto.try_commit u ux).2.wrapper_tree_.toList.length) := by
  have hc := hs.commits
  have hnodes := Sto.try_commit_nodes u ux hc hs.wf hl.tidy hl.del_write
  have hkey : (Sto.try_commit u ux).2.key = u.key := by
    rw [Sto.try_commit_snd u ux hc, Sto.unlock_phase_key, Sto.install_phase_key,
      Sto.lock_phase_key]
  have htop : (Sto.try_commit u ux).2.heap_top = u.heap_top := by
    rw [Sto.try_commit_snd u ux hc, Sto.unlock_phase_heap_top, Sto.install_phase_heap_top,
      Sto.lock_phase_heap_top]
  have hmem : ∀ n ∈ (Sto.try_commit u ux).2.wrapper_tree_.toList,
      n ∈ u.wrapper_tree_.toList ∧ (ux.items n).user1 = false := by
    intro n hn
    rw [hnodes, List.mem_filter] at hn
    exact ⟨hn.1, by simpa using hn.2⟩
  refine ⟨hc, ⟨⟨?_, ?_, ?_⟩, ?_, ?_, ?_⟩, htop, ?_⟩
  · rw [hnodes, hkey]
    exact List.Pairwise.filter _ hs.wf.sorted
  · intro n hn
    rw [htop]
    exact hs.wf.alloc n (hmem n hn).1
  · rw [htop]; exact hs.wf.top
  · intro n hn
    obtain ⟨hn1, hd⟩ := hmem n hn
    obtain ⟨_, _, _, h1, h2, _⟩ := RBTree.wf.node hs.wf hn1
    rw [Sto.try_commit_version_at u ux n hc hl.tidy h1 h2 hd (hs.nolock n)]
    split
    · split
      · exact RBTree.committed_after_insert _
      · rename_i _ h0f
        apply RBTree.committed_after_update
        by_contra hi
        rcases (hs.own n hn1 (by simpa using hi)).2.2 with c | c
        · exact h0f c
        · rw [hd] at c; exact Bool.noConfusion c
    · rename_i hw
      by_contra hi
      exact hw (hs.own n hn1 (by simpa using hi)).2.1
  · intro n hn
    obtain ⟨hn1, hd⟩ := hmem n hn
    obtain ⟨_, _, _, h1, h2, _⟩ := RBTree.wf.node hs.wf hn1
    constructor
    · rw [Sto.try_commit_version_at u ux n hc hl.tidy h1 h2 hd (hs.nolock n)]
      split
      · exact TransactionTid.unlock_not_locked _
      · exact (hs.unlocked n hn1).1
    · rw [Sto.try_commit_nodeversion_at u ux n hc hd]
      exact (hs.unlocked n hn1).2
  · exact Sto.try_commit_treeversion_unlocked u ux hc hs.tree_unlocked
  · intro h0c hb
    have hcount := RBTree.count_weights t0 ux u.wrapper_tree_.toList
    rw [← hl.balance, hs.base_nodes, ← h0c, ← hs.base_size, ← hnodes] at hcount
    have hlen : (Sto.try_commit u ux).2.wrapper_tree_.toList.length ≤ u.heap_top / 8 := by
      rw [hnodes]
      exact le_trans (List.length_filter_le _ _) hs.wf.length_le
    have hsum0 : 0 ≤ (u.size_ : Int) + RBTree.size_offset ux := by
      rw [add_comm, ← hcount]; exact Int.natCast_nonneg _
    have hsum1 : (u.size_ : Int) + RBTree.size_offset ux < 2 ^ 63 := by
      rw [add_comm, ← hcount]
      have : (Sto.try_commit u ux).2.wrapper_tree_.toList.length < 2 ^ 63 := by omega
      exact_mod_cast this
    have hsize : ((Sto.try_commit u ux).2.size_ : Int)
        = (u.size_ : Int) + RBTree.size_offset ux := by
      by_cases hw : (ux.items RBTree.size_key_).has_write = true
      · rw [(Sto.try_commit_size u ux hc hl.tidy hw).1]
        have e : RBTree.size_offset ux = (ux.items RBTree.size_key_).write_value := by
          unfold RBTree.size_offset; rw [if_pos hw]
        rw [← e]
        have hmod : ((u.size_ : Int) + RBTree.size_offset ux) % (TransactionTid.word : Int)
            = (u.size_ : Int) + RBTree.size_offset ux := by
          apply Int.emod_eq_of_lt hsum0
          have : ((TransactionTid.word : Nat) : Int) = 2 ^ 64 := by
            simp [TransactionTid.word]
          rw [this]
          omega
        rw [hmod, Int.toNat_of_nonneg hsum0]
      · have hwf : (ux.items RBTree.size_key_).has_write = false := by simpa using hw
        rw [(Sto.try_commit_size_none u ux hc hwf (hs.nolock _)).1]
        unfold RBTree.size_offset
        rw [if_neg hw, add_zero]
    refine ⟨hsum0, hsum1, hsize, ?_⟩
    have : ((Sto.try_commit u ux).2.size_ : Int)
        = ((Sto.try_commit u ux).2.wrapper_tree_.toList.length : Int) := by
      rw [hsize, add_comm, ← hcount]
    exact_mod_cast this

/-! ## The abort of a transaction that ran alone -/

theorem RBTree.cleanup_frame (t : RBTree) (k : Nat) (it : TransItem) :
    (t.cleanup k it false).heap_top = t.heap_top ∧
    (t.cleanup k it false).treeversion_ = t.treeversion_ ∧
    (∀ m, RBTree.is_inserted (t.version m) = false →
      (t.cleanup k it false).version m = t.version m ∧
      (t.cleanup k it false).nodeversion m = t.nodeversion m) := by
  unfold RBTree.cleanup
  by_cases h1 : (it.user0 || it.user1) = true
  · by_cases h2 : RBTree.is_inserted (t.version k) = true
    · refine ⟨?_, ?_, ?_⟩
      · simp [h1, h2, RBTree.inc_nodeversion, RBTree.set_version, RBTree.unlock_tree,
          RBTree.tree_erase, RBTree.lock_tree]
      · simp [h1, h2, RBTree.inc_nodeversion, RBTree.set_version, RBTree.unlock_tree,
          RBTree.tree_erase, RBTree.lock_tree]
      · intro m hm
        have hmk : m ≠ k := by
          intro e; rw [e, h2] at hm; exact Bool.noConfusion hm
        simp [h1, h2, RBTree.inc_nodeversion, RBTree.set_version, RBTree.unlock_tree,
          RBTree.tree_erase, RBTree.lock_tree, Function.update_noteq hmk]
    · simp [h1, h2]
  · simp [h1]

theorem Sto.cleanup_fold_frame (tx : Transaction) :
    ∀ (L : List Nat) (s : RBTree),
      (L.foldl (fun u k => u.cleanup k (tx.items k) false) s).heap_top = s.heap_top ∧
      (L.foldl (fun u k => u.cleanup k (tx.items k) false) s).treeversion_ = s.treeversion_ ∧
      (∀ m, RBTree.is_inserted (s.version m) = false →
        (L.foldl (fun u k => u.cleanup k (tx.items k) false) s).version m = s.version m ∧
        (L.foldl (fun u k => u.cleanup k (tx.items k) false) s).nodeversion m
          = s.nodeversion m) := by
  intro L
  induction L with
  | nil => intro s; exact ⟨rfl, rfl, fun _ _ => ⟨rfl, rfl⟩⟩
  | cons k L ih =>
    intro s
    simp only [List.foldl_cons]
    obtain ⟨a, b, c⟩ := RBTree.cleanup_frame s k (tx.items k)
    obtain ⟨a2, b2, c2⟩ := ih (s.cleanup k (tx.items k) false)
    refine ⟨a2.trans a, b2.trans b, ?_⟩
    intro m hm
    obtain ⟨c3, c4⟩ := c m hm
    obtain ⟨c5, c6⟩ := c2 m (by rw [c3]; exact hm)
    exact ⟨c5.trans c3, c6.trans c4⟩

/-- The abort of a transaction that ran alone leaves a tree between transactions. -/
theorem RBTree.solo.abort_clean {t0 u : RBTree} {ux : Transaction}
    (hs : RBTree.solo t0 u ux) (h0 : t0.settled) :
    (Sto.abort u ux).settled ∧ (Sto.abort u ux).heap_top = u.heap_top ∧
    (t0.size_ = t0.wrapper_tree_.toList.length →
      (Sto.abort u ux).size_ = (Sto.abort u ux).wrapper_tree_.toList.length) := by
  obtain ⟨g1, g2, g3⟩ := hs.abort
  have hnl : ux.keys.filter (fun k => (ux.items k).has_lock) = [] := by
    rw [List.filter_eq_nil_iff]
    intro a _
    rw [hs.nolock a]
    exact Bool.noConfusion
  have hab : Sto.abort u ux =
      (Sto.cleanup_keys ux).reverse.foldl (fun s k => s.cleanup k (ux.items k) false) u := by
    unfold Sto.abort
    simp only [hnl, List.foldl_nil]
  obtain ⟨f1, f2, f3⟩ := Sto.cleanup_fold_frame ux (Sto.cleanup_keys ux).reverse u
  rw [← hab] at f1 f2 f3
  have hbase : ∀ n ∈ t0.wrapper_tree_.toList,
      n ∈ u.wrapper_tree_.toList ∧ n < t0.heap_top ∧ u.version n = t0.version n := by
    intro n hn
    have hlt := (h0.wf.alloc n hn).2.2
    have hm : n ∈ u.wrapper_tree_.toList := by
      have := hn
      rw [← hs.base_nodes, List.mem_filter] at this
      exact this.1
    exact ⟨hm, hlt, (hs.base_fields n hlt).2.2⟩
  have hver : ∀ n ∈ t0.wrapper_tree_.toList,
      (Sto.abort u ux).version n = t0.version n ∧
      (Sto.abort u ux).nodeversion n = u.nodeversion n := by
    intro n hn
    obtain ⟨_, _, e⟩ := hbase n hn
    obtain ⟨a, b⟩ := f3 n (by rw [e]; exact h0.committed n hn)
    exact ⟨a.trans e, b⟩
  refine ⟨⟨⟨?_, ?_, ?_⟩, ?_, ?_, ?_⟩, f1, ?_⟩
  · rw [g1]
    refine h0.wf.sorted.imp_of_mem ?_
    intro a b ha hb hab2
    rw [(g2 a ha).1, (g2 b hb).1]
    exact hab2
  · intro n hn
    rw [g1] at hn
    obtain ⟨a, b, c⟩ := h0.wf.alloc n hn
    rw [f1]
    exact ⟨a, b, lt_of_lt_of_le c hs.base_top⟩
  · rw [f1]; exact hs.wf.top
  · intro n hn
    rw [g1] at hn
    rw [(hver n hn).1]
    exact h0.committed n hn
  · intro n hn
    rw [g1] at hn
    rw [(hver n hn).1, (hver n hn).2]
    exact ⟨(h0.unlocked n hn).1, (hs.unlocked n (hbase n hn).1).2⟩
  · rw [f2]; exact hs.tree_unlocked
  · intro h0c; rw [g3, g1]; exact h0c

/-! ## Transactions one after another -/

theorem RBTree.settled_empty : RBTree.empty.settled := by
  refine ⟨⟨?_, ?_, ?_⟩, ?_, ?_, ?_⟩
  · exact List.Pairwise.nil
  · intro n hn; cases hn
  · decide
  · intro n hn; cases hn
  · intro n hn; cases hn
  · decide

/-- A transaction that runs alone on a tree between transactions returns from every call,
and its commit or abort leaves a tree between transactions; `size_` stays the number of
nodes as long as the addresses fit into 64 bits. -/
theorem RBTree.settled.transact {t : RBTree} (h0 : t.settled) (txn : List Op × Bool) :
    ∃ t1, t.transact txn = some t1 ∧ t1.settled ∧ t.heap_top ≤ t1.heap_top ∧
      (t.size_ = t.wrapper_tree_.toList.length → t1.heap_top ≤ 2 ^ 64 →
        t1.size_ = t1.wrapper_tree_.toList.length) := by
  have hs0 := RBTree.solo.start t h0.wf h0.committed h0.unlocked h0.tree_unlocked
  obtain ⟨u, ux, e, hs, hl⟩ := RBTree.ledger.through_run_ops txn.1 hs0 (RBTree.ledger.opening t h0.wf)
  unfold RBTree.transact
  rw [e]
  simp only []
  by_cases hc : txn.2 = true
  · obtain ⟨_, c1, c2, c3⟩ := hs.commit_clean hl
    rw [if_pos hc]
    refine ⟨_, rfl, c1, by rw [c2]; exact hs.base_top, ?_⟩
    intro hcount hb
    rw [c2] at hb
    exact (c3 hcount hb).2.2.2
  · obtain ⟨a1, a2, a3⟩ := hs.abort_clean h0
    rw [if_neg hc]
    exact ⟨_, rfl, a1, by rw [a2]; exact hs.base_top, fun hcount _ => a3 hcount⟩

/-- A sequence of transactions executed one after another on a tree between
transactions. -/
theorem RBTree.settled.serial (txns : List (List Op × Bool)) :
    ∀ {t : RBTree}, t.settled →
      ∃ t1, RBTree.serial txns t = some t1 ∧ t1.settled ∧ t.heap_top ≤ t1.heap_top ∧
        (t.size_ = t.wrapper_tree_.toList.length → t1.heap_top ≤ 2 ^ 64 →
          t1.size_ = t1.wrapper_tree_.toList.length) := by
  induction txns with
  | nil =>
    intro t h0
    exact ⟨t, rfl, h0, le_refl _, fun h _ => h⟩
  | cons txn rest ih =>
    intro t h0
    obtain ⟨t1, e1, s1, b1, c1⟩ := h0.transact txn
    obtain ⟨t2, e2, s2, b2, c2⟩ := ih s1
    refine ⟨t2, ?_, s2, le_trans b1 b2, ?_⟩
    · unfold RBTree.serial
      rw [e1]
      exact e2
    · intro hcount hb
      exact c2 (c1 hcount (le_trans b2 hb)) hb

/-! ## The logger: the epoch range of the log file -/

/-- Scheduling buffers leaves `fd`, `min_epoch_so_far` and the renamed files alone and
never lowers `max_epoch_so_far`. -/
theorem Logger.schedule_pxs_range (cfg : Logger.Config) (ex k : Nat) (pxs : List Logger.pbuffer) :
    ∀ (w : Logger.writer_state) (r : List Logger.pbuffer) (w2 : Logger.writer_state) (g : Bool),
      Logger.schedule_pxs cfg ex k pxs w = some (r, w2, g) →
      w2.fd = w.fd ∧ w2.min_epoch_so_far = w.min_epoch_so_far ∧ w2.old_data = w.old_data ∧
        w.max_epoch_so_far ≤ w2.max_epoch_so_far := by
  induction pxs with
  | nil =>
    intro w r w2 g h
    simp only [Logger.schedule_pxs, Option.some.injEq, Prod.mk.injEq] at h
    obtain ⟨_, rfl, _⟩ := h
    exact ⟨rfl, rfl, rfl, Nat.le_refl _⟩
  | cons px rest ih =>
    intro w r w2 g h
    unfold Logger.schedule_pxs at h
    split_ifs at h
    · simp only [Option.some.injEq, Prod.mk.injEq] at h
      obtain ⟨_, rfl, _⟩ := h
      exact ⟨rfl, rfl, rfl, Nat.le_refl _⟩
    · simp only [Option.some.injEq, Prod.mk.injEq] at h
      obtain ⟨_, rfl, _⟩ := h
      exact ⟨rfl, rfl, rfl, Nat.le_refl _⟩
    · split at h
      · cases h
      · rename_i r1 w3 g1 hrec
        simp only [Option.some.injEq, Prod.mk.injEq] at h
        obtain ⟨_, rfl, _⟩ := h
        obtain ⟨a, b, c, d⟩ := ih _ _ _ _ hrec
        refine ⟨a, b, c, Nat.le_trans ?_ d⟩
        show w.max_epoch_so_far ≤ (if _ then _ else _)
        split <;> omega

theorem Logger.schedule_threads_range (cfg : Logger.Config) (ex : Nat) (ks : List Nat) :
    ∀ (s : Logger.State) (w : Logger.writer_state) (s1 : Logger.State)
      (w1 : Logger.writer_state),
      Logger.schedule_threads cfg ex ks s w = some (s1, w1) →
      w1.fd = w.fd ∧ w1.min_epoch_so_far = w.min_epoch_so_far ∧ w1.old_data = w.old_data ∧
        w.max_epoch_so_far ≤ w1.max_epoch_so_far := by
  induction ks with
  | nil =>
    intro s w s1 w1 h
    simp only [Logger.schedule_threads, Option.some.injEq, Prod.mk.injEq] at h
    obtain ⟨_, rfl⟩ := h
    exact ⟨rfl, rfl, rfl, Nat.le_refl _⟩
  | cons k rest ih =>
    intro s w s1 w1 h
    unfold Logger.schedule_threads at h
    simp only [] at h
    split at h
    · cases h
    · rename_i pxs w2 g hsched
      have h2 := Logger.schedule_pxs_range cfg ex k _ _ _ _ _ hsched
      split_ifs at h
      · simp only [Option.some.injEq, Prod.mk.injEq] at h
        obtain ⟨_, rfl⟩ := h
        exact h2
      · obtain ⟨a, b, c, d⟩ := ih _ _ _ _ h
        exact ⟨a.trans h2.1, b.trans h2.2.1, c.trans h2.2.2.1, Nat.le_trans h2.2.2.2 d⟩

theorem Logger.process_range (cfg : Logger.Config) (idx : Nat) (s : Logger.State)
    (w : Logger.writer_state) (s1 : Logger.State) (w1 : Logger.writer_state)
    (h : Logger.process cfg idx s w = some (s1, w1)) :
    w1.fd = w.fd ∧ w1.min_epoch_so_far = w.min_epoch_so_far ∧ w1.old_data = w.old_data ∧
      w.max_epoch_so_far ≤ w1.max_epoch_so_far := by
  unfold Logger.process at h
  split_ifs at h
  · simp only [] at h
    split at h
    · cases h
    · simp only [Option.some.injEq, Prod.mk.injEq] at h
      obtain ⟨_, rfl⟩ := h
      exact ⟨rfl, rfl, rfl, Nat.le_refl _⟩
  · simp only [Option.some.injEq, Prod.mk.injEq] at h
    obtain ⟨_, rfl⟩ := h
    exact ⟨rfl, rfl, rfl, Nat.le_refl _⟩

theorem Logger.writer_assignment_range (cfg : Logger.Config) (ex : Nat) (A : List Nat) :
    ∀ (s : Logger.State) (w : Logger.writer_state) (s1 : Logger.State)
      (w1 : Logger.writer_state),
      Logger.writer_assignment cfg ex A s w = some (s1, w1) →
      w1.fd = w.fd ∧ w1.min_epoch_so_far = w.min_epoch_so_far ∧ w1.old_data = w.old_data ∧
        w.max_epoch_so_far ≤ w1.max_epoch_so_far := by
  induction A with
  | nil =>
    intro s w s1 w1 h
    simp only [Logger.writer_assignment, Option.some.injEq, Prod.mk.injEq] at h
    obtain ⟨_, rfl⟩ := h
    exact ⟨rfl, rfl, rfl, Nat.le_refl _⟩
  | cons idx rest ih =>
    intro s w s1 w1 h
    unfold Logger.writer_assignment at h
    split_ifs at h
    · split at h
      · cases h
      · rename_i s2 w2 hsched
        have h2 := Logger.schedule_threads_range cfg ex _ _ _ _ _ hsched
        split at h
        · cases h
        · rename_i s3 w3 hproc
          have h3 := Logger.process_range cfg idx _ _ _ _ hproc
          obtain ⟨a, b, c, d⟩ := ih _ _ _ _ h
          exact ⟨a.trans (h3.1.trans h2.1), b.trans (h3.2.1.trans h2.2.1),
            c.trans (h3.2.2.1.trans h2.2.2.1),
            Nat.le_trans h2.2.2.2 (Nat.le_trans h3.2.2.2 d)⟩

/-- After an iteration of the writer the log file is open, `min_epoch_so_far` is the value
the head of the iteration left, no file was renamed after the head, and an ordered pair
`min_epoch_so_far <= max_epoch_so_far` stays ordered. -/
theorem Logger.writer_iteration_range (cfg : Logger.Config) (id : Nat) (A : List Nat)
    (s : Logger.State) (w : Logger.writer_state) (s1 : Logger.State)
    (w1 : Logger.writer_state) (h : Logger.writer_iteration cfg id A s w = some (s1, w1)) :
    w1.fd = true ∧ w1.min_epoch_so_far = (Logger.writer_rotate w).min_epoch_so_far ∧
      w1.old_data = (Logger.writer_rotate w).old_data ∧
      (w.min_epoch_so_far ≤ w.max_epoch_so_far → w1.min_epoch_so_far ≤ w1.max_epoch_so_far) := by
  unfold Logger.writer_iteration at h
  split at h
  · cases h
  · rename_i s2 w2 hassign
    have hw : w2 = w1 := by
      split_ifs at h <;> exact congrArg Prod.snd (Option.some.inj h)
    subst hw
    unfold Logger.writer_schedule at hassign
    obtain ⟨a, b, c, d⟩ := Logger.writer_assignment_range cfg _ A _ _ _ _ hassign
    simp only [] at a b c d
    have hfd : (Logger.writer_rotate w).fd = true := by
      unfold Logger.writer_rotate
      by_cases h1 : w.fd = false ∨
          (w.max_epoch_so_far + 2 ^ 64 - w.min_epoch_so_far) % 2 ^ 64 > 200
      · rw [if_pos h1]
      · rw [if_neg h1]
        cases hf : w.fd
        · exact absurd (Or.inl hf) h1
        · rfl
    have hrange : w.min_epoch_so_far ≤ w.max_epoch_so_far →
        (Logger.writer_rotate w).min_epoch_so_far ≤ (Logger.writer_rotate w).max_epoch_so_far := by
      intro hle
      unfold Logger.writer_rotate
      split_ifs
      · exact Nat.le_refl _
      · exact Nat.le_refl _
      · exact hle
    exact ⟨a.trans hfd, b, c, fun hle => by rw [b]; exact Nat.le_trans (hrange hle) d⟩

/-! ## The logger: what one iteration of the writer records and publishes -/

/-- One iteration of the writer that trips no assertion, with `added` the buffers it
schedules, in order: they are appended to the buffers handed to the log file, every one
belongs to a thread of the writer, `epoch_prefixes` is the array of the previous iteration
updated with `px_epoch - 1` for each of them, and when at least one was scheduled the
publication loop leaves in every entry of the writer's threads the larger of the entry and
the recorded value; all other entries and `system_sync_epoch_` are unchanged. -/
theorem Logger.writer_iteration_trace (cfg : Logger.Config) (id : Nat) (A : List Nat)
    (s : Logger.State) (w : Logger.writer_state) (s1 : Logger.State)
    (w1 : Logger.writer_state)
    (he : Logger.writer_iteration cfg id A s w = some (s1, w1)) :
    ∃ added, w1.trace = (Logger.writer_rotate w).data_log ++ added ∧
      (cfg.g_fake_writes = false → w1.data_log = (Logger.writer_rotate w).data_log ++ added) ∧
      (∀ b ∈ added, b.thread_id_ ∈ A.flatMap (Logger.thread_ids cfg)) ∧
      w1.epoch_prefixes
        = added.foldl (fun p px => Function.update p px.thread_id_ (Logger.recorded_epoch cfg px))
            w.epoch_prefixes ∧
      w1.totalbufswritten = added.length ∧
      (∀ i k, s1.per_thread_sync_epochs_ i k
        = if added ≠ [] ∧ i = id ∧ k ∈ A.flatMap (Logger.thread_ids cfg)
          then max (s.per_thread_sync_epochs_ i k) (w1.epoch_prefixes k)
          else s.per_thread_sync_epochs_ i k) ∧
      s1.system_sync_epoch_ = s.system_sync_epoch_ := by
  unfold Logger.writer_iteration at he
  split at he
  · cases he
  · rename_i s2 w2 hassign
    unfold Logger.writer_schedule at hassign
    have hstart := Logger.scheduled_since.at_first cfg
      ({ Logger.writer_rotate w with
          nbufswritten := 0, nbyteswritten := 0, totalbyteswritten := 0, totalbufswritten := 0 } :
        Logger.writer_state) (Nat.zero_le _)
    obtain ⟨⟨added, hs, hT⟩, hE, hsys, hz⟩ :=
      Logger.writer_assignment_since cfg _ _ (A.flatMap (Logger.thread_ids cfg)) A [] s _ s2 w2
        (fun idx hidx k hk => List.mem_flatMap.mpr ⟨idx, hidx, hk⟩) hstart (fun _ => rfl) hassign
    rw [List.nil_append] at hs
    have htrace := hs.trace
    have htr0 : ({ Logger.writer_rotate w with
          nbufswritten := 0, nbyteswritten := 0, totalbyteswritten := 0, totalbufswritten := 0 } :
        Logger.writer_state).trace = (Logger.writer_rotate w).data_log := by
      unfold Logger.writer_state.trace
      simp only [List.take_zero, List.append_nil]
    rw [htr0] at htrace
    have hpre := hs.prefixes
    simp only [Logger.writer_rotate_prefixes] at hpre
    have htot := hs.total
    simp only [Nat.zero_add] at htot
    have hw : w2 = w1 := by
      split_ifs at he <;> exact congrArg Prod.snd (Option.some.inj he)
    have hs1 : (if w2.totalbufswritten = 0 then s2 else Logger.publish cfg id A w2 s2) = s1 := by
      split_ifs at he ⊢ <;> exact congrArg Prod.fst (Option.some.inj he)
    subst hw
    subst hs1
    refine ⟨added, htrace, ?_, hT, hpre, htot, ?_, ?_⟩
    · intro hf
      have h0 := hz hf
      unfold Logger.writer_state.trace at htrace
      rw [h0] at htrace
      simpa using htrace
    · intro i k
      by_cases hzero : w2.totalbufswritten = 0
      · have hnil : added = [] := by
          rw [htot] at hzero
          exact List.length_eq_zero.mp hzero
        rw [if_pos hzero, hE, if_neg (fun h => h.1 hnil)]
      · have hnn : added ≠ [] := by
          intro hnil
          apply hzero
          rw [htot, hnil]; rfl
        rw [if_neg hzero, Logger.publish_get, hE]
        by_cases hc : i = id ∧ k ∈ A.flatMap (Logger.thread_ids cfg)
        · rw [if_pos hc, if_pos ⟨hnn, hc⟩]
        · rw [if_neg hc, if_neg (fun h => hc h.2)]
    · split_ifs
      · exact hsys
      · exact (Logger.publish_fold_sys _ _ _ _).trans hsys

/-- The value `px_epoch - 1` computed in `uint64_t` is `(e - 1) mod 2^64`. -/
theorem Logger.recorded_epoch_eq (cfg : Logger.Config) (px : Logger.pbuffer) :
    (Logger.recorded_epoch cfg px : Int) = ((cfg.epochId px.last_tid_ : Int) - 1) % 2 ^ 64 := by
  unfold Logger.recorded_epoch
  push_cast
  omega

theorem Logger.schedule_one_prefix (cfg : Logger.Config) (k : Nat) (px : Logger.pbuffer)
    (w : Logger.writer_state) :
    (Logger.schedule_one cfg k px w).epoch_prefixes k = Logger.recorded_epoch cfg px := by
  unfold Logger.schedule_one Logger.recorded_epoch
  simp only [Function.update_same]

/-! ## The two tags of an item exclude each other -/

theorem RBTree.exclusive.at_begin (t : RBTree) : RBTree.exclusive t Transaction.start :=
  ⟨fun _ h => Bool.noConfusion h, fun _ _ => ⟨rfl, rfl⟩⟩

/-- A step that keeps the tags, the versions and the allocator mark keeps the tags
exclusive. -/
theorem RBTree.exclusive.carried {t : RBTree} {tx : Transaction} (h : RBTree.exclusive t tx)
    (t2 : RBTree) (tx2 : Transaction) (hv : t2.version = t.version)
    (ht : t2.heap_top = t.heap_top) (hk : tx.tags_kept tx2) : RBTree.exclusive t2 tx2 := by
  constructor
  · intro j h0
    rw [(hk j).1] at h0
    rw [(hk j).2.1, hv]
    exact h.excl j h0
  · intro j hj
    rw [(hk j).1, (hk j).2.1]
    exact h.unused j (by rw [← ht]; exact hj)

/-- A step that rewrites the item of an allocated address keeps the tags exclusive when
the rewritten item is. -/
theorem RBTree.exclusive.rewritten {t : RBTree} {tx : Transaction} (h : RBTree.exclusive t tx)
    (x : Nat) (hx : x < t.heap_top) (g : TransItem → TransItem)
    (hg : (g (tx.items x)).user0 = true →
      (g (tx.items x)).user1 = false ∧ RBTree.is_inserted (t.version x) = true) :
    RBTree.exclusive t ((tx.item x).modify x g) := by
  constructor
  · intro j h0
    by_cases hj : j = x
    · subst hj
      rw [Transaction.items_modify_same, Transaction.items_item] at h0 ⊢
      exact hg h0
    · rw [Transaction.items_modify_ne _ _ _ _ hj, Transaction.items_item] at h0 ⊢
      exact h.excl j h0
  · intro j hj
    have hne : j ≠ x := by omega
    rw [Transaction.items_modify_ne _ _ _ _ hne, Transaction.items_item]
    exact h.unused j hj

theorem RBTree.exclusive.not_both {t : RBTree} {tx : Transaction} (h : RBTree.exclusive t tx)
    (j : Nat) :
    ¬ (RBTree.has_insert (tx.items j) = true ∧ RBTree.has_delete (tx.items j) = true) := by
  rintro ⟨a, b⟩
  have := (h.excl j a).1
  rw [show (tx.items j).user1 = true from b] at this
  exact Bool.noConfusion this

/-- The tags through a returning `count`. -/
theorem RBTree.exclusive.after_count {t : RBTree} {tx : Transaction}
    (h : RBTree.exclusive t tx) (k : Int) (hret : (t.count tx k).1 ≠ none) :
    RBTree.exclusive (t.count tx k).2.1 (t.count tx k).2.2 := by
  by_cases hf : (t.find_any k).found = true
  · by_cases hi : RBTree.is_inserted (t.version (t.find_any k).node) = true
    · by_cases ho : (tx.items (t.find_any k).node).user0 = true ∨
          (tx.items (t.find_any k).node).user1 = true
      · rw [RBTree.count_own t tx k hf hi ho]
        exact h.carried _ _ rfl rfl (Transaction.tags_kept.of_item tx _)
      · exact absurd (RBTree.count_phantom t tx k hf hi (by simpa using fun h => ho (Or.inl h))
          (by simpa using fun h => ho (Or.inr h))) hret
    · rw [RBTree.count_committed t tx k hf (by simpa using hi)]
      exact h.carried _ _ rfl rfl
        ((Transaction.tags_kept.of_item tx _).then (Transaction.tags_kept.of_read _ _ _))
  · have hf2 : (t.find_any k).found = false := by simpa using hf
    rw [RBTree.count_absent t tx k hf2]
    have hfoa := RBTree.foa_absent_read t.lock_tree tx k (by simpa using hf2)
    simp only [RBTree.find_any_lock_tree, RBTree.treeversion_lock_tree,
      RBTree.track_boundary_lock_tree] at hfoa
    rw [hfoa]
    refine h.carried _ _ rfl rfl ?_
    refine Transaction.tags_kept.then ?_ (Transaction.tags_kept.of_track _ _ _)
    refine Transaction.tags_kept.then ?_ (Transaction.tags_kept.of_track _ _ _)
    split
    · exact (Transaction.tags_kept.of_item tx _).then (Transaction.tags_kept.of_read _ _ _)
    · exact Transaction.tags_kept.same tx

/-- The tags through a returning `erase`. -/
theorem RBTree.exclusive.after_erase {t : RBTree} {tx : Transaction}
    (h : RBTree.exclusive t tx) (hwf : t.wf) (k : Int) (hret : (t.erase tx k).1 ≠ none) :
    RBTree.exclusive (t.erase tx k).2.1 (t.erase tx k).2.2 := by
  by_cases hf : (t.find_any k).found = true
  · obtain ⟨_, _, _, _, hlt⟩ := RBTree.wf.found t hwf k hf
    by_cases hi : RBTree.is_inserted (t.version (t.find_any k).node) = true
    · by_cases h0 : (tx.items (t.find_any k).node).user0 = true
      · rw [RBTree.erase_own_insert t tx k hf hi h0]
        refine (h.rewritten _ hlt _ ?_).carried _ _ rfl rfl (Transaction.tags_kept.of_offset _ _)
        intro hc
        simp [TransItem.add_write, TransItem.clear_flags, TransItem.add_flags,
          RBTree.insert_tag, RBTree.delete_tag] at hc
      · have h0f : (tx.items (t.find_any k).node).user0 = false := by simpa using h0
        by_cases h1 : (tx.items (t.find_any k).node).user1 = true
        · rw [RBTree.erase_own_deleted t tx k hf hi h0f h1]
          exact h.carried _ _ rfl rfl (Transaction.tags_kept.of_item tx _)
        · exact absurd (RBTree.erase_phantom t tx k hf hi h0f (by simpa using h1)) hret
    · have hi2 : RBTree.is_inserted (t.version (t.find_any k).node) = false := by
        simpa using hi
      have h0f : (tx.items (t.find_any k).node).user0 = false := by
        by_contra hc
        have := (h.excl _ (by simpa using hc)).2
        rw [hi2] at this
        exact Bool.noConfusion this
      by_cases h1 : (tx.items (t.find_any k).node).user1 = true
      · rw [RBTree.erase_deleted t tx k hf hi2 h1]
        exact h.carried _ _ rfl rfl
          ((Transaction.tags_kept.of_item tx _).then (Transaction.tags_kept.of_read _ _ _))
      · rw [RBTree.erase_committed t tx k hf hi2 (by simpa using h1),
          Transaction.modify_modify]
        refine (h.rewritten _ hlt _ ?_).carried _ _ rfl rfl (Transaction.tags_kept.of_offset _ _)
        intro hc
        simp [TransItem.add_write, TransItem.add_flags, TransItem.add_read,
          RBTree.delete_tag] at hc
        split at hc <;> simp [h0f] at hc
  · have hf2 : (t.find_any k).found = false := by simpa using hf
    rw [RBTree.erase_absent t tx k hf2]
    have hfoa := RBTree.foa_absent_read t.lock_tree tx k (by simpa using hf2)
    simp only [RBTree.find_any_lock_tree, RBTree.treeversion_lock_tree,
      RBTree.track_boundary_lock_tree] at hfoa
    rw [hfoa]
    refine h.carried _ _ rfl rfl ?_
    refine Transaction.tags_kept.then ?_ (Transaction.tags_kept.of_track _ _ _)
    refine Transaction.tags_kept.then ?_ (Transaction.tags_kept.of_track _ _ _)
    split
    · exact (Transaction.tags_kept.of_item tx _).then (Transaction.tags_kept.of_read _ _ _)
    · exact Transaction.tags_kept.same tx

/-- The tags through a returning `insert`. -/
theorem RBTree.exclusive.after_insert {t : RBTree} {tx : Transaction}
    (h : RBTree.exclusive t tx) (hwf : t.wf) (k : Int) (hret : (t.insert tx k).1 ≠ none) :
    RBTree.exclusive (t.insert tx k).2.1 (t.insert tx k).2.2 := by
  by_cases hf : (t.find_any k).found = true
  · obtain ⟨_, _, _, _, hlt⟩ := RBTree.wf.found t hwf k hf
    by_cases h1 : (tx.items (t.find_any k).node).user1 = true
    · have h0f : (tx.items (t.find_any k).node).user0 = false := by
        by_contra hc
        have := (h.excl _ (by simpa using hc)).1
        rw [h1] at this
        exact Bool.noConfusion this
      by_cases hi : RBTree.is_inserted (t.version (t.find_any k).node) = true
      · rw [RBTree.insert_found_own_deleted t tx k hf hi h1, Transaction.modify_modify,
          Transaction.modify_modify]
        refine (h.rewritten _ hlt _ ?_).carried _ _ rfl rfl (Transaction.tags_kept.of_offset _ _)
        intro _
        exact ⟨by simp [TransItem.add_write, TransItem.clear_flags, TransItem.add_flags,
          RBTree.insert_tag, RBTree.delete_tag], hi⟩
      · rw [RBTree.insert_found_deleted t tx k hf (by simpa using hi) h1,
          Transaction.modify_modify]
        refine (h.rewritten _ hlt _ ?_).carried _ _ rfl rfl (Transaction.tags_kept.of_offset _ _)
        intro hc
        simp [TransItem.add_write, TransItem.clear_flags, RBTree.delete_tag, h0f] at hc
    · have h1f : (tx.items (t.find_any k).node).user1 = false := by simpa using h1
      have ho : RBTree.is_inserted (t.version (t.find_any k).node) = true →
          (tx.items (t.find_any k).node).user0 = true := by
        intro hi
        by_contra hc
        exact hret (RBTree.insert_found_phantom t tx k hf hi (by simpa using hc) h1f)
      rw [RBTree.insert_found_plain t tx k hf ho h1f]
      exact h.carried _ _ rfl rfl
        ((Transaction.tags_kept.of_item tx _).then (Transaction.tags_kept.of_read _ _ _))
  · have hf2 : (t.find_any k).found = false := by simpa using hf
    have hp : (t.find_any k).node ≠ 0 →
        RBTree.is_inserted (t.version (t.find_any k).node) = true →
        (tx.items (t.find_any k).node).user0 = true ∨
        (tx.items (t.find_any k).node).user1 = true := by
      intro hx hi
      by_contra hc
      exact hret (RBTree.insert_absent_phantom t tx k hf2 hx hi
        (by simpa using fun h => hc (Or.inl h)) (by simpa using fun h => hc (Or.inr h)))
    rw [RBTree.insert_absent_path t tx k hf2 hp]
    simp only []
    have hpk : tx.tags_kept (if (t.find_any k).node = 0 then tx
        else tx.item (t.find_any k).node) := by
      split
      · exact Transaction.tags_kept.same tx
      · exact Transaction.tags_kept.of_item tx _
    generalize (if (t.find_any k).node = 0 then tx else tx.item (t.find_any k).node) = txp
      at hpk ⊢
    have htop := hwf.top
    have hn2 : t.lock_tree.heap_top ≠ RBTree.size_key_ := by
      simp only [RBTree.heap_top_lock_tree, RBTree.size_key_]; omega
    obtain ⟨hoth, hnew⟩ := RBTree.insert_absent_tags t.lock_tree txp (t.find_any k).node k
    obtain ⟨n0, n1, _⟩ := hnew hn2
    simp only [RBTree.heap_top_lock_tree] at hoth n0 n1
    have hunused := h.unused t.heap_top (Nat.le_refl _)
    constructor
    · intro j h0
      rw [RBTree.insert_absent_version, RBTree.version_lock_tree, RBTree.heap_top_lock_tree]
      by_cases hj : j = t.heap_top
      · subst hj
        rw [n1, (hpk _).2.1, Function.update_same]
        exact ⟨hunused.2, by decide⟩
      · rw [(hoth j hj).1, (hpk j).1] at h0
        rw [(hoth j hj).2.1, (hpk j).2.1, Function.update_noteq hj]
        exact h.excl j h0
    · intro j hj
      rw [RBTree.insert_absent_heap_top, RBTree.heap_top_lock_tree] at hj
      have hne : j ≠ t.heap_top := by omega
      rw [(hoth j hne).1, (hoth j hne).2.1, (hpk j).1, (hpk j).2.1]
      exact h.unused j (by omega)

/-- The tags through a returning read of `tree[k]`. -/
theorem RBTree.exclusive.after_read {t : RBTree} {tx : Transaction}
    (h : RBTree.exclusive t tx) (hwf : t.wf) (k : Int) (hret : (t.read tx k).1 ≠ none) :
    RBTree.exclusive (t.read tx k).2.1 (t.read tx k).2.2 := by
  have hins : (t.insert tx k).1 ≠ none := by
    intro e
    exact hret (RBTree.read_of_insert_none t tx k e)
  have hl := h.after_insert hwf k hins
  unfold RBTree.read RBTree.operator_index at hret ⊢
  generalize t.insert tx k = x at hins hl hret
  obtain ⟨r, t1, tx1⟩ := x
  cases r with
  | none => exact absurd rfl hins
  | some n =>
    simp only [] at hl hret ⊢
    have hres : (RBTree.proxy_read t1 tx1 n).2 = (t1, tx1.item n) := by
      unfold RBTree.proxy_read at hret ⊢
      simp only [] at hret ⊢
      split_ifs at hret ⊢
      · rfl
      · exact absurd rfl hret
      · rfl
    rw [hres]
    exact hl.carried _ _ rfl rfl (Transaction.tags_kept.of_item tx1 n)

/-- The tags through a returning `tree[k] = v`. -/
theorem RBTree.exclusive.after_assign {t : RBTree} {tx : Transaction}
    (h : RBTree.exclusive t tx) (hwf : t.wf) (k v : Int) (hret : (t.assign tx k v).1 ≠ none) :
    RBTree.exclusive (t.assign tx k v).2.1 (t.assign tx k v).2.2 := by
  have hins : (t.insert tx k).1 ≠ none := by
    intro e
    exact hret (RBTree.assign_of_insert_none t tx k v e)
  have hl := h.after_insert hwf k hins
  unfold RBTree.assign RBTree.operator_index
  generalize t.insert tx k = x at hins hl
  obtain ⟨r, t1, tx1⟩ := x
  cases r with
  | none => exact absurd rfl hins
  | some n =>
    simp only [RBTree.proxy_assign] at hl ⊢
    exact hl.carried _ _ rfl rfl
      ((Transaction.tags_kept.of_item tx1 n).then (Transaction.tags_kept.of_write _ _ _))

/-- The tags through any returning call. -/
theorem RBTree.exclusive.after_run {t : RBTree} {tx : Transaction}
    (h : RBTree.exclusive t tx) (hwf : t.wf) (op : Op) (hret : (t.run tx op).1 ≠ none) :
    RBTree.exclusive (t.run tx op).2.1 (t.run tx op).2.2 := by
  cases op with
  | count k =>
    exact h.after_count k (by intro e; apply hret; simp [RBTree.run, e])
  | read k => exact h.after_read hwf k hret
  | assign k v =>
    exact h.after_assign hwf k v (by intro e; apply hret; simp [RBTree.run, e])
  | erase k =>
    exact h.after_erase hwf k (by intro e; apply hret; simp [RBTree.run, e])

/-- The tags along a sequence of returning calls, on any well-formed tree. -/
theorem RBTree.exclusive.after_run_ops (ops : List Op) :
    ∀ (t : RBTree) (tx : Transaction) (u : RBTree) (ux : Transaction), t.wf → tx.tidy →
      RBTree.exclusive t tx → t.run_ops tx ops = some (u, ux) →
      u.wf ∧ ux.tidy ∧ RBTree.exclusive u ux := by
  induction ops with
  | nil =>
    intro t tx u ux hwf htd h he
    simp only [RBTree.run_ops, Option.some.injEq, Prod.mk.injEq] at he
    obtain ⟨rfl, rfl⟩ := he
    exact ⟨hwf, htd, h⟩
  | cons op ops ih =>
    intro t tx u ux hwf htd h he
    obtain ⟨h1, h2⟩ := RBTree.run_ops_cons t tx op ops _ he
    obtain ⟨a, b, _, _⟩ := RBTree.step_run t tx op hwf htd h1
    exact ih _ _ u ux a b (h.after_run hwf op h1) h2

/-- Insert, erase and insert again of an absent key by a fresh transaction, on any
well-formed tree in which the insertion parent of the key is committed: the three calls
return, the key's node is the fresh node throughout, and its item carries `insert_tag`
only, then `delete_tag` only, then `insert_tag` only. -/
theorem RBTree.insert_erase_insert (t : RBTree) (hwf : t.wf) (k v v2 : Int)
    (hk : (t.find_any k).found = false)
    (hp : (t.find_any k).node ≠ 0 →
      RBTree.is_inserted (t.version (t.find_any k).node) = false) :
    ∃ t1 tx1 t2 tx2 t3 tx3,
      t.assign Transaction.start k v = (some (), t1, tx1) ∧
      t1.erase tx1 k = (some 1, t2, tx2) ∧
      t2.assign tx2 k v2 = (some (), t3, tx3) ∧
      (t1.find_any k).found = true ∧ (t1.find_any k).node = t.heap_top ∧
      t2.find_any k = t1.find_any k ∧ t3.find_any k = t1.find_any k ∧
      ((tx1.items t.heap_top).user0 = true ∧ (tx1.items t.heap_top).user1 = false) ∧
      ((tx2.items t.heap_top).user0 = false ∧ (tx2.items t.heap_top).user1 = true) ∧
      ((tx3.items t.heap_top).user0 = true ∧ (tx3.items t.heap_top).user1 = false) := by
  have hp2 : (t.find_any k).node ≠ 0 →
      RBTree.is_inserted (t.version (t.find_any k).node) = true →
      (Transaction.start.items (t.find_any k).node).user0 = true ∨
      (Transaction.start.items (t.find_any k).node).user1 = true := by
    intro hx hi
    rw [hp hx] at hi
    exact Bool.noConfusion hi
  obtain ⟨a1, a2, a3, _, _⟩ := RBTree.assign_absent t Transaction.start k v hk hp2
  have hwfl : t.lock_tree.wf := ⟨hwf.sorted, hwf.alloc, hwf.top⟩
  obtain ⟨_, s2, s3, _⟩ := RBTree.insert_absent_spec t.lock_tree
    (if (t.find_any k).node = 0 then Transaction.start
      else Transaction.start.item (t.find_any k).node) k hwfl (by simpa using hk)
  simp only [RBTree.find_any_lock_tree, RBTree.heap_top_lock_tree] at s2 s3
  rw [← a2] at s2 s3
  have hfr : (if (t.find_any k).node = 0 then Transaction.start
      else Transaction.start.item (t.find_any k).node).items t.heap_top = {} := by
    split <;> rfl
  have i1 : (t.assign Transaction.start k v).2.2.items t.heap_top =
      { has_write := true, write_value := v, user0 := true } := by
    rw [a3]
    have := RBTree.insert_absent_item t.lock_tree _ (t.find_any k).node k hwf.top hfr
    simp only [RBTree.heap_top_lock_tree] at this
    simp [this, TransItem.add_write]
  have hv : (t.assign Transaction.start k v).2.1.version t.heap_top = 10 := by
    rw [a2, RBTree.insert_absent_version]; simp
  generalize t.assign Transaction.start k v = x at a1 s2 s3 i1 hv
  obtain ⟨r1, t1, tx1⟩ := x
  simp only [] at a1 s2 s3 i1 hv
  subst a1
  have hi : RBTree.is_inserted (t1.version (t1.find_any k).node) = true := by
    rw [s3, hv]; decide
  have he := RBTree.erase_own_insert t1 tx1 k s2 hi (by rw [s3, i1])
  rw [s3] at he
  have hk2 := Transaction.tags_kept.of_offset
    ((tx1.item t.heap_top).modify t.heap_top
      (fun it => ((it.add_write 0).clear_flags RBTree.insert_tag).add_flags RBTree.delete_tag))
    (-1)
  generalize RBTree.change_size_offset
    ((tx1.item t.heap_top).modify t.heap_top
      (fun it => ((it.add_write 0).clear_flags RBTree.insert_tag).add_flags RBTree.delete_tag))
    (-1) = tx2 at he hk2
  have j0 : (tx2.items t.heap_top).user0 = false := by
    rw [(hk2 _).1, Transaction.items_modify_same]
    simp [TransItem.add_write, TransItem.clear_flags, TransItem.add_flags, RBTree.insert_tag,
      RBTree.delete_tag]
  have j1 : (tx2.items t.heap_top).user1 = true := by
    rw [(hk2 _).2.1, Transaction.items_modify_same]
    simp [TransItem.add_write, TransItem.clear_flags, TransItem.add_flags, RBTree.insert_tag,
      RBTree.delete_tag]
  have hf3 : (t1.lock_tree.unlock_tree.find_any k).found = true := s2
  have hn3 : (t1.lock_tree.unlock_tree.find_any k).node = t.heap_top := s3
  have hins := RBTree.insert_found_own_deleted t1.lock_tree.unlock_tree tx2 k hf3
    (by rw [hn3]; exact (by rw [← s3]; exact hi)) (by rw [hn3]; exact j1)
  rw [hn3] at hins
  have hk3 := Transaction.tags_kept.of_offset
    ((((tx2.item t.heap_top).modify t.heap_top
      (fun it => it.clear_flags RBTree.delete_tag)).modify t.heap_top
      (fun it => it.add_flags RBTree.insert_tag)).modify t.heap_top
      (fun it => it.add_write 0)) 1
  generalize RBTree.change_size_offset
    ((((tx2.item t.heap_top).modify t.heap_top
      (fun it => it.clear_flags RBTree.delete_tag)).modify t.heap_top
      (fun it => it.add_flags RBTree.insert_tag)).modify t.heap_top
      (fun it => it.add_write 0)) 1 = tx3 at hins hk3
  have m0 : (tx3.items t.heap_top).user0 = true := by
    rw [(hk3 _).1]
    simp [TransItem.add_write, TransItem.clear_flags, TransItem.add_flags, RBTree.insert_tag,
      RBTree.delete_tag]
  have m1 : (tx3.items t.heap_top).user1 = false := by
    rw [(hk3 _).2.1]
    simp [TransItem.add_write, TransItem.clear_flags, TransItem.add_flags, RBTree.insert_tag,
      RBTree.delete_tag]
  have hasg : RBTree.assign t1.lock_tree.unlock_tree tx2 k v2
      = (some (), (t1.lock_tree.unlock_tree.lock_tree.set_value t.heap_top 0).unlock_tree,
          (tx3.item t.heap_top).modify t.heap_top (fun it => it.add_write v2)) := by
    unfold RBTree.assign RBTree.operator_index
    rw [hins]
    rfl
  refine ⟨t1, tx1, _, tx2, _, _, rfl, he, hasg, s2, s3, rfl, rfl, ?_, ⟨j0, j1⟩, ?_⟩
  · rw [i1]; exact ⟨rfl, rfl⟩
  · rw [Transaction.items_modify_same, Transaction.items_item]
    exact ⟨by simpa [TransItem.add_write] using m0, by simpa [TransItem.add_write] using m1⟩

/-! ## The MVCC registry -/

theorem MvRegistry.collect_garbage__enable_gc (cycles index rtid_inf : Nat) (b : Bool)
    (s : MvRegistry.State) :
    (MvRegistry.collect_garbage_ cycles index rtid_inf b s).enable_gc = s.enable_gc := by
  unfold MvRegistry.collect_garbage_
  simp only []
  split_ifs <;> simp [MvRegistry.stop_, MvRegistry.flatten_, MvRegistry.collect_]

/-- What one call of `collect_garbage_` does, path by path. -/
theorem MvRegistry.collect_garbage__eq (cycles index rtid_inf : Nat) (b : Bool)
    (s : MvRegistry.State) (hr : s.is_running < 2 ^ 64) :
    MvRegistry.collect_garbage_ cycles index rtid_inf b s
      = { s with
          is_stopping := s.is_stopping || b
          calls := s.calls ++ MvRegistry.Call.collect_garbage_ index ::
            (if s.is_stopping || b then []
             else if cycles % 10 = 0 then
               [MvRegistry.Call.flatten_ index rtid_inf, MvRegistry.Call.collect_ index rtid_inf]
             else [MvRegistry.Call.collect_ index rtid_inf]) } := by
  unfold MvRegistry.collect_garbage_
  cases hs : s.is_stopping
  · cases b
    · by_cases hc : cycles % 10 = 0
      · simp [hs, hc, MvRegistry.stop_, MvRegistry.flatten_, MvRegistry.collect_,
          MvRegistry.CYCLE_LENGTH, MvRegistry.GC_PER_FLATTEN]
        omega
      · simp [hs, hc, MvRegistry.stop_, MvRegistry.flatten_, MvRegistry.collect_,
          MvRegistry.CYCLE_LENGTH, MvRegistry.GC_PER_FLATTEN]
        omega
    · simp [hs, MvRegistry.stop_]
      omega
  · simp [hs]

/-- With garbage collection enabled a thread's counter advances by one per call. -/
theorem MvRegistry.collect_garbage_calls_cycles (visits : List MvRegistry.Visit) :
    ∀ (cycles : Nat) (s : MvRegistry.State), s.enable_gc = true →
      cycles + visits.length < 2 ^ 64 →
      (MvRegistry.collect_garbage_calls visits cycles s).1 = cycles + visits.length ∧
      (MvRegistry.collect_garbage_calls visits cycles s).2.enable_gc = true := by
  induction visits with
  | nil => intro cycles s h _; exact ⟨rfl, h⟩
  | cons v rest ih =>
    intro cycles s h hb
    rw [List.length_cons] at hb
    have h1 : (MvRegistry.collect_garbage v.index v.rtid_inf v.stop_arrives cycles s).1
        = cycles + 1 := by
      unfold MvRegistry.collect_garbage
      rw [if_pos h]
      have : (cycles + 1) % 2 ^ 64 = cycles + 1 := Nat.mod_eq_of_lt (by omega)
      simp only [this]
      split <;> rfl
    have h2 : (MvRegistry.collect_garbage v.index v.rtid_inf v.stop_arrives cycles s).2.enable_gc
        = true := by
      unfold MvRegistry.collect_garbage
      rw [if_pos h]
      simp only []
      split
      · rw [MvRegistry.collect_garbage__enable_gc]; exact h
      · exact h
    obtain ⟨a, b⟩ := ih (MvRegistry.collect_garbage v.index v.rtid_inf v.stop_arrives cycles s).1
      (MvRegistry.collect_garbage v.index v.rtid_inf v.stop_arrives cycles s).2 h2
      (by rw [h1]; omega)
    rw [MvRegistry.collect_garbage_calls, List.length_cons]
    exact ⟨by rw [a, h1]; omega, b⟩

theorem MvRegistry.collect_garbage_calls_append (l1 l2 : List MvRegistry.Visit) :
    ∀ (cycles : Nat) (s : MvRegistry.State),
      MvRegistry.collect_garbage_calls (l1 ++ l2) cycles s
        = MvRegistry.collect_garbage_calls l2
            (MvRegistry.collect_garbage_calls l1 cycles s).1
            (MvRegistry.collect_garbage_calls l1 cycles s).2 := by
  induction l1 with
  | nil => intro cycles s; rfl
  | cons v rest ih =>
    intro cycles s
    simp only [List.cons_append, MvRegistry.collect_garbage_calls]
    exact ih _ _

/-- With garbage collection disabled the calls change nothing. -/
theorem MvRegistry.collect_garbage_calls_disabled (visits : List MvRegistry.Visit) :
    ∀ (cycles : Nat) (s : MvRegistry.State), s.enable_gc = false →
      MvRegistry.collect_garbage_calls visits cycles s = (cycles, s) := by
  induction visits with
  | nil => intro cycles s _; rfl
  | cons v rest ih =>
    intro cycles s h
    have h1 : MvRegistry.collect_garbage v.index v.rtid_inf v.stop_arrives cycles s
        = (cycles, s) := by
      unfold MvRegistry.collect_garbage
      rw [h]
      rfl
    rw [MvRegistry.collect_garbage_calls, h1]
    exact ih cycles s h

/-- The counter `is_running` stays a `size_t` and a set `is_stopping` stays set. -/
theorem MvRegistry.collect_garbage_calls_frame (visits : List MvRegistry.Visit) :
    ∀ (cycles : Nat) (s : MvRegistry.State), s.is_running < 2 ^ 64 →
      (MvRegistry.collect_garbage_calls visits cycles s).2.is_running = s.is_running ∧
      (s.is_stopping = true →
        (MvRegistry.collect_garbage_calls visits cycles s).2.is_stopping = true ∧
        ∀ c ∈ (MvRegistry.collect_garbage_calls visits cycles s).2.calls,
          c ∈ s.calls ∨ ∃ i, c = MvRegistry.Call.collect_garbage_ i) := by
  induction visits with
  | nil =>
    intro cycles s _
    exact ⟨rfl, fun h => ⟨h, fun c hc => Or.inl hc⟩⟩
  | cons v rest ih =>
    intro cycles s hr
    have hstep : (MvRegistry.collect_garbage v.index v.rtid_inf v.stop_arrives cycles s).2
          = s ∨
        (MvRegistry.collect_garbage v.index v.rtid_inf v.stop_arrives cycles s).2
          = MvRegistry.collect_garbage_ ((cycles + 1) % 2 ^ 64) v.index v.rtid_inf
              v.stop_arrives s := by
      unfold MvRegistry.collect_garbage
      simp only []
      split_ifs
      · exact Or.inr rfl
      · exact Or.inl rfl
      · exact Or.inl rfl
    rw [MvRegistry.collect_garbage_calls]
    rcases hstep with e | e
    · rw [e]
      exact ih _ s hr
    · rw [e, MvRegistry.collect_garbage__eq _ _ _ _ s hr]
      obtain ⟨a, b⟩ := ih
        (MvRegistry.collect_garbage v.index v.rtid_inf v.stop_arrives cycles s).1
        ({ s with
          is_stopping := s.is_stopping || v.stop_arrives
          calls := s.calls ++ MvRegistry.Call.collect_garbage_ v.index ::
            (if s.is_stopping || v.stop_arrives then []
             else if (cycles + 1) % 2 ^ 64 % 10 = 0 then
               [MvRegistry.Call.flatten_ v.index v.rtid_inf,
                MvRegistry.Call.collect_ v.index v.rtid_inf]
             else [MvRegistry.Call.collect_ v.index v.rtid_inf]) } : MvRegistry.State) hr
      refine ⟨a, ?_⟩
      intro hs
      obtain ⟨b1, b2⟩ := b (by simp [hs])
      refine ⟨b1, ?_⟩
      intro c hc
      rcases b2 c hc with h1 | h1
      · simp only [hs, Bool.true_or, if_true, List.mem_append, List.mem_singleton] at h1
        rcases h1 with h1 | h1
        · exact Or.inl h1
        · exact Or.inr ⟨_, h1⟩
      · exact Or.inr h1


/-! ## Nodeversion words and their copies have the lowest bit clear -/

theorem and_one_eq_mod (j : Nat) : j &&& 1 = j % 2 := by
  rw [Nat.and_comm]
  exact Nat.one_and_eq_mod_two j

theorem RBTree.nodeversions_even_empty : RBTree.empty.nodeversions_even := fun _ => rfl

theorem RBTree.nodeversions_even.even_of_eq {t : RBTree} (h : t.nodeversions_even) (t2 : RBTree)
    (e : t2.nodeversion = t.nodeversion) : t2.nodeversions_even := by
  intro n
  rw [e]
  exact h n

theorem RBTree.nodeversions_even.even_inc {t : RBTree} (h : t.nodeversions_even) (n : Nat) :
    (t.inc_nodeversion n).2.nodeversions_even := by
  intro m
  show Function.update t.nodeversion n
    ((t.nodeversion n + TransactionTid.increment_value) % TransactionTid.word) m % 2 = 0
  by_cases hm : m = n
  · subst hm
    rw [Function.update_same]
    have := h m
    simp only [TransactionTid.increment_value, TransactionTid.word]
    omega
  · rw [Function.update_noteq hm]
    exact h m

theorem RBTree.nodeversions_even.even_insert_absent {t : RBTree} (h : t.nodeversions_even)
    (tx : Transaction) (p : Nat) (k : Int) :
    (t.insert_absent tx p k).2.1.nodeversions_even := by
  have h1 : ({ t with heap_top := t.heap_top + 8,
                      key := Function.update t.key t.heap_top k,
                      value := Function.update t.value t.heap_top 0,
                      version := Function.update t.version t.heap_top
                        (TransactionTid.increment_value + RBTree.insert_bit),
                      nodeversion := Function.update t.nodeversion t.heap_top 0 } :
      RBTree).nodeversions_even := by
    intro m
    show Function.update t.nodeversion t.heap_top 0 m % 2 = 0
    by_cases hm : m = t.heap_top
    · rw [hm, Function.update_same]
    · rw [Function.update_noteq hm]; exact h m
  unfold RBTree.insert_absent
  simp only []
  split
  · exact h1.even_of_eq _ rfl
  · exact (RBTree.nodeversions_even.even_inc (h1.even_of_eq _ rfl) p).even_of_eq _ rfl

theorem RBTree.nodeversions_even.even_cleanup {t : RBTree} (h : t.nodeversions_even)
    (k : Nat) (it : TransItem) (c : Bool) : (t.cleanup k it c).nodeversions_even := by
  unfold RBTree.cleanup
  simp only []
  split_ifs
  all_goals first
    | exact h
    | exact RBTree.nodeversions_even.even_inc (h.even_of_eq _ rfl) k

theorem RBTree.nodeversions_even.even_install {t : RBTree} (h : t.nodeversions_even)
    (k : Nat) (it : TransItem) : (t.install k it).nodeversions_even := by
  rw [RBTree.install_eq]
  split_ifs
  · exact h.even_of_eq _ rfl
  · exact h.even_of_eq _ rfl
  · exact RBTree.nodeversions_even.even_inc (h.even_of_eq _ rfl) k
  · exact h.even_of_eq _ rfl
  · exact h.even_of_eq _ rfl

theorem RBTree.nodeversions_even.even_lock {t : RBTree} (h : t.nodeversions_even)
    (k : Nat) : (t.lock k).nodeversions_even := by
  unfold RBTree.lock
  split_ifs <;> exact h.even_of_eq _ rfl

theorem RBTree.nodeversions_even.even_unlock {t : RBTree} (h : t.nodeversions_even)
    (k : Nat) : (t.unlock k).nodeversions_even := by
  unfold RBTree.unlock
  split_ifs <;> exact h.even_of_eq _ rfl

theorem Sto.abort_nodeversions_even (t : RBTree) (tx : Transaction)
    (h : t.nodeversions_even) : (Sto.abort t tx).nodeversions_even := by
  unfold Sto.abort
  simp only []
  refine foldl_inv _ RBTree.nodeversions_even _ _ ?_ (fun s k _ hs => hs.even_unlock k)
  exact foldl_inv _ RBTree.nodeversions_even _ _ h
    (fun s k _ hs => hs.even_cleanup k _ false)

theorem Sto.try_commit_nodeversions_even (t : RBTree) (tx : Transaction)
    (h : t.nodeversions_even) : (Sto.try_commit t tx).2.nodeversions_even := by
  have hl : (Sto.lock_phase t tx).1.nodeversions_even :=
    h.even_of_eq _ (Sto.lock_phase_nodeversion t tx)
  unfold Sto.try_commit
  simp only []
  split_ifs
  · refine foldl_inv _ RBTree.nodeversions_even _ _ ?_
      (fun s k _ hs => hs.even_cleanup k _ true)
    unfold Sto.unlock_phase
    refine foldl_inv _ RBTree.nodeversions_even _ _ ?_ (fun s k _ hs => hs.even_unlock k)
    unfold Sto.install_phase
    exact foldl_inv _ RBTree.nodeversions_even _ _ hl
      (fun s k _ hs => hs.even_install k _)
  · exact Sto.abort_nodeversions_even _ _ hl

theorem Transaction.reads_even_start : Transaction.start.nodeversion_reads_even :=
  fun _ _ _ => rfl

theorem Transaction.nodeversion_reads_even.reads_even_item {tx : Transaction} (h : tx.nodeversion_reads_even)
    (j : Nat) : (tx.item j).nodeversion_reads_even := by
  intro i h1 h2
  rw [Transaction.items_item]
  exact h i h1 h2

/-- Rewriting one item keeps the copies even when the key is not a nodeversion key or the
new read version is even. -/
theorem Transaction.nodeversion_reads_even.reads_even_modify {tx : Transaction} (h : tx.nodeversion_reads_even)
    (j : Nat) (f : TransItem → TransItem)
    (hf : j &&& 1 ≠ 0 → j ≠ RBTree.tree_key_ → (f (tx.items j)).read_value % 2 = 0) :
    (tx.modify j f).nodeversion_reads_even := by
  intro i h1 h2
  by_cases hi : i = j
  · subst hi
    rw [Transaction.items_modify_same]
    exact hf h1 h2
  · rw [Transaction.items_modify_ne _ _ _ _ hi]
    exact h i h1 h2

theorem Transaction.nodeversion_reads_even.reads_even_node {tx : Transaction} (h : tx.nodeversion_reads_even)
    (j : Nat) (hj : j % 2 = 0) (f : TransItem → TransItem) :
    (tx.modify j f).nodeversion_reads_even :=
  h.reads_even_modify j f (fun h1 => absurd (by rw [and_one_eq_mod]; exact hj) h1)

theorem Transaction.nodeversion_reads_even.reads_even_offset {tx : Transaction} (h : tx.nodeversion_reads_even)
    (d : Int) : (RBTree.change_size_offset tx d).nodeversion_reads_even := by
  rw [RBTree.change_size_offset_eq]
  exact (h.reads_even_item _).reads_even_node _ (by decide) _

theorem Transaction.nodeversion_reads_even.reads_even_track {tx : Transaction} (h : tx.nodeversion_reads_even)
    (t : RBTree) (ht : t.nodeversions_even) (n : Nat) :
    (t.track_boundary tx n).nodeversion_reads_even := by
  unfold RBTree.track_boundary
  split
  · apply (h.reads_even_item _).reads_even_modify
    intro h1 h2
    rw [TransItem.add_read_read_value, Transaction.items_item]
    split
    · exact h _ h1 h2
    · exact ht n
  · exact h

theorem RBTree.reads_even_insert_absent (t : RBTree) (tx : Transaction) (p : Nat) (k : Int)
    (ht : t.nodeversions_even) (h : tx.nodeversion_reads_even)
    (htop : t.heap_top % 2 = 0) :
    (t.insert_absent tx p k).2.2.nodeversion_reads_even := by
  rw [RBTree.insert_absent_tx]
  apply Transaction.nodeversion_reads_even.reads_even_offset
  apply Transaction.nodeversion_reads_even.reads_even_node _ _ htop
  apply Transaction.nodeversion_reads_even.reads_even_item
  split
  · exact (h.reads_even_item _).reads_even_modify _ _ (fun _ h2 => absurd rfl h2)
  · apply (h.reads_even_item _).reads_even_modify
    intro h1 h2
    rw [TransItem.update_read_read_value, Transaction.items_item]
    split
    · have hp : Function.update t.nodeversion t.heap_top 0 p % 2 = 0 := by
        by_cases e : p = t.heap_top
        · rw [e, Function.update_same]
        · rw [Function.update_noteq e]; exact ht p
      omega
    · exact h _ h1 h2

/-- The words and the copies through a returning `count`. -/
theorem RBTree.even_after_count (t : RBTree) (tx : Transaction) (hwf : t.wf)
    (ht : t.nodeversions_even) (h : tx.nodeversion_reads_even) (k : Int)
    (hret : (t.count tx k).1 ≠ none) :
    (t.count tx k).2.1.nodeversions_even ∧ (t.count tx k).2.2.nodeversion_reads_even := by
  by_cases hf : (t.find_any k).found = true
  · obtain ⟨_, _, _, h8, _⟩ := RBTree.wf.found t hwf k hf
    by_cases hi : RBTree.is_inserted (t.version (t.find_any k).node) = true
    · by_cases ho : (tx.items (t.find_any k).node).user0 = true ∨
          (tx.items (t.find_any k).node).user1 = true
      · rw [RBTree.count_own t tx k hf hi ho]
        exact ⟨ht.even_of_eq _ rfl, h.reads_even_item _⟩
      · exact absurd (RBTree.count_phantom t tx k hf hi (by simpa using fun h => ho (Or.inl h))
          (by simpa using fun h => ho (Or.inr h))) hret
    · rw [RBTree.count_committed t tx k hf (by simpa using hi)]
      have h2 : (t.find_any k).node % 2 = 0 := by omega
      simp only []
      refine ⟨ht.even_of_eq _ rfl, ?_⟩
      exact Transaction.nodeversion_reads_even.reads_even_node (h.reads_even_item _) _ h2 _
  · have hf2 : (t.find_any k).found = false := by simpa using hf
    rw [RBTree.count_absent t tx k hf2]
    have hfoa := RBTree.foa_absent_read t.lock_tree tx k (by simpa using hf2)
    simp only [RBTree.find_any_lock_tree, RBTree.treeversion_lock_tree,
      RBTree.track_boundary_lock_tree] at hfoa
    rw [hfoa]
    refine ⟨ht.even_of_eq _ rfl, ?_⟩
    apply Transaction.nodeversion_reads_even.reads_even_track _ _ ht
    apply Transaction.nodeversion_reads_even.reads_even_track _ _ ht
    split
    · exact (h.reads_even_item _).reads_even_modify _ _ (fun _ h2 => absurd rfl h2)
    · exact h

/-- The words and the copies through a returning `erase`. -/
theorem RBTree.even_after_erase (t : RBTree) (tx : Transaction) (hwf : t.wf)
    (ht : t.nodeversions_even) (h : tx.nodeversion_reads_even) (k : Int)
    (hret : (t.erase tx k).1 ≠ none) :
    (t.erase tx k).2.1.nodeversions_even ∧ (t.erase tx k).2.2.nodeversion_reads_even := by
  by_cases hf : (t.find_any k).found = true
  · obtain ⟨_, _, _, h8, _⟩ := RBTree.wf.found t hwf k hf
    have h2 : (t.find_any k).node % 2 = 0 := by omega
    by_cases hi : RBTree.is_inserted (t.version (t.find_any k).node) = true
    · by_cases h0 : (tx.items (t.find_any k).node).user0 = true
      · rw [RBTree.erase_own_insert t tx k hf hi h0]
        exact ⟨ht.even_of_eq _ rfl,
          ((h.reads_even_item _).reads_even_node _ h2 _).reads_even_offset _⟩
      · have h0f : (tx.items (t.find_any k).node).user0 = false := by simpa using h0
        by_cases h1 : (tx.items (t.find_any k).node).user1 = true
        · rw [RBTree.erase_own_deleted t tx k hf hi h0f h1]
          exact ⟨ht.even_of_eq _ rfl, h.reads_even_item _⟩
        · exact absurd (RBTree.erase_phantom t tx k hf hi h0f (by simpa using h1)) hret
    · have hi2 : RBTree.is_inserted (t.version (t.find_any k).node) = false := by
        simpa using hi
      by_cases h1 : (tx.items (t.find_any k).node).user1 = true
      · rw [RBTree.erase_deleted t tx k hf hi2 h1]
        simp only []
        refine ⟨ht.even_of_eq _ rfl, ?_⟩
        exact Transaction.nodeversion_reads_even.reads_even_node (h.reads_even_item _) _ h2 _
      · rw [RBTree.erase_committed t tx k hf hi2 (by simpa using h1)]
        exact ⟨ht.even_of_eq _ rfl,
          ((((h.reads_even_item _).reads_even_node _ h2 _).reads_even_node _ h2
            _)).reads_even_offset _⟩
  · have hf2 : (t.find_any k).found = false := by simpa using hf
    rw [RBTree.erase_absent t tx k hf2]
    have hfoa := RBTree.foa_absent_read t.lock_tree tx k (by simpa using hf2)
    simp only [RBTree.find_any_lock_tree, RBTree.treeversion_lock_tree,
      RBTree.track_boundary_lock_tree] at hfoa
    rw [hfoa]
    refine ⟨ht.even_of_eq _ rfl, ?_⟩
    apply Transaction.nodeversion_reads_even.reads_even_track _ _ ht
    apply Transaction.nodeversion_reads_even.reads_even_track _ _ ht
    split
    · exact (h.reads_even_item _).reads_even_modify _ _ (fun _ h2 => absurd rfl h2)
    · exact h

/-- The words and the copies through a returning `insert`. -/
theorem RBTree.even_after_insert (t : RBTree) (tx : Transaction) (hwf : t.wf)
    (ht : t.nodeversions_even) (h : tx.nodeversion_reads_even) (k : Int)
    (hret : (t.insert tx k).1 ≠ none) :
    (t.insert tx k).2.1.nodeversions_even ∧ (t.insert tx k).2.2.nodeversion_reads_even := by
  by_cases hf : (t.find_any k).found = true
  · obtain ⟨_, _, _, h8, _⟩ := RBTree.wf.found t hwf k hf
    have h2 : (t.find_any k).node % 2 = 0 := by omega
    by_cases h1 : (tx.items (t.find_any k).node).user1 = true
    · by_cases hi : RBTree.is_inserted (t.version (t.find_any k).node) = true
      · rw [RBTree.insert_found_own_deleted t tx k hf hi h1]
        exact ⟨ht.even_of_eq _ rfl,
          (((((h.reads_even_item _).reads_even_node _ h2 _).reads_even_node _ h2
            _)).reads_even_node _ h2 _).reads_even_offset _⟩
      · rw [RBTree.insert_found_deleted t tx k hf (by simpa using hi) h1]
        exact ⟨ht.even_of_eq _ rfl,
          ((((h.reads_even_item _).reads_even_node _ h2 _).reads_even_node _ h2
            _)).reads_even_offset _⟩
    · have h1f : (tx.items (t.find_any k).node).user1 = false := by simpa using h1
      have ho : RBTree.is_inserted (t.version (t.find_any k).node) = true →
          (tx.items (t.find_any k).node).user0 = true := by
        intro hi
        by_contra hc
        exact hret (RBTree.insert_found_phantom t tx k hf hi (by simpa using hc) h1f)
      rw [RBTree.insert_found_plain t tx k hf ho h1f]
      simp only []
      refine ⟨ht.even_of_eq _ rfl, ?_⟩
      exact Transaction.nodeversion_reads_even.reads_even_node (h.reads_even_item _) _ h2 _
  · have hf2 : (t.find_any k).found = false := by simpa using hf
    have hp : (t.find_any k).node ≠ 0 →
        RBTree.is_inserted (t.version (t.find_any k).node) = true →
        (tx.items (t.find_any k).node).user0 = true ∨
        (tx.items (t.find_any k).node).user1 = true := by
      intro hx hi
      by_contra hc
      exact hret (RBTree.insert_absent_phantom t tx k hf2 hx hi
        (by simpa using fun h => hc (Or.inl h)) (by simpa using fun h => hc (Or.inr h)))
    rw [RBTree.insert_absent_path t tx k hf2 hp]
    simp only []
    have htop := hwf.top
    have htl : t.lock_tree.nodeversions_even := ht.even_of_eq t.lock_tree rfl
    refine ⟨RBTree.nodeversions_even.even_insert_absent htl _ _ _,
      RBTree.reads_even_insert_absent _ _ _ _ htl ?_
        (by simp only [RBTree.heap_top_lock_tree]; omega)⟩
    split
    · exact h
    · exact h.reads_even_item _

/-- The words and the copies through a returning read of `tree[k]`. -/
theorem RBTree.even_after_read (t : RBTree) (tx : Transaction) (hwf : t.wf)
    (ht : t.nodeversions_even) (h : tx.nodeversion_reads_even) (k : Int)
    (hret : (t.read tx k).1 ≠ none) :
    (t.read tx k).2.1.nodeversions_even ∧ (t.read tx k).2.2.nodeversion_reads_even := by
  have hins : (t.insert tx k).1 ≠ none := by
    intro e
    exact hret (RBTree.read_of_insert_none t tx k e)
  have hl := RBTree.even_after_insert t tx hwf ht h k hins
  unfold RBTree.read RBTree.operator_index at hret ⊢
  generalize t.insert tx k = x at hins hl hret
  obtain ⟨r, t1, tx1⟩ := x
  cases r with
  | none => exact absurd rfl hins
  | some n =>
    simp only [] at hl hret ⊢
    have hres : (RBTree.proxy_read t1 tx1 n).2 = (t1, tx1.item n) := by
      unfold RBTree.proxy_read at hret ⊢
      simp only [] at hret ⊢
      split_ifs at hret ⊢
      · rfl
      · exact absurd rfl hret
      · rfl
    rw [hres]
    exact ⟨hl.1, hl.2.reads_even_item n⟩

/-- The words and the copies through a returning `tree[k] = v`. -/
theorem RBTree.even_after_assign (t : RBTree) (tx : Transaction) (hwf : t.wf)
    (ht : t.nodeversions_even) (h : tx.nodeversion_reads_even) (k v : Int)
    (hret : (t.assign tx k v).1 ≠ none) :
    (t.assign tx k v).2.1.nodeversions_even ∧
      (t.assign tx k v).2.2.nodeversion_reads_even := by
  have hins : (t.insert tx k).1 ≠ none := by
    intro e
    exact hret (RBTree.assign_of_insert_none t tx k v e)
  have hl := RBTree.even_after_insert t tx hwf ht h k hins
  unfold RBTree.assign RBTree.operator_index
  generalize t.insert tx k = x at hins hl
  obtain ⟨r, t1, tx1⟩ := x
  cases r with
  | none => exact absurd rfl hins
  | some n =>
    simp only [RBTree.proxy_assign] at hl ⊢
    refine ⟨hl.1, (hl.2.reads_even_item n).reads_even_modify _ _ ?_⟩
    intro h1 h2
    rw [Transaction.items_item]
    exact hl.2 n h1 h2

/-- The words and the copies through any returning call. -/
theorem RBTree.even_after_run (t : RBTree) (tx : Transaction) (hwf : t.wf)
    (ht : t.nodeversions_even) (h : tx.nodeversion_reads_even) (op : Op)
    (hret : (t.run tx op).1 ≠ none) :
    (t.run tx op).2.1.nodeversions_even ∧ (t.run tx op).2.2.nodeversion_reads_even := by
  cases op with
  | count k =>
    exact RBTree.even_after_count t tx hwf ht h k (by intro e; apply hret; simp [RBTree.run, e])
  | read k => exact RBTree.even_after_read t tx hwf ht h k hret
  | assign k v =>
    exact RBTree.even_after_assign t tx hwf ht h k v
      (by intro e; apply hret; simp [RBTree.run, e])
  | erase k =>
    exact RBTree.even_after_erase t tx hwf ht h k (by intro e; apply hret; simp [RBTree.run, e])

/-- Along a sequence of returning calls, on any well-formed tree, the tree stays
well-formed, the nodeversion words stay even and every read stored under a nodeversion key
is even. -/
theorem RBTree.even_after_run_ops (ops : List Op) :
    ∀ (t : RBTree) (tx : Transaction) (u : RBTree) (ux : Transaction), t.wf → tx.tidy →
      t.nodeversions_even → tx.nodeversion_reads_even → t.run_ops tx ops = some (u, ux) →
      u.wf ∧ u.nodeversions_even ∧ ux.nodeversion_reads_even := by
  induction ops with
  | nil =>
    intro t tx u ux hwf _ ht h he
    simp only [RBTree.run_ops, Option.some.injEq, Prod.mk.injEq] at he
    obtain ⟨rfl, rfl⟩ := he
    exact ⟨hwf, ht, h⟩
  | cons op ops ih =>
    intro t tx u ux hwf htd ht h he
    obtain ⟨h1, h2⟩ := RBTree.run_ops_cons t tx op ops _ he
    obtain ⟨a, b, _, _⟩ := RBTree.step_run t tx op hwf htd h1
    obtain ⟨c, d⟩ := RBTree.even_after_run t tx hwf ht h op h1
    exact ih _ _ u ux a b c d h2

/-- Every tree that a sequence of transactions executed one after another leaves, starting
from a tree between transactions with even nodeversion words, has even nodeversion
words. -/
theorem RBTree.even_after_serial (txns : List (List Op × Bool)) :
    ∀ (t t1 : RBTree), t.settled → t.nodeversions_even → RBTree.serial txns t = some t1 →
      t1.nodeversions_even := by
  induction txns with
  | nil =>
    intro t t1 _ ht he
    simp only [RBTree.serial, Option.some.injEq] at he
    rw [← he]; exact ht
  | cons txn rest ih =>
    intro t t1 hs ht he
    obtain ⟨t2, e2, s2, _, _⟩ := hs.transact txn
    unfold RBTree.serial at he
    rw [e2] at he
    refine ih t2 t1 s2 ?_ he
    unfold RBTree.transact at e2
    split at e2
    · cases e2
    · rename_i u ux hrun
      obtain ⟨_, hu, _⟩ := RBTree.even_after_run_ops txn.1 t Transaction.start u ux hs.wf
        Transaction.tidy.at_start ht Transaction.reads_even_start hrun
      have e3 : (if txn.2 = true then (Sto.try_commit u ux).2 else Sto.abort u ux) = t2 :=
        Option.some.inj e2
      rw [← e3]
      split
      · exact Sto.try_commit_nodeversions_even u ux hu
      · exact Sto.abort_nodeversions_even u ux hu

/-- The decision of `check` for every key and item: the version word the key designates
is not locked or the item holds the lock, and the read version matches the word, exactly
for a nodeversion key (low bit set, not the tree key) and up to the lock bit for the size
key, the tree key and a node value key. -/
theorem check_iff (t : RBTree) (k : Nat) (it : TransItem) :
    t.check k it = true ↔
      ((if k &&& 1 ≠ 0 ∧ k ≠ RBTree.tree_key_ then it.read_value = designated_version t k
        else (it.read_value ^^^ designated_version t k) ≤ TransactionTid.lock_bit) ∧
       (TransactionTid.is_locked (designated_version t k) = false ∨ it.has_lock = true)) := by
  unfold RBTree.check designated_version
  by_cases h2 : k = RBTree.size_key_
  · subst h2; simp [RBTree.size_key_, RBTree.tree_key_, RBTree.is_locked]
  · by_cases h1 : k = RBTree.tree_key_
    · subst h1; simp [RBTree.size_key_, RBTree.tree_key_, RBTree.is_locked]
    · by_cases h3 : k &&& 1 = 0 <;> simp [h1, h2, h3, RBTree.is_locked]

/-- Two even words are equal exactly when they agree up to the lock bit, so for a
nodeversion word and a copy of one the exact comparison of `check` is the comparison up to
the lock bit. -/
theorem RBTree.check_iff_of_even (t : RBTree) (k : Nat) (it : TransItem)
    (he : k &&& 1 ≠ 0 → k ≠ RBTree.tree_key_ →
      t.nodeversion (k - (k &&& 1)) % 2 = 0 ∧ it.read_value % 2 = 0) :
    t.check k it = true ↔
      (it.read_value ^^^ designated_version t k ≤ TransactionTid.lock_bit ∧
       (TransactionTid.is_locked (designated_version t k) = false ∨ it.has_lock = true)) := by
  rw [check_iff]
  by_cases hk : k &&& 1 ≠ 0 ∧ k ≠ RBTree.tree_key_
  · rw [if_pos hk]
    obtain ⟨a, b⟩ := he hk.1 hk.2
    have hs : k ≠ RBTree.size_key_ := by
      intro e
      apply hk.1
      rw [e]
      decide
    have hd : designated_version t k = t.nodeversion (k - (k &&& 1)) := by
      unfold designated_version
      rw [if_neg hs, if_neg hk.2, if_pos hk.1]
    rw [hd]
    simp only [TransactionTid.lock_bit]
    rw [xor_le_one_iff]
    exact and_congr_left' ⟨fun e => by rw [e], fun e => by omega⟩
  · rw [if_neg hk]

/-! ## The claims -/

theorem reset_tree_wf : reset_tree.wf := ⟨by decide, by decide, by decide⟩

/-- C1, evaluated on the code: the transaction of `reset_tree` runs `tree[1] = 1`,
`tree[2] = 2`, `tree[3] = 3` on the empty tree and commits, and a later transaction that
reads `tree[1]` obtains the default value `0`, not `1`: `install` only clears the insert
bit of an item carrying `insert_tag` and leaves the node's value at the default. -/
theorem install_drops_inserted_payload :
    (Sto.try_commit reset_tree_txn.1 reset_tree_txn.2).1 = true ∧
    (RBTree.read reset_tree Transaction.start 1).1 = some 0 ∧
    (RBTree.count reset_tree Transaction.start 1).1 = some 1 ∧
    reset_tree.value 8 = 0 :=
  ⟨by decide, by decide, by decide, by decide⟩

/-- C5: read-your-writes.  In a well-formed tree, for a transaction that holds no item
for the address the allocator hands out next, once `tree[k] = v` has run (without
aborting), reading `tree[k]` in the same transaction returns `v` and `count(k)` returns
`1`, whether `k` was absent, committed, inserted or erased by the transaction before. -/
theorem read_your_writes (t : RBTree) (tx : Transaction) (k v : Int) (hwf : t.wf)
    (hfresh : tx.items t.heap_top = {}) (h : (t.assign tx k v).1 = some ()) :
    (RBTree.read (t.assign tx k v).2.1 (t.assign tx k v).2.2 k).1 = some v ∧
    (RBTree.count (t.assign tx k v).2.1 (t.assign tx k v).2.2 k).1 = some 1 := by
  obtain ⟨hf, ho, h1, hw, hv⟩ := RBTree.assign_post t tx k v hwf hfresh h
  constructor
  · rw [RBTree.read_written _ _ k hf ho h1 hw, hv]
  · exact RBTree.count_visible _ _ k hf ho h1

theorem read_your_writes_witness :
    reset_tree.wf ∧ Transaction.start.items reset_tree.heap_top = {} ∧
    (reset_tree.assign Transaction.start 4 44).1 = some () ∧
    (RBTree.read (reset_tree.assign Transaction.start 4 44).2.1
      (reset_tree.assign Transaction.start 4 44).2.2 4).1 = some 44 ∧
    (RBTree.count (reset_tree.assign Transaction.start 4 44).2.1
      (reset_tree.assign Transaction.start 4 44).2.2 4).1 = some 1 :=
  ⟨reset_tree_wf, rfl, by decide,
    read_your_writes reset_tree Transaction.start 4 44 reset_tree_wf rfl (by decide)⟩

/-- C7 as stated fails: key `5` is in the tree as the uncommitted insert of another
transaction, so it is not visible to the caller; the claim has `erase(5)` return `0`, the
code aborts the calling transaction. -/
theorem erase_phantom_aborts :
    (pending_insert.1.find_any 5).found = true ∧
    RBTree.is_inserted (pending_insert.1.version (pending_insert.1.find_any 5).node) = true ∧
    (Transaction.start.items (pending_insert.1.find_any 5).node).user0 = false ∧
    (Transaction.start.items (pending_insert.1.find_any 5).node).user1 = false ∧
    (RBTree.erase pending_insert.1 Transaction.start 5).1 = none ∧
    (RBTree.erase pending_insert.1 Transaction.start 5).1 ≠ some 0 := by
  have f1 : (pending_insert.1.find_any 5).found = true := by decide
  have f2 : (pending_insert.1.find_any 5).node = 32 := by decide
  have f3 : pending_insert.1.version 32 = 10 := by decide
  have hi : RBTree.is_inserted
      (pending_insert.1.version (pending_insert.1.find_any 5).node) = true := by
    rw [f2, f3]; decide
  have h := RBTree.erase_phantom pending_insert.1 Transaction.start 5 f1 hi rfl rfl
  exact ⟨f1, hi, rfl, rfl, h, by rw [h]; simp⟩

/-- C7 amended: in a well-formed tree, for an item that does not carry both tags,
`erase(k)` returns `0` when `k` is absent, aborts when the node of `k` is the uncommitted
insert of another transaction (insert bit set, neither tag on the caller's item), returns
`0` when the caller has already erased `k` (`delete_tag`), and returns `1` otherwise;
after an `erase(k)` that returned `1`, a second `erase(k)` returns `0` and leaves the
whole item set, flags and size offset included, as it was. -/
theorem erase_returns (t : RBTree) (tx : Transaction) (k : Int) (hwf : t.wf)
    (hboth : ¬ ((tx.items (t.find_any k).node).user0 = true ∧
      (tx.items (t.find_any k).node).user1 = true)) :
    ((t.erase tx k).1 =
      if (t.find_any k).found = false then some 0
      else if RBTree.is_inserted (t.version (t.find_any k).node) = true ∧
          (tx.items (t.find_any k).node).user0 = false ∧
          (tx.items (t.find_any k).node).user1 = false then none
      else if (tx.items (t.find_any k).node).user1 = true then some 0
      else some 1) ∧
    ((t.erase tx k).1 = some 1 →
      ((t.erase tx k).2.1.erase (t.erase tx k).2.2 k).1 = some 0 ∧
      ((t.erase tx k).2.1.erase (t.erase tx k).2.2 k).2.2 = (t.erase tx k).2.2) := by
  by_cases hf : (t.find_any k).found = true
  · obtain ⟨_, _, hx0, hx8, _⟩ := hwf.found t k hf
    have hx2 : (t.find_any k).node ≠ RBTree.size_key_ := by
      simp only [RBTree.size_key_]; omega
    by_cases hi : RBTree.is_inserted (t.version (t.find_any k).node) = true
    · by_cases h0 : (tx.items (t.find_any k).node).user0 = true
      · have h1 : (tx.items (t.find_any k).node).user1 = false := by
          cases h : (tx.items (t.find_any k).node).user1
          · rfl
          · exact absurd ⟨h0, h⟩ hboth
        rw [RBTree.erase_own_insert t tx k hf hi h0]
        refine ⟨by simp [hf, hi, h0, h1], fun _ => ?_⟩
        simp only []
        rw [RBTree.erase_own_deleted _ _ k (by simpa using hf) (by simpa using hi)
          (by simp [RBTree.change_size_offset_items, hx2])
          (by simp [RBTree.change_size_offset_items, hx2])]
        refine ⟨rfl, ?_⟩
        simp only [RBTree.find_any_unlock_tree, RBTree.find_any_lock_tree]
        apply Transaction.item_of_mem
        simp [Transaction.mem_keys_item]
      · have h0f : (tx.items (t.find_any k).node).user0 = false := by simpa using h0
        by_cases h1 : (tx.items (t.find_any k).node).user1 = true
        · rw [RBTree.erase_own_deleted t tx k hf hi h0f h1]
          simp [hf, hi, h0f, h1]
        · have h1f : (tx.items (t.find_any k).node).user1 = false := by simpa using h1
          rw [RBTree.erase_phantom t tx k hf hi h0f h1f]
          simp [hf, hi, h0f, h1f]
    · have hif : RBTree.is_inserted (t.version (t.find_any k).node) = false := by simpa using hi
      by_cases h1 : (tx.items (t.find_any k).node).user1 = true
      · rw [RBTree.erase_deleted t tx k hf hif h1]
        simp [hf, hif, h1]
      · have h1f : (tx.items (t.find_any k).node).user1 = false := by simpa using h1
        rw [RBTree.erase_committed t tx k hf hif h1f]
        refine ⟨by simp [hf, hif, h1f], fun _ => ?_⟩
        simp only []
        rw [RBTree.erase_deleted _ _ k (by simpa using hf) (by simpa using hif)
          (by simp [RBTree.change_size_offset_items, hx2])]
        refine ⟨rfl, ?_⟩
        simp only [RBTree.find_any_unlock_tree, RBTree.find_any_lock_tree,
          RBTree.version_unlock_tree, RBTree.version_lock_tree]
        rw [Transaction.item_of_mem _ _ (by simp [Transaction.mem_keys_item])]
        apply Transaction.modify_id
        apply TransItem.add_read_of_has_read
        simp [RBTree.change_size_offset_items, hx2]
  · have hff : (t.find_any k).found = false := by simpa using hf
    rw [RBTree.erase_absent t tx k hff]
    simp [hff]

theorem erase_returns_witness :
    reset_tree.wf ∧
    ¬ ((Transaction.start.items (reset_tree.find_any 1).node).user0 = true ∧
      (Transaction.start.items (reset_tree.find_any 1).node).user1 = true) ∧
    (reset_tree.erase Transaction.start 1).1 = some 1 ∧
    ((reset_tree.erase Transaction.start 1).2.1.erase
      (reset_tree.erase Transaction.start 1).2.2 1).1 = some 0 :=
  ⟨reset_tree_wf, by decide,
    (erase_returns reset_tree Transaction.start 1 reset_tree_wf (by decide)).1.trans
      (by decide),
    ((erase_returns reset_tree Transaction.start 1 reset_tree_wf (by decide)).2
      (by decide)).1⟩

/-- C9: `check` on the items of the tree's transactions.  A nodeversion word starts at 0
and changes only by `inc_nodeversion`, which adds `increment_value`, and the read version
kept under a nodeversion key is a copy of such a word, so neither has the lock bit set;
for such words the exact comparison `check` makes is the comparison up to the lock bit.
First part: for every tree state, key and item, where for a nodeversion key the node's
word and the read version are even, `check` returns true iff
`(read_version XOR current_version) <= lock_bit` for the version word the key designates
(`sizeversion_`, `treeversion_`, the node's nodeversion, the node's value version) and that
word is not locked or the item holds the lock.  Second part: every tree a sequence of
transactions leaves, started on the empty tree, and every tree a transaction running on it
produces, is well-formed with even nodeversion words.  Third part: the equivalence for
every item a transaction built by `count`, `tree[k]`, `tree[k] = v` and `erase` calls on
such a tree, whatever its lock flag, checked against any tree state with even nodeversion
words.  Fourth part: the equivalence at the call of `check` in `try_commit`, on the tree
and the items the lock phase leaves. -/
theorem check_iff_on_tree_items :
    (∀ (t : RBTree) (k : Nat) (it : TransItem),
      (k &&& 1 ≠ 0 → k ≠ RBTree.tree_key_ →
        t.nodeversion (k - (k &&& 1)) % 2 = 0 ∧ it.read_value % 2 = 0) →
      (t.check k it = true ↔
        (it.read_value ^^^ designated_version t k ≤ TransactionTid.lock_bit ∧
         (TransactionTid.is_locked (designated_version t k) = false ∨
          it.has_lock = true)))) ∧
    (∀ (txns : List (List Op × Bool)) (t : RBTree) (ops : List Op) (u : RBTree)
        (ux : Transaction), RBTree.serial txns RBTree.empty = some t →
      t.run_ops Transaction.start ops = some (u, ux) →
      t.wf ∧ t.nodeversions_even ∧ u.wf ∧ u.nodeversions_even) ∧
    (∀ (t : RBTree) (ops : List Op) (u : RBTree) (ux : Transaction) (t2 : RBTree) (k : Nat)
        (it : TransItem), t.wf → t.nodeversions_even →
      t.run_ops Transaction.start ops = some (u, ux) → t2.nodeversions_even →
      it.read_value = (ux.items k).read_value →
      (t2.check k it = true ↔
        (it.read_value ^^^ designated_version t2 k ≤ TransactionTid.lock_bit ∧
         (TransactionTid.is_locked (designated_version t2 k) = false ∨
          it.has_lock = true)))) ∧
    (∀ (t : RBTree) (ops : List Op) (u : RBTree) (ux : Transaction) (k : Nat),
      t.wf → t.nodeversions_even → t.run_ops Transaction.start ops = some (u, ux) →
      ((Sto.lock_phase u ux).1.check k ((Sto.lock_phase u ux).2.items k) = true ↔
        (((Sto.lock_phase u ux).2.items k).read_value ^^^
            designated_version (Sto.lock_phase u ux).1 k ≤ TransactionTid.lock_bit ∧
         (TransactionTid.is_locked (designated_version (Sto.lock_phase u ux).1 k) = false ∨
          ((Sto.lock_phase u ux).2.items k).has_lock = true)))) := by
  have key : ∀ (t : RBTree) (ops : List Op) (u : RBTree) (ux : Transaction) (t2 : RBTree)
      (k : Nat) (it : TransItem), t.wf → t.nodeversions_even →
      t.run_ops Transaction.start ops = some (u, ux) → t2.nodeversions_even →
      it.read_value = (ux.items k).read_value →
      (t2.check k it = true ↔
        (it.read_value ^^^ designated_version t2 k ≤ TransactionTid.lock_bit ∧
         (TransactionTid.is_locked (designated_version t2 k) = false ∨
          it.has_lock = true))) := by
    intro t ops u ux t2 k it hwf ht he h2 hr
    obtain ⟨_, _, hx⟩ := RBTree.even_after_run_ops ops t Transaction.start u ux hwf
      Transaction.tidy.at_start ht Transaction.reads_even_start he
    exact RBTree.check_iff_of_even t2 k it
      (fun h1 h3 => ⟨h2 _, by rw [hr]; exact hx k h1 h3⟩)
  refine ⟨RBTree.check_iff_of_even, ?_, key, ?_⟩
  · intro txns t ops u ux hs he
    obtain ⟨t1, e1, s1, _, _⟩ := RBTree.settled.serial txns RBTree.settled_empty
    have e : t1 = t := Option.some.inj (e1.symm.trans hs)
    rw [e] at s1
    have ht := RBTree.even_after_serial txns RBTree.empty t RBTree.settled_empty
      RBTree.nodeversions_even_empty hs
    obtain ⟨a, b, _⟩ := RBTree.even_after_run_ops ops t Transaction.start u ux s1.wf
      Transaction.tidy.at_start ht Transaction.reads_even_start he
    exact ⟨s1.wf, ht, a, b⟩
  · intro t ops u ux k hwf ht he
    obtain ⟨_, hu, _⟩ := RBTree.even_after_run_ops ops t Transaction.start u ux hwf
      Transaction.tidy.at_start ht Transaction.reads_even_start he
    exact key t ops u ux _ k _ hwf ht he
      (hu.even_of_eq _ (Sto.lock_phase_nodeversion u ux)) (Sto.lock_phase_read_value u ux k)

/-- C9, a witness: on the empty tree a transaction runs `tree[1] = 1` and `count(2)`; the
second call finds the key 2 absent beside the node of the key 1 (address 8) and keeps a
read of that node's nodeversion under the key 9.  For that item `check` returns true, the
read version and the word agree up to the lock bit, and the two sides of the equivalence
agree; the same holds at the call in `try_commit`. -/
theorem check_iff_on_tree_items_witness :
    RBTree.empty.wf ∧ RBTree.empty.nodeversions_even ∧
    ∃ u ux, RBTree.empty.run_ops Transaction.start [.assign 1 1, .count 2] = some (u, ux) ∧
      (ux.items 9).has_read = true ∧ u.check 9 (ux.items 9) = true ∧
      (u.check 9 (ux.items 9) = true ↔
        ((ux.items 9).read_value ^^^ designated_version u 9 ≤ TransactionTid.lock_bit ∧
         (TransactionTid.is_locked (designated_version u 9) = false ∨
          (ux.items 9).has_lock = true))) ∧
      ((Sto.lock_phase u ux).1.check 9 ((Sto.lock_phase u ux).2.items 9) = true ↔
        (((Sto.lock_phase u ux).2.items 9).read_value ^^^
            designated_version (Sto.lock_phase u ux).1 9 ≤ TransactionTid.lock_bit ∧
         (TransactionTid.is_locked (designated_version (Sto.lock_phase u ux).1 9) = false ∨
          ((Sto.lock_phase u ux).2.items 9).has_lock = true))) :=
  ⟨RBTree.settled_empty.wf, RBTree.nodeversions_even_empty, _, _, rfl, by decide, by decide,
    check_iff_on_tree_items.2.2.1 RBTree.empty [.assign 1 1, .count 2] _ _ _ 9 _
      RBTree.settled_empty.wf RBTree.nodeversions_even_empty rfl
      ((check_iff_on_tree_items.2.1 [] RBTree.empty [.assign 1 1, .count 2] _ _ rfl
        rfl).2.2.2) rfl,
    check_iff_on_tree_items.2.2.2 RBTree.empty [.assign 1 1, .count 2] _ _ 9
      RBTree.settled_empty.wf RBTree.nodeversions_even_empty rfl⟩

/-- C8: the first scenario of `update_conflict_tests`, which asserts that the read returns
`0` and that both transactions commit.  On the empty tree the first transaction has written
the keys `55` and `57` and not committed; the second transaction's read of `tree[58]` finds
the key absent with insertion parent `57`, an uncommitted node of the first transaction,
and aborts instead of returning `0`. -/
theorem absent_read_under_phantom_aborts :
    (update_conflict_state.1.find_any 58).found = false ∧
    update_conflict_state.1.key (update_conflict_state.1.find_any 58).node = 57 ∧
    RBTree.is_inserted
      (update_conflict_state.1.version (update_conflict_state.1.find_any 58).node) = true ∧
    (RBTree.read update_conflict_state.1 Transaction.start 58).1 = none ∧
    (RBTree.read update_conflict_state.1 Transaction.start 58).1 ≠ some 0 := by
  have g1 : (update_conflict_state.1.find_any 58).found = false := by decide
  have g2 : (update_conflict_state.1.find_any 58).node = 16 := by decide
  have g3 : update_conflict_state.1.version 16 = 10 := by decide
  have g4 : update_conflict_state.1.key 16 = 57 := by decide
  have hi : RBTree.is_inserted
      (update_conflict_state.1.version (update_conflict_state.1.find_any 58).node) = true := by
    rw [g2, g3]; decide
  have h := RBTree.read_of_insert_none _ _ _
    (RBTree.insert_absent_phantom update_conflict_state.1 Transaction.start 58 g1
      (by rw [g2]; decide) hi rfl rfl)
  exact ⟨g1, by rw [g2, g4], hi, h, by rw [h]; simp⟩

/-- Where the read of an absent key beside uncommitted inserts aborts and where it does
not: let a first transaction hold uncommitted inserts (its items carry no read) and let a
second, fresh transaction read `tree[k]` for a key that is not in the tree.  If the
insertion parent of `k` is an uncommitted node (insert bit set) the read aborts.  If the
tree is empty or the insertion parent is committed, the read returns the default value
`0`, the second transaction's `try_commit` succeeds, and the first transaction's later
`try_commit` succeeds too. -/
theorem absent_read_beside_inserts (t : RBTree) (tx1 : Transaction) (k : Int) (hwf : t.wf)
    (hnr : ∀ j ∈ tx1.keys, (tx1.items j).has_read = false)
    (hf : (t.find_any k).found = false) :
    ((t.find_any k).node ≠ 0 ∧
        RBTree.is_inserted (t.version (t.find_any k).node) = true →
      (t.read Transaction.start k).1 = none) ∧
    ((t.find_any k).node = 0 ∨
        RBTree.is_inserted (t.version (t.find_any k).node) = false →
      (t.read Transaction.start k).1 = some 0 ∧
      (Sto.try_commit (t.read Transaction.start k).2.1 (t.read Transaction.start k).2.2).1
        = true ∧
      (Sto.try_commit
        (Sto.try_commit (t.read Transaction.start k).2.1
          (t.read Transaction.start k).2.2).2 tx1).1 = true) := by
  constructor
  · rintro ⟨hx, hi⟩
    exact RBTree.read_of_insert_none _ _ _
      (RBTree.insert_absent_phantom t Transaction.start k hf hx hi rfl rfl)
  · intro hc
    have hp : (t.find_any k).node ≠ 0 →
        RBTree.is_inserted (t.version (t.find_any k).node) = true →
        (Transaction.start.items (t.find_any k).node).user0 = true ∨
        (Transaction.start.items (t.find_any k).node).user1 = true := by
      intro hx hi
      rcases hc with h | h
      · exact absurd h hx
      · rw [h] at hi; exact Bool.noConfusion hi
    obtain ⟨h1, _, h3, _⟩ := RBTree.read_absent t Transaction.start k hwf.top rfl hf hp
    refine ⟨h1, ?_, Sto.try_commit_of_no_reads _ _ hnr⟩
    apply Sto.try_commit_of_no_reads
    intro j _
    rw [h3 j]; rfl

theorem absent_read_beside_inserts_witness :
    pending_insert.1.wf ∧
    (∀ j ∈ pending_insert.2.keys, (pending_insert.2.items j).has_read = false) ∧
    (pending_insert.1.find_any 0).found = false ∧
    (pending_insert.1.read Transaction.start 0).1 = some 0 ∧
    (Sto.try_commit (pending_insert.1.read Transaction.start 0).2.1
      (pending_insert.1.read Transaction.start 0).2.2).1 = true ∧
    (Sto.try_commit
      (Sto.try_commit (pending_insert.1.read Transaction.start 0).2.1
        (pending_insert.1.read Transaction.start 0).2.2).2 pending_insert.2).1 = true := by
  have hwf : pending_insert.1.wf := ⟨by decide, by decide, by decide⟩
  have e1 : (reset_tree.find_any 5).found = false := by decide
  have e2 : (reset_tree.find_any 5).node = 24 := by decide
  have e3 : reset_tree.version 24 = 8 := by decide
  have hnr : ∀ j ∈ pending_insert.2.keys, (pending_insert.2.items j).has_read = false := by
    intro j _
    have h := (RBTree.assign_absent reset_tree Transaction.start 5 5 e1
      (by intro _ hi; rw [e2, e3] at hi; exact absurd hi (by decide))).2.2.2.1 j
    exact h
  have hf : (pending_insert.1.find_any 0).found = false := by decide
  have g2 : (pending_insert.1.find_any 0).node = 8 := by decide
  have g3 : pending_insert.1.version 8 = 8 := by decide
  exact ⟨hwf, hnr, hf,
    (absent_read_beside_inserts pending_insert.1 pending_insert.2 0 hwf hnr hf).2
      (Or.inr (by rw [g2, g3]; decide))⟩

/-- C2: phantom protection.  On a well-formed committed non-empty tree, let `k` be absent
and let `m` lie in the gap of `k` (above the key of the lower boundary node and below the
key of the upper one, where they exist).  A transaction T1 runs `count(k)`, which returns
`0`; the node under which a second transaction T2 then inserts `m` is one of the two
boundary nodes, and T1 holds a read of that node's nodeversion; T2's `tree[m] = v`
returns and its `try_commit` succeeds; afterwards T1's `try_commit` fails. -/
theorem phantom_protection (t : RBTree) (k m v : Int) (hwf : t.wf)
    (hcomm : ∀ n ∈ t.wrapper_tree_.toList, RBTree.is_inserted (t.version n) = false)
    (hne : t.wrapper_tree_ ≠ rbtree.nil)
    (hk : (t.find_any k).found = false)
    (hlo : (t.find_any k).lo ≠ 0 → t.key (t.find_any k).lo < m)
    (hhi : (t.find_any k).hi ≠ 0 → m < t.key (t.find_any k).hi) :
    (t.count Transaction.start k).1 = some 0 ∧
    (((t.count Transaction.start k).2.1.find_any m).node = (t.find_any k).lo ∨
      ((t.count Transaction.start k).2.1.find_any m).node = (t.find_any k).hi) ∧
    ((t.count Transaction.start k).2.2.items
      (((t.count Transaction.start k).2.1.find_any m).node ||| 1)).has_read = true ∧
    ((t.count Transaction.start k).2.1.assign Transaction.start m v).1 = some () ∧
    (Sto.try_commit ((t.count Transaction.start k).2.1.assign Transaction.start m v).2.1
      ((t.count Transaction.start k).2.1.assign Transaction.start m v).2.2).1 = true ∧
    (Sto.try_commit
      (Sto.try_commit ((t.count Transaction.start k).2.1.assign Transaction.start m v).2.1
        ((t.count Transaction.start k).2.1.assign Transaction.start m v).2.2).2
      (t.count Transaction.start k).2.2).1 = false := by
  obtain ⟨hpm, hpb, hlo2, hhi2⟩ := RBTree.absent_facts t k hne hk
  have hpa := hwf.alloc _ hpm
  -- the search for m follows the path of the search for k
  have hm : t.find_any m = t.find_any k :=
    rbtree.find_any_gap t.key k m t.wrapper_tree_ 0 0 0 hwf.sorted
      (fun n hn => (hwf.alloc n hn).1) hk hlo hhi
  -- T1
  rw [RBTree.count_absent t Transaction.start k hk]
  simp only [RBTree.find_any_unlock_tree, RBTree.find_any_lock_tree, hm]
  have hfoa := RBTree.foa_absent_read t.lock_tree Transaction.start k (by simpa using hk)
  simp only [RBTree.find_any_lock_tree, RBTree.treeversion_lock_tree,
    RBTree.track_boundary_lock_tree, hpa.1, if_false] at hfoa
  rw [hfoa]
  simp only []
  -- T1 tracked the parent's nodeversion
  have hlohi : (t.find_any k).lo ≠ 0 → (t.find_any k).hi ≠ 0 →
      (t.find_any k).lo ||| 1 ≠ (t.find_any k).hi ||| 1 := by
    intro h1 h2
    have a1 := hwf.alloc _ (hlo2 h1).1
    have a2 := hwf.alloc _ (hhi2 h2).1
    have k1 := (hlo2 h1).2
    have k2 := (hhi2 h2).2
    rw [or_one_of_even _ (by omega), or_one_of_even _ (by omega)]
    intro e
    have e2 : (t.find_any k).lo = (t.find_any k).hi := by omega
    rw [e2] at k1; omega
  have htrack : ((t.track_boundary (t.track_boundary Transaction.start (t.find_any k).lo)
        (t.find_any k).hi).items ((t.find_any k).node ||| 1)).has_read = true ∧
      ((t.track_boundary (t.track_boundary Transaction.start (t.find_any k).lo)
        (t.find_any k).hi).items ((t.find_any k).node ||| 1)).read_value
        = t.nodeversion (t.find_any k).node ∧
      (t.find_any k).node ||| 1 ∈ (t.track_boundary
        (t.track_boundary Transaction.start (t.find_any k).lo) (t.find_any k).hi).keys := by
    rcases hpb with e | e
    · have hl0 : (t.find_any k).lo ≠ 0 := e ▸ hpa.1
      rw [e]
      by_cases hh0 : (t.find_any k).hi = 0
      · simp [RBTree.track_boundary_items, RBTree.track_boundary_keys, hl0, hh0,
          TransItem.add_read_read_value, Transaction.start, Transaction.mem_keys_item]
      · have := hlohi hl0 hh0
        simp [RBTree.track_boundary_items, RBTree.track_boundary_keys, hl0, hh0, this,
          TransItem.add_read_read_value, Transaction.start, Transaction.mem_keys_item]
    · have hh0 : (t.find_any k).hi ≠ 0 := e ▸ hpa.1
      rw [e]
      by_cases hl0 : (t.find_any k).lo = 0
      · simp [RBTree.track_boundary_items, RBTree.track_boundary_keys, hl0, hh0,
          TransItem.add_read_read_value, Transaction.start, Transaction.mem_keys_item]
      · have := hlohi hl0 hh0
        simp [RBTree.track_boundary_items, RBTree.track_boundary_keys, hl0, hh0, this.symm,
          TransItem.add_read_read_value, Transaction.start, Transaction.mem_keys_item]
  -- T2
  have hfT : (t.lock_tree.unlock_tree.find_any m).found = false := by
    simp only [RBTree.find_any_unlock_tree, RBTree.find_any_lock_tree, hm]; exact hk
  have hpT : (t.lock_tree.unlock_tree.find_any m).node ≠ 0 →
      RBTree.is_inserted (t.lock_tree.unlock_tree.version
        (t.lock_tree.unlock_tree.find_any m).node) = true →
      (Transaction.start.items (t.lock_tree.unlock_tree.find_any m).node).user0 = true ∨
      (Transaction.start.items (t.lock_tree.unlock_tree.find_any m).node).user1 = true := by
    intro _ hi
    simp only [RBTree.find_any_unlock_tree, RBTree.find_any_lock_tree, hm,
      RBTree.version_unlock_tree, RBTree.version_lock_tree, hcomm _ hpm] at hi
    exact Bool.noConfusion hi
  obtain ⟨a1, a2, _, a4, a5⟩ :=
    RBTree.assign_absent t.lock_tree.unlock_tree Transaction.start m v hfT hpT
  have hc2 : (Sto.try_commit (t.lock_tree.unlock_tree.assign Transaction.start m v).2.1
      (t.lock_tree.unlock_tree.assign Transaction.start m v).2.2).1 = true := by
    apply Sto.try_commit_of_no_reads
    intro j _
    rw [a4 j]; rfl
  refine ⟨trivial, hpb, htrack.1, a1, hc2, ?_⟩
  apply Sto.try_commit_false_of_nodeversion _ _ (t.find_any k).node hpa.1 (by omega)
    htrack.2.2 htrack.1
  rw [htrack.2.1, Sto.try_commit_nodeversion _ _ hc2
    (fun j _ _ => by rw [a5 j]; rfl), a2]
  simp only [RBTree.find_any_unlock_tree, RBTree.find_any_lock_tree, hm,
    RBTree.heap_top_unlock_tree, RBTree.heap_top_lock_tree]
  rw [RBTree.insert_absent_nodeversion_parent _ _ _ _ hpa.1
    (by simp only [RBTree.heap_top_unlock_tree, RBTree.heap_top_lock_tree]; omega)]
  simp only [RBTree.nodeversion_unlock_tree, RBTree.nodeversion_lock_tree]
  omega

theorem phantom_protection_witness :
    reset_tree.wf ∧
    (∀ n ∈ reset_tree.wrapper_tree_.toList, RBTree.is_inserted (reset_tree.version n) = false) ∧
    reset_tree.wrapper_tree_ ≠ rbtree.nil ∧
    (reset_tree.find_any 4).found = false ∧
    ((reset_tree.find_any 4).lo ≠ 0 → reset_tree.key (reset_tree.find_any 4).lo < 5) ∧
    ((reset_tree.find_any 4).hi ≠ 0 → 5 < reset_tree.key (reset_tree.find_any 4).hi) ∧
    (reset_tree.count Transaction.start 4).1 = some 0 ∧
    (Sto.try_commit
      (Sto.try_commit ((reset_tree.count Transaction.start 4).2.1.assign Transaction.start 5 5).2.1
        ((reset_tree.count Transaction.start 4).2.1.assign Transaction.start 5 5).2.2).2
      (reset_tree.count Transaction.start 4).2.2).1 = false := by
  have h1 : ∀ n ∈ reset_tree.wrapper_tree_.toList,
      RBTree.is_inserted (reset_tree.version n) = false := by decide
  have h2 : reset_tree.wrapper_tree_ ≠ rbtree.nil := by decide
  have h3 : (reset_tree.find_any 4).found = false := by decide
  have h4 : (reset_tree.find_any 4).lo ≠ 0 →
      reset_tree.key (reset_tree.find_any 4).lo < 5 := by decide
  have h5 : (reset_tree.find_any 4).hi ≠ 0 →
      5 < reset_tree.key (reset_tree.find_any 4).hi := by decide
  have h := phantom_protection reset_tree 4 5 5 reset_tree_wf h1 h2 h3 h4 h5
  exact ⟨reset_tree_wf, h1, h2, h3, h4, h5, h.1, h.2.2.2.2.2⟩

/-- C6: insert-then-erase cancels out.  On a well-formed committed tree with a 64-bit
`size_`, for a key `k` that is absent, a fresh transaction runs `tree[k] = v`, then
`erase(k)`, which returns `1`, then `count(k)`, which returns `0`; its `try_commit`
succeeds, and afterwards `k` is not in the tree and `size_` has its old value. -/
theorem insert_then_erase (t : RBTree) (k v : Int) (hwf : t.wf) (hsz : t.size_ < 2 ^ 64)
    (hcomm : ∀ n ∈ t.wrapper_tree_.toList, RBTree.is_inserted (t.version n) = false)
    (hk : (t.find_any k).found = false) :
    ∃ t1 tx1 t2 tx2 t3 tx3,
      t.assign Transaction.start k v = (some (), t1, tx1) ∧
      t1.erase tx1 k = (some 1, t2, tx2) ∧
      t2.count tx2 k = (some 0, t3, tx3) ∧
      (Sto.try_commit t3 tx3).1 = true ∧
      ((Sto.try_commit t3 tx3).2.find_any k).found = false ∧
      (Sto.try_commit t3 tx3).2.wrapper_tree_.toList = t.wrapper_tree_.toList ∧
      (Sto.try_commit t3 tx3).2.size_ = t.size_ := by
  -- the insertion parent is committed
  have hp : (t.find_any k).node ≠ 0 →
      RBTree.is_inserted (t.version (t.find_any k).node) = true →
      (Transaction.start.items (t.find_any k).node).user0 = true ∨
      (Transaction.start.items (t.find_any k).node).user1 = true := by
    intro hx hi
    rcases rbtree.find_any_parent t.key k t.wrapper_tree_ 0 0 0 hk with ⟨_, h0⟩ | hm
    · exact absurd h0 hx
    · have : RBTree.is_inserted (t.version (t.find_any k).node) = false := hcomm _ hm
      rw [this] at hi; exact Bool.noConfusion hi
  obtain ⟨a1, a2, a3, a4, a5⟩ := RBTree.assign_absent t Transaction.start k v hk hp
  have hwfl : t.lock_tree.wf := ⟨hwf.sorted, hwf.alloc, hwf.top⟩
  obtain ⟨s1, s2, s3, l1, l2, s4, s5⟩ := RBTree.insert_absent_spec t.lock_tree
    (if (t.find_any k).node = 0 then Transaction.start
      else Transaction.start.item (t.find_any k).node) k hwfl (by simpa using hk)
  simp only [RBTree.find_any_lock_tree, RBTree.heap_top_lock_tree,
    RBTree.tree_lock_tree] at s1 s2 s3 s4 s5
  rw [← a2] at s1 s2 s3 s5
  have hfr : (if (t.find_any k).node = 0 then Transaction.start
      else Transaction.start.item (t.find_any k).node).items t.heap_top = {} := by
    split <;> rfl
  have hn2 : t.heap_top ≠ RBTree.size_key_ := by
    have := hwf.top; simp only [RBTree.size_key_]; omega
  -- the items of the node and of the size after the assignment
  have i1 : (t.assign Transaction.start k v).2.2.items t.heap_top =
      { has_write := true, write_value := v, user0 := true } := by
    rw [a3]
    have := RBTree.insert_absent_item t.lock_tree _ (t.find_any k).node k hwf.top hfr
    simp only [RBTree.heap_top_lock_tree] at this
    simp [this, TransItem.add_write]
  have i2 : (t.assign Transaction.start k v).2.2.items RBTree.size_key_ =
      { has_write := true, write_value := 1 } := by
    rw [a3]
    have := RBTree.insert_absent_size_item t.lock_tree
      (if (t.find_any k).node = 0 then Transaction.start
        else Transaction.start.item (t.find_any k).node) (t.find_any k).node k hwf.top
    simp only [RBTree.heap_top_lock_tree] at this
    have h0 : (if (t.find_any k).node = 0 then Transaction.start
        else Transaction.start.item (t.find_any k).node).items RBTree.size_key_ = {} := by
      split <;> rfl
    rw [h0] at this
    simp [Transaction.items_modify, hn2.symm, this, TransItem.add_write]
  obtain ⟨k1, k2, k3, _⟩ := RBTree.insert_absent_keys t.lock_tree
    (if (t.find_any k).node = 0 then Transaction.start
      else Transaction.start.item (t.find_any k).node) (t.find_any k).node k
  simp only [RBTree.heap_top_lock_tree] at k1 k2 k3
  have k1a : t.heap_top ∈ (t.assign Transaction.start k v).2.2.keys := by
    rw [a3]; simp [Transaction.mem_keys_item]
  have k2a : RBTree.size_key_ ∈ (t.assign Transaction.start k v).2.2.keys := by
    rw [a3]; simp [Transaction.mem_keys_item, k2]
  have k3a : (t.assign Transaction.start k v).2.2.keys.Nodup := by
    rw [a3]
    exact Transaction.nodup_item _ _ (k3 (by split <;>
      first | exact List.nodup_nil | exact Transaction.nodup_item _ _ List.nodup_nil))
  -- the version of the fresh node
  have hv : (t.assign Transaction.start k v).2.1.version t.heap_top = 10 := by
    rw [a2, RBTree.insert_absent_version]; simp
  have hi : RBTree.is_inserted ((t.assign Transaction.start k v).2.1.version
      ((t.assign Transaction.start k v).2.1.find_any k).node) = true := by
    rw [s3, hv]; decide
  -- erase
  have he := RBTree.erase_own_insert (t.assign Transaction.start k v).2.1
    (t.assign Transaction.start k v).2.2 k s2 hi (by rw [s3, i1])
  rw [s3] at he
  obtain ⟨tx2, htx2⟩ : ∃ x, x = RBTree.change_size_offset
      (((t.assign Transaction.start k v).2.2.item t.heap_top).modify t.heap_top
        (fun it => ((it.add_write 0).clear_flags RBTree.insert_tag).add_flags
          RBTree.delete_tag)) (-1) := ⟨_, rfl⟩
  rw [← htx2] at he
  have hitems : ∀ j, tx2.items j =
      if j = RBTree.size_key_ then { has_write := true, write_value := 0 }
      else if j = t.heap_top then { has_write := true, write_value := 0, user1 := true }
      else (t.assign Transaction.start k v).2.2.items j := by
    intro j
    rw [htx2]
    simp only [Transaction.items_item, RBTree.change_size_offset_items,
      Transaction.items_modify, hn2, if_false, i1, i2]
    by_cases hj2 : j = RBTree.size_key_
    · simp [hj2, hn2.symm, TransItem.add_write]
    · by_cases hjn : j = t.heap_top
      · simp [hj2, hjn, hn2, TransItem.add_write]
      · simp [hj2, hjn]
  have hkeys : ∀ j, j ∈ tx2.keys ↔ j ∈ (t.assign Transaction.start k v).2.2.keys := by
    intro j
    rw [htx2]
    simp only [Transaction.mem_keys_item, RBTree.change_size_offset_keys,
      Transaction.keys_modify]
    constructor
    · rintro (h | h | h)
      · rw [h]; exact k2a
      · rw [h]; exact k1a
      · exact h
    · intro h; right; right; exact h
  have hnd : tx2.keys.Nodup := by
    rw [htx2]
    simp only [RBTree.change_size_offset_keys, Transaction.keys_modify]
    exact Transaction.nodup_item _ _ (Transaction.nodup_item _ _ k3a)
  -- count
  have hfk : ((t.assign Transaction.start k v).2.1.lock_tree.unlock_tree.find_any k).node
      = t.heap_top := by
    simp only [RBTree.find_any_unlock_tree, RBTree.find_any_lock_tree, s3]
  have hu : (tx2.items t.heap_top).user1 = true := by
    rw [hitems]; simp [hn2]
  have hc := RBTree.count_own (t.assign Transaction.start k v).2.1.lock_tree.unlock_tree
    tx2 k (by simpa using s2) (by simpa using hi) (Or.inr (by rw [hfk]; exact hu))
  rw [hfk, if_pos hu, Transaction.item_of_mem _ _ ((hkeys _).mpr k1a)] at hc
  have hcommit : (Sto.try_commit
      (t.assign Transaction.start k v).2.1.lock_tree.unlock_tree.lock_tree.unlock_tree
      tx2).1 = true := by
    apply Sto.try_commit_of_no_reads
    intro j _
    rw [hitems j]
    by_cases hj2 : j = RBTree.size_key_
    · simp [hj2]
    · by_cases hjn : j = t.heap_top
      · simp [hjn, hn2]
      · simp only [hj2, hjn, if_false]
        rw [a4 j]; rfl
  have hn1 : t.heap_top ≠ RBTree.tree_key_ := by
    have := hwf.top; simp only [RBTree.tree_key_]; omega
  -- the tree after the commit
  have htree : (Sto.try_commit
      (t.assign Transaction.start k v).2.1.lock_tree.unlock_tree.lock_tree.unlock_tree
      tx2).2.wrapper_tree_ = (t.assign Transaction.start k v).2.1.wrapper_tree_.erase
        t.heap_top := by
    rw [Sto.try_commit_snd _ _ hcommit, Sto.unlock_phase_tree,
      Sto.install_phase_tree_single _ _ t.heap_top
        (by rw [Sto.lock_phase_keys]; exact hnd)
        (by rw [Sto.lock_phase_keys]; exact (hkeys _).mpr k1a)
        (by rw [Sto.lock_phase_has_write, hitems]; simp [hn2])
        hn1 hn2
        (by rw [Sto.lock_phase_user1, hitems]; simp [hn2]),
      Sto.lock_phase_tree]
    · simp only [RBTree.tree_unlock_tree, RBTree.tree_lock_tree]
    · intro j _ hjn _
      rw [Sto.lock_phase_user1, hitems]
      by_cases hj2 : j = RBTree.size_key_
      · simp [hj2]
      · simp only [hj2, hjn, if_false]
        rw [a5 j]; rfl
  have hlist : (Sto.try_commit
      (t.assign Transaction.start k v).2.1.lock_tree.unlock_tree.lock_tree.unlock_tree
      tx2).2.wrapper_tree_.toList = t.wrapper_tree_.toList := by
    rw [htree, rbtree.toList_erase _ _ _ s1.sorted, s5, s4]
    have hnot : ∀ a ∈ l1 ++ l2, a ≠ t.heap_top := by
      intro a ha e
      have := (hwf.alloc a (s4 ▸ ha)).2.2
      omega
    simp only [List.filter_append, List.filter_cons, ne_eq, not_true_eq_false, decide_False,
      Bool.false_eq_true, if_false]
    rw [List.filter_eq_self.mpr, List.filter_eq_self.mpr]
    · intro a ha; simpa using hnot a (by simp [ha])
    · intro a ha; simpa using hnot a (by simp [ha])
  have hkey : (Sto.try_commit
      (t.assign Transaction.start k v).2.1.lock_tree.unlock_tree.lock_tree.unlock_tree
      tx2).2.key = Function.update t.key t.heap_top k := by
    rw [Sto.try_commit_snd _ _ hcommit, Sto.unlock_phase_key, Sto.install_phase_key,
      Sto.lock_phase_key]
    simp only [RBTree.key_unlock_tree, RBTree.key_lock_tree, a2, RBTree.insert_absent_key,
      RBTree.heap_top_lock_tree]
  have habs : ((Sto.try_commit
      (t.assign Transaction.start k v).2.1.lock_tree.unlock_tree.lock_tree.unlock_tree
      tx2).2.find_any k).found = false := by
    cases hfin : ((Sto.try_commit
      (t.assign Transaction.start k v).2.1.lock_tree.unlock_tree.lock_tree.unlock_tree
      tx2).2.find_any k).found
    · rfl
    · exfalso
      have hf := rbtree.find_any_found _ k _ 0 0 0 hfin
      rw [RBTree.find_any_def, hlist] at hf
      have hne : ((Sto.try_commit
          (t.assign Transaction.start k v).2.1.lock_tree.unlock_tree.lock_tree.unlock_tree
          tx2).2.find_any k).node ≠ t.heap_top := by
        intro e
        have := (hwf.alloc _ hf.1).2.2
        rw [e] at this
        omega
      have hk2 := hf.2
      rw [hkey, Function.update_noteq hne] at hk2
      exact rbtree.find_any_absent t.key k t.wrapper_tree_ 0 0 0 hwf.sorted hk _ hf.1 hk2
  have hsize : (Sto.try_commit
      (t.assign Transaction.start k v).2.1.lock_tree.unlock_tree.lock_tree.unlock_tree
      tx2).2.size_ = t.size_ := by
    rw [Sto.try_commit_snd _ _ hcommit, Sto.unlock_phase_size,
      Sto.install_phase_size _ _ (by rw [Sto.lock_phase_keys]; exact hnd)
        (by rw [Sto.lock_phase_keys]; exact (hkeys _).mpr k2a)
        (by rw [Sto.lock_phase_has_write, hitems]; simp),
      Sto.lock_phase_size, Sto.lock_phase_write_value, hitems]
    simp only [if_true, RBTree.size_unlock_tree, RBTree.size_lock_tree, a2]
    rw [RBTree.insert_absent_size]
    exact RBTree.size_add_zero _ hsz
  exact ⟨(t.assign Transaction.start k v).2.1, (t.assign Transaction.start k v).2.2,
    (t.assign Transaction.start k v).2.1.lock_tree.unlock_tree, tx2,
    (t.assign Transaction.start k v).2.1.lock_tree.unlock_tree.lock_tree.unlock_tree, tx2,
    prod_eta3 _ _ a1, he, hc, hcommit, habs, hlist, hsize⟩

theorem insert_then_erase_witness :
    reset_tree.wf ∧ reset_tree.size_ < 2 ^ 64 ∧
    (∀ n ∈ reset_tree.wrapper_tree_.toList, RBTree.is_inserted (reset_tree.version n) = false) ∧
    (reset_tree.find_any 4).found = false ∧
    ∃ t1 tx1 t2 tx2 t3 tx3,
      reset_tree.assign Transaction.start 4 4 = (some (), t1, tx1) ∧
      t1.erase tx1 4 = (some 1, t2, tx2) ∧
      t2.count tx2 4 = (some 0, t3, tx3) ∧
      (Sto.try_commit t3 tx3).1 = true ∧
      ((Sto.try_commit t3 tx3).2.find_any 4).found = false ∧
      (Sto.try_commit t3 tx3).2.wrapper_tree_.toList = reset_tree.wrapper_tree_.toList ∧
      (Sto.try_commit t3 tx3).2.size_ = reset_tree.size_ :=
  ⟨reset_tree_wf, by decide, by decide, by decide,
    insert_then_erase reset_tree 4 4 reset_tree_wf (by decide) (by decide) (by decide)⟩

/-- C3 (erase + commit invalidates every observer).  On a well-formed committed tree with
no commit in progress that holds the key of `op`, a first transaction erases the key
(result 1) and a second one observes it through `op` (count, operator[] as a read,
operator[] as an assignment, or erase).  The first commit succeeds, a fresh count of the key
then returns 0, and the commit of the observer fails.  It still fails when a third
transaction has re-inserted the key with any value `w` and committed in between. -/
theorem erase_commit_invalidates_observers (t : RBTree) (op : Op) (w : Int) (hwf : t.wf)
    (hcomm : ∀ n ∈ t.wrapper_tree_.toList, RBTree.is_inserted (t.version n) = false)
    (hunl : ∀ n ∈ t.wrapper_tree_.toList, RBTree.is_locked (t.version n) = false)
    (hk : (t.find_any op.key).found = true) :
    ∃ t1 tx1 r t2 tx2 t3 tx3,
      t.erase Transaction.start op.key = (some 1, t1, tx1) ∧
      t1.run Transaction.start op = (some r, t2, tx2) ∧
      r = (match op with
        | .count _ => 1
        | .read _ => t.value (t.find_any op.key).node
        | .assign _ _ => 0
        | .erase _ => 1) ∧
      (Sto.try_commit t2 tx1).1 = true ∧
      ((Sto.try_commit t2 tx1).2.count Transaction.start op.key).1 = some 0 ∧
      (Sto.try_commit (Sto.try_commit t2 tx1).2 tx2).1 = false ∧
      (Sto.try_commit t2 tx1).2.assign Transaction.start op.key w = (some (), t3, tx3) ∧
      (Sto.try_commit t3 tx3).1 = true ∧
      (Sto.try_commit (Sto.try_commit t3 tx3).2 tx2).1 = false := by
  obtain ⟨hmem, hkey, h0, h8, hlt⟩ := RBTree.wf.found t hwf op.key hk
  have h2 : (t.find_any op.key).node ≠ RBTree.size_key_ := by
    simp only [RBTree.size_key_]; omega
  have hi := hcomm _ hmem
  obtain ⟨e1, e2, e3, e4, e5, e6, e7, e8⟩ := RBTree.erase_fresh t op.key hk hi h2
  have e9 := RBTree.erase_fresh_other t op.key hk hi
  obtain ⟨tx1, htx1⟩ : ∃ x, x = (t.erase Transaction.start op.key).2.2 := ⟨_, rfl⟩
  rw [← htx1] at e3 e4 e5 e6 e7 e8 e9
  obtain ⟨o1, o2, o3, o4, o5⟩ := RBTree.observe_present t.lock_tree.unlock_tree op
    (by simpa using hk) (by simpa using hi) (by simpa using hunl _ hmem) (by simpa using h2)
  obtain ⟨tx2, htx2⟩ : ∃ x, x = (t.lock_tree.unlock_tree.run Transaction.start op).2.2 :=
    ⟨_, rfl⟩
  rw [← htx2] at o3 o4 o5
  simp only [RBTree.find_any_unlock_tree, RBTree.find_any_lock_tree,
    RBTree.version_unlock_tree, RBTree.version_lock_tree] at o3 o4 o5
  obtain ⟨t2, ht2⟩ : ∃ x, x = t.lock_tree.unlock_tree.lock_tree.unlock_tree := ⟨_, rfl⟩
  have hwf2 : t2.wf := by rw [ht2]; exact RBTree.wf.lock_unlock _ (RBTree.wf.lock_unlock _ hwf)
  have hv2 : t2.version = t.version := by rw [ht2]; rfl
  have hk2 : t2.key = t.key := by rw [ht2]; rfl
  have hl2 : t2.wrapper_tree_ = t.wrapper_tree_ := by rw [ht2]; rfl
  have hh2 : t2.heap_top = t.heap_top := by rw [ht2]; rfl
  obtain ⟨c1, c2, c3, c4, c5, c6⟩ := Sto.commit_erase_state t2 tx1 (t.find_any op.key).node
    hwf2 (by rw [hl2, hv2]; exact hcomm) (by rw [hl2]; exact hmem) e3 e4 e5 e6
    (by rw [hv2]; exact e7) e8 e9
  rw [hk2, hkey] at c4
  rw [hv2] at c5
  have hbad : (tx2.items (t.find_any op.key).node).read_value / 2 ≠
      (Sto.try_commit t2 tx1).2.version (t.find_any op.key).node / 2 := by
    rw [o5, c5]
    exact TransactionTid.bumped_ne _
  obtain ⟨r1, r2, r3⟩ := RBTree.reinsert_frame (Sto.try_commit t2 tx1).2 op.key w
    (t.find_any op.key).node c3 c4 h8 (by rw [c6, hh2]; exact hlt)
  refine ⟨t.lock_tree.unlock_tree, tx1, _, t2, tx2,
    ((Sto.try_commit t2 tx1).2.assign Transaction.start op.key w).2.1,
    ((Sto.try_commit t2 tx1).2.assign Transaction.start op.key w).2.2,
    ?_, ?_, rfl, c1, ?_, ?_, ?_, r2, ?_⟩
  · rw [htx1, ← e2]
    exact prod_eta3 _ _ e1
  · rw [htx2, ht2, ← o2]
    exact prod_eta3 _ _ (by simpa using o1)
  · rw [RBTree.count_absent _ _ _ c4]
  · exact Sto.try_commit_false_of_version _ _ _ h8 o3 o4 hbad
  · exact prod_eta3 _ _ r1
  · apply Sto.try_commit_false_of_version _ _ _ h8 o3 o4
    rw [r3]
    exact hbad

/-- C3 at the fixture of `reset_tree`, key 1, observed by `count(1)`, re-inserted with 7. -/
theorem erase_commit_invalidates_observers_witness :
    ∃ t1 tx1 r t2 tx2 t3 tx3,
      reset_tree.erase Transaction.start 1 = (some 1, t1, tx1) ∧
      t1.run Transaction.start (Op.count 1) = (some r, t2, tx2) ∧
      r = 1 ∧
      (Sto.try_commit t2 tx1).1 = true ∧
      ((Sto.try_commit t2 tx1).2.count Transaction.start 1).1 = some 0 ∧
      (Sto.try_commit (Sto.try_commit t2 tx1).2 tx2).1 = false ∧
      (Sto.try_commit t2 tx1).2.assign Transaction.start 1 7 = (some (), t3, tx3) ∧
      (Sto.try_commit t3 tx3).1 = true ∧
      (Sto.try_commit (Sto.try_commit t3 tx3).2 tx2).1 = false :=
  erase_commit_invalidates_observers reset_tree (Op.count 1) 7 reset_tree_wf
    (by decide) (by decide) (by decide)

/-- C4: abort is transparent for the tree.  On a well-formed committed tree with no commit
in progress, a transaction made of any sequence of `count`, `tree[k]` read, `tree[k] = v`
and `erase` calls runs to the end of the sequence; when it then aborts and `cleanup` has run
on its items, the tree has the same nodes in the same order, every one of them with the key
and the value it had before the transaction began, and the same `size_`. -/
theorem abort_transparent (t0 : RBTree) (ops : List Op) (hwf : t0.wf)
    (hcomm : ∀ n ∈ t0.wrapper_tree_.toList, RBTree.is_inserted (t0.version n) = false)
    (hunl : ∀ n ∈ t0.wrapper_tree_.toList,
      RBTree.is_locked (t0.version n) = false ∧ RBTree.is_locked (t0.nodeversion n) = false)
    (htv : RBTree.is_locked t0.treeversion_ = false) :
    ∃ t tx, t0.run_ops Transaction.start ops = some (t, tx) ∧
      (Sto.abort t tx).wrapper_tree_.toList = t0.wrapper_tree_.toList ∧
      (∀ n ∈ t0.wrapper_tree_.toList,
        (Sto.abort t tx).key n = t0.key n ∧ (Sto.abort t tx).value n = t0.value n) ∧
      (Sto.abort t tx).size_ = t0.size_ := by
  obtain ⟨t, tx, e, hs⟩ := RBTree.solo.run_ops ops (RBTree.solo.start t0 hwf hcomm hunl htv)
  exact ⟨t, tx, e, hs.abort⟩

/-- C4 at the fixture of `reset_tree`: a transaction inserts 5, erases 1, reads 2, counts 4,
inserts 4, erases 4 again, and aborts. -/
theorem abort_transparent_witness :
    ∃ t tx, reset_tree.run_ops Transaction.start
        [Op.assign 5 5, Op.erase 1, Op.read 2, Op.count 4, Op.assign 4 4, Op.erase 4]
        = some (t, tx) ∧
      (Sto.abort t tx).wrapper_tree_.toList = reset_tree.wrapper_tree_.toList ∧
      (∀ n ∈ reset_tree.wrapper_tree_.toList,
        (Sto.abort t tx).key n = reset_tree.key n ∧
        (Sto.abort t tx).value n = reset_tree.value n) ∧
      (Sto.abort t tx).size_ = reset_tree.size_ :=
  abort_transparent reset_tree _ reset_tree_wf (by decide) (by decide) (by decide)

/-- C10: a transaction's own inserts never invalidate its own absent reads.  On a
well-formed committed tree with no commit in progress, a transaction that runs alone any
sequence of calls (absent `count`s followed by inserts among them) runs to the end of the
sequence; at validation every nodeversion read it tracks equals the current nodeversion of
the boundary node, and its `try_commit` succeeds. -/
theorem own_inserts_keep_absent_reads (t0 : RBTree) (ops : List Op) (hwf : t0.wf)
    (hcomm : ∀ n ∈ t0.wrapper_tree_.toList, RBTree.is_inserted (t0.version n) = false)
    (hunl : ∀ n ∈ t0.wrapper_tree_.toList,
      RBTree.is_locked (t0.version n) = false ∧ RBTree.is_locked (t0.nodeversion n) = false)
    (htv : RBTree.is_locked t0.treeversion_ = false) :
    ∃ t tx, t0.run_ops Transaction.start ops = some (t, tx) ∧
      (∀ n ∈ t.wrapper_tree_.toList, (tx.items (n ||| 1)).has_read = true →
        (tx.items (n ||| 1)).read_value = t.nodeversion n) ∧
      (Sto.try_commit t tx).1 = true := by
  obtain ⟨t, tx, e, hs⟩ := RBTree.solo.run_ops ops (RBTree.solo.start t0 hwf hcomm hunl htv)
  exact ⟨t, tx, e, fun n hn hr => hs.boundary_read hn hr, hs.commits⟩

/-- C10 at its own witness: tree `{1,2,3}`; `count(4)`; `tree[5] = 5`; `count(4)`;
`tree[4] = 4`; commit. -/
theorem own_inserts_keep_absent_reads_witness :
    ∃ t tx, reset_tree.run_ops Transaction.start
        [Op.count 4, Op.assign 5 5, Op.count 4, Op.assign 4 4] = some (t, tx) ∧
      (∀ n ∈ t.wrapper_tree_.toList, (tx.items (n ||| 1)).has_read = true →
        (tx.items (n ||| 1)).read_value = t.nodeversion n) ∧
      (Sto.try_commit t tx).1 = true :=
  own_inserts_keep_absent_reads reset_tree _ reset_tree_wf (by decide) (by decide) (by decide)

/-- C11: `count` after `erase` in one transaction.  On a well-formed tree, for a key whose
node the transaction sees (committed, or its own insert) and has not erased, `erase(k)`
returns `1`; the following `count(k)` returns `1` when the node is committed (the pending
erase is installed only at commit) and `0` when the node is the transaction's own insert. -/
theorem count_after_erase (t : RBTree) (tx : Transaction) (k : Int) (hwf : t.wf)
    (hf : (t.find_any k).found = true)
    (h1 : (tx.items (t.find_any k).node).user1 = false)
    (ho : RBTree.is_inserted (t.version (t.find_any k).node) = true →
      (tx.items (t.find_any k).node).user0 = true) :
    ∃ t1 tx1 t2 tx2,
      t.erase tx k = (some 1, t1, tx1) ∧
      t1.count tx1 k =
        (some (if RBTree.is_inserted (t.version (t.find_any k).node) = true then 0 else 1),
          t2, tx2) := by
  obtain ⟨_, _, _, _, h2⟩ := RBTree.wf.found t hwf k hf
  have hn2 : (t.find_any k).node ≠ RBTree.size_key_ := by
    have := (hwf.alloc _ (RBTree.wf.found t hwf k hf).1).2.1
    simp only [RBTree.size_key_]; omega
  by_cases hi : RBTree.is_inserted (t.version (t.find_any k).node) = true
  · refine ⟨_, _, _, _, RBTree.erase_own_insert t tx k hf hi (ho hi), prod_eta3 _ _ ?_⟩
    rw [RBTree.count_own _ _ k (by simpa using hf) (by simpa using hi)
      (Or.inr (by simp [RBTree.change_size_offset_items, hn2, Transaction.items_modify]))]
    simp [RBTree.change_size_offset_items, hn2, Transaction.items_modify, hi]
  · have hi2 : RBTree.is_inserted (t.version (t.find_any k).node) = false := by
      simpa using hi
    refine ⟨_, _, _, _, RBTree.erase_committed t tx k hf hi2 h1, prod_eta3 _ _ ?_⟩
    rw [RBTree.count_committed _ _ k (by simpa using hf) (by simpa using hi2)]
    simp [hi2]

/-- C11 at the fixture of `reset_tree`: `erase(1)` then `count(1)` in a fresh transaction,
as in `erase_conflict_tests`. -/
theorem count_after_erase_witness :
    ∃ t1 tx1 t2 tx2,
      reset_tree.erase Transaction.start 1 = (some 1, t1, tx1) ∧
      t1.count tx1 1 =
        (some (if RBTree.is_inserted (reset_tree.version (reset_tree.find_any 1).node) = true
          then 0 else 1), t2, tx2) :=
  count_after_erase reset_tree Transaction.start 1 reset_tree_wf (by decide) rfl
    (fun h => absurd h (by decide))

/-- C12: access to a node that another, uncommitted transaction inserted.  When the node
of `k` carries the insert bit and the caller's item for it has neither tag, `count(k)`,
`erase(k)` and `operator[](k)` abort the calling transaction; the abort runs on the tree
with `treelock_` released, and leaves it released. -/
theorem phantom_access_aborts (t : RBTree) (tx : Transaction) (k : Int)
    (hf : (t.find_any k).found = true)
    (hi : RBTree.is_inserted (t.version (t.find_any k).node) = true)
    (h0 : (tx.items (t.find_any k).node).user0 = false)
    (h1 : (tx.items (t.find_any k).node).user1 = false) :
    t.count tx k = RBTree.aborted t.lock_tree.unlock_tree (tx.item (t.find_any k).node) ∧
    t.erase tx k = RBTree.aborted t.lock_tree.unlock_tree (tx.item (t.find_any k).node) ∧
    t.operator_index tx k =
      RBTree.aborted t.lock_tree.unlock_tree (tx.item (t.find_any k).node) ∧
    (t.count tx k).1 = none ∧ (t.erase tx k).1 = none ∧ (t.operator_index tx k).1 = none ∧
    RBTree.is_locked t.lock_tree.unlock_tree.treelock_ = false ∧
    RBTree.is_locked
      (Sto.abort t.lock_tree.unlock_tree (tx.item (t.find_any k).node)).treelock_ = false := by
  have a := RBTree.count_phantom_eq t tx k hf hi h0 h1
  have b := RBTree.erase_phantom_eq t tx k hf hi h0 h1
  have c : t.operator_index tx k =
      RBTree.aborted t.lock_tree.unlock_tree (tx.item (t.find_any k).node) :=
    RBTree.insert_phantom_eq t tx k hf hi h0 h1
  refine ⟨a, b, c, ?_, ?_, ?_, RBTree.treelock_released t,
    Sto.abort_treelock _ _ (RBTree.treelock_released t)⟩
  · rw [a]; rfl
  · rw [b]; rfl
  · rw [c]; rfl

/-- C12 at the state in which a first transaction has inserted `5` into the tree of
`reset_tree` and not committed: a second, fresh transaction accesses `5`. -/
theorem phantom_access_aborts_witness :
    (pending_insert.1.count Transaction.start 5).1 = none ∧
    (pending_insert.1.erase Transaction.start 5).1 = none ∧
    (pending_insert.1.operator_index Transaction.start 5).1 = none ∧
    RBTree.is_locked (pending_insert.1.count Transaction.start 5).2.1.treelock_ = false := by
  have f1 : (pending_insert.1.find_any 5).found = true := by decide
  have f2 : (pending_insert.1.find_any 5).node = 32 := by decide
  have f3 : pending_insert.1.version 32 = 10 := by decide
  have hi : RBTree.is_inserted
      (pending_insert.1.version (pending_insert.1.find_any 5).node) = true := by
    rw [f2, f3]; decide
  have h := phantom_access_aborts pending_insert.1 Transaction.start 5 f1 hi rfl rfl
  refine ⟨h.2.2.2.1, h.2.2.2.2.1, h.2.2.2.2.2.1, ?_⟩
  rw [h.1]
  exact h.2.2.2.2.2.2.2

/-- C14: `size()` inside a transaction.  A fresh transaction runs a sequence of calls on a
well-formed tree and none of them aborts.  Its pending offset is then the number of
`operator[]` calls that inserted an absent key or re-inserted a key the transaction had
erased minus the number of `erase` calls that returned `1`, and `size()` returns the
committed `size_` plus that offset (a 64-bit sum).  When the transaction commits with a
written size item, the install sets `size_` to `size_` plus the offset and moves
`sizeversion_` (a 64-bit word) to another value. -/
theorem size_is_committed_plus_offset (t : RBTree) (ops : List Op) (u : RBTree)
    (ux : Transaction) (hwf : t.wf)
    (hrun : t.run_ops Transaction.start ops = some (u, ux)) :
    RBTree.size_offset ux = RBTree.offset_of_ops t Transaction.start ops ∧
    (u.size ux).1 = (((t.size_ : Int) + RBTree.offset_of_ops t Transaction.start ops)
      % (2 ^ 64 : Int)).toNat ∧
    ((Sto.try_commit u ux).1 = true → (ux.items RBTree.size_key_).has_write = true →
      (Sto.try_commit u ux).2.size_ =
        (((t.size_ : Int) + RBTree.offset_of_ops t Transaction.start ops)
          % (2 ^ 64 : Int)).toNat ∧
      (u.sizeversion_ < 2 ^ 64 → (Sto.try_commit u ux).2.sizeversion_ ≠ u.sizeversion_)) := by
  obtain ⟨_, htd, hoff, hsz⟩ :=
    RBTree.run_ops_offset ops t Transaction.start u ux hwf Transaction.tidy.at_start hrun
  have h0 : RBTree.size_offset Transaction.start = 0 := rfl
  rw [h0, zero_add] at hoff
  refine ⟨hoff, ?_, ?_⟩
  · rw [RBTree.size_fst, hoff, hsz]
    rfl
  · intro hc hw
    obtain ⟨c1, c2⟩ := Sto.try_commit_size u ux hc htd hw
    have hv : (ux.items RBTree.size_key_).write_value = RBTree.size_offset ux := by
      simp [RBTree.size_offset, hw]
    refine ⟨?_, ?_⟩
    · rw [c1, hv, hoff, hsz]
      rfl
    · intro hlt
      rw [c2, lock_eq, inc_invalid_version_eq, unlock_eq]
      omega

/-- C14 on the empty tree: a transaction inserts 1 and 2, erases 1, inserts 1 again, counts
the absent key 3 and erases 2; its offset is `1`, `size()` returns `1`, and its commit
sets `size_` to `1`. -/
theorem size_is_committed_plus_offset_witness :
    ∃ u ux, RBTree.empty.run_ops Transaction.start
        [Op.assign 1 1, Op.assign 2 2, Op.erase 1, Op.assign 1 1, Op.count 3, Op.erase 2]
        = some (u, ux) ∧
      RBTree.size_offset ux = 1 ∧ (u.size ux).1 = 1 ∧
      (Sto.try_commit u ux).1 = true ∧ (Sto.try_commit u ux).2.size_ = 1 := by
  have hwf : RBTree.empty.wf := ⟨by decide, by decide, by decide⟩
  obtain ⟨u, ux, e, hs⟩ := RBTree.solo.run_ops
    [Op.assign 1 1, Op.assign 2 2, Op.erase 1, Op.assign 1 1, Op.count 3, Op.erase 2]
    (RBTree.solo.start RBTree.empty hwf (by decide) (by decide) (by decide))
  have hv : RBTree.offset_of_ops RBTree.empty Transaction.start
      [Op.assign 1 1, Op.assign 2 2, Op.erase 1, Op.assign 1 1, Op.count 3, Op.erase 2]
      = 1 := by decide
  have h := size_is_committed_plus_offset RBTree.empty _ u ux hwf e
  rw [hv] at h
  have hw : (ux.items RBTree.size_key_).has_write = true := by
    have h1 := h.1
    unfold RBTree.size_offset at h1
    by_contra hc
    rw [if_neg hc] at h1
    exact absurd h1 (by decide)
  exact ⟨u, ux, e, h.1, h.2.1, hs.commits, (h.2.2 hs.commits hw).1⟩

/-- C13: the second scenario of `update_conflict_tests`, which asserts that the read
returns `0` and that both transactions commit.  On the empty tree the first transaction has
written the key `10` and not committed; the key `58` is absent and the second, fresh
transaction has not inserted it, yet its read of `tree[58]`, whose insertion parent is the
uncommitted node of `10`, aborts: it does not return `0`, and the key is not inserted. -/
theorem absent_read_beside_single_insert_aborts :
    (update_conflict_state_single.1.find_any 58).found = false ∧
    update_conflict_state_single.1.key (update_conflict_state_single.1.find_any 58).node = 10 ∧
    RBTree.is_inserted (update_conflict_state_single.1.version
      (update_conflict_state_single.1.find_any 58).node) = true ∧
    (Transaction.start.items (update_conflict_state_single.1.find_any 58).node).user0 = false ∧
    (Transaction.start.items (update_conflict_state_single.1.find_any 58).node).user1 = false ∧
    (RBTree.read update_conflict_state_single.1 Transaction.start 58).1 = none ∧
    (RBTree.read update_conflict_state_single.1 Transaction.start 58).1 ≠ some 0 ∧
    ((RBTree.read update_conflict_state_single.1 Transaction.start 58).2.1.find_any 58).found
      = false := by
  have g1 : (update_conflict_state_single.1.find_any 58).found = false := by decide
  have g2 : (update_conflict_state_single.1.find_any 58).node = 8 := by decide
  have g3 : update_conflict_state_single.1.version 8 = 10 := by decide
  have g4 : update_conflict_state_single.1.key 8 = 10 := by decide
  have hi : RBTree.is_inserted (update_conflict_state_single.1.version
      (update_conflict_state_single.1.find_any 58).node) = true := by
    rw [g2, g3]; decide
  have h := RBTree.read_of_insert_none _ _ _
    (RBTree.insert_absent_phantom update_conflict_state_single.1 Transaction.start 58 g1
      (by rw [g2]; decide) hi rfl rfl)
  exact ⟨g1, by rw [g2, g4], hi, rfl, rfl, h, by rw [h]; simp, by decide⟩

/-- The same guard on a tree with committed keys: a first transaction has inserted `5` into
the tree of `reset_tree` and not committed; the key `6` is absent and the second, fresh
transaction has not inserted it, yet its read of `tree[6]`, whose insertion parent is the
node of `5`, aborts instead of returning `0`. -/
theorem read_absent_under_pending_parent :
    (pending_insert.1.find_any 6).found = false ∧
    pending_insert.1.key (pending_insert.1.find_any 6).node = 5 ∧
    (RBTree.read pending_insert.1 Transaction.start 6).1 = none ∧
    (RBTree.read pending_insert.1 Transaction.start 6).1 ≠ some 0 := by
  have g1 : (pending_insert.1.find_any 6).found = false := by decide
  have g2 : (pending_insert.1.find_any 6).node = 32 := by decide
  have g3 : pending_insert.1.version 32 = 10 := by decide
  have g4 : pending_insert.1.key 32 = 5 := by decide
  have hi : RBTree.is_inserted
      (pending_insert.1.version (pending_insert.1.find_any 6).node) = true := by
    rw [g2, g3]; decide
  have h := RBTree.read_of_insert_none _ _ _
    (RBTree.insert_absent_phantom pending_insert.1 Transaction.start 6 g1
      (by rw [g2]; decide) hi rfl rfl)
  exact ⟨g1, by rw [g2, g4], h, by rw [h]; simp⟩

/-- Reading `tree[k]` for an absent key, with and without the guard.  On a well-formed
tree, for a key that is not in the tree and a transaction holding no item for the next
fresh node: when the node under which `k` would be inserted is another transaction's
uncommitted node the read aborts; otherwise the read returns the default value `0` and
inserts `k`, so that afterwards in the same transaction `count(k)` returns `1` and
`size()`, a 64-bit value that does not wrap, is larger by exactly `1`. -/
theorem read_absent_inserts (t : RBTree) (tx : Transaction) (k : Int) (hwf : t.wf)
    (hfresh : tx.items t.heap_top = {})
    (hf : (t.find_any k).found = false)
    (hs : (t.size tx).1 + 1 < 2 ^ 64) :
    ((t.find_any k).node ≠ 0 ∧
        RBTree.is_inserted (t.version (t.find_any k).node) = true ∧
        (tx.items (t.find_any k).node).user0 = false ∧
        (tx.items (t.find_any k).node).user1 = false →
      (t.read tx k).1 = none) ∧
    (((t.find_any k).node ≠ 0 →
        RBTree.is_inserted (t.version (t.find_any k).node) = true →
        (tx.items (t.find_any k).node).user0 = true ∨
        (tx.items (t.find_any k).node).user1 = true) →
      ∃ t1 tx1 t2 tx2,
        t.read tx k = (some 0, t1, tx1) ∧
        t1.count tx1 k = (some 1, t2, tx2) ∧
        (t2.size tx2).1 = (t.size tx).1 + 1) := by
  constructor
  · rintro ⟨hx, hi, h0, h1⟩
    exact RBTree.read_of_insert_none _ _ _
      (RBTree.insert_absent_phantom t tx k hf hx hi h0 h1)
  · intro hp
    have htop := hwf.top
    obtain ⟨r1, r2, _, _⟩ := RBTree.read_absent t tx k htop hfresh hf hp
    have r3 := RBTree.read_absent_items t tx k htop hfresh hf hp
    have hwl : t.lock_tree.wf := ⟨hwf.sorted, hwf.alloc, hwf.top⟩
    obtain ⟨_, s2, s3, _⟩ := RBTree.insert_absent_spec t.lock_tree
      (if (t.find_any k).node = 0 then tx else tx.item (t.find_any k).node) k hwl
      (by simpa using hf)
    simp only [RBTree.find_any_lock_tree, RBTree.heap_top_lock_tree] at s2 s3
    rw [← r2] at s2 s3
    have hit := RBTree.insert_absent_item t.lock_tree
      (if (t.find_any k).node = 0 then tx else tx.item (t.find_any k).node)
      (t.find_any k).node k htop (by split <;> simp [hfresh])
    simp only [RBTree.heap_top_lock_tree] at hit
    rw [← r3] at hit
    have hsi := RBTree.insert_absent_size_item t.lock_tree
      (if (t.find_any k).node = 0 then tx else tx.item (t.find_any k).node)
      (t.find_any k).node k htop
    rw [← r3] at hsi
    have hv : (t.read tx k).2.1.version t.heap_top = 10 := by
      rw [r2, RBTree.insert_absent_version]
      simp
    have hsz : (t.read tx k).2.1.size_ = t.size_ := by
      rw [r2, RBTree.insert_absent_size]
      rfl
    have hoff : RBTree.size_offset (t.read tx k).2.2 = RBTree.size_offset tx + 1 := by
      unfold RBTree.size_offset
      rw [hsi]
      split <;> simp
    have hc := RBTree.count_own (t.read tx k).2.1 (t.read tx k).2.2 k s2
      (by rw [s3, hv]; decide) (Or.inl (by rw [s3, hit]))
    rw [s3, hit] at hc
    refine ⟨_, _, _, _, prod_eta3 _ _ r1, hc, ?_⟩
    rw [RBTree.size_fst, RBTree.size_offset_item, hoff, RBTree.size_fst] at *
    simp only [RBTree.size_lock_tree, RBTree.size_unlock_tree, hsz, TransactionTid.word] at *
    omega

/-- An instance at the fixture of `reset_tree`, where every node is committed: a fresh
transaction reads `tree[4]`. -/
theorem read_absent_inserts_witness :
    ∃ t1 tx1 t2 tx2,
      reset_tree.read Transaction.start 4 = (some 0, t1, tx1) ∧
      t1.count tx1 4 = (some 1, t2, tx2) ∧
      (t2.size tx2).1 = (reset_tree.size Transaction.start).1 + 1 := by
  have e2 : (reset_tree.find_any 4).node = 24 := by decide
  have e3 : reset_tree.version 24 = 8 := by decide
  exact (read_absent_inserts reset_tree Transaction.start 4 reset_tree_wf rfl (by decide)
    (by decide)).2 (by intro _ hi; rw [e2, e3] at hi; exact absurd hi (by decide))

/-- C18, the counterexample: two loggers with one worker each, all idle at epoch 10.  The
step publishes 9 and writes 9 to the marker, while the entry of logger 0 for worker 1, a
pair the loops never visit, is still 0: the published value is not the minimum over all
pairs of logger and worker. -/
theorem advance_skips_unassigned_pairs :
    ∃ s1, Logger.advance_system_sync_epoch Logger.cfg2 [[0], [1]] (Logger.start_state 2 10)
        = some s1 ∧
      s1.system_sync_epoch_ = 9 ∧ s1.per_thread_sync_epochs_ 0 1 = 0 ∧ s1.pepoch = [9] :=
  ⟨_, rfl, by decide, by decide, by decide⟩

/-- C18, amended: one step of `advance_system_sync_epoch` over a partition of the worker
ids.  When the step passes its assertions, `system_sync_epoch_` is the minimum of the
entries `per_thread_sync_epochs_[i][k]` over the pairs the loops visit (logger `i` with the
threads of the workers of its block), as those entries stand at the end of the step; it is
not below its previous value, and the marker is rewritten with that value exactly when it
is strictly greater than the previous one.  The step passes its assertions when some pair
is visited, every visited entry is at least `system_sync_epoch_` and below the largest
`uint64_t`, and `system_sync_epoch_ <= best_epoch < 2 ^ 64 - 1`. -/
theorem advance_publishes_min_of_visited (cfg : Logger.Config) (A : List (List Nat))
    (s : Logger.State) (hg : 0 < cfg.g_nworkers) (hn : A.flatten.Nodup)
    (hb : ∀ j ∈ A.flatten, j < cfg.g_nworkers) :
    (∀ s1, Logger.advance_system_sync_epoch cfg A s = some s1 →
      (∀ p ∈ Logger.visited cfg A,
        s1.system_sync_epoch_ ≤ s1.per_thread_sync_epochs_ p.1 p.2) ∧
      (∃ p ∈ Logger.visited cfg A,
        s1.system_sync_epoch_ = s1.per_thread_sync_epochs_ p.1 p.2) ∧
      s.system_sync_epoch_ ≤ s1.system_sync_epoch_ ∧
      s1.pepoch = (if s.system_sync_epoch_ < s1.system_sync_epoch_
        then s1.system_sync_epoch_ :: s.pepoch else s.pepoch)) ∧
    (Logger.visited cfg A ≠ [] →
      (∀ p ∈ Logger.visited cfg A,
        s.system_sync_epoch_ ≤ s.per_thread_sync_epochs_ p.1 p.2 ∧
        s.per_thread_sync_epochs_ p.1 p.2 < Logger.uint64_max) →
      s.system_sync_epoch_ ≤ Logger.best_epoch s.global_epoch →
      Logger.best_epoch s.global_epoch < Logger.uint64_max →
      ∃ s1, Logger.advance_system_sync_epoch cfg A s = some s1) :=
  Logger.advance_min cfg A s hg hn hb

/-- C18, a witness: two loggers with one worker each at epoch 10, worker 1 still filling
a buffer.  The step passes its assertions and publishes the minimum of the two visited
entries. -/
theorem advance_publishes_min_of_visited_witness :
    ∃ s1, Logger.advance_system_sync_epoch Logger.cfg2 [[0], [1]] Logger.filling_state
        = some s1 ∧
      (∀ p ∈ Logger.visited Logger.cfg2 [[0], [1]],
        s1.system_sync_epoch_ ≤ s1.per_thread_sync_epochs_ p.1 p.2) ∧
      (∃ p ∈ Logger.visited Logger.cfg2 [[0], [1]],
        s1.system_sync_epoch_ = s1.per_thread_sync_epochs_ p.1 p.2) ∧
      Logger.filling_state.system_sync_epoch_ ≤ s1.system_sync_epoch_ ∧
      s1.pepoch = (if Logger.filling_state.system_sync_epoch_ < s1.system_sync_epoch_
        then s1.system_sync_epoch_ :: Logger.filling_state.pepoch
        else Logger.filling_state.pepoch) := by
  have h := advance_publishes_min_of_visited Logger.cfg2 [[0], [1]] Logger.filling_state
    (by decide) (by decide) (by decide)
  obtain ⟨s1, e⟩ := h.2 (by decide) (by decide) (by decide) (by decide)
  exact ⟨s1, e, h.1 s1 e⟩

/-- C16: an interleaving in which the assertion `syssync <= min_so_far` fails.  Logger 0
serves worker 0 and logger 1 serves worker 1, at epoch 10.  The writer of logger 0 writes
a buffer of worker 0 whose last TID lies in epoch 6, records the prefix 5 and, in its
publication loop, loads the entry `x0 = 0`.  Before the writer's store the persister runs
a step: both workers are idle, so both entries and `system_sync_epoch_` become 9.  The
writer then executes `if (x1 > x0) store(x1)` with `x1 = 5`, which puts the entry back to
5.  Worker 0 logs a record, and the next step of the persister computes `min_so_far = 5`
below `system_sync_epoch_ = 9` and stops at its assertion. -/
theorem publication_race_breaks_monotonicity :
    ∃ s1 w1 s2,
      Logger.writer_schedule Logger.cfg2 [0] (Logger.handed_state 0 0 6) Logger.writer_start
        = some (s1, w1) ∧
      w1.totalbufswritten = 1 ∧ w1.epoch_prefixes 0 = 5 ∧ Logger.writer_load 0 0 s1 = 0 ∧
      Logger.advance_system_sync_epoch Logger.cfg2 [[0], [1]] s1 = some s2 ∧
      s2.system_sync_epoch_ = 9 ∧ s2.per_thread_sync_epochs_ 0 0 = 9 ∧
      (Logger.writer_store 0 0 (Logger.writer_load 0 0 s1) (w1.epoch_prefixes 0)
        s2).per_thread_sync_epochs_ 0 0 = 5 ∧
      (Logger.advance_loops Logger.cfg2 [[0], [1]]
        (Logger.worker_log 0 (10 * 2 ^ 32 + 1) 32
          (Logger.writer_store 0 0 (Logger.writer_load 0 0 s1) (w1.epoch_prefixes 0) s2))).1 = 5 ∧
      (Logger.worker_log 0 (10 * 2 ^ 32 + 1) 32
        (Logger.writer_store 0 0 (Logger.writer_load 0 0 s1) (w1.epoch_prefixes 0)
          s2)).system_sync_epoch_ = 9 ∧
      Logger.advance_system_sync_epoch Logger.cfg2 [[0], [1]]
        (Logger.worker_log 0 (10 * 2 ^ 32 + 1) 32
          (Logger.writer_store 0 0 (Logger.writer_load 0 0 s1) (w1.epoch_prefixes 0) s2)) = none :=
  ⟨_, _, _, rfl, by decide, by decide, by decide, rfl, by decide, by decide, by decide,
    by decide, by decide, rfl⟩

/-- C15: for every sequence `pre` of transactions executed one after another on the empty
tree, each committed or aborted, and every further transaction `ops`: the sequence and
the calls of `ops` run to their end, the commit of `ops` succeeds, and, as long as the
node addresses fit into 64 bits, the sum `size_ + offset` that the install of the size
item computes is at least zero and below `2 ^ 63`, so `size_` after the commit is that
sum, is non-negative when read as `ssize_t`, and is the number of nodes of the tree. -/
theorem size_stays_nonnegative (pre : List (List Op × Bool)) (ops : List Op) :
    (∃ t u ux, RBTree.serial pre RBTree.empty = some t ∧
      t.run_ops Transaction.start ops = some (u, ux)) ∧
    ∀ t u ux, RBTree.serial pre RBTree.empty = some t →
      t.run_ops Transaction.start ops = some (u, ux) →
      (Sto.try_commit u ux).1 = true ∧
      (u.heap_top ≤ 2 ^ 64 →
        0 ≤ (u.size_ : Int) + RBTree.size_offset ux ∧
        (u.size_ : Int) + RBTree.size_offset ux < 2 ^ 63 ∧
        ((Sto.try_commit u ux).2.size_ : Int) = (u.size_ : Int) + RBTree.size_offset ux ∧
        (Sto.try_commit u ux).2.size_ < 2 ^ 63 ∧
        (Sto.try_commit u ux).2.size_ = (Sto.try_commit u ux).2.wrapper_tree_.toList.length) := by
  obtain ⟨t, e1, s1, _, c1⟩ := RBTree.settled.serial pre RBTree.settled_empty
  have hs0 := RBTree.solo.start t s1.wf s1.committed s1.unlocked s1.tree_unlocked
  obtain ⟨u, ux, e2, hs, hl⟩ := RBTree.ledger.through_run_ops ops hs0 (RBTree.ledger.opening t s1.wf)
  refine ⟨⟨t, u, ux, e1, e2⟩, ?_⟩
  intro t2 u2 ux2 h1 h2
  rw [e1] at h1
  cases h1
  rw [e2] at h2
  cases h2
  obtain ⟨k1, _, _, k4⟩ := hs.commit_clean hl
  refine ⟨k1, ?_⟩
  intro hb
  have hcount : t.size_ = t.wrapper_tree_.toList.length :=
    c1 rfl (le_trans hs.base_top hb)
  obtain ⟨a, b, c, d⟩ := k4 hcount hb
  refine ⟨a, b, c, ?_, d⟩
  have : ((Sto.try_commit u ux).2.size_ : Int) < 2 ^ 63 := by rw [c]; exact b
  exact_mod_cast this

/-- C15, a witness: a first transaction inserts the keys 1 and 2 and commits, a second
one erases the key 1 and aborts, and a third one erases both keys, inserts the key 3 and
commits. -/
theorem size_stays_nonnegative_witness :
    ∃ t u ux,
      RBTree.serial [([.assign 1 1, .assign 2 2], true), ([.erase 1], false)] RBTree.empty
        = some t ∧
      t.run_ops Transaction.start [.erase 1, .erase 2, .assign 3 3] = some (u, ux) ∧
      u.heap_top ≤ 2 ^ 64 ∧
      (Sto.try_commit u ux).1 = true ∧
      0 ≤ (u.size_ : Int) + RBTree.size_offset ux ∧
      (u.size_ : Int) + RBTree.size_offset ux < 2 ^ 63 ∧
      ((Sto.try_commit u ux).2.size_ : Int) = (u.size_ : Int) + RBTree.size_offset ux ∧
      (Sto.try_commit u ux).2.size_ < 2 ^ 63 ∧
      (Sto.try_commit u ux).2.size_ = (Sto.try_commit u ux).2.wrapper_tree_.toList.length :=
  ⟨_, _, _, rfl, rfl, by decide,
    ((size_stays_nonnegative [([.assign 1 1, .assign 2 2], true), ([.erase 1], false)]
      [.erase 1, .erase 2, .assign 3 3]).2 _ _ _ rfl rfl).1,
    ((size_stays_nonnegative [([.assign 1 1, .assign 2 2], true), ([.erase 1], false)]
      [.erase 1, .erase 2, .assign 3 3]).2 _ _ _ rfl rfl).2 (by decide)⟩

/-- C21: the head of a writer iteration whose log file is open (`fd != -1`), with
`min_epoch_so_far <= max_epoch_so_far` both `uint64_t` values.  The file is rotated exactly
when `max_epoch_so_far - min_epoch_so_far > 200`, so a range of exactly 200 does not
rotate.  On rotation the content of `data.log` becomes the file
`old_data<max_epoch_so_far>`, `data.log` is opened again and is empty, and
`min_epoch_so_far` becomes `max_epoch_so_far`, so the range is 0; the other locals are
kept.  Without rotation nothing changes. -/
theorem writer_rotates_beyond_200_epochs (w : Logger.writer_state) (hfd : w.fd = true)
    (hle : w.min_epoch_so_far ≤ w.max_epoch_so_far) (hmax : w.max_epoch_so_far < 2 ^ 64) :
    ((Logger.writer_rotate w).old_data ≠ w.old_data
      ↔ 200 < w.max_epoch_so_far - w.min_epoch_so_far) ∧
    (200 < w.max_epoch_so_far - w.min_epoch_so_far →
      Logger.writer_rotate w
        = { w with
            old_data := (w.max_epoch_so_far, w.data_log) :: w.old_data
            data_log := []
            fd := true
            min_epoch_so_far := w.max_epoch_so_far } ∧
      (Logger.writer_rotate w).max_epoch_so_far - (Logger.writer_rotate w).min_epoch_so_far
        = 0) ∧
    (w.max_epoch_so_far - w.min_epoch_so_far ≤ 200 → Logger.writer_rotate w = w) := by
  have hd : (w.max_epoch_so_far + 2 ^ 64 - w.min_epoch_so_far) % 2 ^ 64
      = w.max_epoch_so_far - w.min_epoch_so_far := by
    have h1 : w.max_epoch_so_far + 2 ^ 64 - w.min_epoch_so_far
        = (w.max_epoch_so_far - w.min_epoch_so_far) + 2 ^ 64 := by omega
    rw [h1, Nat.add_mod_right]
    exact Nat.mod_eq_of_lt (by omega)
  have hrot : 200 < w.max_epoch_so_far - w.min_epoch_so_far →
      Logger.writer_rotate w
        = { w with
            old_data := (w.max_epoch_so_far, w.data_log) :: w.old_data
            data_log := []
            fd := true
            min_epoch_so_far := w.max_epoch_so_far } := by
    intro h
    unfold Logger.writer_rotate
    rw [hd, if_pos (Or.inr h)]
    simp only [if_pos h]
  have hkeep : w.max_epoch_so_far - w.min_epoch_so_far ≤ 200 → Logger.writer_rotate w = w := by
    intro h
    unfold Logger.writer_rotate
    rw [hd, if_neg]
    rw [hfd]
    intro hc
    rcases hc with hc | hc
    · cases hc
    · omega
  refine ⟨⟨?_, ?_⟩, ?_, hkeep⟩
  · intro hne
    by_contra hc
    exact hne (by rw [hkeep (not_lt.mp hc)])
  · intro h hc
    rw [hrot h] at hc
    have := congrArg List.length hc
    simp at this
  · intro h
    refine ⟨hrot h, ?_⟩
    rw [hrot h]
    exact Nat.sub_self _

/-- C21, a witness: the file is open and holds one buffer.  With the range
`301 - 100 = 201` the buffer moves to `old_data301`, `data.log` is empty again and the
range is 0; with the range `300 - 100 = 200` nothing is renamed. -/
theorem writer_rotates_beyond_200_epochs_witness :
    (Logger.writer_rotate (Logger.aged_writer 100 301)).old_data
      = [(301, (Logger.aged_writer 100 301).data_log)] ∧
    (Logger.writer_rotate (Logger.aged_writer 100 301)).data_log = [] ∧
    (Logger.writer_rotate (Logger.aged_writer 100 301)).min_epoch_so_far = 301 ∧
    (Logger.writer_rotate (Logger.aged_writer 100 300)).old_data = [] ∧
    (Logger.writer_rotate (Logger.aged_writer 100 300)).data_log
      = (Logger.aged_writer 100 300).data_log := by
  have h1 := ((writer_rotates_beyond_200_epochs (Logger.aged_writer 100 301) rfl
    (by decide) (by decide)).2.1 (by decide)).1
  have h2 := (writer_rotates_beyond_200_epochs (Logger.aged_writer 100 300) rfl
    (by decide) (by decide)).2.2 (by decide)
  rw [h1, h2]
  exact ⟨rfl, rfl, rfl, rfl, rfl⟩

/-- C22: flag exclusivity.  On every well-formed tree state (it may hold uncommitted nodes
of other transactions), after every sequence of `count`, `tree[k]`, `tree[k] = v` and
`erase` calls of a transaction that began with no items, no item carries both `insert_tag`
and `delete_tag`; the items `install` receives at commit, after the lock phase, are the
same, so the assertion `!(deleted && inserted)` holds for each of them.  In particular,
for a key absent from the tree whose insertion parent is committed, the calls
insert-then-erase return and leave the item of the key's node with `delete_tag` only, and
insert-erase-insert return and leave it with `insert_tag` only. -/
theorem tags_exclude_each_other (t : RBTree) (hwf : t.wf) :
    (∀ ops u ux, t.run_ops Transaction.start ops = some (u, ux) →
      (∀ j, ¬ (RBTree.has_insert (ux.items j) = true ∧
        RBTree.has_delete (ux.items j) = true)) ∧
      (∀ j, ¬ (RBTree.has_delete ((Sto.lock_phase u ux).2.items j) = true ∧
        RBTree.has_insert ((Sto.lock_phase u ux).2.items j) = true))) ∧
    (∀ k v v2, (t.find_any k).found = false →
      ((t.find_any k).node ≠ 0 →
        RBTree.is_inserted (t.version (t.find_any k).node) = false) →
      (∃ u ux, t.run_ops Transaction.start [.assign k v, .erase k] = some (u, ux) ∧
        (u.find_any k).found = true ∧
        RBTree.has_insert (ux.items (u.find_any k).node) = false ∧
        RBTree.has_delete (ux.items (u.find_any k).node) = true) ∧
      (∃ u ux, t.run_ops Transaction.start [.assign k v, .erase k, .assign k v2]
          = some (u, ux) ∧
        (u.find_any k).found = true ∧
        RBTree.has_insert (ux.items (u.find_any k).node) = true ∧
        RBTree.has_delete (ux.items (u.find_any k).node) = false)) := by
  constructor
  · intro ops u ux he
    obtain ⟨_, _, hx⟩ := RBTree.exclusive.after_run_ops ops t Transaction.start u ux hwf
      Transaction.tidy.at_start (RBTree.exclusive.at_begin t) he
    refine ⟨hx.not_both, ?_⟩
    rintro j ⟨a, b⟩
    apply hx.not_both j
    constructor
    · show (ux.items j).user0 = true
      rw [← Sto.lock_phase_user0 u ux j]; exact b
    · show (ux.items j).user1 = true
      rw [← Sto.lock_phase_user1 u ux j]; exact a
  · intro k v v2 hk hp
    obtain ⟨t1, tx1, t2, tx2, t3, tx3, e1, e2, e3, f1, n1, f2, f3, _, ⟨b0, b1⟩, ⟨c0, c1⟩⟩ :=
      RBTree.insert_erase_insert t hwf k v v2 hk hp
    constructor
    · refine ⟨t2, tx2, ?_, ?_, ?_, ?_⟩
      · simp [RBTree.run_ops, RBTree.run, e1, e2]
      · rw [f2]; exact f1
      · rw [f2, n1]; exact b0
      · rw [f2, n1]; exact b1
    · refine ⟨t3, tx3, ?_, ?_, ?_, ?_⟩
      · simp [RBTree.run_ops, RBTree.run, e1, e2, e3]
      · rw [f3]; exact f1
      · rw [f3, n1]; exact c0
      · rw [f3, n1]; exact c1

/-- C22, a witness: on the empty tree a transaction inserts the key 4, erases it, inserts
it again through a read and counts it; no item carries both tags, and after
insert-then-erase of the key 4 its item carries `delete_tag` only. -/
theorem tags_exclude_each_other_witness :
    RBTree.empty.wf ∧
    (∃ u ux, RBTree.empty.run_ops Transaction.start
        [.assign 4 4, .erase 4, .read 4, .count 4] = some (u, ux) ∧
      ∀ j, ¬ (RBTree.has_insert (ux.items j) = true ∧
        RBTree.has_delete (ux.items j) = true)) ∧
    (∃ u ux, RBTree.empty.run_ops Transaction.start [.assign 4 4, .erase 4] = some (u, ux) ∧
      (u.find_any 4).found = true ∧
      RBTree.has_insert (ux.items (u.find_any 4).node) = false ∧
      RBTree.has_delete (ux.items (u.find_any 4).node) = true) :=
  ⟨RBTree.settled_empty.wf,
    ⟨_, _, rfl, ((tags_exclude_each_other RBTree.empty RBTree.settled_empty.wf).1
      [.assign 4 4, .erase 4, .read 4, .count 4] _ _ rfl).1⟩,
    ((tags_exclude_each_other RBTree.empty RBTree.settled_empty.wf).2 4 4 4 (by decide)
      (by decide)).1⟩

/-- C23: every sequence of transactions executed one after another on the empty tree, each
a list of `count`, `tree[k]`, `tree[k] = v` and `erase` calls followed by a commit or by an
abort with its cleanup, runs to its end, and in the tree it leaves no node has `insert_bit`
set in its value version and, as long as the node addresses fit into 64 bits, `size_` is
the number of nodes of the underlying tree.  Every prefix of a sequence is a sequence, so
this holds after each transaction. -/
theorem size_counts_committed_nodes (txns : List (List Op × Bool)) :
    ∃ t, RBTree.serial txns RBTree.empty = some t ∧
      (∀ n ∈ t.wrapper_tree_.toList, RBTree.is_inserted (t.version n) = false) ∧
      (t.heap_top ≤ 2 ^ 64 → t.size_ = t.wrapper_tree_.toList.length) := by
  obtain ⟨t, e, hs, _, hc⟩ := RBTree.settled.serial txns RBTree.settled_empty
  exact ⟨t, e, hs.committed, hc rfl⟩

/-- C23, a witness: a first transaction inserts the keys 1 and 2 and commits, a second one
inserts the key 3, erases the key 1 and aborts, and a third one erases the key 2 and
commits; the tree then holds one node, `size_` is 1 and the node is committed. -/
theorem size_counts_committed_nodes_witness :
    ∃ t, RBTree.serial
        [([.assign 1 1, .assign 2 2], true), ([.assign 3 3, .erase 1], false),
          ([.erase 2], true)] RBTree.empty = some t ∧
      t.heap_top ≤ 2 ^ 64 ∧ t.wrapper_tree_.toList.length = 1 ∧ t.size_ = 1 ∧
      (∀ n ∈ t.wrapper_tree_.toList, RBTree.is_inserted (t.version n) = false) ∧
      t.size_ = t.wrapper_tree_.toList.length := by
  obtain ⟨t, e, hc, hn⟩ := size_counts_committed_nodes
    [([.assign 1 1, .assign 2 2], true), ([.assign 3 3, .erase 1], false), ([.erase 2], true)]
  have h0 : ∃ t0, RBTree.serial
      [([.assign 1 1, .assign 2 2], true), ([.assign 3 3, .erase 1], false),
        ([.erase 2], true)] RBTree.empty = some t0 ∧
      t0.heap_top ≤ 2 ^ 64 ∧ t0.wrapper_tree_.toList.length = 1 ∧ t0.size_ = 1 :=
    ⟨_, rfl, by decide, by decide, by decide⟩
  obtain ⟨t0, e0, a, b, c⟩ := h0
  rw [e0] at e
  have ht : t = t0 := (Option.some.inj e).symm
  rw [ht] at hc hn
  exact ⟨t0, e0, a, b, c, hc, hn a⟩

/-- C24: the calls `collect_garbage(index)` of one thread, whose counter `cycles` starts at
zero, on a registrar whose `is_running` is a `size_t`; `pre` are the earlier calls and `v`
is call number `pre.length + 1`, below `2^64`.  With `enable_gc` set the counter is the
number of calls made, and the call `v` enters `collect_garbage_` exactly when its number is
a multiple of `CYCLE_LENGTH = 10`; otherwise it changes nothing but the counter.  A
collection so entered calls `flatten_` and then `collect_`, unless `stop()` has been
called or arrives, in which case it calls neither.  With `enable_gc` clear the calls
change neither the registrar nor the counter. -/
theorem collection_every_tenth_call (pre : List MvRegistry.Visit) (v : MvRegistry.Visit)
    (s : MvRegistry.State) (hr : s.is_running < 2 ^ 64) (hn : pre.length + 1 < 2 ^ 64) :
    (s.enable_gc = true →
      (MvRegistry.collect_garbage_calls pre 0 s).1 = pre.length ∧
      (MvRegistry.collect_garbage_calls (pre ++ [v]) 0 s).1 = pre.length + 1 ∧
      (MvRegistry.collect_garbage_calls (pre ++ [v]) 0 s).2
        = (if (pre.length + 1) % MvRegistry.CYCLE_LENGTH = 0 then
            MvRegistry.collect_garbage_ (pre.length + 1) v.index v.rtid_inf v.stop_arrives
              (MvRegistry.collect_garbage_calls pre 0 s).2
          else (MvRegistry.collect_garbage_calls pre 0 s).2) ∧
      (MvRegistry.collect_garbage_calls (pre ++ [v]) 0 s).2.calls
        = (MvRegistry.collect_garbage_calls pre 0 s).2.calls ++
          (if (pre.length + 1) % 10 = 0 then
            MvRegistry.Call.collect_garbage_ v.index ::
              (if (MvRegistry.collect_garbage_calls pre 0 s).2.is_stopping || v.stop_arrives
               then []
               else [MvRegistry.Call.flatten_ v.index v.rtid_inf,
                     MvRegistry.Call.collect_ v.index v.rtid_inf])
          else [])) ∧
    (s.enable_gc = false →
      ∀ cycles, MvRegistry.collect_garbage_calls (pre ++ [v]) cycles s = (cycles, s)) := by
  constructor
  · intro hgc
    obtain ⟨a, b⟩ := MvRegistry.collect_garbage_calls_cycles pre 0 s hgc (by omega)
    rw [Nat.zero_add] at a
    have hrun := (MvRegistry.collect_garbage_calls_frame pre 0 s hr).1
    have hmod : (pre.length + 1) % 2 ^ 64 = pre.length + 1 := Nat.mod_eq_of_lt hn
    have hstep : MvRegistry.collect_garbage_calls (pre ++ [v]) 0 s
        = (pre.length + 1,
            if (pre.length + 1) % MvRegistry.CYCLE_LENGTH = 0 then
              MvRegistry.collect_garbage_ (pre.length + 1) v.index v.rtid_inf v.stop_arrives
                (MvRegistry.collect_garbage_calls pre 0 s).2
            else (MvRegistry.collect_garbage_calls pre 0 s).2) := by
      rw [MvRegistry.collect_garbage_calls_append]
      simp only [MvRegistry.collect_garbage_calls, MvRegistry.collect_garbage, b, if_true, a,
        hmod]
      split <;> rfl
    refine ⟨a, by rw [hstep], by rw [hstep], ?_⟩
    rw [hstep]
    simp only [MvRegistry.CYCLE_LENGTH]
    by_cases hc : (pre.length + 1) % 10 = 0
    · rw [if_pos hc, if_pos hc,
        MvRegistry.collect_garbage__eq _ _ _ _ _ (by rw [hrun]; exact hr)]
      simp only [hc, if_true]
    · rw [if_neg hc, if_neg hc, List.append_nil]
  · intro hgc cycles
    exact MvRegistry.collect_garbage_calls_disabled _ cycles s hgc

/-- C24, a witness: with garbage collection switched on, the first nine calls of a thread
call nothing and the tenth enters `collect_garbage_`, which calls `flatten_` and then
`collect_`. -/
theorem collection_every_tenth_call_witness :
    (MvRegistry.collect_garbage_calls (List.replicate 9 MvRegistry.plain_visit) 0
      MvRegistry.collecting).2.calls = [] ∧
    (MvRegistry.collect_garbage_calls
      (List.replicate 9 MvRegistry.plain_visit ++ [MvRegistry.plain_visit]) 0
      MvRegistry.collecting).2.calls
      = [MvRegistry.Call.collect_garbage_ 0, MvRegistry.Call.flatten_ 0 5,
         MvRegistry.Call.collect_ 0 5] := by
  have h := (collection_every_tenth_call (List.replicate 9 MvRegistry.plain_visit)
    MvRegistry.plain_visit MvRegistry.collecting (by decide) (by decide)).1 rfl
  refine ⟨by decide, ?_⟩
  rw [h.2.2.2]
  decide

/-- C25: `stop()` sets `is_stopping`.  A call of `collect_garbage_` that finds
`is_stopping` set returns at once: it calls neither `flatten_` nor `collect_` and changes
no member; `is_stopping` then stays set through every later call of `collect_garbage`, and
none of them calls `flatten_` or `collect_`.  On each of the three paths through
`collect_garbage_` (stopped before, stopped after `is_running++`, completed) `is_running`,
a `size_t`, has on return the value it had on entry. -/
theorem stop_halts_collection (s : MvRegistry.State) (cycles index rtid_inf : Nat)
    (stop_arrives : Bool) (hr : s.is_running < 2 ^ 64) :
    (MvRegistry.stop_ s).is_stopping = true ∧
    (s.is_stopping = true →
      MvRegistry.collect_garbage_ cycles index rtid_inf stop_arrives s
        = { s with calls := s.calls ++ [MvRegistry.Call.collect_garbage_ index] }) ∧
    (s.is_stopping = true → ∀ visits c,
      (MvRegistry.collect_garbage_calls visits c s).2.is_stopping = true ∧
      ∀ call ∈ (MvRegistry.collect_garbage_calls visits c s).2.calls,
        call ∈ s.calls ∨ ∃ i, call = MvRegistry.Call.collect_garbage_ i) ∧
    (MvRegistry.collect_garbage_ cycles index rtid_inf stop_arrives s).is_running
      = s.is_running ∧
    (s.is_stopping = false → stop_arrives = true →
      MvRegistry.collect_garbage_ cycles index rtid_inf stop_arrives s
        = { s with
            is_stopping := true
            calls := s.calls ++ [MvRegistry.Call.collect_garbage_ index] }) ∧
    (s.is_stopping = false → stop_arrives = false →
      MvRegistry.collect_garbage_ cycles index rtid_inf stop_arrives s
        = { s with
            calls := s.calls ++ MvRegistry.Call.collect_garbage_ index ::
              (if cycles % 10 = 0 then
                [MvRegistry.Call.flatten_ index rtid_inf, MvRegistry.Call.collect_ index rtid_inf]
              else [MvRegistry.Call.collect_ index rtid_inf]) }) := by
  have h := MvRegistry.collect_garbage__eq cycles index rtid_inf stop_arrives s hr
  refine ⟨rfl, ?_, ?_, ?_, ?_, ?_⟩
  · intro hs
    rw [h]
    simp [hs]
  · intro hs visits c
    exact (MvRegistry.collect_garbage_calls_frame visits c s hr).2 hs
  · rw [h]
  · intro hs hb
    rw [h]
    simp [hs, hb]
  · intro hs hb
    rw [h]
    simp [hs, hb]

/-- C25, a witness: after `stop()` on a collecting registrar, a call of `collect_garbage_`
and ten calls of `collect_garbage` call neither `flatten_` nor `collect_`, and
`is_running` is still 0. -/
theorem stop_halts_collection_witness :
    (MvRegistry.stop_ MvRegistry.collecting).is_running < 2 ^ 64 ∧
    (MvRegistry.collect_garbage_ 10 0 5 false (MvRegistry.stop_ MvRegistry.collecting)).calls
      = [MvRegistry.Call.collect_garbage_ 0] ∧
    (MvRegistry.collect_garbage_ 10 0 5 false
      (MvRegistry.stop_ MvRegistry.collecting)).is_running = 0 ∧
    (MvRegistry.collect_garbage_calls (List.replicate 10 MvRegistry.plain_visit) 0
      (MvRegistry.stop_ MvRegistry.collecting)).2.calls = [MvRegistry.Call.collect_garbage_ 0] := by
  have h := stop_halts_collection (MvRegistry.stop_ MvRegistry.collecting) 10 0 5 false
    (by decide)
  refine ⟨by decide, ?_, ?_, by decide⟩
  · rw [h.2.1 rfl]
    rfl
  · rw [h.2.2.2.1]
    rfl

/-- C26: `SingleElem::check` returns true exactly when the current version and the read
version of the item agree in every bit above the lock bit and the current version is not
locked unless the item carries a write.  So a locked version is rejected for every
read-only item, and accepted for an item with a write when the versions agree. -/
theorem single_elem_check_iff (e : SingleElem) (item : TransItem) :
    (e.check item = true ↔
      e.version / 2 = item.read_value / 2 ∧
      (VersionFunctions.is_locked e.version = true → item.has_write = true)) ∧
    (VersionFunctions.is_locked e.version = true → item.has_write = false →
      e.check item = false) ∧
    (VersionFunctions.is_locked e.version = true → item.has_write = true →
      e.version / 2 = item.read_value / 2 → e.check item = true) ∧
    (VersionFunctions.is_locked e.version = false →
      (e.check item = true ↔ e.version / 2 = item.read_value / 2)) := by
  have hiff : e.check item = true ↔
      e.version / 2 = item.read_value / 2 ∧
      (VersionFunctions.is_locked e.version = true → item.has_write = true) := by
    unfold SingleElem.check VersionFunctions.versionCheck
    rw [Bool.and_eq_true, decide_eq_true_eq, show VersionFunctions.lock_bit = 1 from rfl,
      xor_le_one_iff]
    cases VersionFunctions.is_locked e.version <;> cases item.has_write <;> simp
  refine ⟨hiff, ?_, ?_, ?_⟩
  · intro hl hw
    cases hc : e.check item
    · rfl
    · have := (hiff.mp hc).2 hl
      rw [hw] at this
      exact Bool.noConfusion this
  · intro _ hw hv
    exact hiff.mpr ⟨hv, fun _ => hw⟩
  · intro hl
    rw [hiff, hl]
    simp

/-- C26, a witness: the current version 5 is the version 4 with the lock bit set.  An item
that read 4 and carries a write passes the check; a read-only item that read 4 fails
it. -/
theorem single_elem_check_iff_witness :
    VersionFunctions.is_locked 5 = true ∧
    SingleElem.check { value := 7, version := 5 }
      { has_read := true, read_value := 4, has_write := true, write_value := 8 } = true ∧
    SingleElem.check { value := 7, version := 5 } { has_read := true, read_value := 4 }
      = false :=
  ⟨by decide,
    (single_elem_check_iff { value := 7, version := 5 }
      { has_read := true, read_value := 4, has_write := true, write_value := 8 }).2.2.1
      (by decide) rfl (by decide),
    (single_elem_check_iff { value := 7, version := 5 }
      { has_read := true, read_value := 4 }).2.1 (by decide) rfl⟩

/-- C27: a transaction whose pending delta `d = wval(it)` is an `int` other than `INT_MIN`
(so that `-wval(it)` in `test` does not overflow) calls `test()` on the counter state `c0`
and gets `gt`; later `check_predicate` runs on the counter state `c`, with value `n`.  It
returns true exactly when `(n + d > 0) == gt` over the integers; the version word has no
part in the result; and when `n + d` is an `int`, it returns true exactly when `test()`
run again on `c` returns `gt`. -/
theorem check_predicate_iff_retest (c0 c : TCounter3.Counter) (it it1 : TCounter3.Item)
    (gt : Bool) (hd : -(2 : Int) ^ 31 < TCounter3.wval it ∧ TCounter3.wval it < 2 ^ 31)
    (ht : TCounter3.test c0 it = some (gt, it1)) :
    (TCounter3.check_predicate c it1 = true ↔ decide (c.n_ + TCounter3.wval it > 0) = gt) ∧
    (∀ v, TCounter3.check_predicate { c with v_ := v } it1 = TCounter3.check_predicate c it1) ∧
    (-(2 : Int) ^ 31 ≤ c.n_ + TCounter3.wval it → c.n_ + TCounter3.wval it < 2 ^ 31 →
      (TCounter3.check_predicate c it1 = true ↔ ∃ it2, TCounter3.test c it = some (gt, it2))) := by
  unfold TCounter3.test at ht
  split_ifs at ht with hp
  simp only [Option.some.injEq, Prod.mk.injEq] at ht
  obtain ⟨hgt, hit⟩ := ht
  have hneg : TCounter3.to_int (-(TCounter3.wval it)) = -(TCounter3.wval it) := by
    unfold TCounter3.to_int
    omega
  have hval : it1.predicate_value = ⟨-(TCounter3.wval it), gt⟩ := by
    rw [← hit, ← hgt]
    simp only [TCounter3.Item.set_predicate, hneg]
  have hiff : TCounter3.check_predicate c it1 = true ↔
      decide (c.n_ + TCounter3.wval it > 0) = gt := by
    unfold TCounter3.check_predicate TCounter3.wait_snapshot
    simp only [hval, beq_iff_eq]
    have : decide (c.n_ > -(TCounter3.wval it)) = decide (c.n_ + TCounter3.wval it > 0) := by
      apply decide_eq_decide.mpr
      constructor <;> intro h <;> omega
    rw [this]
  refine ⟨hiff, fun _ => rfl, ?_⟩
  intro h1 h2
  rw [hiff]
  have hsum : TCounter3.to_int (c.n_ + TCounter3.wval it) = c.n_ + TCounter3.wval it := by
    unfold TCounter3.to_int
    omega
  unfold TCounter3.test
  rw [if_neg hp]
  simp only [TCounter3.wait_snapshot, hsum, Option.some.injEq, Prod.mk.injEq]
  exact ⟨fun h => ⟨_, h, rfl⟩, fun ⟨_, h, _⟩ => h⟩

/-- C27, a witness: the counter holds 3 and the transaction has decremented twice, so
`test()` returns true.  Validation passes while the counter holds 3 or, under another
version, 5, and fails once the counter holds 2. -/
theorem check_predicate_iff_retest_witness :
    ∃ it1,
      TCounter3.test { n_ := 3, v_ := 8 } { has_write := true, write_value := -2 }
        = some (true, it1) ∧
      TCounter3.check_predicate { n_ := 3, v_ := 8 } it1 = true ∧
      TCounter3.check_predicate { n_ := 5, v_ := 16 } it1 = true ∧
      TCounter3.check_predicate { n_ := 2, v_ := 16 } it1 = false ∧
      (TCounter3.check_predicate { n_ := 5, v_ := 16 } it1 = true ↔
        decide ((5 : Int) + TCounter3.wval { has_write := true, write_value := -2 } > 0)
          = true) :=
  ⟨_, rfl, by decide, by decide, by decide,
    (check_predicate_iff_retest { n_ := 3, v_ := 8 } { n_ := 5, v_ := 16 }
      { has_write := true, write_value := -2 } _ true (by decide) rfl).1⟩

/-- C29: scheduling the buffer `px` of thread `k` records for `k` the value `(e - 1) mod
2^64`, where `e = epochId(px.last_tid_)`: it is below `e` when `e >= 1` and it is
`2^64 - 1` when `e = 0`.  In an iteration of the writer that trips no assertion, with
`added` the buffers it scheduled (the buffers appended to the log file when
`g_fake_writes` is off), the value `epoch_prefixes[k]` the publication loop reads is the
one recorded for the last scheduled buffer of `k`; when the epoch of that buffer is 0 the
loop leaves `2^64 - 1` in the entry of `k`. -/
theorem recorded_prefix_wraps_at_epoch_zero (cfg : Logger.Config) (id : Nat) (A : List Nat)
    (s : Logger.State) (w : Logger.writer_state) (s1 : Logger.State)
    (w1 : Logger.writer_state)
    (he : Logger.writer_iteration cfg id A s w = some (s1, w1)) :
    (∀ k px (u : Logger.writer_state),
      ((Logger.schedule_one cfg k px u).epoch_prefixes k : Int)
          = ((cfg.epochId px.last_tid_ : Int) - 1) % 2 ^ 64 ∧
      (1 ≤ cfg.epochId px.last_tid_ →
        (Logger.schedule_one cfg k px u).epoch_prefixes k < cfg.epochId px.last_tid_) ∧
      (cfg.epochId px.last_tid_ = 0 →
        (Logger.schedule_one cfg k px u).epoch_prefixes k = 2 ^ 64 - 1)) ∧
    ∃ added, w1.trace = (Logger.writer_rotate w).data_log ++ added ∧
      (cfg.g_fake_writes = false → w1.data_log = (Logger.writer_rotate w).data_log ++ added) ∧
      ∀ k px, (added.filter (fun b => decide (b.thread_id_ = k))).getLast? = some px →
        (w1.epoch_prefixes k : Int) = ((cfg.epochId px.last_tid_ : Int) - 1) % 2 ^ 64 ∧
        (cfg.epochId px.last_tid_ = 0 → s.per_thread_sync_epochs_ id k < 2 ^ 64 →
          w1.epoch_prefixes k = 2 ^ 64 - 1 ∧ s1.per_thread_sync_epochs_ id k = 2 ^ 64 - 1) := by
  have hzero : ∀ px : Logger.pbuffer, cfg.epochId px.last_tid_ = 0 →
      Logger.recorded_epoch cfg px = 2 ^ 64 - 1 := by
    intro px h0
    unfold Logger.recorded_epoch
    rw [h0]
    decide
  constructor
  · intro k px u
    rw [Logger.schedule_one_prefix]
    refine ⟨Logger.recorded_epoch_eq cfg px, ?_, hzero px⟩
    intro h1
    unfold Logger.recorded_epoch
    omega
  · obtain ⟨added, htrace, hlog, hT, hpre, _, hE, _⟩ :=
      Logger.writer_iteration_trace cfg id A s w s1 w1 he
    refine ⟨added, htrace, hlog, ?_⟩
    intro k px hpx
    have hrec : w1.epoch_prefixes k = Logger.recorded_epoch cfg px := by
      rw [hpre]
      exact (Logger.recorded_last cfg w.epoch_prefixes added k).1 px hpx
    refine ⟨by rw [hrec]; exact Logger.recorded_epoch_eq cfg px, ?_⟩
    intro h0 hold
    have hmem : px ∈ added.filter (fun b => decide (b.thread_id_ = k)) :=
      List.mem_of_getLast?_eq_some hpx
    have hpxk : px.thread_id_ = k := by simpa using (List.mem_filter.mp hmem).2
    have hpxa : px ∈ added := (List.mem_filter.mp hmem).1
    have hkT : k ∈ A.flatMap (Logger.thread_ids cfg) := hpxk ▸ hT px hpxa
    rw [hE id k, if_pos ⟨List.ne_nil_of_mem hpxa, rfl, hkT⟩, hrec, hzero px h0]
    exact ⟨rfl, Nat.max_eq_right (by omega)⟩

/-- C29, a witness: logger 0 serves worker 0, whose entry is 0, and the worker has handed
over one buffer whose last TID lies in epoch 0; the iteration writes it and the entry
becomes `2^64 - 1`. -/
theorem recorded_prefix_wraps_at_epoch_zero_witness :
    ∃ s1 w1 px,
      Logger.writer_iteration Logger.cfg2 0 [0] (Logger.handed_state 0 0 0) Logger.writer_start
        = some (s1, w1) ∧
      w1.data_log = [px] ∧ px.thread_id_ = 0 ∧ Logger.cfg2.epochId px.last_tid_ = 0 ∧
      s1.per_thread_sync_epochs_ 0 0 = 2 ^ 64 - 1 ∧
      ((Logger.schedule_one Logger.cfg2 0 px Logger.writer_start).epoch_prefixes 0 : Int)
        = ((Logger.cfg2.epochId px.last_tid_ : Int) - 1) % 2 ^ 64 :=
  ⟨_, _, _, rfl, rfl, rfl, by decide, by decide,
    ((recorded_prefix_wraps_at_epoch_zero Logger.cfg2 0 [0] (Logger.handed_state 0 0 0)
      Logger.writer_start _ _ rfl).1 _ _ _).1⟩

/-- C30: in every tree state and for every transaction, when `find_or_abort` returns
without aborting, with `found` true and the node's `insert_bit` set, the caller's item for
that node carries `insert_tag` or `delete_tag`.  Hence `erase` never reaches its own abort
branch: whenever `erase` aborts, the call of `find_or_abort` inside it has aborted. -/
theorem erase_abort_branch_unreachable (t : RBTree) (tx : Transaction) (k : Int) :
    (∀ (ins : Bool) r t1 tx1, t.find_or_abort tx k ins = (some r, t1, tx1) →
      r.found = true → RBTree.is_inserted (t1.version r.node) = true →
      RBTree.has_insert ((tx1.item r.node).items r.node) = true ∨
        RBTree.has_delete ((tx1.item r.node).items r.node) = true) ∧
    ((t.erase tx k).1 = none → (t.lock_tree.find_or_abort tx k false).1 = none) := by
  have key : ∀ (u : RBTree) (ins : Bool) r t1 tx1,
      u.find_or_abort tx k ins = (some r, t1, tx1) →
      r.found = true → RBTree.is_inserted (t1.version r.node) = true →
      RBTree.has_insert ((tx1.item r.node).items r.node) = true ∨
        RBTree.has_delete ((tx1.item r.node).items r.node) = true := by
    intro u ins r t1 tx1 he hf hi
    unfold RBTree.find_or_abort at he
    simp only [] at he
    by_cases hfound : (u.find_any k).found = true
    · rw [if_pos hfound] at he
      by_cases hins : RBTree.is_inserted (u.version (u.find_any k).node) = true
      · rw [if_pos hins] at he
        split_ifs at he with ho
        · simp only [Prod.mk.injEq, Option.some.injEq] at he
          obtain ⟨rfl, rfl, rfl⟩ := he
          simpa using ho
        · simp [RBTree.aborted] at he
      · rw [if_neg hins] at he
        simp only [Prod.mk.injEq, Option.some.injEq] at he
        obtain ⟨rfl, rfl, _⟩ := he
        exact absurd hi hins
    · rw [if_neg hfound] at he
      have hr : r = u.find_any k := by
        split_ifs at he
        all_goals simp only [RBTree.aborted, Prod.mk.injEq, Option.some.injEq] at he
        all_goals first | exact he.1.symm | exact Option.noConfusion he.1
      rw [hr] at hf
      exact absurd hf hfound
  refine ⟨key t, ?_⟩
  intro hnone
  by_contra hsome
  generalize hx : t.lock_tree.find_or_abort tx k false = x at hsome
  obtain ⟨r0, t1, tx1⟩ := x
  cases r0 with
  | none => exact hsome rfl
  | some r =>
    have hown := key t.lock_tree false r t1 tx1 hx
    unfold RBTree.erase at hnone
    simp only [hx] at hnone
    by_cases hf : r.found = true
    · rw [if_pos hf] at hnone
      by_cases hi : RBTree.is_inserted (t1.version r.node) = true
      · rw [if_pos hi] at hnone
        rcases hown hf hi with h0 | h1
        · rw [if_pos h0] at hnone
          simp at hnone
        · split_ifs at hnone
      · rw [if_neg hi] at hnone
        split_ifs at hnone
    · rw [if_neg hf] at hnone
      simp at hnone

/-- C30, a witness: the transaction that inserted the keys 55 and 57 into the empty tree
and has not committed erases the key 55.  `find_or_abort` returns the node with
`insert_bit` set, the item carries `insert_tag`, and `erase` returns 1. -/
theorem erase_abort_branch_unreachable_witness :
    ∃ r t1 tx1,
      update_conflict_state.1.lock_tree.find_or_abort update_conflict_state.2 55 false
        = (some r, t1, tx1) ∧
      r.found = true ∧ RBTree.is_inserted (t1.version r.node) = true ∧
      (RBTree.has_insert ((tx1.item r.node).items r.node) = true ∨
        RBTree.has_delete ((tx1.item r.node).items r.node) = true) ∧
      (update_conflict_state.1.erase update_conflict_state.2 55).1 = some 1 :=
  ⟨_, _, _, rfl, by decide, by decide,
    (erase_abort_branch_unreachable update_conflict_state.1.lock_tree update_conflict_state.2
      55).1 false _ _ _ rfl (by decide) (by decide),
    by decide⟩
